import Mathlib

/-! # chromavec: vector order-statistic filters and their windowed addressing

A shallow embedding of the C++ sources of `chromavec` (`utilities/rgbvector.h`,
`utilities/roi.cpp`, `utilities/filter.h`, `filters/vmf.cpp`,
`filters/vector-range.cpp`, `filters/minimum-vector-dispersion.cpp`,
`filters/canny-edges.h`, `utilities/functions.h`, `chromavec.cpp`) together with theorems
about them.

Conventions of the embedding

* A C++ `int`, `int16_t` or `uint8_t` value is an `Int`.  Where a result is stored
  in a fixed-width signed type and the exact result can leave its range on inputs
  of the stated kind (colour differences, squared magnitudes, summed distances,
  `width*width`), the stored value is `wrapSigned bits` of the exact result.
* Pixel coordinates (`x ± width/2`, `i % Width() + x_start_`, ...) are exact
  integers: they stay in the range of `int` for every raster and window of fewer
  than `2^30` pixels a side.  The operators `/` and `%` of C++ are `Int.tdiv` and
  `Int.tmod`.
* A function that can throw returns `Except String`, the string being the message
  of the `std::runtime_error`.
* A finite `double` or `float` value is the rational number it denotes.  The
  conversion of the `double` thresholds of `ColourCannyEdgeDetect` to the `float`
  parameters of `Threshold` is `doubleToFloat`, rounding to the nearest `float`.
-/

namespace chromavec
namespace internal

/-! ## Machine integers and constants (`constants.h`) -/

/-- Value held by a two's complement signed integer of `bits` bits after the exact
result `v` is stored in it. -/
def wrapSigned (bits : Nat) (v : Int) : Int :=
  (v + 2 ^ (bits - 1)) % 2 ^ bits - 2 ^ (bits - 1)

/-- Storing into a C++ `int` (32 bits). -/
def int32 (v : Int) : Int := wrapSigned 32 v

/-- The constant `kMaxDistanceSq = 3*255*255`. -/
def kMaxDistanceSq : Int := 3 * 255 * 255

/-- The constant `kMaxDistance = 441`, commented `floor(sqrt(3*255*255))`. -/
def kMaxDistance : Int := 441

/-- Replica of `std::clamp(v, lo, hi)`: `(v < lo) ? lo : (hi < v) ? hi : v`. -/
def clamp (v lo hi : Int) : Int :=
  if v < lo then lo else if hi < v then hi else v

/-! ## Rasters (`cv::Mat`) -/

/-- OpenCV type code of an 8-bit unsigned raster with one channel. -/
def CV_8UC1 : Int := 0

/-- OpenCV type code of an 8-bit unsigned raster with three channels. -/
def CV_8UC3 : Int := 16

/-- OpenCV type code of a 32-bit signed raster with one channel. -/
def CV_32SC1 : Int := 4

/-- OpenCV type code of a 32-bit signed raster with three channels. -/
def CV_32SC3 : Int := 20

/-- OpenCV type code of a 32-bit float raster with one channel. -/
def CV_32FC1 : Int := 5

/-- OpenCV type code of a 32-bit float raster with three channels. -/
def CV_32FC3 : Int := 21

/-- A `cv::Mat`: `rows`, `cols`, the type code returned by `type()`, and the raster,
where `data y j` is the element `ptr<T>(y)[j]` (row `y`, element offset `j`, the
channels of one pixel being adjacent). -/
structure Mat where
  rows : Int
  cols : Int
  type : Int
  data : Int → Int → Int

/-- Replica of `cv::Mat::channels()`, OpenCV's `CV_MAT_CN`: `((type >> 3) & 511) + 1`. -/
def Mat.channels (m : Mat) : Int := (m.type / 8) % 512 + 1

/-- Replica of `cv::Mat::zeros(rows, cols, type)`. -/
def Mat.zeros (rows cols type : Int) : Mat := ⟨rows, cols, type, fun _ _ => 0⟩

/-- Every element of the raster is an 8-bit unsigned value. -/
def Mat.is8U (m : Mat) : Prop := ∀ y j, 0 ≤ m.data y j ∧ m.data y j ≤ 255

/-- A pointer into a raster, as produced by `&img.ptr<T>(y)[j]`: the row and the
element offset inside the row. -/
structure PixelPtr where
  row : Int
  offset : Int
deriving DecidableEq, Repr

/-- Reading `p[c]` through a pointer `p` into the raster of `m`. -/
def Mat.deref (m : Mat) (p : PixelPtr) (c : Int) : Int := m.data p.row (p.offset + c)

/-- The pointer `&img.ptr<T>(y)[x*img.channels()]` to the pixel in column `x` of row `y`. -/
def Mat.pixelPtr (m : Mat) (x y : Int) : PixelPtr := ⟨y, x * m.channels⟩

/-! ## Colour vectors (`utilities/rgbvector.h`) -/

/-- Element types `T` of `RGBVector<T>` that the library instantiates with integers. -/
inductive Elem where
  | u8
  | i16
  | i32
deriving DecidableEq, Repr

/-- Bit width of `DiffType<T>::type`: `uint8_t` promotes to `int16_t`, `int16_t` to
`int`, every other type is its own difference type. -/
def Elem.diffBits : Elem → Nat
  | .u8 => 16
  | .i16 => 32
  | .i32 => 32

/-- The struct `RGBVector<T>`. -/
structure RGBVector where
  red : Int
  green : Int
  blue : Int
  unused : Int
deriving DecidableEq, Repr

/-- The default constructor `RGBVector()`. -/
def RGBVector.zero : RGBVector := ⟨0, 0, 0, 0⟩

/-- The constructor `RGBVector(r, g, b)`. -/
def RGBVector.rgb (r g b : Int) : RGBVector := ⟨r, g, b, 0⟩

/-- The constructor `RGBVector(buffer, channels)`: a `switch` whose cases fall
through, so 4 or 3 channels read blue, green and red, 2 read green and red, 1 reads
red, any other count reads nothing. -/
def RGBVector.ofBuffer (buffer : Int → Int) (channels : Int) : RGBVector :=
  let blue := if channels = 4 ∨ channels = 3 then buffer 2 else 0
  let green := if channels = 4 ∨ channels = 3 ∨ channels = 2 then buffer 1 else 0
  let red :=
    if channels = 4 ∨ channels = 3 ∨ channels = 2 ∨ channels = 1 then buffer 0 else 0
  ⟨red, green, blue, 0⟩

/-- The constructor `RGBVector(img, x, y)`. -/
def RGBVector.ofMat (img : Mat) (x y : Int) : RGBVector :=
  RGBVector.ofBuffer (img.deref (img.pixelPtr x y)) img.channels

/-- The `operator-` of `RGBVector<T>`: each channel difference is stored in
`DiffType<T>::type`. -/
def RGBVector.sub (T : Elem) (a b : RGBVector) : RGBVector :=
  RGBVector.rgb (wrapSigned T.diffBits (a.red - b.red))
    (wrapSigned T.diffBits (a.green - b.green))
    (wrapSigned T.diffBits (a.blue - b.blue))

/-- The method `SquaredMagnitude()` for an integral element type: `r*r + g*g + b*b`
in `int` (reducing once at the end equals reducing after every operation). -/
def RGBVector.SquaredMagnitude (v : RGBVector) : Int :=
  int32 (v.red * v.red + v.green * v.green + v.blue * v.blue)

/-- The method `SquaredDistance(other)`: `(*this - other).SquaredMagnitude()`. -/
def RGBVector.SquaredDistance (T : Elem) (a b : RGBVector) : Int :=
  (RGBVector.sub T a b).SquaredMagnitude

/-! ## Regions of interest (`utilities/roi.cpp`) -/

/-- The class `ROI`. -/
structure ROI where
  img_ : Mat
  x_ : Int
  y_ : Int
  x_start_ : Int
  x_end_ : Int
  y_start_ : Int
  y_end_ : Int

/-- The constructor `ROI(img, x, y, width, height)`: the members are initialised
first, then the centre is checked. -/
def ROI.new (img : Mat) (x y width height : Int) : Except String ROI :=
  let roi : ROI :=
    ⟨img, x, y,
      clamp (x - Int.tdiv width 2) 0 (img.cols - 1),
      clamp (x + Int.tdiv width 2) 0 (img.cols - 1),
      clamp (y - Int.tdiv height 2) 0 (img.rows - 1),
      clamp (y + Int.tdiv height 2) 0 (img.rows - 1)⟩
  if x < 0 ∨ x ≥ img.cols then
    .error "'x' cannot be outside of the image."
  else if y < 0 ∨ y ≥ img.rows then
    .error "'y' cannot be outside of the image."
  else
    .ok roi

/-- The constructor `ROI(img, x, y, width)`, delegating with `height = width`. -/
def ROI.square (img : Mat) (x y width : Int) : Except String ROI :=
  ROI.new img x y width width

/-- The method `ROI::Width()`. -/
def ROI.Width (r : ROI) : Int := r.x_end_ - r.x_start_ + 1

/-- The method `ROI::Height()`. -/
def ROI.Height (r : ROI) : Int := r.y_end_ - r.y_start_ + 1

/-- The `operator[](i)` of `ROI`: the pointer to the pixel with linear index `i`. -/
def ROI.index (r : ROI) (i : Int) : PixelPtr :=
  let x := Int.tmod i r.Width + r.x_start_
  let y := Int.tdiv i r.Width + r.y_start_
  ⟨y, r.img_.channels * x⟩

/-- The `operator()(x, y)` of `ROI`: the pointer to the pixel at window coordinate
`(x, y)`. -/
def ROI.at (r : ROI) (x y : Int) : PixelPtr :=
  ⟨y + r.y_start_, r.img_.channels * (x + r.x_start_)⟩

/-- The loop counter values of `for (int i = 0; i < n; i++)`. -/
def loopRange (n : Int) : List Int := (List.range n.toNat).map Int.ofNat

/-- The inner pair of loops shared by the three window filters: starting from `0`,
`distance += pi.SquaredDistance(pj)` for every window pixel `pj`, rows outermost. -/
def aggregateDistance (window : ROI) (img : Mat) (p : RGBVector) : Int :=
  (loopRange window.Height).foldl
    (fun d yj =>
      (loopRange window.Width).foldl
        (fun d xj =>
          let pj := RGBVector.ofBuffer (img.deref (window.at xj yj)) img.channels
          int32 (d + RGBVector.SquaredDistance Elem.u8 p pj))
        d)
    0

/-! ## Vector median filter (`filters/vmf.cpp`) -/

/-- The class `VMFilter`. -/
structure VMFilter where
  width_ : Int
deriving DecidableEq, Repr

/-- The constructor `VMFilter(width)`. -/
def VMFilter.new (width : Int) : Except String VMFilter :=
  if width < 3 ∨ Int.tmod width 2 = 0 then
    .error "Filter width must be odd."
  else
    .ok ⟨width⟩

/-- State of the scan of `VMFilter::operator()`. -/
structure VMScan where
  minimum_distance : Int
  best_vector : RGBVector
deriving DecidableEq, Repr

/-- Body of the outer pair of loops of `VMFilter::operator()` at window coordinate
`(xi, yi)`. -/
def VMFilter.step (window : ROI) (img : Mat) (s : VMScan) (xi yi : Int) : VMScan :=
  let p := RGBVector.ofBuffer (img.deref (window.at xi yi)) img.channels
  let distance := aggregateDistance window img p
  if distance < s.minimum_distance then ⟨distance, p⟩ else s

/-- The scan of `VMFilter::operator()` over the whole window, from the start state. -/
def VMFilter.scan (f : VMFilter) (window : ROI) (img : Mat) : VMScan :=
  let best_vector := RGBVector.ofBuffer (img.deref (window.at 0 0)) img.channels
  let minimum_distance := int32 (int32 (kMaxDistance * f.width_) * f.width_)
  (loopRange window.Height).foldl
    (fun s yi => (loopRange window.Width).foldl (fun s xi => VMFilter.step window img s xi yi) s)
    ⟨minimum_distance, best_vector⟩

/-- The call `VMFilter::operator()(x, y, img)`. -/
def VMFilter.call (f : VMFilter) (x y : Int) (img : Mat) : Except String RGBVector := do
  let window ← ROI.square img x y f.width_
  pure (VMFilter.scan f window img).best_vector

/-! ## Vector range filter (`filters/vector-range.cpp`) -/

/-- The expression `255*std::sqrt(static_cast<double>(sqdist))/kMaxDistance` stored in a
`uint8_t`.  The double computation is represented by the integer part of its exact
real value, `floor(255 * sqrt(sqdist) / 441) = floor(floor(sqrt(255*255*sqdist)) / 441)`,
for `sqdist ≥ 0`. -/
def scaledMagnitude (sqdist : Int) : Int :=
  Int.ofNat (Nat.sqrt (255 * 255 * sqdist.toNat) / 441)

/-- The class `VectorRangeFilter`. -/
structure VectorRangeFilter where
  width_ : Int
deriving DecidableEq, Repr

/-- The constructor `VectorRangeFilter(width)`. -/
def VectorRangeFilter.new (width : Int) : Except String VectorRangeFilter :=
  if width < 3 ∨ Int.tmod width 2 = 0 then
    .error "Filter width must be odd."
  else
    .ok ⟨width⟩

/-- State of the scan of `VectorRangeFilter::operator()`. -/
structure VRScan where
  min_distance : Int
  max_distance : Int
  min_colour : RGBVector
  max_colour : RGBVector
deriving DecidableEq, Repr

/-- Body of the outer pair of loops of `VectorRangeFilter::operator()` at window
coordinate `(xi, yi)`. -/
def VectorRangeFilter.step (window : ROI) (img : Mat) (s : VRScan) (xi yi : Int) : VRScan :=
  let p := RGBVector.ofBuffer (img.deref (window.at xi yi)) img.channels
  let distance := aggregateDistance window img p
  let s1 : VRScan :=
    if distance < s.min_distance then ⟨distance, s.max_distance, p, s.max_colour⟩ else s
  if distance > s1.max_distance then ⟨s1.min_distance, distance, s1.min_colour, p⟩ else s1

/-- The scan of `VectorRangeFilter::operator()` over the whole window. -/
def VectorRangeFilter.scan (f : VectorRangeFilter) (window : ROI) (img : Mat) : VRScan :=
  let min_distance := int32 (int32 (kMaxDistanceSq * f.width_) * f.width_)
  let first := RGBVector.ofBuffer (img.deref (window.index 0)) img.channels
  (loopRange window.Height).foldl
    (fun s yi =>
      (loopRange window.Width).foldl (fun s xi => VectorRangeFilter.step window img s xi yi) s)
    ⟨min_distance, 0, first, first⟩

/-- The call `VectorRangeFilter::operator()(x, y, img)`. -/
def VectorRangeFilter.call (f : VectorRangeFilter) (x y : Int) (img : Mat) :
    Except String RGBVector := do
  let window ← ROI.square img x y f.width_
  let s := VectorRangeFilter.scan f window img
  let sqdist := RGBVector.SquaredDistance Elem.u8 s.min_colour s.max_colour
  let value := scaledMagnitude sqdist
  pure (RGBVector.rgb value value value)

/-! ## Minimum vector dispersion filter (`filters/minimum-vector-dispersion.cpp`) -/

/-- Reading `v[i]` of a `std::vector<int>`; an index outside the vector, undefined in
C++, reads `0`. -/
def vecGet (v : List Int) (i : Int) : Int :=
  if 0 ≤ i then v.getD i.toNat 0 else 0

/-- Writing `v[i] = a` of a `std::vector<int>`; an index outside the vector leaves it
unchanged. -/
def vecSet (v : List Int) (i : Int) (a : Int) : List Int :=
  if 0 ≤ i then v.set i.toNat a else v

/-- The function `ArgSort(vfirst, vlast, ifirst, ilast)` of `utilities/functions.h` on
the first `n` entries of the value and index vectors: the indices become `0 .. n-1`
(`std::iota`) and are sorted with the comparison `values[a] < values[b]`.  The
library routine `std::sort` is the parameter `stdSort`; the entries of `indices`
from `n` on are kept.  Both iterator ranges have length `n`, so the length check of
the source never throws here. -/
def ArgSort (stdSort : (Int → Int → Bool) → List Int → List Int)
    (values indices : List Int) (n : Int) : List Int :=
  stdSort (fun a b => decide (vecGet values a < vecGet values b)) (loopRange n)
    ++ indices.drop n.toNat

/-- The class `MinVecDispersionFilter`. -/
structure MinVecDispersionFilter where
  k_ : Int
  l_ : Int
  width_ : Int
  distances_ : List Int
  indices_ : List Int
deriving DecidableEq, Repr

/-- The constructor `MinVecDispersionFilter(width, k, l)`.  The two vectors are
created first, with `width*width` (an `int`) elements: a negative count converts to
a size above `max_size()` and `std::vector` throws `std::length_error`. -/
def MinVecDispersionFilter.new (width k l : Int) : Except String MinVecDispersionFilter :=
  let N := int32 (width * width)
  if N < 0 then
    .error "std::length_error"
  else if width < 3 ∨ Int.tmod width 2 = 0 then
    .error "Filter width must be odd."
  else if k ≥ N ∨ l ≥ N then
    .error "'k' and 'l' cannot be greater than the number of pixels in the filter window."
  else if k < 1 ∨ l < 1 then
    .error "'k' and 'l' must be non-zero."
  else
    .ok ⟨k, l, width, List.replicate N.toNat 0, List.replicate N.toNat 0⟩

/-- The first pair of loops of `MinVecDispersionFilter::operator()`: entry `N` of
`distances_` receives the summed distance of the `N`-th window pixel in row-major
order.  The result is the vector and the final count `N`. -/
def MinVecDispersionFilter.fill (window : ROI) (img : Mat) (distances : List Int) :
    List Int × Int :=
  (loopRange window.Height).foldl
    (fun s yi =>
      (loopRange window.Width).foldl
        (fun s xi =>
          let p := RGBVector.ofBuffer (img.deref (window.at xi yi)) img.channels
          (vecSet s.1 s.2 (aggregateDistance window img p), s.2 + 1))
        s)
    (distances, 0)

/-- Storing into a C++ `uint32_t`. -/
def uint32 (v : Int) : Int := v % 2 ^ 32

/-- The loop of `MinVecDispersionFilter::operator()` that sums the channels of the `l_`
pixels `window[indices_[i]]`, `i < l_`, in `uint32_t` accumulators `(sum_r, sum_g,
sum_b)`; the `switch` on the channel count falls through. -/
def MinVecDispersionFilter.sums (l : Int) (window : ROI) (img : Mat) (indices : List Int) :
    Int × Int × Int :=
  (loopRange l).foldl
    (fun s i =>
      let pixel := img.deref (window.index (vecGet indices i))
      let c := img.channels
      let sum_b := if c = 4 ∨ c = 3 then uint32 (s.2.2 + pixel 2) else s.2.2
      let sum_g := if c = 4 ∨ c = 3 ∨ c = 2 then uint32 (s.2.1 + pixel 1) else s.2.1
      let sum_r := if c = 4 ∨ c = 3 ∨ c = 2 ∨ c = 1 then uint32 (s.1 + pixel 0) else s.1
      (sum_r, sum_g, sum_b))
    (0, 0, 0)

/-- The last loop of `MinVecDispersionFilter::operator()`: the least squared distance
to `mean_rgb` among the pixels `window[indices_[N - j - 1]]`, `j < k_`, starting from
`kMaxDistanceSq`. -/
def MinVecDispersionFilter.minDist (k N : Int) (window : ROI) (img : Mat)
    (indices : List Int) (mean_rgb : RGBVector) : Int :=
  (loopRange k).foldl
    (fun min_dist j =>
      let rgb := RGBVector.ofBuffer (img.deref (window.index (vecGet indices (N - j - 1))))
        img.channels
      let sqdist := RGBVector.SquaredDistance Elem.u8 rgb mean_rgb
      min sqdist min_dist)
    kMaxDistanceSq

/-- The call `MinVecDispersionFilter::operator()(x, y, img)`: the output colour and the
filter object with its two scratch vectors as the call leaves them. -/
def MinVecDispersionFilter.call (stdSort : (Int → Int → Bool) → List Int → List Int)
    (f : MinVecDispersionFilter) (x y : Int) (img : Mat) :
    Except String (RGBVector × MinVecDispersionFilter) := do
  let window ← ROI.square img x y f.width_
  let filled := MinVecDispersionFilter.fill window img f.distances_
  let distances := filled.1
  let N := filled.2
  let indices := ArgSort stdSort distances f.indices_ N
  let sums := MinVecDispersionFilter.sums f.l_ window img indices
  let sum_r := sums.1 / f.l_
  let sum_g := sums.2.1 / f.l_
  let sum_b := sums.2.2 / f.l_
  let mean_rgb := RGBVector.rgb (clamp sum_r 0 255) (clamp sum_g 0 255) (clamp sum_b 0 255)
  let min_dist := MinVecDispersionFilter.minDist f.k_ N window img indices mean_rgb
  let value := scaledMagnitude min_dist
  pure (RGBVector.rgb value value value, ⟨f.k_, f.l_, f.width_, distances, indices⟩)

/-! ## The filter engine (`utilities/filter.h`) -/

/-- The table `OpenCVTypeInfo<OcvType>::channels` generated by `CHROMAVEC_DEFINE_TYPE`;
a type code without a specialisation does not compile and is given `0` here. -/
def OpenCVTypeInfo.channels (ocvType : Int) : Int :=
  if ocvType = CV_8UC1 then 1
  else if ocvType = CV_8UC3 then 3
  else if ocvType = CV_32SC1 then 1
  else if ocvType = CV_32SC3 then 3
  else if ocvType = CV_32FC1 then 1
  else if ocvType = CV_32FC3 then 3
  else 0

/-- What the template `Filter<Operator>` uses of its `Operator` parameter: the two type
codes of `OperatorBase`, the constructor applied to the forwarded arguments (of type
`α`), and `operator()`.  A call returns the output colour and the operator object
after the call; `σ` is the state of a variable the operator holds by reference. -/
structure Operator (α σ : Type) where
  input_type : Int
  output_type : Int
  Inst : Type
  construct : α → Except String Inst
  call : Inst → Int → Int → Mat → σ → Except String (RGBVector × Inst × σ)

/-- A `tbb::blocked_range2d<int>`: the half-open row range and column range. -/
structure Block where
  rows_begin : Int
  rows_end : Int
  cols_begin : Int
  cols_end : Int
deriving DecidableEq, Repr

/-- The method `blocked_range2d::empty()`: the row range or the column range is empty,
a range being empty when `!(begin < end)`. -/
def Block.empty (b : Block) : Bool :=
  !(decide (b.rows_begin < b.rows_end)) || !(decide (b.cols_begin < b.cols_end))

/-- The counter values of `for (int v = first; v != last; v++)` when `first ≤ last`, as
holds for the ranges of a block. -/
def countRange (first last : Int) : List Int :=
  (List.range (last - first).toNat).map (fun k => first + Int.ofNat k)

/-- The pixels `(x, y)` of a block in the order of the two loops of the body: rows
outermost, columns innermost. -/
def Block.pixels (b : Block) : List (Int × Int) :=
  (countRange b.rows_begin b.rows_end).flatMap
    (fun y => (countRange b.cols_begin b.cols_end).map (fun x => (x, y)))

/-- The assignment `row[j] = v` on row `y` of a raster. -/
def Mat.store (m : Mat) (y j v : Int) : Mat :=
  ⟨m.rows, m.cols, m.type, fun y2 j2 => if y2 = y ∧ j2 = j then v else m.data y2 j2⟩

/-- The `switch(channels)` of the body, whose cases fall through: with `i = channels*x`,
4 or 3 channels store blue, green and red, 2 store green and red, 1 stores red. -/
def storePixel (filtered : Mat) (channels x y : Int) (output : RGBVector) : Mat :=
  let i := channels * x
  let m1 := if channels = 4 ∨ channels = 3 then filtered.store y (i + 2) output.blue
    else filtered
  let m2 := if channels = 4 ∨ channels = 3 ∨ channels = 2 then m1.store y (i + 1) output.green
    else m1
  if channels = 4 ∨ channels = 3 ∨ channels = 2 ∨ channels = 1 then m2.store y i output.red
  else m2

/-- State of a run of the engine: the exception that has left a body, if any, the
destination raster `filtered`, and the variable shared by reference. -/
structure Run (σ : Type) where
  error : Option String
  filtered : Mat
  shared : σ

/-- The two pixel loops of the body on the pixels still to visit, with the operator
object `inst` of this block.  The source image is `img`, or the destination itself
when the caller passed the same `cv::Mat` for both (`none`).  An exception thrown by
the operator ends the body. -/
def processPixels {α σ : Type} (op : Operator α σ) (img : Option Mat) :
    List (Int × Int) → op.Inst → Mat → σ → Run σ
  | [], _, filtered, shared => ⟨none, filtered, shared⟩
  | (x, y) :: rest, inst, filtered, shared =>
    match op.call inst x y (img.getD filtered) shared with
    | .error e => ⟨some e, filtered, shared⟩
    | .ok (output, inst2, shared2) =>
      processPixels op img rest inst2
        (storePixel filtered (OpenCVTypeInfo.channels op.output_type) x y output) shared2

/-- The body that `tbb::parallel_for` runs on one block: the operator is constructed
from the arguments, then the pixels of the block are processed.  The first exception
of the run is the one kept. -/
def runBlock {α σ : Type} (op : Operator α σ) (img : Option Mat) (args : α)
    (r : Run σ) (block : Block) : Run σ :=
  match op.construct args with
  | .error e => ⟨some (r.error.getD e), r.filtered, r.shared⟩
  | .ok inst =>
    let r2 := processPixels op img block.pixels inst r.filtered r.shared
    ⟨if r.error.isSome then r.error else r2.error, r2.filtered, r2.shared⟩

/-- The call `tbb::parallel_for(range, body)`.  On an empty range no body is run.
Otherwise the library splits the range into blocks and runs the body on them; `tiles`
lists the blocks whose body was started, in the order of a sequential schedule (for
a run without exception these are all blocks of the split; an exception cancels the
blocks not yet started). -/
def parallelFor {α σ : Type} (op : Operator α σ) (img : Option Mat) (args : α)
    (range : Block) (tiles : List Block) (r : Run σ) : Run σ :=
  if range.empty then r else tiles.foldl (runBlock op img args) r

/-- The overload `Filter<Operator>(filtered, img, args...)` writing into `filtered`; `img`
is `none` when the caller passes `filtered` itself as the source. -/
def FilterInto {α σ : Type} (op : Operator α σ) (tiles : List Block) (filtered : Mat)
    (img : Option Mat) (args : α) (shared : σ) : Run σ :=
  let src := img.getD filtered
  if src.type ≠ op.input_type then
    ⟨some "Input type not supported by this filter.", filtered, shared⟩
  else if filtered.type ≠ op.output_type then
    ⟨some "Output type not supported by this filter.", filtered, shared⟩
  else
    parallelFor op img args ⟨0, src.rows, 0, src.cols⟩ tiles ⟨none, filtered, shared⟩

/-- The overload `Filter<Operator>(img, args...)` returning a new image. -/
def Filter {α σ : Type} (op : Operator α σ) (tiles : List Block) (img : Mat) (args : α)
    (shared : σ) : Except String Mat :=
  if img.type ≠ op.input_type then
    .error "Input type not supported by this filter."
  else
    let outimg := Mat.zeros img.rows img.cols op.output_type
    let r := FilterInto op tiles outimg (some img) args shared
    match r.error with
    | some e => .error e
    | none => .ok r.filtered

/-- The class `VMFilter` as an operator of the engine, `OperatorBase<CV_8UC3, CV_8UC3>`. -/
def VMFilter.operator : Operator Int Unit where
  input_type := CV_8UC3
  output_type := CV_8UC3
  Inst := VMFilter
  construct := VMFilter.new
  call := fun f x y img u => (f.call x y img).map (fun c => (c, f, u))

/-- The class `VectorRangeFilter` as an operator of the engine,
`OperatorBase<CV_8UC3, CV_8UC3>`. -/
def VectorRangeFilter.operator : Operator Int Unit where
  input_type := CV_8UC3
  output_type := CV_8UC3
  Inst := VectorRangeFilter
  construct := VectorRangeFilter.new
  call := fun f x y img u => (f.call x y img).map (fun c => (c, f, u))

/-- The class `MinVecDispersionFilter` as an operator of the engine,
`OperatorBase<CV_8UC3, CV_8UC3>`; the arguments are `(width, k, l)`. -/
def MinVecDispersionFilter.operator (stdSort : (Int → Int → Bool) → List Int → List Int) :
    Operator (Int × Int × Int) Unit where
  input_type := CV_8UC3
  output_type := CV_8UC3
  Inst := MinVecDispersionFilter
  construct := fun a => MinVecDispersionFilter.new a.1 a.2.1 a.2.2
  call := fun f x y img u =>
    (MinVecDispersionFilter.call stdSort f x y img).map (fun c => (c.1, c.2, u))

/-! ## The colour gradient (`utilities/functions.h`, `filters/canny-edges.h`) -/

/-- The function `ClampCoordinate(img, x, y)`. -/
def ClampCoordinate (img : Mat) (x y : Int) : Int × Int :=
  (clamp x 0 (img.cols - 1), clamp y 0 (img.rows - 1))

/-- The conversion to `int` of `std::sqrt(d)` for an `int` argument `d ≥ 0`: the integer
part of the square root (the double square root is represented by its exact real
value). -/
def sqrtToInt (d : Int) : Int := Int.ofNat (Nat.sqrt d.toNat)

/-- The function template `CalcRGBDelta<T, dx, dy>(img, x, y)`: the integer part of the
colour distance between the two clamped samples at `(x + dx, y + dy)` and
`(x - dx, y - dy)`. -/
def CalcRGBDelta (T : Elem) (dx dy : Int) (img : Mat) (x y : Int) : Int :=
  let c1 := ClampCoordinate img (x + dx) (y + dy)
  let c2 := ClampCoordinate img (x - dx) (y - dy)
  let p1 := RGBVector.ofMat img c1.1 c1.2
  let p2 := RGBVector.ofMat img c2.1 c2.2
  sqrtToInt (RGBVector.SquaredDistance T p1 p2)

/-- The table `kAngles = {0, 90, 45, 135}`, read at index `i`. -/
def kAngles (i : Int) : Int :=
  if i = 0 then 0 else if i = 1 then 90 else if i = 2 then 45 else if i = 3 then 135 else 0

/-- The four responses of `ColourGradient::operator()`, in the order of the array
`sqdist`: 0, 90, 45 and 135 degrees. -/
def ColourGradient.responses (img : Mat) (x y : Int) : List Int :=
  [CalcRGBDelta Elem.u8 1 0 img x y,
   CalcRGBDelta Elem.u8 0 1 img x y,
   CalcRGBDelta Elem.u8 1 1 img x y,
   CalcRGBDelta Elem.u8 1 (-1) img x y]

/-- The loop of `ColourGradient::operator()` over the entries `sqdist[i]`, `i = start,
start + 1, ...`: the state is `(max_ind, max_grad)`. -/
def ColourGradient.findMax : List Int → Int → Int × Int → Int × Int
  | [], _, s => s
  | v :: rest, i, s =>
    ColourGradient.findMax rest (i + 1) (if v > s.2 then (i, v) else s)

/-- The call `ColourGradient::operator()(x, y, img)`: `RGBVector<int>(theta, rho, 0)`. -/
def ColourGradient.call (x y : Int) (img : Mat) : RGBVector :=
  let s := ColourGradient.findMax (ColourGradient.responses img x y) 0 (0, 0)
  let theta := kAngles s.1
  let rho := s.2
  RGBVector.rgb theta rho 0

/-- The struct `ColourGradient` as an operator of the engine,
`OperatorBase<CV_8UC3, CV_32SC3>`; it has no members and no constructor arguments. -/
def ColourGradient.operator : Operator Unit Unit where
  input_type := CV_8UC3
  output_type := CV_32SC3
  Inst := Unit
  construct := fun _ => .ok ()
  call := fun _ x y img u => .ok (ColourGradient.call x y img, (), u)

/-! ## Accesses of `MinVecDispersionFilter::operator()` -/

/-- The positions of `indices_` that the last two loops of
`MinVecDispersionFilter::operator()` read: `i` for `i < l_`, then `N - j - 1` for
`j < k_`. -/
def MinVecDispersionFilter.indexReads (l k N : Int) : List Int :=
  loopRange l ++ (loopRange k).map (fun j => N - j - 1)

/-- The pixels that the last two loops of `MinVecDispersionFilter::operator()` read:
`window[indices_[p]]` for every position `p` they read. -/
def MinVecDispersionFilter.pixelReads (l k N : Int) (window : ROI) (indices : List Int) :
    List PixelPtr :=
  (MinVecDispersionFilter.indexReads l k N).map (fun p => window.index (vecGet indices p))

/-! ## Non-maximum suppression, thresholds and linking (`filters/canny-edges.h`) -/

/-- The sampling direction `(dx, dy)` that `NonMaximumSupression::operator()` derives from
the angle `theta`; the comparisons of the `int` with the `double` constants are exact.
The last alternative leaves the initial `dx = 0, dy = 0`. -/
def NonMaximumSupression.direction (theta : Int) : Int × Int :=
  if (theta : ℚ) < 22.5 then (1, 0)
  else if (theta : ℚ) ≥ 22.5 ∧ (theta : ℚ) < 67.5 then (1, 1)
  else if (theta : ℚ) ≥ 67.5 ∧ (theta : ℚ) < 112.5 then (0, 1)
  else if (theta : ℚ) ≥ 112.5 then (1, -1)
  else (0, 0)

/-- The lambda `get_magnitude(x, y)` of `NonMaximumSupression::operator()`. -/
def NonMaximumSupression.get_magnitude (img : Mat) (x y : Int) : Int :=
  let c := ClampCoordinate img x y
  (RGBVector.ofMat img c.1 c.2).green

/-- The call `NonMaximumSupression::operator()(x, y, img)`. -/
def NonMaximumSupression.call (x y : Int) (img : Mat) : RGBVector :=
  let rgb := RGBVector.ofMat img x y
  let theta := rgb.red
  let current_mag := rgb.green
  let d := NonMaximumSupression.direction theta
  let m1 := NonMaximumSupression.get_magnitude img (x + d.1) (y + d.2)
  let m2 := NonMaximumSupression.get_magnitude img (x - d.1) (y - d.2)
  let is_max := decide (m1 ≤ current_mag ∧ m2 ≤ current_mag)
  let response := if is_max then current_mag else 0
  RGBVector.rgb response response response

/-- The struct `NonMaximumSupression` as an operator of the engine,
`OperatorBase<CV_32SC3, CV_32SC1>`. -/
def NonMaximumSupression.operator : Operator Unit Unit where
  input_type := CV_32SC3
  output_type := CV_32SC1
  Inst := Unit
  construct := fun _ => .ok ()
  call := fun _ x y img u => .ok (NonMaximumSupression.call x y img, (), u)

/-- The struct `Threshold` with its two `float` members, which are represented by their
exact values. -/
structure Threshold where
  min_th : ℚ
  max_th : ℚ
deriving DecidableEq

/-- The constructor `Threshold(min, max)`. -/
def Threshold.new (min max : ℚ) : Threshold := ⟨min, max⟩

/-- The call `Threshold::operator()(x, y, img)`; the comparisons of the `int` with the
`float` members are taken exactly. -/
def Threshold.call (f : Threshold) (x y : Int) (img : Mat) : RGBVector :=
  let rgb := RGBVector.ofMat img x y
  if (rgb.red : ℚ) > f.max_th then RGBVector.rgb 255 255 255
  else if (rgb.red : ℚ) > f.min_th then RGBVector.rgb 127 127 127
  else RGBVector.rgb 0 0 0

/-- The struct `Threshold` as an operator of the engine, `OperatorBase<CV_32SC1, CV_8UC1>`;
the arguments are the values `(min, max)` of the two `float` parameters of the
constructor, a caller with `double` values converting them first. -/
def Threshold.operator : Operator (ℚ × ℚ) Unit where
  input_type := CV_32SC1
  output_type := CV_8UC1
  Inst := Threshold
  construct := fun a => .ok (Threshold.new a.1 a.2)
  call := fun f x y img u => .ok (f.call x y img, f, u)

/-- The call `ConnectedComponents::operator()(x, y, img)`: the returned colour and the
variable `was_modified`, which the operator holds by reference, after the call.  The two
loops over `dy` and `dx` return at the first neighbour that reads `255`. -/
def ConnectedComponents.call (x y : Int) (img : Mat) (was_modified : Bool) :
    RGBVector × Bool :=
  let rgb := RGBVector.ofMat img x y
  if rgb.red < 127 then (rgb, was_modified)
  else if rgb.red = 255 then (rgb, was_modified)
  else if [-1, 0, 1].any (fun dy => [-1, 0, 1].any (fun dx =>
      let coord := ClampCoordinate img (x + dx) (y + dy)
      decide ((RGBVector.ofMat img coord.1 coord.2).red = 255))) then
    (RGBVector.rgb 255 255 255, true)
  else (rgb, was_modified)

/-- The struct `ConnectedComponents` as an operator of the engine,
`OperatorBase<CV_8UC1, CV_8UC1>`; the shared variable is `was_modified`. -/
def ConnectedComponents.operator : Operator Unit Bool where
  input_type := CV_8UC1
  output_type := CV_8UC1
  Inst := Unit
  construct := fun _ => .ok ()
  call := fun _ x y img s =>
    .ok ((ConnectedComponents.call x y img s).1, (), (ConnectedComponents.call x y img s).2)

/-! ## The HSV encoding of the gradient (`constants.h`, `utilities/functions.h`) -/

/-- The constant `kPi`. -/
def kPi : ℚ := 3.141592653589793

/-- The function `RadiansToDegrees(rad)`; the double arithmetic is represented by its exact
value. -/
def RadiansToDegrees (rad : ℚ) : ℚ := rad * 180.0 / kPi

/-- The integer part of a `double`, as the conversion to an integer type takes it. -/
def truncToInt (v : ℚ) : Int := if 0 ≤ v then ⌊v⌋ else ⌈v⌉

/-- The conversion of a `double` to `uint8_t`.  When the integer part is not in `[0, 255]`
the conversion is undefined in C++; the value kept here is the low byte of the integer
part, as the usual compilers produce it. -/
def toUInt8 (v : ℚ) : Int := truncToInt v % 256

/-- The first constructor argument of `GradientToHSV::operator()`, before its conversion
to `uint8_t`: `255*(RadiansToDegrees(rgb.red)/360.0)`. -/
def GradientToHSV.hue (red : Int) : ℚ := 255 * (RadiansToDegrees (red : ℚ) / 360.0)

/-- The third constructor argument of `GradientToHSV::operator()`, before its conversion
to `uint8_t`: `255*(static_cast<double>(rgb.green) / kMaxDistance)`. -/
def GradientToHSV.value (green : Int) : ℚ := 255 * ((green : ℚ) / (kMaxDistance : ℚ))

/-- The call `GradientToHSV::operator()(x, y, img)`. -/
def GradientToHSV.call (x y : Int) (img : Mat) : RGBVector :=
  let rgb := RGBVector.ofMat img x y
  RGBVector.rgb (toUInt8 (GradientToHSV.hue rgb.red)) 255
    (toUInt8 (GradientToHSV.value rgb.green))

/-- The struct `GradientToHSV` as an operator of the engine,
`OperatorBase<CV_32SC3, CV_8UC3>`. -/
def GradientToHSV.operator : Operator Unit Unit where
  input_type := CV_32SC3
  output_type := CV_8UC3
  Inst := Unit
  construct := fun _ => .ok ()
  call := fun _ x y img u => .ok (GradientToHSV.call x y img, (), u)

/-- The OpenCV comparison `m > v` of a raster with a scalar: an 8-bit mask with the
channels of `m` that holds `255` where the element exceeds `v` and `0` elsewhere. -/
def Mat.greaterThan (m : Mat) (v : Int) : Mat :=
  ⟨m.rows, m.cols, (m.channels - 1) * 8, fun y j => if m.data y j > v then 255 else 0⟩

/-! ## The conversion of `double` to `float` -/

/-- Rounding of a rational to the nearest integer, a tie going to the even neighbour. -/
def roundHalfEven (q : ℚ) : Int :=
  if q - ⌊q⌋ < 1 / 2 then ⌊q⌋
  else if q - ⌊q⌋ > 1 / 2 then ⌊q⌋ + 1
  else if ⌊q⌋ % 2 = 0 then ⌊q⌋ else ⌊q⌋ + 1

/-- The spacing of the `float` values around `v ≥ 0`: `2^(e - 23)`, where `e` is the binary
exponent of `v`, at least `-126` (the exponent of the subnormal values). -/
def floatUlp (v : ℚ) : ℚ := (2 : ℚ) ^ (max (Int.log 2 v) (-126) - 23)

/-- The `float` nearest to `v ≥ 0` (IEEE 754 binary32, round to nearest, ties to even).  A
result of `2^128` or more stands for the infinity that the conversion yields there; like
the infinity it exceeds every `int`. -/
def roundToFloat (v : ℚ) : ℚ := (roundHalfEven (v / floatUlp v) : ℚ) * floatUlp v

/-- The implicit conversion of a `double` to `float`, as it takes place where
`Threshold(const float, const float)` is called with `double` arguments; the conversion is
symmetric in the sign. -/
def doubleToFloat (v : ℚ) : ℚ := if 0 ≤ v then roundToFloat v else - roundToFloat (-v)

end internal

/-! ## The public filters (`chromavec.cpp`) -/

/-- The function `VectorMedianFilter(img, window)`. -/
def VectorMedianFilter (tiles : List internal.Block) (img : internal.Mat) (window : Int) :
    Except String internal.Mat :=
  internal.Filter internal.VMFilter.operator tiles img window ()

/-- The function `VectorRangeFilter(img, window)`. -/
def VectorRangeFilter (tiles : List internal.Block) (img : internal.Mat) (window : Int) :
    Except String internal.Mat :=
  internal.Filter internal.VectorRangeFilter.operator tiles img window ()

/-- The function `MinimumVectorDispersionFilter(img, k, l, window)`, which passes
`(window, k, l)` to the operator. -/
def MinimumVectorDispersionFilter (stdSort : (Int → Int → Bool) → List Int → List Int)
    (tiles : List internal.Block) (img : internal.Mat) (k l window : Int) :
    Except String internal.Mat :=
  internal.Filter (internal.MinVecDispersionFilter.operator stdSort) tiles img (window, k, l) ()

/-- The expression `Filter<Threshold>(Filter<NonMaximumSupression>(Filter<ColourGradient>(
filtered)), t1, t2)` of `ColourCannyEdgeDetect`, after the optional pre-filter: the copy
of the image when `sigma < 0.01`, otherwise the result of `cv::GaussianBlur`, a library
routine that is the parameter `GaussianBlur`.  The thresholds `t1`, `t2` are `double`
values and the constructor `Threshold(const float, const float)` receives them converted
to `float`. -/
def ColourCannyEdgeDetect.classify (GaussianBlur : internal.Mat → ℚ → internal.Mat)
    (tilesG tilesN tilesT : List internal.Block) (img : internal.Mat) (t1 t2 sigma : ℚ) :
    Except String internal.Mat := do
  let filtered := if sigma < 0.01 then img else GaussianBlur img sigma
  let gradient ← internal.Filter internal.ColourGradient.operator tilesG filtered () ()
  let suppressed ← internal.Filter internal.NonMaximumSupression.operator tilesN gradient () ()
  internal.Filter internal.Threshold.operator tilesT suppressed
    (internal.doubleToFloat t1, internal.doubleToFloat t2) ()

/-- The loop `while (was_modified)` of `ColourCannyEdgeDetect`, run for at most `fuel`
passes: the state is the counter `i`, the raster `filtered`, which each pass filters in
place, and `was_modified`.  The blocks of pass `i` are `schedule i`.  The result is the
raster and the counter when the loop has ended, `none` when the passes allowed are used
up. -/
def ColourCannyEdgeDetect.linking (schedule : Nat → List internal.Block) :
    Nat → Nat → internal.Mat → Bool → Except String (Option (internal.Mat × Nat))
  | 0, i, filtered, was_modified =>
    if was_modified then .ok none else .ok (some (filtered, i))
  | fuel + 1, i, filtered, was_modified =>
    if was_modified then
      let r := internal.FilterInto internal.ConnectedComponents.operator (schedule i)
        filtered none () false
      match r.error with
      | some e => .error e
      | none => ColourCannyEdgeDetect.linking schedule fuel (i + 1) r.filtered r.shared
    else .ok (some (filtered, i))

/-- The function `ColourCannyEdgeDetect(img, t1, t2, sigma)`; the result is `none` when
the linking loop has not ended within `fuel` passes. -/
def ColourCannyEdgeDetect (GaussianBlur : internal.Mat → ℚ → internal.Mat)
    (tilesG tilesN tilesT : List internal.Block) (schedule : Nat → List internal.Block)
    (fuel : Nat) (img : internal.Mat) (t1 t2 sigma : ℚ) :
    Except String (Option internal.Mat) := do
  let filtered ← ColourCannyEdgeDetect.classify GaussianBlur tilesG tilesN tilesT img t1 t2 sigma
  let linked ← ColourCannyEdgeDetect.linking schedule fuel 0 filtered true
  pure (linked.map (fun r => internal.Mat.greaterThan r.1 127))

open internal

/-! ## Vocabulary of the statements -/

/-- Whether a call ended with an exception. -/
def failed {ε α : Type} (e : Except ε α) : Bool :=
  match e with
  | .error _ => true
  | .ok _ => false

/-- The colour that a window filter reads at window coordinate `(xi, yi)`. -/
def windowColour (window : ROI) (img : Mat) (xi yi : Int) : RGBVector :=
  RGBVector.ofBuffer (img.deref (window.at xi yi)) img.channels

/-- A colour whose three channels are 8-bit unsigned values, as `RGBVector<uint8_t>`
holds them. -/
def IsByteColour (v : RGBVector) : Prop :=
  0 ≤ v.red ∧ v.red ≤ 255 ∧ 0 ≤ v.green ∧ v.green ≤ 255 ∧ 0 ≤ v.blue ∧ v.blue ≤ 255

instance (v : RGBVector) : Decidable (IsByteColour v) := by
  unfold IsByteColour
  exact inferInstance

/-- Squared colour distance as the specification states it, over the integers:
`(ar-br)^2 + (ag-bg)^2 + (ab-bb)^2`. -/
def exactSquaredDistance (a b : RGBVector) : Int :=
  (a.red - b.red) ^ 2 + (a.green - b.green) ^ 2 + (a.blue - b.blue) ^ 2

/-- Total distance of a colour as the specification states it: the sum, over the
integers, of its squared colour distances to all pixels of the window. -/
def totalSquaredDistance (window : ROI) (img : Mat) (c : RGBVector) : Int :=
  ((loopRange window.Height).map (fun yj =>
    ((loopRange window.Width).map (fun xj =>
      exactSquaredDistance c (windowColour window img xj yj))).sum)).sum

/-- Vector medoid as the specification states it: the colour of a window pixel whose
total distance is minimal among all window pixels. -/
def IsVectorMedoid (window : ROI) (img : Mat) (c : RGBVector) : Prop :=
  (∃ xi yi, (0 ≤ xi ∧ xi < window.Width) ∧ (0 ≤ yi ∧ yi < window.Height) ∧
    c = windowColour window img xi yi) ∧
  ∀ xj yj, (0 ≤ xj ∧ xj < window.Width) → (0 ≤ yj ∧ yj < window.Height) →
    totalSquaredDistance window img c
      ≤ totalSquaredDistance window img (windowColour window img xj yj)

/-- The image of the running examples: a `3 × 3` raster of type `CV_8UC3` whose top-left
pixel is black `(0, 0, 0)` and whose other eight pixels are white `(255, 255, 255)`. -/
def cornerSpeck : Mat :=
  ⟨3, 3, CV_8UC3, fun y j => if y = 0 ∧ j < 3 then 0 else 255⟩

/-- The window of width `3` centred at `(1, 1)` of the example image: the whole image. -/
def cornerSpeckWindow : ROI := ⟨cornerSpeck, 1, 1, 0, 2, 0, 2⟩

/-- An image of type `CV_8UC3` with no rows and no columns. -/
def emptyImage : Mat := ⟨0, 0, CV_8UC3, fun _ _ => 0⟩

/-- Whether pixel `(x, y)` lies in a block. -/
def blockContains (b : Block) (x y : Int) : Prop :=
  (b.rows_begin ≤ y ∧ y < b.rows_end) ∧ (b.cols_begin ≤ x ∧ x < b.cols_end)

/-- A split of a range into blocks, as `tbb::parallel_for` produces it for a run without
exception: every block is non-empty and lies in the range, every pixel of the range
lies in some block, and no pixel lies in two blocks of the list. -/
def IsTiling (range : Block) (tiles : List Block) : Prop :=
  (∀ b ∈ tiles, b.empty = false ∧
    (range.rows_begin ≤ b.rows_begin ∧ b.rows_end ≤ range.rows_end) ∧
    (range.cols_begin ≤ b.cols_begin ∧ b.cols_end ≤ range.cols_end)) ∧
  (∀ x y, blockContains range x y → ∃ b ∈ tiles, blockContains b x y) ∧
  tiles.Pairwise (fun a b => ∀ x y, ¬ (blockContains a x y ∧ blockContains b x y))

/-- Channel `c` of a colour: `0` is red, `1` is green, any other is blue. -/
def channelValue (c : Int) (v : RGBVector) : Int :=
  if c = 0 then v.red else if c = 1 then v.green else v.blue

/-- Whether element `j` of row `y2` is one of the elements that the body stores for pixel
`(x, y)` with `channels` channels: at most three elements from `channels * x` on. -/
def pixelSlot (channels x y y2 j : Int) : Prop :=
  y2 = y ∧ (1 ≤ channels ∧ channels ≤ 4) ∧
    (channels * x ≤ j ∧ j < channels * x + min channels 3)

instance (channels x y y2 j : Int) : Decidable (pixelSlot channels x y y2 j) := by
  unfold pixelSlot
  exact inferInstance

/-- The colour that a call has returned, black if it has thrown. -/
def resultColour (e : Except String RGBVector) : RGBVector :=
  match e with
  | .ok c => c
  | .error _ => RGBVector.zero

/-- Inserting `a` into a sorted list, after the entries that are less than it. -/
def sortedInsert (lt : Int → Int → Bool) (a : Int) : List Int → List Int
  | [] => [a]
  | b :: rest => if lt b a then b :: sortedInsert lt a rest else a :: b :: rest

/-- A sorting routine for the comparison `lt`, standing for `std::sort` in the examples:
insertion sort, which is what the library runs on ranges of at most sixteen
elements. -/
def insertionSort (lt : Int → Int → Bool) : List Int → List Int
  | [] => []
  | a :: rest => sortedInsert lt a (insertionSort lt rest)

/-- A `1 × 3` raster of type `CV_8UC3` with the pixels `(0,0,0)`, `(30,0,0)`, `(0,0,0)`. -/
def peakRow : Mat :=
  ⟨1, 3, CV_8UC3, fun y j => if y = 0 ∧ j = 3 then 30 else 0⟩

/-- A `1 × 3` raster of type `CV_8UC3` with the pixels `(0,0,0)`, `(0,0,0)`, `(30,0,0)`. -/
def stepRow : Mat :=
  ⟨1, 3, CV_8UC3, fun y j => if y = 0 ∧ j = 6 then 30 else 0⟩

/-- The sampling offset `(dx, dy)` of the orientation with index `i` in the order of the
array `sqdist`: 0, 90, 45 and 135 degrees. -/
def gradientOffset (i : Int) : Int × Int :=
  if i = 0 then (1, 0) else if i = 1 then (0, 1) else if i = 2 then (1, 1) else (1, -1)

/-- Squared colour distance, over the integers, between the two border-clamped samples
`(x + dx, y + dy)` and `(x - dx, y - dy)` of the orientation with index `i`. -/
def orientationSqDist (img : Mat) (x y i : Int) : Int :=
  exactSquaredDistance
    (RGBVector.ofMat img (clamp (x + (gradientOffset i).1) 0 (img.cols - 1))
      (clamp (y + (gradientOffset i).2) 0 (img.rows - 1)))
    (RGBVector.ofMat img (clamp (x - (gradientOffset i).1) 0 (img.cols - 1))
      (clamp (y - (gradientOffset i).2) 0 (img.rows - 1)))

/-- The response of the orientation with index `i`: the integer part of the square root
of its squared colour distance. -/
def orientationResponse (img : Mat) (x y i : Int) : Int :=
  Int.ofNat (Nat.sqrt (orientationSqDist img x y i).toNat)

/-- A `3 × 3` raster of type `CV_8UC3` that is black except for the pixels `(2, 1)`, which
is `(4, 0, 0)`, and `(1, 2)`, which is `(4, 1, 0)`. -/
def nearTie : Mat :=
  ⟨3, 3, CV_8UC3, fun y j =>
    if y = 1 ∧ j = 6 then 4 else if y = 2 ∧ j = 3 then 4 else if y = 2 ∧ j = 4 then 1 else 0⟩

/-- A raster of type `CV_8UC3` with five rows and three columns: the rows `0, 1, 2` are
black and the rows `3, 4` are white. -/
def twoBands : Mat :=
  ⟨5, 3, CV_8UC3, fun y _ => if y ≤ 2 then 0 else 255⟩

/-- The response that `ColourGradient::operator()` computes for the orientation with index
`i`, that is the entry `sqdist[i]`. -/
def gradientResponse (img : Mat) (x y i : Int) : Int :=
  CalcRGBDelta Elem.u8 (gradientOffset i).1 (gradientOffset i).2 img x y

/-- The window coordinates `(x, y)` in the order in which the pair of loops
`for y < H: for x < W` of the window filters visits them: row-major. -/
def rowMajor (W H : Int) : List (Int × Int) :=
  (loopRange H).flatMap (fun y => (loopRange W).map (fun x => (x, y)))

/-- Window coordinate `(xj, yj)` precedes `(xi, yi)` in row-major order. -/
def rowMajorBefore (xj yj xi yi : Int) : Prop := yj < yi ∨ (yj = yi ∧ xj < xi)

/-- Window coordinate `(xi, yi)` is the first one in row-major order whose colour has
minimal total squared distance to the window. -/
def IsFirstMinimal (window : ROI) (img : Mat) (xi yi : Int) : Prop :=
  ((0 ≤ xi ∧ xi < window.Width) ∧ (0 ≤ yi ∧ yi < window.Height)) ∧
  (∀ xj yj, (0 ≤ xj ∧ xj < window.Width) → (0 ≤ yj ∧ yj < window.Height) →
    totalSquaredDistance window img (windowColour window img xi yi)
      ≤ totalSquaredDistance window img (windowColour window img xj yj)) ∧
  (∀ xj yj, (0 ≤ xj ∧ xj < window.Width) → (0 ≤ yj ∧ yj < window.Height) →
    rowMajorBefore xj yj xi yi →
    totalSquaredDistance window img (windowColour window img xi yi)
      < totalSquaredDistance window img (windowColour window img xj yj))

/-- Window coordinate `(xi, yi)` is the first one in row-major order whose colour has
maximal total squared distance to the window. -/
def IsFirstMaximal (window : ROI) (img : Mat) (xi yi : Int) : Prop :=
  ((0 ≤ xi ∧ xi < window.Width) ∧ (0 ≤ yi ∧ yi < window.Height)) ∧
  (∀ xj yj, (0 ≤ xj ∧ xj < window.Width) → (0 ≤ yj ∧ yj < window.Height) →
    totalSquaredDistance window img (windowColour window img xj yj)
      ≤ totalSquaredDistance window img (windowColour window img xi yi)) ∧
  (∀ xj yj, (0 ≤ xj ∧ xj < window.Width) → (0 ≤ yj ∧ yj < window.Height) →
    rowMajorBefore xj yj xi yi →
    totalSquaredDistance window img (windowColour window img xj yj)
      < totalSquaredDistance window img (windowColour window img xi yi))

/-- The colour `window[i]` of the window pixel with linear index `i`, as
`MinVecDispersionFilter::operator()` reads it. -/
def indexColour (window : ROI) (img : Mat) (i : Int) : RGBVector :=
  RGBVector.ofBuffer (img.deref (window.index i)) img.channels

/-- The contract of `std::sort` for the comparisons `key a < key b` that `ArgSort`
passes: the result is a rearrangement of the input in which no entry has a smaller key
than an entry before it. -/
def IsSortingRoutine (stdSort : (Int → Int → Bool) → List Int → List Int) : Prop :=
  ∀ (key : Int → Int) (l : List Int),
    (stdSort (fun a b => decide (key a < key b)) l).Perm l ∧
    (stdSort (fun a b => decide (key a < key b)) l).Pairwise (fun a b => key a ≤ key b)

/-- The per-channel floor of the mean of `l` colours. -/
def floorMean (cs : List RGBVector) (l : Int) : RGBVector :=
  RGBVector.rgb ((cs.map (fun c => c.red)).sum / l) ((cs.map (fun c => c.green)).sum / l)
    ((cs.map (fun c => c.blue)).sum / l)

/-- The value `v` is an output that the specification of the minimum vector dispersion
filter admits for a window: for some ordering `σ` of the linear indices of the window
pixels by total squared distance, with the reference colour the per-channel floor of the
mean of the first `l` pixels and `m` the minimum, over the last `k` pixels, of the squared
distance to the reference colour, `v` is the scaled magnitude `floor(255*sqrt(m)/441)`. -/
def IsDispersionValue (window : ROI) (img : Mat) (k l : Int) (v : Int) : Prop :=
  ∃ σ : List Int, σ.Perm (loopRange (window.Width * window.Height)) ∧
    σ.Pairwise (fun a b =>
      totalSquaredDistance window img (indexColour window img a)
        ≤ totalSquaredDistance window img (indexColour window img b)) ∧
    ∃ m : Int,
      (∃ j ∈ σ.reverse.take k.toNat, m = exactSquaredDistance (indexColour window img j)
        (floorMean ((σ.take l.toNat).map (indexColour window img)) l)) ∧
      (∀ j ∈ σ.reverse.take k.toNat, m ≤ exactSquaredDistance (indexColour window img j)
        (floorMean ((σ.take l.toNat).map (indexColour window img)) l)) ∧
      v = scaledMagnitude m

/-- An object that the constructor `MinVecDispersionFilter(width, k, l)` returned, in the
state in which any number of calls left it: the parameters and the sizes of the two
scratch vectors never change. -/
def IsFilterObject (width k l : Int) (f : MinVecDispersionFilter) : Prop :=
  f.width_ = width ∧ f.k_ = k ∧ f.l_ = l ∧
  f.distances_.length = (int32 (width * width)).toNat ∧
  f.indices_.length = (int32 (width * width)).toNat

/-- A raster of type `CV_8UC3` with `105` rows and columns whose top-left pixel is black
and whose other pixels are white. -/
def wideSpeck : Mat :=
  ⟨105, 105, CV_8UC3, fun y j => if y = 0 ∧ j < 3 then 0 else 255⟩

/-- The window of width `105` centred at `(52, 52)` of the wide example raster: the whole
raster. -/
def wideSpeckWindow : ROI := ⟨wideSpeck, 52, 52, 0, 104, 0, 104⟩

/-- Pixel `(x, y)` lies in the raster. -/
def inImage (m : Mat) (x y : Int) : Prop := (0 ≤ x ∧ x < m.cols) ∧ (0 ≤ y ∧ y < m.rows)

/-- A classified raster: every element is `0` (no edge), `127` (weak) or `255` (strong). -/
def IsClassified (m : Mat) : Prop := ∀ y j, m.data y j = 0 ∨ m.data y j = 127 ∨ m.data y j = 255

/-- The offsets `(dx, dy)` of the 8-neighbourhood and the pixel itself, in the order of the
loops `for dy: for dx`. -/
def neighbourOffsets : List (Int × Int) :=
  [(-1, -1), (0, -1), (1, -1), (-1, 0), (0, 0), (1, 0), (-1, 1), (0, 1), (1, 1)]

/-- At least one pixel of the border-clamped 8-neighbourhood of `(x, y)` reads `255` in
the one-channel raster `m`. -/
def readsStrong (m : Mat) (x y : Int) : Prop :=
  ∃ d ∈ neighbourOffsets,
    m.data (clamp (y + d.2) 0 (m.rows - 1)) (clamp (x + d.1) 0 (m.cols - 1)) = 255

instance (m : Mat) (x y : Int) : Decidable (readsStrong m x y) := by
  unfold readsStrong
  exact inferInstance

/-- One visit of the linking pass as the specification states it: a weak pixel of which a
neighbour reads `255` is promoted to `255` and the flag is set; otherwise nothing
changes.  The state is the one-channel raster and the flag. -/
def linkStep (s : Mat × Bool) (p : Int × Int) : Mat × Bool :=
  if s.1.data p.2 p.1 = 127 ∧ readsStrong s.1 p.1 p.2 then (s.1.store p.2 p.1 255, true) else s

/-- The pixels that a pass of the engine visits, in the order of the schedule: none when
the range is empty, otherwise the pixels of the blocks one block after the other. -/
def passPixels (range : Block) (tiles : List Block) : List (Int × Int) :=
  if range.empty then [] else tiles.flatMap Block.pixels

/-- The number of weak pixels of a one-channel raster. -/
def weakCount (m : Mat) : Nat :=
  (rowMajor m.cols m.rows).countP (fun p => decide (m.data p.2 p.1 = 127))

/-- Pixel `(x, y)` of the classification `cls` is strong, or it is weak and joined to a
strong pixel by a path of 8-adjacent weak pixels. -/
inductive Linked (cls : Mat) : Int → Int → Prop
  | strong (x y : Int) : inImage cls x y → cls.data y x = 255 → Linked cls x y
  | weak (x y x2 y2 : Int) : inImage cls x y → cls.data y x = 127 →
      (x - 1 ≤ x2 ∧ x2 ≤ x + 1) → (y - 1 ≤ y2 ∧ y2 ≤ y + 1) → Linked cls x2 y2 →
      Linked cls x y

/-- A `1 × 3` classified raster of type `CV_8UC1`: strong, weak, weak. -/
def weakRun : Mat := ⟨1, 3, CV_8UC1, fun y j => if y = 0 ∧ j = 0 then 255
  else if y = 0 ∧ (j = 1 ∨ j = 2) then 127 else 0⟩

/-- The image that the generator of the edge test writes at angle `0`: `512 × 512` pixels
of type `CV_8UC3`, the columns `0..256` hold the colour `(0, 0, 254)` and the columns
`257..511` hold the colour `(0, 129, 0)`. -/
def edgeImage : Mat :=
  ⟨512, 512, CV_8UC3, fun _ j =>
    if j / 3 ≤ 256 then (if j % 3 = 2 then 254 else 0) else (if j % 3 = 1 then 129 else 0)⟩

/-- The raster of type `CV_8UC3` with the given size whose pixels all have the colour `c`;
the elements outside the image are zero. -/
def constantRaster (rows cols : Int) (c : RGBVector) : Mat :=
  ⟨rows, cols, CV_8UC3, fun y j =>
    if (0 ≤ y ∧ y < rows) ∧ (0 ≤ j ∧ j < 3 * cols) then channelValue (j % 3) c else 0⟩

/-! ## Loops, clamping and windows -/

/-- A property that holds at the start of a loop and is kept by its body on every
element holds when the loop ends. -/
theorem foldl_invariant {α β : Type} (P : α → Prop) (f : α → β → α) (l : List β) (a : α)
    (h0 : P a) (hstep : ∀ s b, b ∈ l → P s → P (f s b)) : P (l.foldl f a) := by
  induction l generalizing a with
  | nil => simpa using h0
  | cons b t ih =>
    simp only [List.foldl_cons]
    apply ih
    · exact hstep a b (List.mem_cons_self _ _) h0
    · intro s c hc hs
      exact hstep s c (List.mem_cons_of_mem _ hc) hs

/-- The counter of `for (int i = 0; i < n; i++)` takes exactly the values `0 ≤ i < n`. -/
theorem mem_loopRange {n b : Int} : b ∈ loopRange n ↔ 0 ≤ b ∧ b < n := by
  unfold loopRange
  simp only [List.mem_map, List.mem_range]
  constructor
  · rintro ⟨k, hk, rfl⟩
    simp only [Int.ofNat_eq_coe]
    have h1 : (k : Int) < (n.toNat : Int) := by exact_mod_cast hk
    have h2 : (n.toNat : Int) = max n 0 := Int.toNat_eq_max n
    omega
  · rintro ⟨h0, hlt⟩
    refine ⟨b.toNat, ?_, ?_⟩
    · have h1 : (b.toNat : Int) = b := Int.toNat_of_nonneg h0
      have h2 : (n.toNat : Int) = n := Int.toNat_of_nonneg (by omega)
      omega
    · simpa using Int.toNat_of_nonneg h0

/-- The result of `std::clamp` lies between the two bounds when `lo ≤ hi`. -/
theorem clamp_bounds (v lo hi : Int) (h : lo ≤ hi) :
    lo ≤ clamp v lo hi ∧ clamp v lo hi ≤ hi := by
  unfold clamp
  split_ifs <;> omega

/-- The function `std::clamp` is monotone in its first argument when `lo ≤ hi`. -/
theorem clamp_mono (v w lo hi : Int) (h : lo ≤ hi) (hvw : v ≤ w) :
    clamp v lo hi ≤ clamp w lo hi := by
  unfold clamp
  split_ifs <;> omega

/-- With an in-bounds centre the constructor of `ROI` returns the clamped window. -/
theorem ROI_new_ok (img : Mat) (x y width height : Int)
    (hx : 0 ≤ x ∧ x < img.cols) (hy : 0 ≤ y ∧ y < img.rows) :
    ROI.new img x y width height = .ok
      ⟨img, x, y,
        clamp (x - Int.tdiv width 2) 0 (img.cols - 1),
        clamp (x + Int.tdiv width 2) 0 (img.cols - 1),
        clamp (y - Int.tdiv height 2) 0 (img.rows - 1),
        clamp (y + Int.tdiv height 2) 0 (img.rows - 1)⟩ := by
  unfold ROI.new
  have h1 : ¬ (x < 0 ∨ x ≥ img.cols) := by omega
  have h2 : ¬ (y < 0 ∨ y ≥ img.rows) := by omega
  simp only [h1, h2, if_false]

/-- Half of a nonnegative request is nonnegative. -/
theorem tdiv_two_nonneg (w : Int) (h : 0 ≤ w) : 0 ≤ Int.tdiv w 2 := by
  exact Int.tdiv_nonneg h (by decide)

/-- The window of an in-bounds centre with a nonnegative request has at least one
column and one row and lies inside the raster. -/
theorem ROI_new_dims_pos (img : Mat) (x y width height : Int)
    (hx : 0 ≤ x ∧ x < img.cols) (hy : 0 ≤ y ∧ y < img.rows)
    (hw : 0 ≤ width) (hh : 0 ≤ height) :
    ∃ r, ROI.new img x y width height = .ok r ∧ r.img_ = img ∧
      1 ≤ r.Width ∧ 1 ≤ r.Height ∧
      0 ≤ r.x_start_ ∧ r.x_end_ < img.cols ∧ 0 ≤ r.y_start_ ∧ r.y_end_ < img.rows := by
  refine ⟨_, ROI_new_ok img x y width height hx hy, rfl, ?_, ?_, ?_, ?_, ?_, ?_⟩
  · have h := clamp_mono (x - Int.tdiv width 2) (x + Int.tdiv width 2) 0 (img.cols - 1)
      (by omega) (by have := tdiv_two_nonneg width hw; omega)
    simp only [ROI.Width]; omega
  · have h := clamp_mono (y - Int.tdiv height 2) (y + Int.tdiv height 2) 0 (img.rows - 1)
      (by omega) (by have := tdiv_two_nonneg height hh; omega)
    simp only [ROI.Height]; omega
  · exact (clamp_bounds _ 0 (img.cols - 1) (by omega)).1
  · have := (clamp_bounds (x + Int.tdiv width 2) 0 (img.cols - 1) (by omega)).2
    show clamp (x + Int.tdiv width 2) 0 (img.cols - 1) < img.cols
    omega
  · exact (clamp_bounds _ 0 (img.rows - 1) (by omega)).1
  · have := (clamp_bounds (y + Int.tdiv height 2) 0 (img.rows - 1) (by omega)).2
    show clamp (y + Int.tdiv height 2) 0 (img.rows - 1) < img.rows
    omega

/-- A raster of type `CV_8UC3` has three channels. -/
theorem channels_of_8UC3 (img : Mat) (htype : img.type = CV_8UC3) : img.channels = 3 := by
  unfold Mat.channels
  rw [htype]
  decide

/-- With three channels the buffer constructor reads the three adjacent elements. -/
theorem ofBuffer_three (buffer : Int → Int) :
    RGBVector.ofBuffer buffer 3 = RGBVector.rgb (buffer 0) (buffer 1) (buffer 2) := by
  simp [RGBVector.ofBuffer, RGBVector.rgb]

/-! ## Vector median filter -/

/-- The colour kept by the scan of `VMFilter::operator()` is read at a window
coordinate, whenever the window has a pixel `(0, 0)`. -/
theorem VMFilter_scan_best_in_window (f : VMFilter) (window : ROI) (img : Mat)
    (hW : 1 ≤ window.Width) (hH : 1 ≤ window.Height) :
    ∃ xi yi, (0 ≤ xi ∧ xi < window.Width) ∧ (0 ≤ yi ∧ yi < window.Height) ∧
      (VMFilter.scan f window img).best_vector
        = RGBVector.ofBuffer (img.deref (window.at xi yi)) img.channels := by
  unfold VMFilter.scan
  apply foldl_invariant
    (fun s : VMScan => ∃ xi yi, (0 ≤ xi ∧ xi < window.Width) ∧ (0 ≤ yi ∧ yi < window.Height) ∧
      s.best_vector = RGBVector.ofBuffer (img.deref (window.at xi yi)) img.channels)
  · exact ⟨0, 0, ⟨le_refl _, by omega⟩, ⟨le_refl _, by omega⟩, rfl⟩
  · intro s yi hyi hs
    apply foldl_invariant
      (fun s : VMScan => ∃ xi yi, (0 ≤ xi ∧ xi < window.Width) ∧
        (0 ≤ yi ∧ yi < window.Height) ∧
        s.best_vector = RGBVector.ofBuffer (img.deref (window.at xi yi)) img.channels)
    · exact hs
    · intro s xi hxi hs
      unfold VMFilter.step
      simp only
      split_ifs
      · exact ⟨xi, yi, mem_loopRange.1 hxi, mem_loopRange.1 hyi, rfl⟩
      · exact hs

/-- An odd width of at least three is accepted by the constructor of `VMFilter`. -/
theorem VMFilter_new_ok (width : Int) (hw : 3 ≤ width ∧ width % 2 = 1) :
    VMFilter.new width = .ok ⟨width⟩ := by
  unfold VMFilter.new
  have h : ¬ (width < 3 ∨ Int.tmod width 2 = 0) := by
    have := Int.tmod_eq_emod (a := width) (b := 2) (by omega)
    omega
  simp only [h, if_false]

/-- C1: for every 3-channel 8-bit image, every in-bounds pixel `(x, y)` and every odd
window width `≥ 3`, the filter is constructed, its call returns, and the colour it
returns is the colour of a pixel of the clamped window centred at `(x, y)`: the
three channels stored at window coordinate `(xi, yi)`, that is at column
`xi + x_start_` of row `yi + y_start_` of the raster, for some `0 ≤ xi < Width()` and
`0 ≤ yi < Height()`. -/
theorem VMFilter_output_in_window (img : Mat) (x y width : Int)
    (htype : img.type = CV_8UC3)
    (hx : 0 ≤ x ∧ x < img.cols) (hy : 0 ≤ y ∧ y < img.rows)
    (hw : 3 ≤ width ∧ width % 2 = 1) :
    ∃ f window, VMFilter.new width = .ok f ∧ ROI.square img x y width = .ok window ∧
      ∃ xi yi, (0 ≤ xi ∧ xi < window.Width) ∧ (0 ≤ yi ∧ yi < window.Height) ∧
        f.call x y img
          = .ok (RGBVector.ofBuffer (img.deref (window.at xi yi)) img.channels) ∧
        f.call x y img
          = .ok (RGBVector.rgb
              (img.data (yi + window.y_start_) (3 * (xi + window.x_start_)))
              (img.data (yi + window.y_start_) (3 * (xi + window.x_start_) + 1))
              (img.data (yi + window.y_start_) (3 * (xi + window.x_start_) + 2))) := by
  obtain ⟨r, hr, himg, hW, hH, -⟩ :=
    ROI_new_dims_pos img x y width width hx hy (by omega) (by omega)
  obtain ⟨xi, yi, hxi, hyi, hbest⟩ := VMFilter_scan_best_in_window ⟨width⟩ r img hW hH
  have hcall : VMFilter.call ⟨width⟩ x y img
      = .ok (RGBVector.ofBuffer (img.deref (r.at xi yi)) img.channels) := by
    unfold VMFilter.call
    unfold ROI.square
    simp only [hr]
    show Except.ok _ = Except.ok _
    rw [hbest]
  refine ⟨⟨width⟩, r, VMFilter_new_ok width hw, hr, xi, yi, hxi, hyi, hcall, ?_⟩
  rw [hcall, channels_of_8UC3 img htype, ofBuffer_three]
  simp only [Mat.deref, ROI.at, himg, channels_of_8UC3 img htype, add_zero]

/-- Witness of C1 on the `3 × 3` example image at its centre with width `3`. -/
theorem VMFilter_output_in_window_witness :
    ∃ f window, VMFilter.new 3 = .ok f ∧ ROI.square cornerSpeck 1 1 3 = .ok window ∧
      ∃ xi yi, (0 ≤ xi ∧ xi < window.Width) ∧ (0 ≤ yi ∧ yi < window.Height) ∧
        f.call 1 1 cornerSpeck
          = .ok (RGBVector.ofBuffer (cornerSpeck.deref (window.at xi yi))
              cornerSpeck.channels) ∧
        f.call 1 1 cornerSpeck
          = .ok (RGBVector.rgb
              (cornerSpeck.data (yi + window.y_start_) (3 * (xi + window.x_start_)))
              (cornerSpeck.data (yi + window.y_start_) (3 * (xi + window.x_start_) + 1))
              (cornerSpeck.data (yi + window.y_start_) (3 * (xi + window.x_start_) + 2))) :=
  VMFilter_output_in_window cornerSpeck 1 1 3 rfl (by decide) (by decide) (by decide)

/-- C2 at its failing input.  On the `3 × 3` example image the filter of width `3` is
constructed, its window at the centre `(1, 1)` is the whole image, and the call
returns black, the colour of window pixel `(0, 0)`.  Black has total distance
`8 * 195075 = 1560600` while the white window pixel `(1, 0)` has total `195075`, so the
returned colour is not the vector medoid: both totals are at least the start value
`kMaxDistance * 3 * 3 = 3969` of `minimum_distance`, and no candidate is accepted. -/
theorem VMFilter_returns_non_medoid :
    VMFilter.new 3 = .ok ⟨3⟩ ∧
    ROI.square cornerSpeck 1 1 3 = .ok cornerSpeckWindow ∧
    VMFilter.call ⟨3⟩ 1 1 cornerSpeck = .ok (RGBVector.rgb 0 0 0) ∧
    windowColour cornerSpeckWindow cornerSpeck 1 0 = RGBVector.rgb 255 255 255 ∧
    totalSquaredDistance cornerSpeckWindow cornerSpeck (RGBVector.rgb 0 0 0) = 1560600 ∧
    totalSquaredDistance cornerSpeckWindow cornerSpeck (RGBVector.rgb 255 255 255) = 195075 ∧
    int32 (int32 (kMaxDistance * 3) * 3) = 3969 ∧
    ¬ IsVectorMedoid cornerSpeckWindow cornerSpeck (RGBVector.rgb 0 0 0) := by
  set_option maxRecDepth 100000 in
  refine ⟨rfl, rfl, rfl, by decide, by decide, by decide, by decide, ?_⟩
  intro h
  have h2 := h.2 1 0 (by decide) (by decide)
  revert h2
  set_option maxRecDepth 100000 in
  decide

/-! ## Machine integers -/

/-- A value inside the range of `int` is stored unchanged. -/
theorem int32_eq_self (v : Int) (h1 : -2 ^ 31 ≤ v) (h2 : v < 2 ^ 31) : int32 v = v := by
  unfold int32 wrapSigned
  norm_num at h1 h2 ⊢
  omega

/-- A nonnegative value is never stored as a larger one. -/
theorem int32_le_self (v : Int) (h : 0 ≤ v) : int32 v ≤ v := by
  unfold int32 wrapSigned
  norm_num
  omega

/-- For a nonnegative dividend and the divisor `2`, evenness by the C++ remainder is
divisibility by two. -/
theorem tmod_two_eq_zero_iff (w : Int) (h : 0 ≤ w) : Int.tmod w 2 = 0 ↔ w % 2 = 0 := by
  rw [Int.tmod_eq_emod h (by decide)]

/-! ## Constructors of the filters -/

/-- The constructor of `VMFilter` throws exactly under its own test. -/
theorem VMFilter_failed_new (width : Int) :
    failed (VMFilter.new width) = true ↔ (width < 3 ∨ width % 2 = 0) := by
  unfold VMFilter.new
  by_cases h3 : width < 3
  · simp [h3, failed]
  · have := tmod_two_eq_zero_iff width (by omega)
    by_cases he : Int.tmod width 2 = 0
    · have he2 := this.1 he
      simp [he, he2, failed]
    · have he2 : ¬ width % 2 = 0 := fun h => he (this.2 h)
      simp [h3, he, he2, failed]

/-- The constructor of `VectorRangeFilter` throws exactly under its own test. -/
theorem VectorRangeFilter_failed_new (width : Int) :
    failed (VectorRangeFilter.new width) = true ↔ (width < 3 ∨ width % 2 = 0) := by
  unfold VectorRangeFilter.new
  by_cases h3 : width < 3
  · simp [h3, failed]
  · have := tmod_two_eq_zero_iff width (by omega)
    by_cases he : Int.tmod width 2 = 0
    · have he2 := this.1 he
      simp [he, he2, failed]
    · have he2 : ¬ width % 2 = 0 := fun h => he (this.2 h)
      simp [h3, he, he2, failed]

/-- C4: for every integer width, constructing `VMFilter(width)` fails if and only if
`width < 3` or `width` is even, and so does constructing `VectorRangeFilter(width)`. -/
theorem width_only_filters_fail_iff (width : Int) :
    (failed (VMFilter.new width) = true ↔ (width < 3 ∨ width % 2 = 0)) ∧
    (failed (VectorRangeFilter.new width) = true ↔ (width < 3 ∨ width % 2 = 0)) :=
  ⟨VMFilter_failed_new width, VectorRangeFilter_failed_new width⟩

/-- The constructor of `MinVecDispersionFilter` throws exactly when one of its tests
holds, `N` being the stored `int` product `width*width`. -/
theorem MinVecDispersionFilter_failed_new (width k l : Int) :
    failed (MinVecDispersionFilter.new width k l) = true ↔
      (int32 (width * width) < 0 ∨ width < 3 ∨ Int.tmod width 2 = 0 ∨
        k ≥ int32 (width * width) ∨ l ≥ int32 (width * width) ∨ k < 1 ∨ l < 1) := by
  unfold MinVecDispersionFilter.new
  simp only
  split_ifs with h1 h2 h3 h4 <;> simp only [failed] <;> simp <;> omega

/-- Every parameter set outside the documented domain is rejected by the constructor
of `MinVecDispersionFilter`, whatever the size of the integers. -/
theorem MinVecDispersionFilter_new_rejects (width k l : Int)
    (h : width < 3 ∨ width % 2 = 0 ∨ k < 1 ∨ width * width ≤ k ∨ l < 1 ∨ width * width ≤ l) :
    failed (MinVecDispersionFilter.new width k l) = true := by
  rw [MinVecDispersionFilter_failed_new]
  have hN := int32_le_self (width * width) (mul_self_nonneg width)
  by_cases h3 : width < 3
  · exact Or.inr (Or.inl h3)
  · have he := tmod_two_eq_zero_iff width (by omega)
    by_cases hev : width % 2 = 0
    · exact Or.inr (Or.inr (Or.inl (he.2 hev)))
    · generalize int32 (width * width) = N at hN ⊢
      generalize width * width = M at hN h
      omega

/-- C3 (amended): for all integers `width`, `k`, `l` whose product `width*width` fits an
`int` (`width*width < 2^31`), constructing `MinVecDispersionFilter(width, k, l)` fails if
and only if `width < 3`, or `width` is even, or `k` or `l` lies outside `[1, N)` with
`N = width*width`; moreover width `4` fails, `(5, 10, 1)` succeeds and `(5, 25, 1)`
fails. -/
theorem MinVecDispersionFilter_new_fails_iff (width k l : Int)
    (hfit : width * width < 2 ^ 31) :
    (failed (MinVecDispersionFilter.new width k l) = true ↔
      (width < 3 ∨ width % 2 = 0 ∨ k < 1 ∨ width * width ≤ k ∨
        l < 1 ∨ width * width ≤ l)) ∧
    failed (MinVecDispersionFilter.new 4 k l) = true ∧
    failed (MinVecDispersionFilter.new 5 10 1) = false ∧
    failed (MinVecDispersionFilter.new 5 25 1) = true := by
  refine ⟨⟨?_, MinVecDispersionFilter_new_rejects width k l⟩, ?_, by decide, by decide⟩
  · rw [MinVecDispersionFilter_failed_new]
    have h0 : (0 : Int) ≤ width * width := mul_self_nonneg width
    rw [int32_eq_self (width * width) (by norm_num; omega) hfit]
    intro h
    by_cases h3 : width < 3
    · exact Or.inl h3
    · have he := tmod_two_eq_zero_iff width (by omega)
      by_cases hev : width % 2 = 0
      · exact Or.inr (Or.inl hev)
      · have hne : ¬ Int.tmod width 2 = 0 := fun hh => hev (he.1 hh)
        generalize width * width = M at h h0 ⊢
        omega
  · exact MinVecDispersionFilter_new_rejects 4 k l (Or.inr (Or.inl (by decide)))

/-- Witness of the amended C3 at `(5, 10, 1)`. -/
theorem MinVecDispersionFilter_new_fails_iff_witness :
    (failed (MinVecDispersionFilter.new 5 10 1) = true ↔
      ((5 : Int) < 3 ∨ (5 : Int) % 2 = 0 ∨ (10 : Int) < 1 ∨ (5 : Int) * 5 ≤ 10 ∨
        (1 : Int) < 1 ∨ (5 : Int) * 5 ≤ 1)) ∧
    failed (MinVecDispersionFilter.new 4 10 1) = true ∧
    failed (MinVecDispersionFilter.new 5 10 1) = false ∧
    failed (MinVecDispersionFilter.new 5 25 1) = true :=
  MinVecDispersionFilter_new_fails_iff 5 10 1 (by decide)

/-- C3 as stated fails at `width = 46341`, `k = l = 1`: the width is odd and at least `3`
and `1` lies in `[1, 46341*46341)`, yet the constructor fails, because the `int` product
`width*width` is stored as `-2147479015`. -/
theorem MinVecDispersionFilter_new_overflow_counterexample :
    int32 (46341 * 46341) = -2147479015 ∧
    ¬ (failed (MinVecDispersionFilter.new 46341 1 1) = true ↔
      ((46341 : Int) < 3 ∨ (46341 : Int) % 2 = 0 ∨ (1 : Int) < 1 ∨
        (46341 : Int) * 46341 ≤ 1 ∨ (1 : Int) < 1 ∨ (46341 : Int) * 46341 ≤ 1)) := by
  decide

/-! ## The filter engine -/

/-- When the constructor of the operator throws, a block body records the exception and
leaves the destination raster and the shared variable as they are. -/
theorem runBlock_of_construct_error {α σ : Type} (op : Operator α σ) (img : Option Mat)
    (args : α) (e : String) (h : op.construct args = .error e) (r : Run σ) (block : Block) :
    runBlock op img args r block = ⟨some (r.error.getD e), r.filtered, r.shared⟩ := by
  unfold runBlock
  rw [h]

/-- When the constructor of the operator throws, running the body on any list of blocks
that has started from a state with the exception already recorded changes nothing. -/
theorem foldl_runBlock_of_construct_error {α σ : Type} (op : Operator α σ)
    (img : Option Mat) (args : α) (e : String) (h : op.construct args = .error e)
    (tiles : List Block) (filtered : Mat) (shared : σ) :
    tiles.foldl (runBlock op img args) ⟨some e, filtered, shared⟩
      = ⟨some e, filtered, shared⟩ := by
  induction tiles with
  | nil => rfl
  | cons b t ih =>
    rw [List.foldl_cons, runBlock_of_construct_error op img args e h]
    simpa using ih

/-- When the constructor of the operator throws and at least one block is started, the
run of `tbb::parallel_for` on a non-empty range ends with that exception and the
destination raster and the shared variable are untouched. -/
theorem parallelFor_of_construct_error {α σ : Type} (op : Operator α σ) (img : Option Mat)
    (args : α) (e : String) (h : op.construct args = .error e)
    (range : Block) (hrange : range.empty = false)
    (tiles : List Block) (htiles : tiles ≠ []) (filtered : Mat) (shared : σ) :
    parallelFor op img args range tiles ⟨none, filtered, shared⟩
      = ⟨some e, filtered, shared⟩ := by
  unfold parallelFor
  rw [hrange]
  cases tiles with
  | nil => exact absurd rfl htiles
  | cons b t =>
    simp only [Bool.false_eq_true, if_false]
    rw [List.foldl_cons, runBlock_of_construct_error op img args e h]
    exact foldl_runBlock_of_construct_error op img args e h t filtered shared

/-- The pixel range of a raster with at least one row and one column is not empty. -/
theorem range_not_empty (rows cols : Int) (hr : 1 ≤ rows) (hc : 1 ≤ cols) :
    Block.empty ⟨0, rows, 0, cols⟩ = false := by
  unfold Block.empty
  have h1 : (0 : Int) < rows := by omega
  have h2 : (0 : Int) < cols := by omega
  simp [h1, h2]

/-- When the constructor of the operator throws, the engine applied to a source of the
input type with at least one pixel fails with the exception of the constructor, and
the freshly allocated output raster is still all zero when the exception leaves. -/
theorem Filter_of_construct_error {α σ : Type} (op : Operator α σ) (args : α) (e : String)
    (h : op.construct args = .error e) (tiles : List Block) (htiles : tiles ≠ [])
    (img : Mat) (htype : img.type = op.input_type) (hr : 1 ≤ img.rows) (hc : 1 ≤ img.cols)
    (shared : σ) :
    internal.Filter op tiles img args shared = .error e ∧
    FilterInto op tiles (Mat.zeros img.rows img.cols op.output_type) (some img) args shared
      = ⟨some e, Mat.zeros img.rows img.cols op.output_type, shared⟩ := by
  have hinto : FilterInto op tiles (Mat.zeros img.rows img.cols op.output_type) (some img)
      args shared = ⟨some e, Mat.zeros img.rows img.cols op.output_type, shared⟩ := by
    unfold FilterInto
    have h1 : ¬ ((some img).getD (Mat.zeros img.rows img.cols op.output_type)).type
        ≠ op.input_type := by simpa using htype
    have h2 : ¬ (Mat.zeros img.rows img.cols op.output_type).type ≠ op.output_type := by
      simp [Mat.zeros]
    simp only [h1, h2, if_false]
    exact parallelFor_of_construct_error op (some img) args e h _
      (range_not_empty img.rows img.cols hr hc) tiles htiles _ shared
  refine ⟨?_, hinto⟩
  unfold internal.Filter
  have h1 : ¬ img.type ≠ op.input_type := by simpa using htype
  simp only [h1, if_false, hinto]

/-- On a source with no rows or no columns the engine runs no body: it returns the
empty output raster whatever the arguments of the operator are. -/
theorem Filter_of_empty_range {α σ : Type} (op : Operator α σ) (args : α)
    (tiles : List Block) (img : Mat) (htype : img.type = op.input_type)
    (hempty : img.rows ≤ 0 ∨ img.cols ≤ 0) (shared : σ) :
    internal.Filter op tiles img args shared = .ok (Mat.zeros img.rows img.cols op.output_type) := by
  unfold internal.Filter FilterInto parallelFor
  have h1 : ¬ img.type ≠ op.input_type := by simpa using htype
  have h2 : ¬ (Mat.zeros img.rows img.cols op.output_type).type ≠ op.output_type := by
    simp [Mat.zeros]
  have h3 : Block.empty ⟨0, img.rows, 0, img.cols⟩ = true := by
    unfold Block.empty
    rcases hempty with h | h
    · have : ¬ (0 : Int) < img.rows := by omega
      simp [this]
    · have : ¬ (0 : Int) < img.cols := by omega
      simp [this]
  simp [h1, h2, h3]

/-- What a failed call returns is an exception: `failed e = true` gives its message. -/
theorem exists_error_of_failed {α : Type} (e : Except String α) (h : failed e = true) :
    ∃ msg, e = .error msg := by
  cases e with
  | error msg => exact ⟨msg, rfl⟩
  | ok a => simp [failed] at h

/-- C5 (amended): for every 8-bit 3-channel image with at least one row and one column
and every run that starts at least one block, the public operations
`VectorMedianFilter`, `VectorRangeFilter` and `MinimumVectorDispersionFilter` called with
an invalid parameter set (even window, window `< 3`, or `k` or `l` outside `[1, N)`,
`N = window*window`) fail with the exception of the operator constructor, and the
output raster is still the all-zero raster that was allocated: no output pixel is
written, because each block constructs its operator before it processes a pixel. -/
theorem invalid_parameters_fail_before_any_pixel
    (stdSort : (Int → Int → Bool) → List Int → List Int)
    (tiles : List Block) (img : Mat) (window k l : Int)
    (htype : img.type = CV_8UC3) (hrows : 1 ≤ img.rows) (hcols : 1 ≤ img.cols)
    (htiles : tiles ≠ []) :
    ((window < 3 ∨ window % 2 = 0) →
      (VectorMedianFilter tiles img window = .error "Filter width must be odd." ∧
        (FilterInto VMFilter.operator tiles (Mat.zeros img.rows img.cols CV_8UC3)
          (some img) window ()).filtered = Mat.zeros img.rows img.cols CV_8UC3) ∧
      (VectorRangeFilter tiles img window = .error "Filter width must be odd." ∧
        (FilterInto VectorRangeFilter.operator tiles (Mat.zeros img.rows img.cols CV_8UC3)
          (some img) window ()).filtered = Mat.zeros img.rows img.cols CV_8UC3)) ∧
    ((window < 3 ∨ window % 2 = 0 ∨ k < 1 ∨ window * window ≤ k ∨
        l < 1 ∨ window * window ≤ l) →
      ∃ msg, MinVecDispersionFilter.new window k l = .error msg ∧
        MinimumVectorDispersionFilter stdSort tiles img k l window = .error msg ∧
        (FilterInto (MinVecDispersionFilter.operator stdSort) tiles
          (Mat.zeros img.rows img.cols CV_8UC3) (some img) (window, k, l) ()).filtered
          = Mat.zeros img.rows img.cols CV_8UC3) := by
  constructor
  · intro hbad
    have hv : VMFilter.new window = .error "Filter width must be odd." := by
      obtain ⟨msg, hmsg⟩ := exists_error_of_failed _ ((VMFilter_failed_new window).2 hbad)
      unfold VMFilter.new at hmsg ⊢
      split_ifs at hmsg ⊢
      rfl
    have hr : VectorRangeFilter.new window = .error "Filter width must be odd." := by
      obtain ⟨msg, hmsg⟩ :=
        exists_error_of_failed _ ((VectorRangeFilter_failed_new window).2 hbad)
      unfold VectorRangeFilter.new at hmsg ⊢
      split_ifs at hmsg ⊢
      rfl
    have h1 := Filter_of_construct_error VMFilter.operator window _ hv tiles htiles img
      htype hrows hcols ()
    have h2 := Filter_of_construct_error VectorRangeFilter.operator window _ hr tiles htiles
      img htype hrows hcols ()
    refine ⟨⟨h1.1, ?_⟩, ⟨h2.1, ?_⟩⟩
    · exact congrArg Run.filtered h1.2
    · exact congrArg Run.filtered h2.2
  · intro hbad
    obtain ⟨msg, hmsg⟩ :=
      exists_error_of_failed _ (MinVecDispersionFilter_new_rejects window k l hbad)
    have h3 := Filter_of_construct_error (MinVecDispersionFilter.operator stdSort)
      (window, k, l) msg hmsg tiles htiles img htype hrows hcols ()
    exact ⟨msg, hmsg, h3.1, congrArg Run.filtered h3.2⟩

/-- Witness of the amended C5: the `3 × 3` example image, one block covering it, the even
window `4` and `k = 25`, `l = 1`. -/
theorem invalid_parameters_fail_before_any_pixel_witness :
    ((4 : Int) < 3 ∨ (4 : Int) % 2 = 0) ∧
    (VectorMedianFilter [⟨0, 3, 0, 3⟩] cornerSpeck 4 = .error "Filter width must be odd." ∧
      (FilterInto VMFilter.operator [⟨0, 3, 0, 3⟩] (Mat.zeros cornerSpeck.rows cornerSpeck.cols
        CV_8UC3) (some cornerSpeck) 4 ()).filtered
        = Mat.zeros cornerSpeck.rows cornerSpeck.cols CV_8UC3) ∧
    (VectorRangeFilter [⟨0, 3, 0, 3⟩] cornerSpeck 4 = .error "Filter width must be odd." ∧
      (FilterInto VectorRangeFilter.operator [⟨0, 3, 0, 3⟩]
        (Mat.zeros cornerSpeck.rows cornerSpeck.cols CV_8UC3) (some cornerSpeck) 4 ()).filtered
        = Mat.zeros cornerSpeck.rows cornerSpeck.cols CV_8UC3) :=
  ⟨by decide,
    (invalid_parameters_fail_before_any_pixel (fun _ xs => xs) [⟨0, 3, 0, 3⟩] cornerSpeck
      4 25 1 rfl (by decide) (by decide) (by simp)).1 (by decide)⟩

/-- C5 as stated fails on an image without pixels: on the `0 × 0` image of type `CV_8UC3`
the even window `4`, the window `1` and the parameters `(window, k, l) = (5, 25, 1)` are
rejected by the three constructors, yet the three public operations return without an
exception, since no block is run and no operator is constructed. -/
theorem empty_image_invalid_parameters_counterexample :
    failed (VMFilter.new 4) = true ∧
    failed (VectorRangeFilter.new 1) = true ∧
    failed (MinVecDispersionFilter.new 5 25 1) = true ∧
    failed (VectorMedianFilter [] emptyImage 4) = false ∧
    failed (VectorRangeFilter [] emptyImage 1) = false ∧
    failed (MinimumVectorDispersionFilter (fun _ xs => xs) [] emptyImage 25 1 5) = false := by
  refine ⟨by decide, by decide, by decide, ?_, ?_, ?_⟩
  · unfold VectorMedianFilter
    rw [Filter_of_empty_range _ _ _ _ rfl (Or.inl (by decide))]
    rfl
  · unfold VectorRangeFilter
    rw [Filter_of_empty_range _ _ _ _ rfl (Or.inl (by decide))]
    rfl
  · unfold MinimumVectorDispersionFilter
    rw [Filter_of_empty_range _ _ _ _ rfl (Or.inl (by decide))]
    rfl

/-! ## Regions of interest -/

/-- The constructor of `ROI` throws exactly under its two tests of the centre. -/
theorem ROI_failed_new (img : Mat) (x y width height : Int) :
    failed (ROI.new img x y width height) = true ↔
      (x < 0 ∨ x ≥ img.cols ∨ y < 0 ∨ y ≥ img.rows) := by
  unfold ROI.new
  simp only
  split_ifs with h1 h2 <;> simp only [failed] <;> simp <;> omega

/-- C6: for every image with at least one pixel and all integers `x`, `y`, `width`,
`height`, constructing an ROI centred at `(x, y)` fails if and only if `x < 0`,
`x >= cols`, `y < 0` or `y >= rows`, for the constructor with a height and for the square
one; whether it fails is the same for any other requested width and height.  (The
image has a pixel because otherwise the member initialisers call `std::clamp` with
`hi < lo`, which C++ leaves undefined.) -/
theorem ROI_new_fails_iff_centre_outside (img : Mat) (x y width height : Int)
    (hrows : 1 ≤ img.rows) (hcols : 1 ≤ img.cols) :
    (failed (ROI.new img x y width height) = true ↔
      (x < 0 ∨ x ≥ img.cols ∨ y < 0 ∨ y ≥ img.rows)) ∧
    (failed (ROI.square img x y width) = true ↔
      (x < 0 ∨ x ≥ img.cols ∨ y < 0 ∨ y ≥ img.rows)) ∧
    (∀ width2 height2 : Int,
      failed (ROI.new img x y width2 height2) = failed (ROI.new img x y width height)) := by
  refine ⟨ROI_failed_new img x y width height, ROI_failed_new img x y width width, ?_⟩
  intro width2 height2
  rw [Bool.eq_iff_iff, ROI_failed_new img x y width height,
    ROI_failed_new img x y width2 height2]

/-- Witness of C6 on the `3 × 3` example image: the centre `(3, 1)` lies outside. -/
theorem ROI_new_fails_iff_centre_outside_witness :
    (failed (ROI.new cornerSpeck 3 1 5 7) = true ↔
      ((3 : Int) < 0 ∨ (3 : Int) ≥ cornerSpeck.cols ∨ (1 : Int) < 0 ∨
        (1 : Int) ≥ cornerSpeck.rows)) ∧
    (failed (ROI.square cornerSpeck 3 1 5) = true ↔
      ((3 : Int) < 0 ∨ (3 : Int) ≥ cornerSpeck.cols ∨ (1 : Int) < 0 ∨
        (1 : Int) ≥ cornerSpeck.rows)) ∧
    (∀ width2 height2 : Int,
      failed (ROI.new cornerSpeck 3 1 width2 height2) = failed (ROI.new cornerSpeck 3 1 5 7)) :=
  ROI_new_fails_iff_centre_outside cornerSpeck 3 1 5 7 (by decide) (by decide)

/-- For a nonnegative index and a positive width the C++ remainder and quotient are the
mathematical ones and lie in the window. -/
theorem index_coords (i W H : Int) (hW : 1 ≤ W) (hi : 0 ≤ i ∧ i < W * H) :
    Int.tmod i W = i % W ∧ Int.tdiv i W = i / W ∧
      0 ≤ i % W ∧ i % W < W ∧ 0 ≤ i / W ∧ i / W < H := by
  have hWpos : 0 < W := by omega
  refine ⟨Int.tmod_eq_emod hi.1 (by omega), Int.tdiv_eq_ediv hi.1 (by omega),
    Int.emod_nonneg i (by omega), Int.emod_lt_of_pos i hWpos,
    Int.ediv_nonneg hi.1 (by omega), ?_⟩
  exact Int.ediv_lt_of_lt_mul hWpos (by rw [mul_comm]; exact hi.2)

/-- C7: for every image, every in-bounds centre (so the image is not empty) and every
requested width and height `≥ 0`, the ROI is constructed, and each window coordinate
`(xi, yi)` with `0 ≤ xi < Width()`, `0 ≤ yi < Height()` and each linear index `i` with
`0 ≤ i < Width()*Height()` is turned into a pointer to a raster pixel: its row lies
in `[0, rows)` and its element offset is `channels * col` for a column `col` in
`[0, cols)`. -/
theorem ROI_addresses_inside_raster (img : Mat) (x y width height : Int)
    (hx : 0 ≤ x ∧ x < img.cols) (hy : 0 ≤ y ∧ y < img.rows)
    (hw : 0 ≤ width) (hh : 0 ≤ height) :
    ∃ r, ROI.new img x y width height = .ok r ∧
      (∀ xi yi, (0 ≤ xi ∧ xi < r.Width) → (0 ≤ yi ∧ yi < r.Height) →
        ∃ col, (r.at xi yi).offset = img.channels * col ∧ (0 ≤ col ∧ col < img.cols) ∧
          (0 ≤ (r.at xi yi).row ∧ (r.at xi yi).row < img.rows)) ∧
      (∀ i, (0 ≤ i ∧ i < r.Width * r.Height) →
        ∃ col, (r.index i).offset = img.channels * col ∧ (0 ≤ col ∧ col < img.cols) ∧
          (0 ≤ (r.index i).row ∧ (r.index i).row < img.rows)) := by
  obtain ⟨r, hr, himg, hW, hH, hxs, hxe, hys, hye⟩ :=
    ROI_new_dims_pos img x y width height hx hy hw hh
  have hWd : r.Width = r.x_end_ - r.x_start_ + 1 := rfl
  have hHd : r.Height = r.y_end_ - r.y_start_ + 1 := rfl
  refine ⟨r, hr, ?_, ?_⟩
  · intro xi yi hxi hyi
    refine ⟨xi + r.x_start_, by simp [ROI.at, himg], ?_, ?_⟩
    · omega
    · simp only [ROI.at]; omega
  · intro i hi
    obtain ⟨hm, hd, h1, h2, h3, h4⟩ := index_coords i r.Width r.Height hW hi
    refine ⟨Int.tmod i r.Width + r.x_start_, by simp [ROI.index, himg], ?_, ?_⟩
    · rw [hm]; omega
    · simp only [ROI.index]
      rw [hd]; omega

/-- Witness of C7 at the corner `(2, 2)` of the `3 × 3` example image. -/
theorem ROI_addresses_inside_raster_witness :
    ∃ r, ROI.new cornerSpeck 2 2 5 3 = .ok r ∧
      (∀ xi yi, (0 ≤ xi ∧ xi < r.Width) → (0 ≤ yi ∧ yi < r.Height) →
        ∃ col, (r.at xi yi).offset = cornerSpeck.channels * col ∧
          (0 ≤ col ∧ col < cornerSpeck.cols) ∧
          (0 ≤ (r.at xi yi).row ∧ (r.at xi yi).row < cornerSpeck.rows)) ∧
      (∀ i, (0 ≤ i ∧ i < r.Width * r.Height) →
        ∃ col, (r.index i).offset = cornerSpeck.channels * col ∧
          (0 ≤ col ∧ col < cornerSpeck.cols) ∧
          (0 ≤ (r.index i).row ∧ (r.index i).row < cornerSpeck.rows)) :=
  ROI_addresses_inside_raster cornerSpeck 2 2 5 3 (by decide) (by decide) (by decide)
    (by decide)

/-- The quotient of a nonnegative `W` by two is the same for C++ and for the integers. -/
theorem tdiv_two_eq (W : Int) (hW : 0 ≤ W) : Int.tdiv W 2 = W / 2 :=
  Int.tdiv_eq_ediv hW (by decide)

/-- C8 (amended): for every `N ≥ 1` and every odd `W ≥ 3`, an ROI of requested width `W`
centred on any of the four corner pixels of an `N × N` image reports `Width()` and
`Height()` equal to `min(floor(W/2) + 1, 1 + d)`, where `d = N - 1` is the distance from
the corner to the far image edge along that axis. -/
theorem ROI_corner_dims (img : Mat) (N W cx cy : Int)
    (hrows : img.rows = N) (hcols : img.cols = N) (hN : 1 ≤ N)
    (hW : 3 ≤ W ∧ W % 2 = 1)
    (hcx : cx = 0 ∨ cx = N - 1) (hcy : cy = 0 ∨ cy = N - 1) :
    ∃ r, ROI.square img cx cy W = .ok r ∧
      r.Width = min (W / 2 + 1) (1 + (N - 1)) ∧
      r.Height = min (W / 2 + 1) (1 + (N - 1)) := by
  refine ⟨_, ROI_new_ok img cx cy W W (by omega) (by omega), ?_, ?_⟩
  · simp only [ROI.Width, clamp, tdiv_two_eq W (by omega), hcols]
    rcases hcx with h | h <;> subst h <;> split_ifs <;> omega
  · simp only [ROI.Height, clamp, tdiv_two_eq W (by omega), hrows]
    rcases hcy with h | h <;> subst h <;> split_ifs <;> omega

/-- Witness of the amended C8: width `3` at the corner `(0, 4)` of a `5 × 5` image. -/
theorem ROI_corner_dims_witness :
    ∃ r, ROI.square (Mat.zeros 5 5 CV_8UC3) 0 4 3 = .ok r ∧
      r.Width = min ((3 : Int) / 2 + 1) (1 + (5 - 1)) ∧
      r.Height = min ((3 : Int) / 2 + 1) (1 + (5 - 1)) :=
  ROI_corner_dims (Mat.zeros 5 5 CV_8UC3) 5 3 0 4 rfl rfl (by decide) (by decide)
    (by decide) (by decide)

/-- C8 as stated fails for `N = 5`, `W = 3` at the corner `(0, 0)`: the ROI reports width
and height `2`, not `min(W, 1 + d) = min(3, 5) = 3`. -/
theorem ROI_corner_dims_counterexample :
    ∃ r, ROI.square (Mat.zeros 5 5 CV_8UC3) 0 0 3 = .ok r ∧
      r.Width = 2 ∧ r.Height = 2 ∧ min (3 : Int) (1 + (5 - 1)) = 3 ∧
      r.Width ≠ min (3 : Int) (1 + (5 - 1)) ∧ r.Height ≠ min (3 : Int) (1 + (5 - 1)) :=
  ⟨_, rfl, by decide, by decide, by decide, by decide, by decide⟩

/-- For a nonnegative dividend the C++ remainder is the mathematical one, whatever the
sign of the divisor. -/
theorem tmod_eq_emod_of_nonneg (i W : Int) (hi : 0 ≤ i) : Int.tmod i W = i % W := by
  rcases le_total 0 W with hW | hW
  · exact Int.tmod_eq_emod hi hW
  · have h1 : Int.tmod i (-W) = (i % (-W)) := Int.tmod_eq_emod hi (by omega)
    rw [Int.tmod_neg, Int.emod_neg] at h1
    exact h1

/-- For a nonnegative dividend the C++ quotient is the mathematical one, whatever the
sign of the divisor. -/
theorem tdiv_eq_ediv_of_nonneg (i W : Int) (hi : 0 ≤ i) : Int.tdiv i W = i / W := by
  rcases le_total 0 W with hW | hW
  · exact Int.tdiv_eq_ediv hi hW
  · have h1 : Int.tdiv i (-W) = (i / (-W)) := Int.tdiv_eq_ediv hi (by omega)
    rw [Int.tdiv_neg, Int.ediv_neg] at h1
    exact neg_injective h1

/-- A raster has at least one channel. -/
theorem Mat_channels_pos (m : Mat) : 1 ≤ m.channels := by
  unfold Mat.channels
  have := Int.emod_nonneg (m.type / 8) (by decide : (512 : Int) ≠ 0)
  omega

/-- C9: for every ROI with clamped width `W` and height `H` and every linear index `i` in
`[0, W*H)`, `operator[](i)` returns the same pointer as `operator()(i mod W, i div W)`;
when the window has a column (`W ≥ 1`) that coordinate lies in the window, column
`i mod W` of row `i div W`, so the indexing is row-major; and an index `j` of `[0, W*H)`
that addresses the same pixel as `i` is `i`. -/
theorem ROI_index_row_major (r : ROI) (i : Int) (hi : 0 ≤ i ∧ i < r.Width * r.Height) :
    r.index i = r.at (i % r.Width) (i / r.Width) ∧
    (1 ≤ r.Width →
      (0 ≤ i % r.Width ∧ i % r.Width < r.Width) ∧ (0 ≤ i / r.Width ∧ i / r.Width < r.Height)) ∧
    (∀ j, (0 ≤ j ∧ j < r.Width * r.Height) → r.index j = r.index i → j = i) := by
  refine ⟨?_, ?_, ?_⟩
  · simp only [ROI.index, ROI.at, tmod_eq_emod_of_nonneg i _ hi.1,
      tdiv_eq_ediv_of_nonneg i _ hi.1]
  · intro hW
    obtain ⟨-, -, h1, h2, h3, h4⟩ := index_coords i r.Width r.Height hW hi
    exact ⟨⟨h1, h2⟩, ⟨h3, h4⟩⟩
  · intro j _ hji
    simp only [ROI.index, PixelPtr.mk.injEq] at hji
    obtain ⟨hrow, hoff⟩ := hji
    have hc : r.img_.channels ≠ 0 := by
      have := Mat_channels_pos r.img_
      omega
    have hcol : Int.tmod j r.Width + r.x_start_ = Int.tmod i r.Width + r.x_start_ :=
      mul_left_cancel₀ hc hoff
    have hm : Int.tmod j r.Width = Int.tmod i r.Width := by omega
    have hd : Int.tdiv j r.Width = Int.tdiv i r.Width := by omega
    rw [← Int.tmod_add_tdiv j r.Width, ← Int.tmod_add_tdiv i r.Width, hm, hd]

/-- Witness of C9: index `5` of the `3 × 3` window of the example image. -/
theorem ROI_index_row_major_witness :
    cornerSpeckWindow.index 5 = cornerSpeckWindow.at (5 % cornerSpeckWindow.Width)
      (5 / cornerSpeckWindow.Width) ∧
    (1 ≤ cornerSpeckWindow.Width →
      (0 ≤ 5 % cornerSpeckWindow.Width ∧ 5 % cornerSpeckWindow.Width < cornerSpeckWindow.Width) ∧
      (0 ≤ 5 / cornerSpeckWindow.Width ∧ 5 / cornerSpeckWindow.Width < cornerSpeckWindow.Height)) ∧
    (∀ j, (0 ≤ j ∧ j < cornerSpeckWindow.Width * cornerSpeckWindow.Height) →
      cornerSpeckWindow.index j = cornerSpeckWindow.index 5 → j = 5) :=
  ROI_index_row_major cornerSpeckWindow 5 (by decide)

/-! ## Colour vectors -/

/-- The square of an integer between `-255` and `255` is at most `255^2`. -/
theorem sq_le_of_abs_le_255 (d : Int) (h1 : -255 ≤ d) (h2 : d ≤ 255) :
    0 ≤ d * d ∧ d * d ≤ 255 * 255 := by
  constructor
  · exact mul_self_nonneg d
  · nlinarith

/-- A difference between `-255` and `255` is stored unchanged in an `int16_t`. -/
theorem wrapSigned16_eq_self (d : Int) (h1 : -255 ≤ d) (h2 : d ≤ 255) :
    wrapSigned 16 d = d := by
  unfold wrapSigned
  norm_num
  omega

/-- C10: for all 8-bit colour vectors `a` and `b`, every channel of `a - b` is the exact
difference, lies in `[-255, 255]` and so inside the range `[-2^15, 2^15)` of the
promoted 16-bit signed difference type; `SquaredDistance(a, b)` equals the exact integer
`(ar-br)^2 + (ag-bg)^2 + (ab-bb)^2`, which satisfies
`0 ≤ SquaredDistance(a, b) ≤ 3*255^2 = 195075 < 2^31`, so nothing overflows in 32-bit
arithmetic. -/
theorem SquaredDistance_u8_exact (a b : RGBVector) (ha : IsByteColour a) (hb : IsByteColour b) :
    ((RGBVector.sub Elem.u8 a b).red = a.red - b.red ∧
      (RGBVector.sub Elem.u8 a b).green = a.green - b.green ∧
      (RGBVector.sub Elem.u8 a b).blue = a.blue - b.blue) ∧
    ((-255 ≤ a.red - b.red ∧ a.red - b.red ≤ 255) ∧
      (-255 ≤ a.green - b.green ∧ a.green - b.green ≤ 255) ∧
      (-255 ≤ a.blue - b.blue ∧ a.blue - b.blue ≤ 255)) ∧
    (Elem.diffBits Elem.u8 = 16 ∧ (-2 ^ 15 : Int) ≤ -255 ∧ (255 : Int) < 2 ^ 15) ∧
    RGBVector.SquaredDistance Elem.u8 a b = exactSquaredDistance a b ∧
    (0 ≤ RGBVector.SquaredDistance Elem.u8 a b ∧
      RGBVector.SquaredDistance Elem.u8 a b ≤ 3 * 255 ^ 2) ∧
    ((3 : Int) * 255 ^ 2 = 195075 ∧ kMaxDistanceSq = 195075 ∧ (195075 : Int) < 2 ^ 31) := by
  obtain ⟨ha1, ha2, ha3, ha4, ha5, ha6⟩ := ha
  obtain ⟨hb1, hb2, hb3, hb4, hb5, hb6⟩ := hb
  have hr := wrapSigned16_eq_self (a.red - b.red) (by omega) (by omega)
  have hg := wrapSigned16_eq_self (a.green - b.green) (by omega) (by omega)
  have hbl := wrapSigned16_eq_self (a.blue - b.blue) (by omega) (by omega)
  have sr := sq_le_of_abs_le_255 (a.red - b.red) (by omega) (by omega)
  have sg := sq_le_of_abs_le_255 (a.green - b.green) (by omega) (by omega)
  have sb := sq_le_of_abs_le_255 (a.blue - b.blue) (by omega) (by omega)
  have hexact : RGBVector.SquaredDistance Elem.u8 a b = exactSquaredDistance a b := by
    simp only [RGBVector.SquaredDistance, RGBVector.SquaredMagnitude, RGBVector.sub,
      RGBVector.rgb, Elem.diffBits, hr, hg, hbl, exactSquaredDistance, pow_two]
    apply int32_eq_self
    · norm_num; omega
    · norm_num; omega
  refine ⟨⟨hr, hg, hbl⟩, ⟨⟨by omega, by omega⟩, ⟨by omega, by omega⟩, ⟨by omega, by omega⟩⟩,
    ⟨rfl, by norm_num, by norm_num⟩, hexact, ?_, ⟨by norm_num, by decide, by norm_num⟩⟩
  rw [hexact]
  simp only [exactSquaredDistance, pow_two]
  constructor
  · omega
  · norm_num; omega

/-- Witness of C10: black and white. -/
theorem SquaredDistance_u8_exact_witness :
    RGBVector.SquaredDistance Elem.u8 (RGBVector.rgb 0 0 0) (RGBVector.rgb 255 255 255)
      = exactSquaredDistance (RGBVector.rgb 0 0 0) (RGBVector.rgb 255 255 255) ∧
    RGBVector.SquaredDistance Elem.u8 (RGBVector.rgb 0 0 0) (RGBVector.rgb 255 255 255)
      = 195075 :=
  ⟨(SquaredDistance_u8_exact (RGBVector.rgb 0 0 0) (RGBVector.rgb 255 255 255)
      (by decide) (by decide)).2.2.2.1, by decide⟩

/-! ## The filter engine: encodings, stored channels, tilings -/

/-- The counter of `for (v = first; v != last; v++)` takes exactly the values
`first ≤ v < last`. -/
theorem mem_countRange {first last v : Int} :
    v ∈ countRange first last ↔ first ≤ v ∧ v < last := by
  unfold countRange
  simp only [List.mem_map, List.mem_range, Int.ofNat_eq_coe]
  constructor
  · rintro ⟨k, hk, rfl⟩
    have h1 : (k : Int) < ((last - first).toNat : Int) := by exact_mod_cast hk
    have h2 : ((last - first).toNat : Int) = max (last - first) 0 := Int.toNat_eq_max _
    omega
  · rintro ⟨h0, hlt⟩
    refine ⟨(v - first).toNat, ?_, ?_⟩
    · have h1 : ((v - first).toNat : Int) = v - first := Int.toNat_of_nonneg (by omega)
      have h2 : ((last - first).toNat : Int) = last - first := Int.toNat_of_nonneg (by omega)
      omega
    · have h1 : ((v - first).toNat : Int) = v - first := Int.toNat_of_nonneg (by omega)
      omega

/-- The pixels that the body visits in a block are the pixels of the block. -/
theorem mem_Block_pixels {b : Block} {x y : Int} :
    (x, y) ∈ b.pixels ↔ blockContains b x y := by
  unfold Block.pixels blockContains
  simp only [List.mem_flatMap, List.mem_map, Prod.mk.injEq, mem_countRange]
  constructor
  · rintro ⟨y2, hy2, x2, hx2, rfl, rfl⟩
    exact ⟨hy2, hx2⟩
  · rintro ⟨hy, hx⟩
    exact ⟨y, hy, x, hx, rfl, rfl⟩

/-- The `switch` of the body keeps the size and the type of the raster. -/
theorem storePixel_fields (m : Mat) (ch x y : Int) (out : RGBVector) :
    (storePixel m ch x y out).rows = m.rows ∧ (storePixel m ch x y out).cols = m.cols ∧
      (storePixel m ch x y out).type = m.type := by
  unfold storePixel
  simp only
  split_ifs <;> simp [Mat.store]

/-- The `switch` of the body: an element of the slot of the pixel receives the channel of
the colour that its offset selects, every other element of the raster is kept. -/
theorem storePixel_data (m : Mat) (ch x y : Int) (out : RGBVector) (y2 j : Int) :
    (storePixel m ch x y out).data y2 j =
      if pixelSlot ch x y y2 j then channelValue (j - ch * x) out else m.data y2 j := by
  unfold storePixel pixelSlot channelValue
  by_cases h1 : ch = 1
  · subst h1
    simp only [Mat.store]
    norm_num
    split_ifs <;> first | rfl | omega
  by_cases h2 : ch = 2
  · subst h2
    simp only [Mat.store]
    norm_num
    split_ifs <;> first | rfl | omega
  by_cases h3 : ch = 3
  · subst h3
    simp only [Mat.store]
    norm_num
    split_ifs <;> first | rfl | omega
  by_cases h4 : ch = 4
  · subst h4
    simp only [Mat.store]
    norm_num
    split_ifs <;> first | rfl | omega
  · have hno : ¬ (1 ≤ ch ∧ ch ≤ 4) := by omega
    simp [h1, h2, h3, h4, hno]

/-- The slot of a pixel determines the pixel: the element holds the channel `j % channels`
of the colour of pixel `(j / channels, y2)`. -/
theorem pixelSlot_channel (ch x y y2 j : Int) (colour : Int → Int → RGBVector)
    (h : pixelSlot ch x y y2 j) :
    channelValue (j - ch * x) (colour x y) = channelValue (j % ch) (colour (j / ch) y2) := by
  obtain ⟨hy, hch, hj⟩ := h
  subst hy
  have hcases : ch = 1 ∨ ch = 2 ∨ ch = 3 ∨ ch = 4 := by omega
  rcases hcases with h | h | h | h <;> subst h <;> norm_num at hj
  · have hx : j = x := by omega
    subst hx
    simp
  · have hx : j / 2 = x := by omega
    have hc : j % 2 = j - 2 * x := by omega
    rw [hx, hc]
  · have hx : j / 3 = x := by omega
    have hc : j % 3 = j - 3 * x := by omega
    rw [hx, hc]
  · have hx : j / 4 = x := by omega
    have hc : j % 4 = j - 4 * x := by omega
    rw [hx, hc]

/-- Storing, pixel after pixel, the colours given by a function of the pixel: an element
in the slot of a visited pixel holds the channel of that pixel's colour, every other
element is kept, and the size and type of the raster are kept. -/
theorem storeFold_data (ch : Int) (colour : Int → Int → RGBVector)
    (pixels : List (Int × Int)) (m : Mat) :
    let out := pixels.foldl (fun m p => storePixel m ch p.1 p.2 (colour p.1 p.2)) m
    (out.rows = m.rows ∧ out.cols = m.cols ∧ out.type = m.type) ∧
    ∀ y j, out.data y j =
      if ∃ p ∈ pixels, pixelSlot ch p.1 p.2 y j then
        channelValue (j % ch) (colour (j / ch) y)
      else m.data y j := by
  induction pixels generalizing m with
  | nil => simp
  | cons p rest ih =>
    simp only [List.foldl_cons]
    obtain ⟨hf, hd⟩ := ih (storePixel m ch p.1 p.2 (colour p.1 p.2))
    obtain ⟨f1, f2, f3⟩ := storePixel_fields m ch p.1 p.2 (colour p.1 p.2)
    refine ⟨⟨by rw [hf.1, f1], by rw [hf.2.1, f2], by rw [hf.2.2, f3]⟩, ?_⟩
    intro y j
    rw [hd y j, storePixel_data]
    by_cases hr : ∃ q ∈ rest, pixelSlot ch q.1 q.2 y j
    · have hall : ∃ q ∈ p :: rest, pixelSlot ch q.1 q.2 y j := by
        obtain ⟨q, hq, hs⟩ := hr
        exact ⟨q, List.mem_cons_of_mem _ hq, hs⟩
      rw [if_pos hr, if_pos hall]
    · rw [if_neg hr]
      by_cases hp : pixelSlot ch p.1 p.2 y j
      · have hall : ∃ q ∈ p :: rest, pixelSlot ch q.1 q.2 y j :=
          ⟨p, List.mem_cons_self _ _, hp⟩
        rw [if_pos hp, if_pos hall]
        exact pixelSlot_channel ch p.1 p.2 y j colour hp
      · have hall : ¬ ∃ q ∈ p :: rest, pixelSlot ch q.1 q.2 y j := by
          rintro ⟨q, hq, hs⟩
          rcases List.mem_cons.1 hq with h | h
          · subst h; exact hp hs
          · exact hr ⟨q, h, hs⟩
        rw [if_neg hp, if_neg hall]

/-- When every call on the pixels to visit returns the colour given by a function of the
pixel and keeps an invariant of the operator object, the pixel loops end without
exception and have stored exactly these colours. -/
theorem processPixels_of_colour {α σ : Type} (op : Operator α σ) (src : Mat)
    (colour : Int → Int → RGBVector) (I : op.Inst → Prop) (pixels : List (Int × Int))
    (hcall : ∀ p ∈ pixels, ∀ inst s, I inst →
      ∃ inst2 s2, op.call inst p.1 p.2 src s = .ok (colour p.1 p.2, inst2, s2) ∧ I inst2)
    (inst : op.Inst) (hI : I inst) (m : Mat) (s : σ) :
    (processPixels op (some src) pixels inst m s).error = none ∧
    (processPixels op (some src) pixels inst m s).filtered =
      pixels.foldl (fun m p => storePixel m (OpenCVTypeInfo.channels op.output_type)
        p.1 p.2 (colour p.1 p.2)) m := by
  induction pixels generalizing inst m s with
  | nil => exact ⟨rfl, rfl⟩
  | cons p rest ih =>
    obtain ⟨x, y⟩ := p
    obtain ⟨inst2, s2, hc, hI2⟩ := hcall (x, y) (List.mem_cons_self _ _) inst s hI
    unfold processPixels
    simp only [Option.getD_some] at hc ⊢
    rw [hc]
    simp only [List.foldl_cons]
    exact ih (fun q hq => hcall q (List.mem_cons_of_mem _ hq)) inst2 hI2 _ s2

/-- When the constructor returns an operator object with the invariant and every call on
the pixels of the blocks returns the colour given by a function of the pixel, the run
over the blocks ends without exception and has stored exactly these colours. -/
theorem foldl_runBlock_of_colour {α σ : Type} (op : Operator α σ) (src : Mat) (args : α)
    (colour : Int → Int → RGBVector) (I : op.Inst → Prop) (inst0 : op.Inst)
    (hcons : op.construct args = .ok inst0) (hI0 : I inst0) (tiles : List Block)
    (hcall : ∀ b ∈ tiles, ∀ p ∈ b.pixels, ∀ inst s, I inst →
      ∃ inst2 s2, op.call inst p.1 p.2 src s = .ok (colour p.1 p.2, inst2, s2) ∧ I inst2)
    (m : Mat) (s : σ) :
    (tiles.foldl (runBlock op (some src) args) ⟨none, m, s⟩).error = none ∧
    (tiles.foldl (runBlock op (some src) args) ⟨none, m, s⟩).filtered =
      (tiles.flatMap Block.pixels).foldl
        (fun m p => storePixel m (OpenCVTypeInfo.channels op.output_type)
          p.1 p.2 (colour p.1 p.2)) m := by
  induction tiles generalizing m s with
  | nil => exact ⟨rfl, rfl⟩
  | cons b t ih =>
    obtain ⟨h1, h2⟩ := processPixels_of_colour op src colour I b.pixels
      (hcall b (List.mem_cons_self _ _)) inst0 hI0 m s
    have hrun : runBlock op (some src) args ⟨none, m, s⟩ b =
        ⟨none, b.pixels.foldl (fun m p => storePixel m
          (OpenCVTypeInfo.channels op.output_type) p.1 p.2 (colour p.1 p.2)) m,
          (processPixels op (some src) b.pixels inst0 m s).shared⟩ := by
      unfold runBlock
      rw [hcons]
      simp only [Option.isSome_none, Bool.false_eq_true, if_false, h1, h2]
    rw [List.foldl_cons, hrun, List.flatMap_cons, List.foldl_append]
    exact ih (fun b2 hb2 => hcall b2 (List.mem_cons_of_mem _ hb2)) _ _

/-- The pixels visited by the blocks of a tiling are exactly the pixels of the range. -/
theorem mem_tiling_pixels {range : Block} {tiles : List Block} (ht : IsTiling range tiles)
    (x y : Int) :
    (x, y) ∈ tiles.flatMap Block.pixels ↔ blockContains range x y := by
  simp only [List.mem_flatMap, mem_Block_pixels]
  constructor
  · rintro ⟨b, hb, hc⟩
    obtain ⟨-, hrow, hcol⟩ := ht.1 b hb
    unfold blockContains at hc ⊢
    omega
  · intro h
    exact ht.2.1 x y h

/-- The allocating overload on a source of the input type, when the constructor accepts
the arguments and every call on a pixel of the image returns the colour given by a
function of the pixel: the result has the size of the source and the output type, an
element in the slot of a pixel of the image holds the channel of that pixel's colour,
and every other element is zero. -/
theorem Filter_of_colour {α σ : Type} (op : Operator α σ) (tiles : List Block) (img : Mat)
    (args : α) (shared : σ) (colour : Int → Int → RGBVector) (I : op.Inst → Prop)
    (inst0 : op.Inst) (htype : img.type = op.input_type)
    (hcons : op.construct args = .ok inst0) (hI0 : I inst0)
    (hcall : ∀ x y, (0 ≤ x ∧ x < img.cols) → (0 ≤ y ∧ y < img.rows) → ∀ inst s, I inst →
      ∃ inst2 s2, op.call inst x y img s = .ok (colour x y, inst2, s2) ∧ I inst2)
    (htiling : IsTiling ⟨0, img.rows, 0, img.cols⟩ tiles) :
    ∃ out, internal.Filter op tiles img args shared = .ok out ∧
      (out.rows = img.rows ∧ out.cols = img.cols ∧ out.type = op.output_type) ∧
      (∀ y j, (∃ x, ((0 ≤ x ∧ x < img.cols) ∧ (0 ≤ y ∧ y < img.rows)) ∧
          pixelSlot (OpenCVTypeInfo.channels op.output_type) x y y j) →
        out.data y j = channelValue (j % OpenCVTypeInfo.channels op.output_type)
          (colour (j / OpenCVTypeInfo.channels op.output_type) y)) ∧
      (∀ y j, (¬ ∃ x, ((0 ≤ x ∧ x < img.cols) ∧ (0 ≤ y ∧ y < img.rows)) ∧
          pixelSlot (OpenCVTypeInfo.channels op.output_type) x y y j) →
        out.data y j = 0) := by
  have h1 : ¬ img.type ≠ op.input_type := by simpa using htype
  have h2 : ¬ (Mat.zeros img.rows img.cols op.output_type).type ≠ op.output_type := by
    simp [Mat.zeros]
  by_cases hempty : Block.empty ⟨0, img.rows, 0, img.cols⟩ = true
  · refine ⟨Mat.zeros img.rows img.cols op.output_type, ?_, ⟨rfl, rfl, rfl⟩, ?_, ?_⟩
    · unfold internal.Filter FilterInto parallelFor
      simp [h1, h2, hempty]
    · rintro y j ⟨x, ⟨hx, hy⟩, -⟩
      exfalso
      unfold Block.empty at hempty
      simp only [Bool.or_eq_true, Bool.not_eq_eq_eq_not, Bool.not_true,
        decide_eq_false_iff_not] at hempty
      omega
    · intro y j _
      rfl
  · have hcall2 : ∀ b ∈ tiles, ∀ p ∈ b.pixels, ∀ inst s, I inst →
        ∃ inst2 s2, op.call inst p.1 p.2 img s = .ok (colour p.1 p.2, inst2, s2) ∧
          I inst2 := by
      intro b hb p hp
      have hmem : (p.1, p.2) ∈ tiles.flatMap Block.pixels :=
        List.mem_flatMap.2 ⟨b, hb, hp⟩
      have hin := (mem_tiling_pixels htiling p.1 p.2).1 hmem
      unfold blockContains at hin
      exact hcall p.1 p.2 hin.2 hin.1
    obtain ⟨e1, e2⟩ := foldl_runBlock_of_colour op img args colour I inst0 hcons hI0 tiles
      hcall2 (Mat.zeros img.rows img.cols op.output_type) shared
    obtain ⟨hf, hd⟩ := storeFold_data (OpenCVTypeInfo.channels op.output_type) colour
      (tiles.flatMap Block.pixels) (Mat.zeros img.rows img.cols op.output_type)
    have hrun : FilterInto op tiles (Mat.zeros img.rows img.cols op.output_type) (some img)
        args shared = tiles.foldl (runBlock op (some img) args)
          ⟨none, Mat.zeros img.rows img.cols op.output_type, shared⟩ := by
      unfold FilterInto parallelFor
      simp [h1, h2, hempty]
    refine ⟨_, ?_, hf, ?_, ?_⟩
    · unfold internal.Filter
      simp only [h1, if_false, hrun, e1, e2]
    · rintro y j ⟨x, hin, hs⟩
      rw [hd y j, if_pos]
      refine ⟨(x, y), ?_, hs⟩
      exact (mem_tiling_pixels htiling x y).2 ⟨⟨hin.2.1, hin.2.2⟩, ⟨hin.1.1, hin.1.2⟩⟩
    · intro y j hno
      rw [hd y j, if_neg]
      · rfl
      · rintro ⟨p, hp, hs⟩
        have hin := (mem_tiling_pixels htiling p.1 p.2).1 hp
        unfold blockContains at hin
        have hy : y = p.2 := hs.1
        subst hy
        exact hno ⟨p.1, ⟨hin.2, hin.1⟩, hs⟩

/-- C12: for every operator `Op` whose constructor accepts the arguments and whose calls
on the pixels of the image return the colour `op(x, y, img)`, every source image matching
`Op`'s input encoding and every tiling of the image, `Filter<Op>(img, args)` returns an
image with the rows and columns of `img` and `Op`'s output type, and at every pixel
`(x, y)` the stored channels are those selected by `Op`'s declared output channel count
from the colour `op(x, y, img)`: element `x` of row `y` is red when there is 1 channel,
elements `2x, 2x+1` are red, green when there are 2, and elements `c*x, c*x+1, c*x+2`
are red, green, blue when there are `c = 3` or `c = 4` channels; every element that is
not one of these is zero. -/
theorem Filter_stores_selected_channels {α σ : Type} (op : Operator α σ)
    (tiles : List Block) (img : Mat) (args : α) (shared : σ)
    (colour : Int → Int → RGBVector) (I : op.Inst → Prop) (inst0 : op.Inst)
    (htype : img.type = op.input_type)
    (hcons : op.construct args = .ok inst0) (hI0 : I inst0)
    (hcall : ∀ x y, (0 ≤ x ∧ x < img.cols) → (0 ≤ y ∧ y < img.rows) → ∀ inst s, I inst →
      ∃ inst2 s2, op.call inst x y img s = .ok (colour x y, inst2, s2) ∧ I inst2)
    (htiling : IsTiling ⟨0, img.rows, 0, img.cols⟩ tiles) :
    ∃ out, internal.Filter op tiles img args shared = .ok out ∧
      (out.rows = img.rows ∧ out.cols = img.cols ∧ out.type = op.output_type) ∧
      (∀ x y, (0 ≤ x ∧ x < img.cols) → (0 ≤ y ∧ y < img.rows) →
        (OpenCVTypeInfo.channels op.output_type = 1 → out.data y x = (colour x y).red) ∧
        (OpenCVTypeInfo.channels op.output_type = 2 →
          out.data y (2 * x) = (colour x y).red ∧
          out.data y (2 * x + 1) = (colour x y).green) ∧
        (∀ c, (c = 3 ∨ c = 4) → OpenCVTypeInfo.channels op.output_type = c →
          out.data y (c * x) = (colour x y).red ∧
          out.data y (c * x + 1) = (colour x y).green ∧
          out.data y (c * x + 2) = (colour x y).blue)) ∧
      (∀ y j, (¬ ∃ x, ((0 ≤ x ∧ x < img.cols) ∧ (0 ≤ y ∧ y < img.rows)) ∧
          pixelSlot (OpenCVTypeInfo.channels op.output_type) x y y j) →
        out.data y j = 0) := by
  obtain ⟨out, hout, hf, hslot, hzero⟩ := Filter_of_colour op tiles img args shared colour I
    inst0 htype hcons hI0 hcall htiling
  refine ⟨out, hout, hf, ?_, hzero⟩
  intro x y hx hy
  have key : ∀ ch c : Int, OpenCVTypeInfo.channels op.output_type = ch →
      (1 ≤ ch ∧ ch ≤ 4) → (0 ≤ c ∧ c < min ch 3) →
      out.data y (ch * x + c) = channelValue c (colour x y) := by
    intro ch c hch h14 hc
    have hs : pixelSlot ch x y y (ch * x + c) := ⟨rfl, h14, by omega, by omega⟩
    rw [hslot y (ch * x + c) ⟨x, ⟨hx, hy⟩, by rw [hch]; exact hs⟩, hch]
    exact (pixelSlot_channel ch x y y (ch * x + c) colour hs).symm.trans (by simp)
  refine ⟨?_, ?_, ?_⟩
  · intro h
    have := key 1 0 h (by decide) (by decide)
    simpa [channelValue] using this
  · intro h
    have a := key 2 0 h (by decide) (by decide)
    have b := key 2 1 h (by decide) (by decide)
    simp only [channelValue] at a b
    norm_num at a b
    exact ⟨a, b⟩
  · rintro c (rfl | rfl) h
    · have a := key 3 0 h (by decide) (by decide)
      have b := key 3 1 h (by decide) (by decide)
      have d := key 3 2 h (by decide) (by decide)
      simp only [channelValue] at a b d
      norm_num at a b d
      exact ⟨a, b, d⟩
    · have a := key 4 0 h (by decide) (by decide)
      have b := key 4 1 h (by decide) (by decide)
      have d := key 4 2 h (by decide) (by decide)
      simp only [channelValue] at a b d
      norm_num at a b d
      exact ⟨a, b, d⟩

/-- A non-empty range split into the single block that is the range itself. -/
theorem IsTiling_single (range : Block) (h : range.empty = false) : IsTiling range [range] := by
  refine ⟨?_, ?_, List.pairwise_singleton _ _⟩
  · intro b hb
    rw [List.mem_singleton] at hb
    subst hb
    exact ⟨h, ⟨le_refl _, le_refl _⟩, ⟨le_refl _, le_refl _⟩⟩
  · intro x y hc
    exact ⟨range, List.mem_singleton.2 rfl, hc⟩

/-- At an in-bounds pixel the call of `VMFilter` returns: it throws only through the
constructor of `ROI`. -/
theorem VMFilter_call_ok (f : VMFilter) (x y : Int) (img : Mat)
    (hx : 0 ≤ x ∧ x < img.cols) (hy : 0 ≤ y ∧ y < img.rows) :
    f.call x y img = .ok (resultColour (f.call x y img)) := by
  unfold VMFilter.call ROI.square
  rw [ROI_new_ok img x y f.width_ f.width_ hx hy]
  rfl

/-- At an in-bounds pixel the call of `VectorRangeFilter` returns. -/
theorem VectorRangeFilter_call_ok (f : internal.VectorRangeFilter) (x y : Int) (img : Mat)
    (hx : 0 ≤ x ∧ x < img.cols) (hy : 0 ≤ y ∧ y < img.rows) :
    f.call x y img = .ok (resultColour (f.call x y img)) := by
  unfold VectorRangeFilter.call ROI.square
  rw [ROI_new_ok img x y f.width_ f.width_ hx hy]
  rfl

/-- Witness of C12: the vector median filter of width `3` on the `3 × 3` example image,
run as a single block. -/
theorem Filter_stores_selected_channels_witness :
    ∃ out, internal.Filter VMFilter.operator [⟨0, 3, 0, 3⟩] cornerSpeck 3 () = .ok out ∧
      (out.rows = cornerSpeck.rows ∧ out.cols = cornerSpeck.cols ∧
        out.type = VMFilter.operator.output_type) ∧
      (∀ x y, (0 ≤ x ∧ x < cornerSpeck.cols) → (0 ≤ y ∧ y < cornerSpeck.rows) →
        (OpenCVTypeInfo.channels VMFilter.operator.output_type = 1 →
          out.data y x = (resultColour (VMFilter.call ⟨3⟩ x y cornerSpeck)).red) ∧
        (OpenCVTypeInfo.channels VMFilter.operator.output_type = 2 →
          out.data y (2 * x) = (resultColour (VMFilter.call ⟨3⟩ x y cornerSpeck)).red ∧
          out.data y (2 * x + 1) = (resultColour (VMFilter.call ⟨3⟩ x y cornerSpeck)).green) ∧
        (∀ c, (c = 3 ∨ c = 4) → OpenCVTypeInfo.channels VMFilter.operator.output_type = c →
          out.data y (c * x) = (resultColour (VMFilter.call ⟨3⟩ x y cornerSpeck)).red ∧
          out.data y (c * x + 1) = (resultColour (VMFilter.call ⟨3⟩ x y cornerSpeck)).green ∧
          out.data y (c * x + 2)
            = (resultColour (VMFilter.call ⟨3⟩ x y cornerSpeck)).blue)) ∧
      (∀ y j, (¬ ∃ x, ((0 ≤ x ∧ x < cornerSpeck.cols) ∧ (0 ≤ y ∧ y < cornerSpeck.rows)) ∧
          pixelSlot (OpenCVTypeInfo.channels VMFilter.operator.output_type) x y y j) →
        out.data y j = 0) :=
  Filter_stores_selected_channels VMFilter.operator [⟨0, 3, 0, 3⟩] cornerSpeck 3 ()
    (fun x y => resultColour (VMFilter.call ⟨3⟩ x y cornerSpeck)) (fun f => f = ⟨3⟩) ⟨3⟩
    rfl rfl rfl
    (fun x y hx hy inst s hI => by
      subst hI
      refine ⟨⟨3⟩, s, ?_, rfl⟩
      show (VMFilter.call ⟨3⟩ x y cornerSpeck).map _ = _
      rw [VMFilter_call_ok ⟨3⟩ x y cornerSpeck hx hy]
      rfl)
    (IsTiling_single ⟨0, 3, 0, 3⟩ (by decide))

/-- Two rasters with the same size, type and elements are the same raster. -/
theorem Mat_eq_of_fields (a b : Mat) (hr : a.rows = b.rows) (hc : a.cols = b.cols)
    (ht : a.type = b.type) (hd : ∀ y j, a.data y j = b.data y j) : a = b := by
  cases a; cases b
  simp only [Mat.mk.injEq] at *
  exact ⟨hr, hc, ht, funext (fun y => funext (fun j => hd y j))⟩

/-- For an operator whose calls return a colour that is a function of the pixel, the
image returned by the allocating overload is the same for every tiling of the image. -/
theorem Filter_tiling_independent {α σ : Type} (op : Operator α σ)
    (tiles1 tiles2 : List Block) (img : Mat) (args : α) (shared : σ)
    (colour : Int → Int → RGBVector) (I : op.Inst → Prop) (inst0 : op.Inst)
    (htype : img.type = op.input_type)
    (hcons : op.construct args = .ok inst0) (hI0 : I inst0)
    (hcall : ∀ x y, (0 ≤ x ∧ x < img.cols) → (0 ≤ y ∧ y < img.rows) → ∀ inst s, I inst →
      ∃ inst2 s2, op.call inst x y img s = .ok (colour x y, inst2, s2) ∧ I inst2)
    (h1 : IsTiling ⟨0, img.rows, 0, img.cols⟩ tiles1)
    (h2 : IsTiling ⟨0, img.rows, 0, img.cols⟩ tiles2) :
    internal.Filter op tiles1 img args shared = internal.Filter op tiles2 img args shared := by
  obtain ⟨o1, e1, f1, s1, z1⟩ := Filter_of_colour op tiles1 img args shared colour I inst0
    htype hcons hI0 hcall h1
  obtain ⟨o2, e2, f2, s2, z2⟩ := Filter_of_colour op tiles2 img args shared colour I inst0
    htype hcons hI0 hcall h2
  rw [e1, e2]
  congr 1
  apply Mat_eq_of_fields
  · rw [f1.1, f2.1]
  · rw [f1.2.1, f2.2.1]
  · rw [f1.2.2, f2.2.2]
  · intro y j
    by_cases h : ∃ x, ((0 ≤ x ∧ x < img.cols) ∧ (0 ≤ y ∧ y < img.rows)) ∧
        pixelSlot (OpenCVTypeInfo.channels op.output_type) x y y j
    · rw [s1 y j h, s2 y j h]
    · rw [z1 y j h, z2 y j h]

/-- The image returned by `VectorMedianFilter` is the same for every tiling of the image,
for every source of type `CV_8UC3` and every width. -/
theorem VectorMedianFilter_tiling_independent (tiles1 tiles2 : List Block) (img : Mat)
    (window : Int) (htype : img.type = CV_8UC3)
    (h1 : IsTiling ⟨0, img.rows, 0, img.cols⟩ tiles1)
    (h2 : IsTiling ⟨0, img.rows, 0, img.cols⟩ tiles2) :
    VectorMedianFilter tiles1 img window = VectorMedianFilter tiles2 img window := by
  unfold VectorMedianFilter
  cases hc : VMFilter.new window with
  | error e =>
    by_cases hempty : img.rows ≤ 0 ∨ img.cols ≤ 0
    · rw [Filter_of_empty_range _ _ _ _ htype hempty, Filter_of_empty_range _ _ _ _ htype hempty]
    · have ht : ∀ tiles, IsTiling ⟨0, img.rows, 0, img.cols⟩ tiles → tiles ≠ [] := by
        intro tiles ht hnil
        obtain ⟨b, hb, -⟩ := ht.2.1 0 0
          ⟨⟨le_refl _, by show (0 : Int) < img.rows; omega⟩,
            ⟨le_refl _, by show (0 : Int) < img.cols; omega⟩⟩
        rw [hnil] at hb
        exact absurd hb (List.not_mem_nil _)
      rw [(Filter_of_construct_error VMFilter.operator window e hc tiles1 (ht _ h1) img htype
          (by omega) (by omega) ()).1,
        (Filter_of_construct_error VMFilter.operator window e hc tiles2 (ht _ h2) img htype
          (by omega) (by omega) ()).1]
  | ok f =>
    exact Filter_tiling_independent VMFilter.operator tiles1 tiles2 img window ()
      (fun x y => resultColour (VMFilter.call f x y img)) (fun g => g = f) f htype hc rfl
      (fun x y hx hy inst s hI => by
        subst hI
        refine ⟨inst, s, ?_, rfl⟩
        show (VMFilter.call inst x y img).map _ = _
        rw [VMFilter_call_ok inst x y img hx hy]
        rfl) h1 h2

/-- The image returned by `VectorRangeFilter` is the same for every tiling of the image,
for every source of type `CV_8UC3` and every width. -/
theorem VectorRangeFilter_tiling_independent (tiles1 tiles2 : List Block) (img : Mat)
    (window : Int) (htype : img.type = CV_8UC3)
    (h1 : IsTiling ⟨0, img.rows, 0, img.cols⟩ tiles1)
    (h2 : IsTiling ⟨0, img.rows, 0, img.cols⟩ tiles2) :
    VectorRangeFilter tiles1 img window = VectorRangeFilter tiles2 img window := by
  unfold VectorRangeFilter
  cases hc : VectorRangeFilter.new window with
  | error e =>
    by_cases hempty : img.rows ≤ 0 ∨ img.cols ≤ 0
    · rw [Filter_of_empty_range _ _ _ _ htype hempty, Filter_of_empty_range _ _ _ _ htype hempty]
    · have ht : ∀ tiles, IsTiling ⟨0, img.rows, 0, img.cols⟩ tiles → tiles ≠ [] := by
        intro tiles ht hnil
        obtain ⟨b, hb, -⟩ := ht.2.1 0 0
          ⟨⟨le_refl _, by show (0 : Int) < img.rows; omega⟩,
            ⟨le_refl _, by show (0 : Int) < img.cols; omega⟩⟩
        rw [hnil] at hb
        exact absurd hb (List.not_mem_nil _)
      rw [(Filter_of_construct_error VectorRangeFilter.operator window e hc tiles1 (ht _ h1)
          img htype (by omega) (by omega) ()).1,
        (Filter_of_construct_error VectorRangeFilter.operator window e hc tiles2 (ht _ h2)
          img htype (by omega) (by omega) ()).1]
  | ok f =>
    exact Filter_tiling_independent VectorRangeFilter.operator tiles1 tiles2 img window ()
      (fun x y => resultColour (VectorRangeFilter.call f x y img)) (fun g => g = f) f htype hc
      rfl
      (fun x y hx hy inst s hI => by
        subst hI
        refine ⟨inst, s, ?_, rfl⟩
        show (VectorRangeFilter.call inst x y img).map _ = _
        rw [VectorRangeFilter_call_ok inst x y img hx hy]
        rfl) h1 h2

/-! ## Minimum vector dispersion filter: scratch vectors at the image border -/

/-- The scaled magnitude of a squared distance whose scaled square root has integer part
`q` of quotient `v` by `441`. -/
theorem scaledMagnitude_eq (d : Int) (q : Nat) (v : Int)
    (h1 : q * q ≤ 255 * 255 * d.toNat) (h2 : 255 * 255 * d.toNat < (q + 1) * (q + 1))
    (hv : Int.ofNat (q / 441) = v) : scaledMagnitude d = v := by
  unfold scaledMagnitude
  rw [← Nat.eq_sqrt.2 ⟨h1, h2⟩]
  exact hv

/-- The row of three pixels split into one block per pixel is a tiling. -/
theorem IsTiling_three_pixels :
    IsTiling ⟨0, 1, 0, 3⟩ [⟨0, 1, 0, 1⟩, ⟨0, 1, 1, 2⟩, ⟨0, 1, 2, 3⟩] := by
  refine ⟨?_, ?_, ?_⟩
  · intro b hb
    simp only [List.mem_cons, List.mem_singleton, List.not_mem_nil, or_false] at hb
    rcases hb with h | h | h <;> subst h <;> decide
  · intro x y h
    unfold blockContains at h
    simp only at h
    have hx : x = 0 ∨ x = 1 ∨ x = 2 := by omega
    rcases hx with hx | hx | hx
    · exact ⟨⟨0, 1, 0, 1⟩, by simp, by unfold blockContains; simp only; omega⟩
    · exact ⟨⟨0, 1, 1, 2⟩, by simp, by unfold blockContains; simp only; omega⟩
    · exact ⟨⟨0, 1, 2, 3⟩, by simp, by unfold blockContains; simp only; omega⟩
  · simp only [List.pairwise_cons, List.mem_cons, List.mem_singleton, List.not_mem_nil,
      forall_eq_or_imp, forall_eq, IsEmpty.forall_iff, implies_true, List.Pairwise.nil,
      and_true, blockContains]
    refine ⟨⟨?_, ?_⟩, ?_⟩ <;> intro x y <;> omega

/-- One step of the pixel loops when the call returns. -/
theorem processPixels_cons_ok {α σ : Type} (op : Operator α σ) (src : Mat) (x y : Int)
    (rest : List (Int × Int)) (inst inst2 : op.Inst) (m : Mat) (s s2 : σ) (out : RGBVector)
    (h : op.call inst x y src s = .ok (out, inst2, s2)) :
    processPixels op (some src) ((x, y) :: rest) inst m s =
      processPixels op (some src) rest inst2
        (storePixel m (OpenCVTypeInfo.channels op.output_type) x y out) s2 := by
  conv_lhs => unfold processPixels
  simp only [Option.getD_some]
  rw [h]

/-- The body of a block when the constructor returns and no exception is pending. -/
theorem runBlock_ok {α σ : Type} (op : Operator α σ) (img : Option Mat) (args : α)
    (inst : op.Inst) (h : op.construct args = .ok inst) (m : Mat) (s : σ) (b : Block) :
    runBlock op img args ⟨none, m, s⟩ b =
      ⟨(processPixels op img b.pixels inst m s).error,
        (processPixels op img b.pixels inst m s).filtered,
        (processPixels op img b.pixels inst m s).shared⟩ := by
  unfold runBlock
  rw [h]
  simp

/-- The allocating overload returns the raster that the run over the blocks leaves, when
the source has the input type and at least one pixel and the run ends without exception. -/
theorem Filter_eq_of_run {α σ : Type} (op : Operator α σ) (tiles : List Block) (img : Mat)
    (args : α) (shared s2 : σ) (out : Mat) (htype : img.type = op.input_type)
    (hr : 1 ≤ img.rows) (hc : 1 ≤ img.cols)
    (hrun : tiles.foldl (runBlock op (some img) args)
      ⟨none, Mat.zeros img.rows img.cols op.output_type, shared⟩ = ⟨none, out, s2⟩) :
    internal.Filter op tiles img args shared = .ok out := by
  unfold internal.Filter FilterInto parallelFor
  have h1 : ¬ img.type ≠ op.input_type := by simpa using htype
  have h2 : ¬ (Mat.zeros img.rows img.cols op.output_type).type ≠ op.output_type := by
    simp [Mat.zeros]
  simp only [h1, h2, if_false, Option.getD_some, range_not_empty img.rows img.cols hr hc,
    Bool.false_eq_true, hrun]

/-- The calls of the filter with `(width, k, l) = (3, 2, 4)` on the `1 × 3` image with
pixels `(0,0,0)`, `(30,0,0)`, `(0,0,0)`: the three calls of one operator object along the
row, and the call of a new object at pixel `(2, 0)` and at pixel `(1, 0)`. -/
theorem peakRow_calls :
    MinVecDispersionFilter.new 3 2 4
      = .ok ⟨2, 4, 3, [0, 0, 0, 0, 0, 0, 0, 0, 0], [0, 0, 0, 0, 0, 0, 0, 0, 0]⟩ ∧
    MinVecDispersionFilter.call insertionSort
      ⟨2, 4, 3, [0, 0, 0, 0, 0, 0, 0, 0, 0], [0, 0, 0, 0, 0, 0, 0, 0, 0]⟩ 0 0 peakRow
      = .ok (RGBVector.rgb (scaledMagnitude 49) (scaledMagnitude 49) (scaledMagnitude 49),
        ⟨2, 4, 3, [900, 900, 0, 0, 0, 0, 0, 0, 0], [0, 1, 0, 0, 0, 0, 0, 0, 0]⟩) ∧
    MinVecDispersionFilter.call insertionSort
      ⟨2, 4, 3, [900, 900, 0, 0, 0, 0, 0, 0, 0], [0, 1, 0, 0, 0, 0, 0, 0, 0]⟩ 1 0 peakRow
      = .ok (RGBVector.rgb (scaledMagnitude 49) (scaledMagnitude 49) (scaledMagnitude 49),
        ⟨2, 4, 3, [900, 1800, 900, 0, 0, 0, 0, 0, 0], [0, 2, 1, 0, 0, 0, 0, 0, 0]⟩) ∧
    MinVecDispersionFilter.call insertionSort
      ⟨2, 4, 3, [900, 1800, 900, 0, 0, 0, 0, 0, 0], [0, 2, 1, 0, 0, 0, 0, 0, 0]⟩ 2 0 peakRow
      = .ok (RGBVector.rgb (scaledMagnitude 225) (scaledMagnitude 225) (scaledMagnitude 225),
        ⟨2, 4, 3, [900, 900, 900, 0, 0, 0, 0, 0, 0], [0, 1, 1, 0, 0, 0, 0, 0, 0]⟩) ∧
    MinVecDispersionFilter.call insertionSort
      ⟨2, 4, 3, [0, 0, 0, 0, 0, 0, 0, 0, 0], [0, 0, 0, 0, 0, 0, 0, 0, 0]⟩ 2 0 peakRow
      = .ok (RGBVector.rgb (scaledMagnitude 64) (scaledMagnitude 64) (scaledMagnitude 64),
        ⟨2, 4, 3, [900, 900, 0, 0, 0, 0, 0, 0, 0], [0, 1, 0, 0, 0, 0, 0, 0, 0]⟩) ∧
    MinVecDispersionFilter.call insertionSort
      ⟨2, 4, 3, [0, 0, 0, 0, 0, 0, 0, 0, 0], [0, 0, 0, 0, 0, 0, 0, 0, 0]⟩ 1 0 peakRow
      = .ok (RGBVector.rgb (scaledMagnitude 49) (scaledMagnitude 49) (scaledMagnitude 49),
        ⟨2, 4, 3, [900, 1800, 900, 0, 0, 0, 0, 0, 0], [0, 2, 1, 0, 0, 0, 0, 0, 0]⟩) := by
  refine ⟨rfl, ?_, ?_, ?_, ?_, ?_⟩
  · set_option maxRecDepth 100000 in rfl
  · set_option maxRecDepth 100000 in rfl
  · set_option maxRecDepth 100000 in rfl
  · set_option maxRecDepth 100000 in rfl
  · set_option maxRecDepth 100000 in rfl

/-- C13 at its failing input.  On the `1 × 3` image with pixels `(0,0,0)`, `(30,0,0)`,
`(0,0,0)` the parameters `(width, k, l) = (3, 2, 4)` are accepted by the constructor of
`MinVecDispersionFilter`.  Run as a single block, `MinimumVectorDispersionFilter` writes
`(8, 8, 8)` at pixel `(2, 0)`; run with one block per pixel it writes `(4, 4, 4)` there.
The clamped window at `(2, 0)` has two pixels, fewer than `l = 4`, so the mean also takes
the pixels `window[indices_[2]]` and `window[indices_[3]]`, and `indices_[2]` is `1` when
the operator object has processed pixel `(1, 0)` before and `0` when it is new. -/
theorem MinimumVectorDispersionFilter_depends_on_tiling :
    failed (MinVecDispersionFilter.new 3 2 4) = false ∧
    IsTiling ⟨0, peakRow.rows, 0, peakRow.cols⟩ [⟨0, 1, 0, 3⟩] ∧
    IsTiling ⟨0, peakRow.rows, 0, peakRow.cols⟩ [⟨0, 1, 0, 1⟩, ⟨0, 1, 1, 2⟩, ⟨0, 1, 2, 3⟩] ∧
    (∃ out, MinimumVectorDispersionFilter insertionSort [⟨0, 1, 0, 3⟩] peakRow 2 4 3 = .ok out ∧
      out.data 0 6 = 8 ∧ out.data 0 7 = 8 ∧ out.data 0 8 = 8) ∧
    (∃ out, MinimumVectorDispersionFilter insertionSort
        [⟨0, 1, 0, 1⟩, ⟨0, 1, 1, 2⟩, ⟨0, 1, 2, 3⟩] peakRow 2 4 3 = .ok out ∧
      out.data 0 6 = 4 ∧ out.data 0 7 = 4 ∧ out.data 0 8 = 4) := by
  have h8 : scaledMagnitude 225 = 8 :=
    scaledMagnitude_eq 225 3825 8 (by decide) (by decide) (by decide)
  have h4 : scaledMagnitude 64 = 4 :=
    scaledMagnitude_eq 64 2040 4 (by decide) (by decide) (by decide)
  obtain ⟨hnew, c0, c1, c2, d2, d1⟩ := peakRow_calls
  have hch : OpenCVTypeInfo.channels (MinVecDispersionFilter.operator insertionSort).output_type
      = 3 := by decide
  have hcall : ∀ (f g : MinVecDispersionFilter) (x : Int) (c : RGBVector),
      MinVecDispersionFilter.call insertionSort f x 0 peakRow = .ok (c, g) →
      (MinVecDispersionFilter.operator insertionSort).call f x 0 peakRow () = .ok (c, g, ()) := by
    intro f g x c h
    show (MinVecDispersionFilter.call insertionSort f x 0 peakRow).map _ = _
    rw [h]
    rfl
  have hcons : (MinVecDispersionFilter.operator insertionSort).construct (3, 2, 4)
      = .ok ⟨2, 4, 3, [0, 0, 0, 0, 0, 0, 0, 0, 0], [0, 0, 0, 0, 0, 0, 0, 0, 0]⟩ := hnew
  have p3 : Block.pixels ⟨0, 1, 0, 3⟩ = [(0, 0), (1, 0), (2, 0)] := by decide
  have p0 : Block.pixels ⟨0, 1, 0, 1⟩ = [(0, 0)] := by decide
  have p1 : Block.pixels ⟨0, 1, 1, 2⟩ = [(1, 0)] := by decide
  have p2 : Block.pixels ⟨0, 1, 2, 3⟩ = [(2, 0)] := by decide
  have hA : [(⟨0, 1, 0, 3⟩ : Block)].foldl
      (runBlock (MinVecDispersionFilter.operator insertionSort) (some peakRow) (3, 2, 4))
      ⟨none, Mat.zeros peakRow.rows peakRow.cols
        (MinVecDispersionFilter.operator insertionSort).output_type, ()⟩ =
      ⟨none, storePixel (storePixel (storePixel (Mat.zeros 1 3 CV_8UC3) 3 0 0
          (RGBVector.rgb (scaledMagnitude 49) (scaledMagnitude 49) (scaledMagnitude 49))) 3 1 0
          (RGBVector.rgb (scaledMagnitude 49) (scaledMagnitude 49) (scaledMagnitude 49))) 3 2 0
          (RGBVector.rgb (scaledMagnitude 225) (scaledMagnitude 225) (scaledMagnitude 225)),
        ()⟩ := by
    rw [List.foldl_cons, List.foldl_nil, runBlock_ok _ _ _ _ hcons, p3,
      processPixels_cons_ok _ _ _ _ _ _ _ _ _ _ _ (hcall _ _ _ _ c0),
      processPixels_cons_ok _ _ _ _ _ _ _ _ _ _ _ (hcall _ _ _ _ c1),
      processPixels_cons_ok _ _ _ _ _ _ _ _ _ _ _ (hcall _ _ _ _ c2), hch]
    rfl
  have hB : [(⟨0, 1, 0, 1⟩ : Block), ⟨0, 1, 1, 2⟩, ⟨0, 1, 2, 3⟩].foldl
      (runBlock (MinVecDispersionFilter.operator insertionSort) (some peakRow) (3, 2, 4))
      ⟨none, Mat.zeros peakRow.rows peakRow.cols
        (MinVecDispersionFilter.operator insertionSort).output_type, ()⟩ =
      ⟨none, storePixel (storePixel (storePixel (Mat.zeros 1 3 CV_8UC3) 3 0 0
          (RGBVector.rgb (scaledMagnitude 49) (scaledMagnitude 49) (scaledMagnitude 49))) 3 1 0
          (RGBVector.rgb (scaledMagnitude 49) (scaledMagnitude 49) (scaledMagnitude 49))) 3 2 0
          (RGBVector.rgb (scaledMagnitude 64) (scaledMagnitude 64) (scaledMagnitude 64)),
        ()⟩ := by
    rw [List.foldl_cons, List.foldl_cons, List.foldl_cons, List.foldl_nil,
      runBlock_ok _ _ _ _ hcons, p0,
      processPixels_cons_ok _ _ _ _ _ _ _ _ _ _ _ (hcall _ _ _ _ c0), hch]
    simp only [processPixels]
    rw [runBlock_ok _ _ _ _ hcons, p1,
      processPixels_cons_ok _ _ _ _ _ _ _ _ _ _ _ (hcall _ _ _ _ d1), hch]
    simp only [processPixels]
    rw [runBlock_ok _ _ _ _ hcons, p2,
      processPixels_cons_ok _ _ _ _ _ _ _ _ _ _ _ (hcall _ _ _ _ d2), hch]
    rfl
  refine ⟨by decide, IsTiling_single _ (by decide), IsTiling_three_pixels, ?_, ?_⟩
  · refine ⟨_, Filter_eq_of_run _ _ peakRow _ () () _ rfl (by decide) (by decide) hA,
      ?_, ?_, ?_⟩
    · rw [storePixel_data, if_pos (by decide), h8]; rfl
    · rw [storePixel_data, if_pos (by decide), h8]; rfl
    · rw [storePixel_data, if_pos (by decide), h8]; rfl
  · refine ⟨_, Filter_eq_of_run _ _ peakRow _ () () _ rfl (by decide) (by decide) hB,
      ?_, ?_, ?_⟩
    · rw [storePixel_data, if_pos (by decide), h4]; rfl
    · rw [storePixel_data, if_pos (by decide), h4]; rfl
    · rw [storePixel_data, if_pos (by decide), h4]; rfl

/-- C14 at its failing input.  On the `1 × 3` image with pixels `(0,0,0)`, `(0,0,0)`,
`(30,0,0)` the parameters `(width, k, l) = (3, 1, 3)` are accepted by the constructor.
After the calls at `(0, 0)` and `(1, 0)` the vector `indices_` starts with `0, 1, 2`.  At
pixel `(2, 0)` the clamped window has `N = 2` pixels; the loops read the positions
`0, 1, 2, 1` of `indices_`, of which `2` is not in `[0, N)`, and the pixel
`window[indices_[2]] = window[2]` lies in row `1` of a raster that has one row. -/
theorem MinVecDispersionFilter_reads_outside :
    MinVecDispersionFilter.new 3 1 3
      = .ok ⟨1, 3, 3, [0, 0, 0, 0, 0, 0, 0, 0, 0], [0, 0, 0, 0, 0, 0, 0, 0, 0]⟩ ∧
    (MinVecDispersionFilter.call insertionSort
      ⟨1, 3, 3, [0, 0, 0, 0, 0, 0, 0, 0, 0], [0, 0, 0, 0, 0, 0, 0, 0, 0]⟩ 0 0
      stepRow).toOption.map Prod.snd
      = some ⟨1, 3, 3, [0, 0, 0, 0, 0, 0, 0, 0, 0], [0, 1, 0, 0, 0, 0, 0, 0, 0]⟩ ∧
    (MinVecDispersionFilter.call insertionSort
      ⟨1, 3, 3, [0, 0, 0, 0, 0, 0, 0, 0, 0], [0, 1, 0, 0, 0, 0, 0, 0, 0]⟩ 1 0
      stepRow).toOption.map Prod.snd
      = some ⟨1, 3, 3, [900, 900, 1800, 0, 0, 0, 0, 0, 0], [0, 1, 2, 0, 0, 0, 0, 0, 0]⟩ ∧
    ROI.square stepRow 2 0 3 = .ok ⟨stepRow, 2, 0, 1, 2, 0, 0⟩ ∧
    (ROI.mk stepRow 2 0 1 2 0 0).Width * (ROI.mk stepRow 2 0 1 2 0 0).Height = 2 ∧
    MinVecDispersionFilter.fill ⟨stepRow, 2, 0, 1, 2, 0, 0⟩ stepRow
      [900, 900, 1800, 0, 0, 0, 0, 0, 0] = ([900, 900, 1800, 0, 0, 0, 0, 0, 0], 2) ∧
    ArgSort insertionSort [900, 900, 1800, 0, 0, 0, 0, 0, 0] [0, 1, 2, 0, 0, 0, 0, 0, 0] 2
      = [0, 1, 2, 0, 0, 0, 0, 0, 0] ∧
    MinVecDispersionFilter.indexReads 3 1 2 = [0, 1, 2, 1] ∧
    MinVecDispersionFilter.pixelReads 3 1 2 ⟨stepRow, 2, 0, 1, 2, 0, 0⟩
      [0, 1, 2, 0, 0, 0, 0, 0, 0] = [⟨0, 3⟩, ⟨0, 6⟩, ⟨1, 3⟩, ⟨0, 6⟩] ∧
    stepRow.rows = 1 := by
  refine ⟨rfl, ?_, ?_, rfl, by decide, ?_, ?_, ?_, ?_, rfl⟩
  · set_option maxRecDepth 100000 in rfl
  · set_option maxRecDepth 100000 in rfl
  · set_option maxRecDepth 100000 in decide
  · set_option maxRecDepth 100000 in decide
  · set_option maxRecDepth 100000 in decide
  · set_option maxRecDepth 100000 in decide

/-! ## The scaled magnitude -/

/-- The model of the scaled magnitude is the integer part of the real quantity
`255 * sqrt(d) / 441`. -/
theorem scaledMagnitude_eq_floor (d : Int) (h0 : 0 ≤ d) :
    scaledMagnitude d = ⌊255 * Real.sqrt (d : ℝ) / 441⌋ := by
  obtain ⟨n, rfl⟩ := Int.eq_ofNat_of_zero_le h0
  have hs : (255 : ℝ) * Real.sqrt ((n : ℤ) : ℝ) = Real.sqrt (((255 * 255 * n : ℕ) : ℝ)) := by
    have h65 : (((255 * 255 * n : ℕ) : ℝ)) = 255 * 255 * (n : ℝ) := by push_cast; ring
    rw [h65, Real.sqrt_mul (by norm_num : (0 : ℝ) ≤ 255 * 255),
      Real.sqrt_mul_self (by norm_num : (0 : ℝ) ≤ 255)]
    simp
  have hnn : (0 : ℝ) ≤ Real.sqrt (((255 * 255 * n : ℕ) : ℝ)) / 441 :=
    div_nonneg (Real.sqrt_nonneg _) (by norm_num)
  rw [hs, ← Int.natCast_floor_eq_floor hnn]
  have h441 : (441 : ℝ) = ((441 : ℕ) : ℝ) := by norm_num
  rw [h441, Nat.floor_div_nat, Real.nat_floor_real_sqrt_eq_nat_sqrt]
  simp [scaledMagnitude]

/-- C16: for every squared colour distance `d` with `0 ≤ d ≤ 3*255^2 = 195075`, the real
quantity `255*sqrt(d)/441` (`441` being `kMaxDistance`) that `VectorRangeFilter` and
`MinVecDispersionFilter` convert to an 8-bit value satisfies `0 ≤ 255*sqrt(d)/441 < 256`;
the stored value is its integer part `floor(255*sqrt(d)/441)`, which lies in `[0, 255]`,
and it equals `255` for `d = 195075`. -/
theorem scaledMagnitude_fits_byte (d : Int) (h0 : 0 ≤ d) (h1 : d ≤ 3 * 255 ^ 2) :
    (0 ≤ 255 * Real.sqrt (d : ℝ) / (kMaxDistance : ℝ) ∧
      255 * Real.sqrt (d : ℝ) / (kMaxDistance : ℝ) < 256) ∧
    scaledMagnitude d = ⌊255 * Real.sqrt (d : ℝ) / (kMaxDistance : ℝ)⌋ ∧
    (0 ≤ scaledMagnitude d ∧ scaledMagnitude d ≤ 255) ∧
    scaledMagnitude 195075 = 255 ∧
    ((3 : Int) * 255 ^ 2 = 195075 ∧ kMaxDistanceSq = 195075 ∧ kMaxDistance = 441) := by
  have hk : ((kMaxDistance : Int) : ℝ) = 441 := by simp [kMaxDistance]
  have hd : ((d : ℤ) : ℝ) ≤ 195075 := by
    have : d ≤ 195075 := by norm_num at h1; exact h1
    exact_mod_cast this
  have hsq : Real.sqrt (d : ℝ) < 442 := by
    rw [Real.sqrt_lt' (by norm_num)]
    norm_num
    linarith
  have hlow : 0 ≤ 255 * Real.sqrt (d : ℝ) / 441 :=
    div_nonneg (mul_nonneg (by norm_num) (Real.sqrt_nonneg _)) (by norm_num)
  have hup : 255 * Real.sqrt (d : ℝ) / 441 < 256 := by
    rw [div_lt_iff₀ (by norm_num)]
    linarith
  have hfl := scaledMagnitude_eq_floor d h0
  rw [hk]
  refine ⟨⟨hlow, hup⟩, hfl, ⟨?_, ?_⟩, ?_, by norm_num, by decide, by decide⟩
  · rw [hfl]; exact Int.floor_nonneg.2 hlow
  · rw [hfl]
    have : ⌊255 * Real.sqrt (d : ℝ) / 441⌋ < 256 := by
      rw [Int.floor_lt]; exact_mod_cast hup
    omega
  · exact scaledMagnitude_eq 195075 112626 255 (by decide) (by decide) (by decide)

/-- Witness of C16: the squared distance `225`. -/
theorem scaledMagnitude_fits_byte_witness :
    scaledMagnitude 225 = ⌊255 * Real.sqrt ((225 : ℤ) : ℝ) / (kMaxDistance : ℝ)⌋ ∧
    (0 ≤ scaledMagnitude 225 ∧ scaledMagnitude 225 ≤ 255) :=
  ⟨(scaledMagnitude_fits_byte 225 (by decide) (by decide)).2.1,
    (scaledMagnitude_fits_byte 225 (by decide) (by decide)).2.2.1⟩

/-! ## The colour gradient -/

/-- For 8-bit colours the squared distance computed in `int` is the exact one. -/
theorem SquaredDistance_u8_eq (a b : RGBVector) (ha : IsByteColour a) (hb : IsByteColour b) :
    RGBVector.SquaredDistance Elem.u8 a b = exactSquaredDistance a b := by
  obtain ⟨ha1, ha2, ha3, ha4, ha5, ha6⟩ := ha
  obtain ⟨hb1, hb2, hb3, hb4, hb5, hb6⟩ := hb
  have hr := wrapSigned16_eq_self (a.red - b.red) (by omega) (by omega)
  have hg := wrapSigned16_eq_self (a.green - b.green) (by omega) (by omega)
  have hbl := wrapSigned16_eq_self (a.blue - b.blue) (by omega) (by omega)
  have sr := sq_le_of_abs_le_255 (a.red - b.red) (by omega) (by omega)
  have sg := sq_le_of_abs_le_255 (a.green - b.green) (by omega) (by omega)
  have sb := sq_le_of_abs_le_255 (a.blue - b.blue) (by omega) (by omega)
  simp only [RGBVector.SquaredDistance, RGBVector.SquaredMagnitude, RGBVector.sub,
    RGBVector.rgb, Elem.diffBits, hr, hg, hbl, exactSquaredDistance, pow_two]
  apply int32_eq_self
  · norm_num; omega
  · norm_num; omega

/-- The exact squared distance of 8-bit colours lies between `0` and `195075`. -/
theorem exactSquaredDistance_bounds (a b : RGBVector) (ha : IsByteColour a)
    (hb : IsByteColour b) :
    0 ≤ exactSquaredDistance a b ∧ exactSquaredDistance a b ≤ 195075 := by
  obtain ⟨ha1, ha2, ha3, ha4, ha5, ha6⟩ := ha
  obtain ⟨hb1, hb2, hb3, hb4, hb5, hb6⟩ := hb
  have sr := sq_le_of_abs_le_255 (a.red - b.red) (by omega) (by omega)
  have sg := sq_le_of_abs_le_255 (a.green - b.green) (by omega) (by omega)
  have sb := sq_le_of_abs_le_255 (a.blue - b.blue) (by omega) (by omega)
  simp only [exactSquaredDistance, pow_two]
  constructor <;> omega

/-- A pixel of an 8-bit raster of type `CV_8UC3` is an 8-bit colour. -/
theorem ofMat_isByteColour (img : Mat) (htype : img.type = CV_8UC3) (h8 : img.is8U)
    (x y : Int) : IsByteColour (RGBVector.ofMat img x y) := by
  unfold RGBVector.ofMat
  rw [channels_of_8UC3 img htype, ofBuffer_three]
  simp only [IsByteColour, RGBVector.rgb, Mat.deref]
  have a := h8 (img.pixelPtr x y).row ((img.pixelPtr x y).offset + 0)
  have b := h8 (img.pixelPtr x y).row ((img.pixelPtr x y).offset + 1)
  have c := h8 (img.pixelPtr x y).row ((img.pixelPtr x y).offset + 2)
  exact ⟨a.1, a.2, b.1, b.2, c.1, c.2⟩

/-- The integer part of a square root, from the two squares that enclose the argument. -/
theorem sqrtToInt_eq (d : Int) (q : Nat) (h1 : q * q ≤ d.toNat)
    (h2 : d.toNat < (q + 1) * (q + 1)) : sqrtToInt d = (q : Int) := by
  unfold sqrtToInt
  rw [← Nat.eq_sqrt.2 ⟨h1, h2⟩]
  rfl

/-- The integer part of a square root is not negative. -/
theorem sqrtToInt_nonneg (d : Int) : 0 ≤ sqrtToInt d := by
  unfold sqrtToInt
  exact Int.ofNat_nonneg _

/-- One round of the loop of `ColourGradient::operator()`. -/
theorem findMax_step (v : Int) (rest : List Int) (i mi mg : Int) :
    ColourGradient.findMax (v :: rest) i (mi, mg) =
      if v > mg then ColourGradient.findMax rest (i + 1) (i, v)
      else ColourGradient.findMax rest (i + 1) (mi, mg) := by
  conv_lhs => unfold ColourGradient.findMax
  split_ifs <;> rfl

/-- The loop of `ColourGradient::operator()` ends with its state when no entry is left. -/
theorem findMax_nil (i : Int) (s : Int × Int) : ColourGradient.findMax [] i s = s := by
  unfold ColourGradient.findMax
  rfl

/-- The loop of `ColourGradient::operator()` on four responses that are not negative
ends at the first index that attains the greatest response. -/
theorem findMax_four (v0 v1 v2 v3 : Int) (h0 : 0 ≤ v0) (h1 : 0 ≤ v1) (h2 : 0 ≤ v2)
    (h3 : 0 ≤ v3) :
    (ColourGradient.findMax [v0, v1, v2, v3] 0 (0, 0) = (0, v0) ∧
      v1 ≤ v0 ∧ v2 ≤ v0 ∧ v3 ≤ v0) ∨
    (ColourGradient.findMax [v0, v1, v2, v3] 0 (0, 0) = (1, v1) ∧
      v0 < v1 ∧ v2 ≤ v1 ∧ v3 ≤ v1) ∨
    (ColourGradient.findMax [v0, v1, v2, v3] 0 (0, 0) = (2, v2) ∧
      v0 < v2 ∧ v1 < v2 ∧ v3 ≤ v2) ∨
    (ColourGradient.findMax [v0, v1, v2, v3] 0 (0, 0) = (3, v3) ∧
      v0 < v3 ∧ v1 < v3 ∧ v2 < v3) := by
  simp only [findMax_step, findMax_nil]
  split_ifs <;>
    first
    | (refine Or.inl ⟨?_, ?_, ?_, ?_⟩ <;> (first | omega | (norm_num <;> omega)))
    | (have e : v0 = 0 := by omega
       subst e
       exact Or.inl ⟨rfl, by omega, by omega, by omega⟩)
    | (refine Or.inr (Or.inl ⟨?_, ?_, ?_, ?_⟩) <;> (first | omega | (norm_num <;> omega)))
    | (refine Or.inr (Or.inr (Or.inl ⟨?_, ?_, ?_, ?_⟩)) <;>
        (first | omega | (norm_num <;> omega)))
    | (refine Or.inr (Or.inr (Or.inr ⟨?_, ?_, ?_, ?_⟩)) <;>
        (first | omega | (norm_num <;> omega)))

/-- The call of `ColourGradient` returns the angle and the response of the first
orientation, in the order 0, 90, 45, 135 degrees, that attains the greatest of the four
responses, and blue `0`. -/
theorem ColourGradient_call_first_max (img : Mat) (x y : Int) :
    ∃ i, (0 ≤ i ∧ i ≤ 3) ∧
      ColourGradient.call x y img = RGBVector.rgb (kAngles i) (gradientResponse img x y i) 0 ∧
      (∀ j, (0 ≤ j ∧ j ≤ 3) → gradientResponse img x y j ≤ gradientResponse img x y i) ∧
      (∀ j, (0 ≤ j ∧ j < i) → gradientResponse img x y j < gradientResponse img x y i) := by
  have hresp : ColourGradient.responses img x y =
      [gradientResponse img x y 0, gradientResponse img x y 1, gradientResponse img x y 2,
        gradientResponse img x y 3] := rfl
  have hn : ∀ i, 0 ≤ gradientResponse img x y i := fun i => sqrtToInt_nonneg _
  have hcases : ∀ j : Int, (0 ≤ j ∧ j ≤ 3) → j = 0 ∨ j = 1 ∨ j = 2 ∨ j = 3 := by
    intro j hj; omega
  unfold ColourGradient.call
  rw [hresp]
  rcases findMax_four _ _ _ _ (hn 0) (hn 1) (hn 2) (hn 3) with
    ⟨h, a, b, c⟩ | ⟨h, a, b, c⟩ | ⟨h, a, b, c⟩ | ⟨h, a, b, c⟩
  · refine ⟨0, by omega, by rw [h], ?_, ?_⟩
    · intro j hj
      rcases hcases j hj with e | e | e | e <;> subst e <;> omega
    · intro j hj; omega
  · refine ⟨1, by omega, by rw [h], ?_, ?_⟩
    · intro j hj
      rcases hcases j hj with e | e | e | e <;> subst e <;> omega
    · intro j hj
      have e : j = 0 := by omega
      subst e; exact a
  · refine ⟨2, by omega, by rw [h], ?_, ?_⟩
    · intro j hj
      rcases hcases j hj with e | e | e | e <;> subst e <;> omega
    · intro j hj
      have e : j = 0 ∨ j = 1 := by omega
      rcases e with e | e
      · subst e; exact a
      · subst e; exact b
  · refine ⟨3, by omega, by rw [h], ?_, ?_⟩
    · intro j hj
      rcases hcases j hj with e | e | e | e <;> subst e <;> omega
    · intro j hj
      have e : j = 0 ∨ j = 1 ∨ j = 2 := by omega
      rcases e with e | e | e
      · subst e; exact a
      · subst e; exact b
      · subst e; exact c

/-- On an 8-bit raster of type `CV_8UC3` the response of an orientation is the integer
part of the square root of the exact squared distance of its two samples. -/
theorem gradientResponse_eq (img : Mat) (htype : img.type = CV_8UC3) (h8 : img.is8U)
    (x y i : Int) : gradientResponse img x y i = orientationResponse img x y i := by
  have h := SquaredDistance_u8_eq
    (RGBVector.ofMat img (clamp (x + (gradientOffset i).1) 0 (img.cols - 1))
      (clamp (y + (gradientOffset i).2) 0 (img.rows - 1)))
    (RGBVector.ofMat img (clamp (x - (gradientOffset i).1) 0 (img.cols - 1))
      (clamp (y - (gradientOffset i).2) 0 (img.rows - 1)))
    (ofMat_isByteColour img htype h8 _ _) (ofMat_isByteColour img htype h8 _ _)
  show sqrtToInt (RGBVector.SquaredDistance Elem.u8
    (RGBVector.ofMat img (clamp (x + (gradientOffset i).1) 0 (img.cols - 1))
      (clamp (y + (gradientOffset i).2) 0 (img.rows - 1)))
    (RGBVector.ofMat img (clamp (x - (gradientOffset i).1) 0 (img.cols - 1))
      (clamp (y - (gradientOffset i).2) 0 (img.rows - 1)))) = _
  rw [h]
  rfl

/-- C18 (amended): for every 8-bit 3-channel image and every pixel, `ColourGradient` outputs
an angle bucket in `{0, 45, 90, 135}` that belongs to an orientation whose response, the
integer part of the square root of the squared colour distance between its two
border-clamped ±1-pixel samples, is maximal among the four orientations (0: `(x±1, y)`;
90: `(x, y±1)`; 45: `(x±1, y±1)`; 135: `(x±1, y∓1)`), with the green channel holding that
response and blue `0`. -/
theorem ColourGradient_selects_greatest_response (img : Mat) (x y : Int)
    (htype : img.type = CV_8UC3) (h8 : img.is8U)
    (hx : 0 ≤ x ∧ x < img.cols) (hy : 0 ≤ y ∧ y < img.rows) :
    ∃ i, (0 ≤ i ∧ i ≤ 3) ∧
      (ColourGradient.call x y img).red = kAngles i ∧
      (kAngles i = 0 ∨ kAngles i = 45 ∨ kAngles i = 90 ∨ kAngles i = 135) ∧
      (ColourGradient.call x y img).green = orientationResponse img x y i ∧
      (ColourGradient.call x y img).blue = 0 ∧
      (∀ j, (0 ≤ j ∧ j ≤ 3) → orientationResponse img x y j ≤ orientationResponse img x y i) ∧
      (gradientOffset 0 = (1, 0) ∧ gradientOffset 1 = (0, 1) ∧ gradientOffset 2 = (1, 1) ∧
        gradientOffset 3 = (1, -1)) ∧
      (kAngles 0 = 0 ∧ kAngles 1 = 90 ∧ kAngles 2 = 45 ∧ kAngles 3 = 135) := by
  obtain ⟨i, hi, hcall, hmax, -⟩ := ColourGradient_call_first_max img x y
  refine ⟨i, hi, by rw [hcall]; rfl, ?_, ?_, by rw [hcall]; rfl, ?_,
    ⟨rfl, rfl, rfl, rfl⟩, ⟨rfl, rfl, rfl, rfl⟩⟩
  · have e : i = 0 ∨ i = 1 ∨ i = 2 ∨ i = 3 := by omega
    rcases e with e | e | e | e <;> subst e <;> decide
  · rw [hcall, ← gradientResponse_eq img htype h8]; rfl
  · intro j hj
    rw [← gradientResponse_eq img htype h8, ← gradientResponse_eq img htype h8]
    exact hmax j hj

/-- The example raster with two nearly tied orientations holds 8-bit values. -/
theorem nearTie_is8U : nearTie.is8U := by
  intro y j
  simp only [nearTie]
  split_ifs <;> decide

/-- Witness of the amended C18: the centre of the example raster. -/
theorem ColourGradient_selects_greatest_response_witness :
    ∃ i, (0 ≤ i ∧ i ≤ 3) ∧
      (ColourGradient.call 1 1 nearTie).red = kAngles i ∧
      (kAngles i = 0 ∨ kAngles i = 45 ∨ kAngles i = 90 ∨ kAngles i = 135) ∧
      (ColourGradient.call 1 1 nearTie).green = orientationResponse nearTie 1 1 i ∧
      (ColourGradient.call 1 1 nearTie).blue = 0 ∧
      (∀ j, (0 ≤ j ∧ j ≤ 3) →
        orientationResponse nearTie 1 1 j ≤ orientationResponse nearTie 1 1 i) ∧
      (gradientOffset 0 = (1, 0) ∧ gradientOffset 1 = (0, 1) ∧ gradientOffset 2 = (1, 1) ∧
        gradientOffset 3 = (1, -1)) ∧
      (kAngles 0 = 0 ∧ kAngles 1 = 90 ∧ kAngles 2 = 45 ∧ kAngles 3 = 135) :=
  ColourGradient_selects_greatest_response nearTie 1 1 rfl nearTie_is8U (by decide) (by decide)

/-- C18 as stated fails at the centre `(1, 1)` of the example raster: the samples of the
0 degree orientation are `(4,0,0)` and black, squared distance `16`, the samples of the
90 degree orientation are `(4,1,0)` and black, squared distance `17`; both responses are
`4`, and the output is the angle `0` with magnitude `4`, although the squared distance
`16` of that orientation is not maximal. -/
theorem ColourGradient_squared_distance_counterexample :
    nearTie.type = CV_8UC3 ∧
    ColourGradient.call 1 1 nearTie = RGBVector.rgb 0 4 0 ∧
    kAngles 0 = 0 ∧
    orientationSqDist nearTie 1 1 0 = 16 ∧
    orientationSqDist nearTie 1 1 1 = 17 ∧
    ¬ (∀ j, (0 ≤ j ∧ j ≤ 3) → orientationSqDist nearTie 1 1 j ≤ orientationSqDist nearTie 1 1 0) := by
  have hresp : ColourGradient.responses nearTie 1 1 =
      [sqrtToInt 16, sqrtToInt 17, sqrtToInt 0, sqrtToInt 0] := rfl
  have s16 : sqrtToInt 16 = 4 := sqrtToInt_eq 16 4 (by decide) (by decide)
  have s17 : sqrtToInt 17 = 4 := sqrtToInt_eq 17 4 (by decide) (by decide)
  have s0 : sqrtToInt 0 = 0 := sqrtToInt_eq 0 0 (by decide) (by decide)
  refine ⟨rfl, ?_, rfl, by decide, by decide, ?_⟩
  · unfold ColourGradient.call
    rw [hresp, s16, s17, s0]
    decide
  · intro h
    have := h 1 (by decide)
    revert this
    decide

/-- C19: for every image and pixel, among the orientations that attain the greatest of
the four responses computed by `ColourGradient`, the one earliest in the order 0, 90, 45,
135 is output; so if the maximum is attained by at least one cardinal orientation (0 or
90 degrees), the output angle bucket is cardinal even when a diagonal orientation attains
the same response. -/
theorem ColourGradient_ties_favour_earlier (img : Mat) (x y : Int) :
    (∃ i, (0 ≤ i ∧ i ≤ 3) ∧
      (ColourGradient.call x y img).red = kAngles i ∧
      (ColourGradient.call x y img).green = gradientResponse img x y i ∧
      (∀ j, (0 ≤ j ∧ j ≤ 3) → gradientResponse img x y j ≤ gradientResponse img x y i) ∧
      (∀ j, (0 ≤ j ∧ j < i) → gradientResponse img x y j < gradientResponse img x y i)) ∧
    ((∃ c, (c = 0 ∨ c = 1) ∧
        ∀ j, (0 ≤ j ∧ j ≤ 3) → gradientResponse img x y j ≤ gradientResponse img x y c) →
      (ColourGradient.call x y img).red = 0 ∨ (ColourGradient.call x y img).red = 90) ∧
    (kAngles 0 = 0 ∧ kAngles 1 = 90 ∧ kAngles 2 = 45 ∧ kAngles 3 = 135) := by
  obtain ⟨i, hi, hcall, hmax, hfirst⟩ := ColourGradient_call_first_max img x y
  refine ⟨⟨i, hi, by rw [hcall]; rfl, by rw [hcall]; rfl, hmax, hfirst⟩, ?_,
    ⟨rfl, rfl, rfl, rfl⟩⟩
  rintro ⟨c, hc, hcmax⟩
  have hle : i ≤ c := by
    by_contra hlt
    have h1 := hfirst c ⟨by omega, by omega⟩
    have h2 := hcmax i hi
    omega
  have e : i = 0 ∨ i = 1 := by omega
  rw [hcall]
  rcases e with e | e <;> subst e
  · left; rfl
  · right; rfl

/-- The border clamp leaves a coordinate of the raster unchanged. -/
theorem clamp_inside (v hi : Int) (h0 : 0 ≤ v) (h1 : v ≤ hi) : clamp v 0 hi = v := by
  unfold clamp
  rw [if_neg (by omega), if_neg (by omega)]

/-- A colour is at exact squared distance `0` from itself. -/
theorem exactSquaredDistance_self (a : RGBVector) : exactSquaredDistance a a = 0 := by
  unfold exactSquaredDistance
  simp

/-- The exact squared distance is symmetric. -/
theorem exactSquaredDistance_comm (a b : RGBVector) :
    exactSquaredDistance a b = exactSquaredDistance b a := by
  unfold exactSquaredDistance
  ring

/-- Two colours that differ in a channel are at exact squared distance at least `1`. -/
theorem exactSquaredDistance_pos (a b : RGBVector)
    (h : a.red ≠ b.red ∨ a.green ≠ b.green ∨ a.blue ≠ b.blue) :
    1 ≤ exactSquaredDistance a b := by
  unfold exactSquaredDistance
  have h1 := sq_nonneg (a.red - b.red)
  have h2 := sq_nonneg (a.green - b.green)
  have h3 := sq_nonneg (a.blue - b.blue)
  have key : ∀ u : Int, u ≠ 0 → 1 ≤ u ^ 2 := by
    intro u hu
    have : 0 < u ^ 2 := by positivity
    omega
  rcases h with h | h | h
  · have := key (a.red - b.red) (by omega); omega
  · have := key (a.green - b.green) (by omega); omega
  · have := key (a.blue - b.blue) (by omega); omega

/-- At an interior pixel the samples of an orientation are not clamped. -/
theorem orientationSqDist_interior (img : Mat) (x y i : Int)
    (hx : 1 ≤ x ∧ x ≤ img.cols - 2) (hy : 1 ≤ y ∧ y ≤ img.rows - 2) :
    orientationSqDist img x y i =
      exactSquaredDistance
        (RGBVector.ofMat img (x + (gradientOffset i).1) (y + (gradientOffset i).2))
        (RGBVector.ofMat img (x - (gradientOffset i).1) (y - (gradientOffset i).2)) := by
  have ho : ((gradientOffset i).1 = 1 ∨ (gradientOffset i).1 = 0) ∧
      ((gradientOffset i).2 = 1 ∨ (gradientOffset i).2 = 0 ∨ (gradientOffset i).2 = -1) := by
    unfold gradientOffset
    split_ifs <;> simp
  unfold orientationSqDist
  rw [clamp_inside _ _ (by omega) (by omega), clamp_inside _ _ (by omega) (by omega),
    clamp_inside _ _ (by omega) (by omega), clamp_inside _ _ (by omega) (by omega)]

/-- The integer square root of a number that is at least `1` is at least `1`. -/
theorem one_le_sqrt_toNat (d : Int) (h : 1 ≤ d) : (1 : Int) ≤ Int.ofNat (Nat.sqrt d.toNat) := by
  have h1 : 1 ≤ d.toNat := by omega
  have h2 : 0 < Nat.sqrt d.toNat := Nat.sqrt_pos.2 h1
  show ((1 : Nat) : Int) ≤ ((Nat.sqrt d.toNat : Nat) : Int)
  exact_mod_cast h2

/-- C20 (amended): for every 8-bit 3-channel image containing a purely vertical colour step
(every row has a single colour; the rows `0..r` have the colour `A` and the rows `r+1..`
have the colour `B`, which differs from `A` in a channel), `ColourGradient` outputs the
angle bucket `90` at every interior pixel of the two rows `r` and `r + 1` that adjoin the
step, with a magnitude of at least `1`, the integer part of the distance between `A` and
`B`; at every interior pixel of any other row all four responses are `0` and the output
is the angle bucket `0` with magnitude `0`. -/
theorem ColourGradient_vertical_step (img : Mat) (A B : RGBVector) (r x y : Int)
    (htype : img.type = CV_8UC3) (h8 : img.is8U)
    (hrows : ∀ x2 y2, (0 ≤ x2 ∧ x2 < img.cols) → (0 ≤ y2 ∧ y2 < img.rows) →
      RGBVector.ofMat img x2 y2 = if y2 ≤ r then A else B)
    (hAB : A.red ≠ B.red ∨ A.green ≠ B.green ∨ A.blue ≠ B.blue)
    (hx : 1 ≤ x ∧ x ≤ img.cols - 2) (hy : 1 ≤ y ∧ y ≤ img.rows - 2) :
    ((y = r ∨ y = r + 1) →
      (ColourGradient.call x y img).red = 90 ∧
      (ColourGradient.call x y img).green =
        Int.ofNat (Nat.sqrt (exactSquaredDistance A B).toNat) ∧
      1 ≤ (ColourGradient.call x y img).green) ∧
    ((y < r ∨ r + 1 < y) → ColourGradient.call x y img = RGBVector.rgb 0 0 0) := by
  have ho : ∀ i, ((gradientOffset i).1 = 1 ∨ (gradientOffset i).1 = 0) ∧
      ((gradientOffset i).2 = 1 ∨ (gradientOffset i).2 = 0 ∨ (gradientOffset i).2 = -1) := by
    intro i
    unfold gradientOffset
    split_ifs <;> simp
  have hsq : ∀ i, orientationSqDist img x y i =
      exactSquaredDistance (if y + (gradientOffset i).2 ≤ r then A else B)
        (if y - (gradientOffset i).2 ≤ r then A else B) := by
    intro i
    have := ho i
    rw [orientationSqDist_interior img x y i hx hy,
      hrows _ _ (by omega) (by omega), hrows _ _ (by omega) (by omega)]
  have hresp : ∀ i, gradientResponse img x y i =
      Int.ofNat (Nat.sqrt (exactSquaredDistance (if y + (gradientOffset i).2 ≤ r then A else B)
        (if y - (gradientOffset i).2 ≤ r then A else B)).toNat) := by
    intro i
    rw [gradientResponse_eq img htype h8, ← hsq i]
    rfl
  have hzero : Int.ofNat (Nat.sqrt (0 : Int).toNat) = 0 := by
    show Int.ofNat (Nat.sqrt 0) = 0
    rw [Nat.sqrt_zero]
    rfl
  have g0 : gradientOffset 0 = (1, 0) := rfl
  have g1 : gradientOffset 1 = (0, 1) := rfl
  have g2 : gradientOffset 2 = (1, 1) := rfl
  have g3 : gradientOffset 3 = (1, -1) := rfl
  have r0 : gradientResponse img x y 0 = 0 := by
    rw [hresp 0, g0]
    simp only [add_zero, sub_zero]
    rw [exactSquaredDistance_self, hzero]
  obtain ⟨i, hi, hcall, hmax, hfirst⟩ := ColourGradient_call_first_max img x y
  constructor
  · intro hyr
    have hp : 1 ≤ Int.ofNat (Nat.sqrt (exactSquaredDistance A B).toNat) :=
      one_le_sqrt_toNat _ (exactSquaredDistance_pos A B hAB)
    have r1 : gradientResponse img x y 1 =
        Int.ofNat (Nat.sqrt (exactSquaredDistance A B).toNat) := by
      rw [hresp 1, g1]
      simp only
      rw [if_neg (by omega), if_pos (by omega), exactSquaredDistance_comm]
    have r2 : gradientResponse img x y 2 =
        Int.ofNat (Nat.sqrt (exactSquaredDistance A B).toNat) := by
      rw [hresp 2, g2]
      simp only
      rw [if_neg (by omega), if_pos (by omega), exactSquaredDistance_comm]
    have r3 : gradientResponse img x y 3 =
        Int.ofNat (Nat.sqrt (exactSquaredDistance A B).toNat) := by
      rw [hresp 3, g3]
      simp only
      rw [if_pos (by omega), if_neg (by omega)]
    have hi1 : i = 1 := by
      have m1 := hmax 1 (by omega)
      rw [r1] at m1
      have e : i = 0 ∨ i = 1 ∨ i = 2 ∨ i = 3 := by omega
      rcases e with e | e | e | e
      · subst e; rw [r0] at m1; omega
      · exact e
      · subst e
        have f := hfirst 1 (by omega)
        rw [r1, r2] at f
        omega
      · subst e
        have f := hfirst 1 (by omega)
        rw [r1, r3] at f
        omega
    subst hi1
    rw [hcall]
    refine ⟨rfl, ?_, ?_⟩
    · show gradientResponse img x y 1 = _
      exact r1
    · show 1 ≤ gradientResponse img x y 1
      rw [r1]
      exact hp
  · intro hyr
    have rz : ∀ j, gradientResponse img x y j = 0 := by
      intro j
      have := ho j
      rw [hresp j]
      rcases hyr with h | h
      · rw [if_pos (by omega), if_pos (by omega), exactSquaredDistance_self, hzero]
      · rw [if_neg (by omega), if_neg (by omega), exactSquaredDistance_self, hzero]
    have hi0 : i = 0 := by
      by_contra hne
      have f := hfirst 0 (by omega)
      rw [rz 0, rz i] at f
      omega
    subst hi0
    rw [hcall, rz 0]
    rfl

/-- The banded example raster holds 8-bit values. -/
theorem twoBands_is8U : twoBands.is8U := by
  intro y j
  simp only [twoBands]
  split_ifs <;> decide

/-- Every pixel of the rows `0, 1, 2` of the banded example raster is black and every
pixel of the rows `3, 4` is white. -/
theorem twoBands_rows (x y : Int) (_hx : 0 ≤ x ∧ x < twoBands.cols)
    (_hy : 0 ≤ y ∧ y < twoBands.rows) :
    RGBVector.ofMat twoBands x y =
      if y ≤ 2 then RGBVector.rgb 0 0 0 else RGBVector.rgb 255 255 255 := by
  have hc : twoBands.channels = 3 := by decide
  unfold RGBVector.ofMat RGBVector.ofBuffer
  rw [hc]
  simp only [Mat.deref, Mat.pixelPtr, twoBands, RGBVector.rgb]
  by_cases h : y ≤ 2
  · simp [h]
  · simp [h]

/-- Witness of the amended C20: the interior pixel `(1, 2)` of the banded example raster,
in the last black row. -/
theorem ColourGradient_vertical_step_witness :
    ((2 : Int) = 2 ∨ (2 : Int) = 2 + 1 →
      (ColourGradient.call 1 2 twoBands).red = 90 ∧
      (ColourGradient.call 1 2 twoBands).green =
        Int.ofNat (Nat.sqrt
          (exactSquaredDistance (RGBVector.rgb 0 0 0) (RGBVector.rgb 255 255 255)).toNat) ∧
      1 ≤ (ColourGradient.call 1 2 twoBands).green) ∧
    (((2 : Int) < 2 ∨ (2 : Int) + 1 < 2) →
      ColourGradient.call 1 2 twoBands = RGBVector.rgb 0 0 0) :=
  ColourGradient_vertical_step twoBands (RGBVector.rgb 0 0 0) (RGBVector.rgb 255 255 255) 2 1 2
    rfl twoBands_is8U twoBands_rows (by decide) (by decide) (by decide)

/-- C20 as stated fails on the banded example raster, whose rows `0, 1, 2` are black and
whose rows `3, 4` are white: at the interior pixel `(1, 1)` every sample is black, all
four responses are `0`, and the output is the angle bucket `0`, not `90`. -/
theorem ColourGradient_vertical_step_counterexample :
    twoBands.type = CV_8UC3 ∧
    (∀ x y, (0 ≤ x ∧ x < twoBands.cols) → (0 ≤ y ∧ y < twoBands.rows) →
      RGBVector.ofMat twoBands x y =
        if y ≤ 2 then RGBVector.rgb 0 0 0 else RGBVector.rgb 255 255 255) ∧
    ((1 : Int) ≤ 1 ∧ (1 : Int) ≤ twoBands.cols - 2) ∧
    ((1 : Int) ≤ 1 ∧ (1 : Int) ≤ twoBands.rows - 2) ∧
    ColourGradient.call 1 1 twoBands = RGBVector.rgb 0 0 0 ∧
    (ColourGradient.call 1 1 twoBands).red ≠ 90 := by
  have hresp : ColourGradient.responses twoBands 1 1 =
      [sqrtToInt 0, sqrtToInt 0, sqrtToInt 0, sqrtToInt 0] := rfl
  have s0 : sqrtToInt 0 = 0 := sqrtToInt_eq 0 0 (by decide) (by decide)
  have hcall : ColourGradient.call 1 1 twoBands = RGBVector.rgb 0 0 0 := by
    unfold ColourGradient.call
    rw [hresp, s0]
    decide
  refine ⟨rfl, twoBands_rows, by decide, by decide, hcall, ?_⟩
  rw [hcall]
  decide

/-! ## Vector range filter -/

/-- A loop invariant that may mention the elements already visited. -/
theorem foldl_prefix_invariant {α β : Type} (P : List β → α → Prop) (f : α → β → α)
    (hstep : ∀ pre s b, P pre s → P (pre ++ [b]) (f s b))
    (l : List β) (a : α) (pre : List β) (h0 : P pre a) : P (pre ++ l) (l.foldl f a) := by
  induction l generalizing a pre with
  | nil => simpa using h0
  | cons b t ih =>
    have h := ih (f a b) (pre ++ [b]) (hstep pre a b h0)
    simpa using h

/-- An accumulation in `int` of nonnegative terms is their sum when the sum fits. -/
theorem foldl_wrap_sum {β : Type} (g : β → Int) (l : List β) (d0 : Int) (h0 : 0 ≤ d0)
    (hg : ∀ b ∈ l, 0 ≤ g b) (hb : d0 + (l.map g).sum < 2 ^ 31) :
    l.foldl (fun d b => int32 (d + g b)) d0 = d0 + (l.map g).sum := by
  induction l generalizing d0 with
  | nil => simp
  | cons b t ih =>
    have hb0 : 0 ≤ g b := hg b (List.mem_cons_self _ _)
    have ht : ∀ c ∈ t, 0 ≤ g c := fun c hc => hg c (List.mem_cons_of_mem _ hc)
    have hs : 0 ≤ (t.map g).sum := List.sum_nonneg (by
      intro v hv
      obtain ⟨c, hc, rfl⟩ := List.mem_map.1 hv
      exact ht c hc)
    simp only [List.map_cons, List.sum_cons] at hb
    simp only [List.foldl_cons, List.map_cons, List.sum_cons]
    rw [int32_eq_self (d0 + g b) (by omega) (by omega)]
    rw [ih (d0 + g b) (by omega) ht (by omega)]
    omega

/-- The nested accumulation over rows and columns is the double sum when it fits. -/
theorem foldl_nested_wrap_sum {β γ : Type} (g : γ → β → Int) (xs : List β) (ys : List γ)
    (d0 : Int) (h0 : 0 ≤ d0) (hg : ∀ y ∈ ys, ∀ x ∈ xs, 0 ≤ g y x)
    (hb : d0 + (ys.map (fun y => (xs.map (g y)).sum)).sum < 2 ^ 31) :
    ys.foldl (fun d y => xs.foldl (fun d x => int32 (d + g y x)) d) d0
      = d0 + (ys.map (fun y => (xs.map (g y)).sum)).sum := by
  induction ys generalizing d0 with
  | nil => simp
  | cons y t ih =>
    have hy : ∀ x ∈ xs, 0 ≤ g y x := hg y (List.mem_cons_self _ _)
    have ht : ∀ z ∈ t, ∀ x ∈ xs, 0 ≤ g z x := fun z hz => hg z (List.mem_cons_of_mem _ hz)
    have hrow : ∀ z, (∀ x ∈ xs, 0 ≤ g z x) → 0 ≤ (xs.map (g z)).sum := by
      intro z hz
      apply List.sum_nonneg
      intro v hv
      obtain ⟨c, hc, rfl⟩ := List.mem_map.1 hv
      exact hz c hc
    have hs : 0 ≤ (t.map (fun y => (xs.map (g y)).sum)).sum := List.sum_nonneg (by
      intro v hv
      obtain ⟨c, hc, rfl⟩ := List.mem_map.1 hv
      exact hrow c (ht c hc))
    have hy0 := hrow y hy
    simp only [List.map_cons, List.sum_cons] at hb
    simp only [List.foldl_cons, List.map_cons, List.sum_cons]
    rw [foldl_wrap_sum (g y) xs d0 h0 hy (by omega)]
    rw [ih (d0 + (xs.map (g y)).sum) (by omega) ht (by omega)]
    omega

/-- A sum of terms that are at most `B` is at most the number of terms times `B`. -/
theorem sum_map_le {β : Type} (g : β → Int) (l : List β) (B : Int)
    (hg : ∀ b ∈ l, g b ≤ B) : (l.map g).sum ≤ (l.length : Int) * B := by
  induction l with
  | nil => simp
  | cons b t ih =>
    have h1 := hg b (List.mem_cons_self _ _)
    have h2 := ih (fun c hc => hg c (List.mem_cons_of_mem _ hc))
    simp only [List.map_cons, List.sum_cons, List.length_cons]
    push_cast
    linarith

/-- The loop `for (int i = 0; i < n; i++)` runs `n` times. -/
theorem loopRange_length (n : Int) (h : 0 ≤ n) : ((loopRange n).length : Int) = n := by
  unfold loopRange
  simp only [List.length_map, List.length_range]
  exact Int.toNat_of_nonneg h

/-- Every colour read from an 8-bit raster is a byte colour. -/
theorem windowColour_isByteColour (window : ROI) (img : Mat) (htype : img.type = CV_8UC3)
    (h8 : img.is8U) (xi yi : Int) : IsByteColour (windowColour window img xi yi) := by
  unfold windowColour
  rw [channels_of_8UC3 img htype, ofBuffer_three]
  unfold IsByteColour RGBVector.rgb Mat.deref
  simp only
  have a := h8 (window.at xi yi).row ((window.at xi yi).offset + 0)
  have b := h8 (window.at xi yi).row ((window.at xi yi).offset + 1)
  have c := h8 (window.at xi yi).row ((window.at xi yi).offset + 2)
  omega

/-- The total squared distance of a byte colour to a window of an 8-bit raster lies
between `0` and `195075` times the number of window pixels. -/
theorem totalSquaredDistance_bounds (window : ROI) (img : Mat) (htype : img.type = CV_8UC3)
    (h8 : img.is8U) (hW : 0 ≤ window.Width) (hH : 0 ≤ window.Height)
    (p : RGBVector) (hp : IsByteColour p) :
    0 ≤ totalSquaredDistance window img p ∧
    totalSquaredDistance window img p ≤ window.Height * (window.Width * 195075) := by
  unfold totalSquaredDistance
  constructor
  · apply List.sum_nonneg
    intro v hv
    obtain ⟨yj, -, rfl⟩ := List.mem_map.1 hv
    apply List.sum_nonneg
    intro v hv
    obtain ⟨xj, -, rfl⟩ := List.mem_map.1 hv
    exact (exactSquaredDistance_bounds p _ hp
      (windowColour_isByteColour window img htype h8 xj yj)).1
  · have h := sum_map_le (fun yj => ((loopRange window.Width).map (fun xj =>
        exactSquaredDistance p (windowColour window img xj yj))).sum)
      (loopRange window.Height) (window.Width * 195075) (by
        intro yj _
        have h2 := sum_map_le (fun xj => exactSquaredDistance p (windowColour window img xj yj))
          (loopRange window.Width) 195075 (by
            intro xj _
            exact (exactSquaredDistance_bounds p _ hp
              (windowColour_isByteColour window img htype h8 xj yj)).2)
        rw [loopRange_length _ hW] at h2
        exact h2)
    rw [loopRange_length _ hH] at h
    exact h

/-- On an 8-bit raster and a window of at most `103 × 103` pixels the accumulated
distance of the code is the total squared distance: no sum leaves the range of `int`. -/
theorem aggregateDistance_eq_total (window : ROI) (img : Mat) (htype : img.type = CV_8UC3)
    (h8 : img.is8U) (hW : 0 ≤ window.Width ∧ window.Width ≤ 103)
    (hH : 0 ≤ window.Height ∧ window.Height ≤ 103)
    (p : RGBVector) (hp : IsByteColour p) :
    aggregateDistance window img p = totalSquaredDistance window img p := by
  have hb := totalSquaredDistance_bounds window img htype h8 hW.1 hH.1 p hp
  have hprod : window.Height * (window.Width * 195075) ≤ 103 * (103 * 195075) := by
    have h1 : window.Width * 195075 ≤ 103 * 195075 := by omega
    have h2 : 0 ≤ window.Width * 195075 := by omega
    calc window.Height * (window.Width * 195075)
        ≤ 103 * (window.Width * 195075) := Int.mul_le_mul_of_nonneg_right hH.2 h2
      _ ≤ 103 * (103 * 195075) := by omega
  have hg : ∀ xj yj, RGBVector.SquaredDistance Elem.u8 p
      (RGBVector.ofBuffer (img.deref (window.at xj yj)) img.channels)
      = exactSquaredDistance p (windowColour window img xj yj) := by
    intro xj yj
    exact SquaredDistance_u8_eq p _ hp (windowColour_isByteColour window img htype h8 xj yj)
  unfold aggregateDistance
  simp only [hg]
  rw [foldl_nested_wrap_sum (fun yj xj => exactSquaredDistance p (windowColour window img xj yj))
    (loopRange window.Width) (loopRange window.Height) 0 (le_refl _)
    (fun yj _ xj _ => (exactSquaredDistance_bounds p _ hp
      (windowColour_isByteColour window img htype h8 xj yj)).1)
    (by
      have : (List.map (fun y => (List.map (fun xj =>
          exactSquaredDistance p (windowColour window img xj y))
          (loopRange window.Width)).sum) (loopRange window.Height)).sum
          = totalSquaredDistance window img p := rfl
      rw [this]
      have : (2 : Int) ^ 31 = 2147483648 := by norm_num
      omega)]
  simp only [zero_add]
  rfl

/-- A scan that replaces its candidate whenever the key of the visited element is strictly
below the kept key either never replaces it, and then no key is below the start value,
or ends with the first element of least key. -/
theorem scan_first_least {α β : Type} (key : β → Int) (col : β → RGBVector)
    (f : α → β → α) (dist : α → Int) (colour : α → RGBVector)
    (hd : ∀ s b, dist (f s b) = if key b < dist s then key b else dist s)
    (hc : ∀ s b, colour (f s b) = if key b < dist s then col b else colour s)
    (L : List β) (s0 : α) :
    (dist (L.foldl f s0) = dist s0 ∧ colour (L.foldl f s0) = colour s0 ∧
      ∀ q ∈ L, dist s0 ≤ key q) ∨
    (∃ pre1 p pre2, L = pre1 ++ p :: pre2 ∧ dist (L.foldl f s0) = key p ∧
      colour (L.foldl f s0) = col p ∧ (∀ q ∈ pre1, key p < key q) ∧
      (∀ q ∈ pre2, key p ≤ key q)) := by
  have h := foldl_prefix_invariant
    (fun (pre : List β) (s : α) =>
      (dist s = dist s0 ∧ colour s = colour s0 ∧ ∀ q ∈ pre, dist s0 ≤ key q) ∨
      (∃ pre1 p pre2, pre = pre1 ++ p :: pre2 ∧ dist s = key p ∧
        colour s = col p ∧ (∀ q ∈ pre1, key p < key q) ∧ (∀ q ∈ pre2, key p ≤ key q)))
    f (by
      intro pre s b hs
      rcases hs with ⟨h1, h2, h3⟩ | ⟨pre1, p, pre2, e, h1, h2, h3, h4⟩
      · by_cases hlt : key b < dist s
        · right
          refine ⟨pre, b, [], rfl, ?_, ?_, ?_, ?_⟩
          · rw [hd, if_pos hlt]
          · rw [hc, if_pos hlt]
          · intro q hq
            have := h3 q hq
            omega
          · intro q hq
            simp at hq
        · left
          refine ⟨?_, ?_, ?_⟩
          · rw [hd, if_neg hlt, h1]
          · rw [hc, if_neg hlt, h2]
          · intro q hq
            rcases List.mem_append.1 hq with hq | hq
            · exact h3 q hq
            · simp only [List.mem_singleton] at hq
              subst hq
              omega
      · by_cases hlt : key b < dist s
        · right
          refine ⟨pre, b, [], rfl, ?_, ?_, ?_, ?_⟩
          · rw [hd, if_pos hlt]
          · rw [hc, if_pos hlt]
          · intro q hq
            rw [e] at hq
            rcases List.mem_append.1 hq with hq | hq
            · have := h3 q hq
              omega
            · rcases List.mem_cons.1 hq with hq | hq
              · subst hq
                omega
              · have := h4 q hq
                omega
          · intro q hq
            simp at hq
        · right
          refine ⟨pre1, p, pre2 ++ [b], ?_, ?_, ?_, h3, ?_⟩
          · rw [e]
            simp
          · rw [hd, if_neg hlt, h1]
          · rw [hc, if_neg hlt, h2]
          · intro q hq
            rcases List.mem_append.1 hq with hq | hq
            · exact h4 q hq
            · simp only [List.mem_singleton] at hq
              subst hq
              omega)
    L s0 [] (Or.inl ⟨rfl, rfl, by simp⟩)
  simpa using h

/-- The pair of loops over rows and columns visits the window coordinates in row-major
order. -/
theorem foldl_rowMajor {α : Type} (f : α → Int → Int → α) (W H : Int) (a : α) :
    (loopRange H).foldl (fun s y => (loopRange W).foldl (fun s x => f s x y) s) a
      = (rowMajor W H).foldl (fun s p => f s p.1 p.2) a := by
  unfold rowMajor
  generalize loopRange H = ys
  induction ys generalizing a with
  | nil => rfl
  | cons y t ih =>
    simp only [List.foldl_cons, List.flatMap_cons, List.foldl_append, List.foldl_map]
    exact ih _

/-- The row-major list holds exactly the window coordinates. -/
theorem mem_rowMajor {W H x y : Int} :
    (x, y) ∈ rowMajor W H ↔ (0 ≤ x ∧ x < W) ∧ (0 ≤ y ∧ y < H) := by
  unfold rowMajor
  simp only [List.mem_flatMap, List.mem_map, Prod.mk.injEq]
  constructor
  · rintro ⟨y2, hy2, x2, hx2, rfl, rfl⟩
    exact ⟨mem_loopRange.1 hx2, mem_loopRange.1 hy2⟩
  · rintro ⟨hx, hy⟩
    exact ⟨y, mem_loopRange.2 hy, x, mem_loopRange.2 hx, rfl, rfl⟩

/-- The loop counter takes its values in increasing order. -/
theorem loopRange_pairwise (n : Int) : (loopRange n).Pairwise (fun a b => a < b) := by
  unfold loopRange
  rw [List.pairwise_map]
  exact (List.pairwise_lt_range n.toNat).imp (fun h => Int.ofNat_lt.2 h)

/-- The row-major list is ordered by `rowMajorBefore`. -/
theorem rowMajor_pairwise (W H : Int) :
    (rowMajor W H).Pairwise (fun a b => rowMajorBefore a.1 a.2 b.1 b.2) := by
  unfold rowMajor
  rw [List.pairwise_flatMap]
  constructor
  · intro y _
    rw [List.pairwise_map]
    exact (loopRange_pairwise W).imp (fun h => Or.inr ⟨rfl, h⟩)
  · refine (loopRange_pairwise H).imp ?_
    intro y1 y2 h p hp q hq
    obtain ⟨x1, -, rfl⟩ := List.mem_map.1 hp
    obtain ⟨x2, -, rfl⟩ := List.mem_map.1 hq
    exact Or.inl h

/-- In the row-major list every coordinate that precedes an entry stands before it. -/
theorem rowMajor_before_mem (W H : Int) (pre1 pre2 : List (Int × Int)) (p q : Int × Int)
    (e : rowMajor W H = pre1 ++ p :: pre2) (hq : q ∈ rowMajor W H)
    (hb : rowMajorBefore q.1 q.2 p.1 p.2) : q ∈ pre1 := by
  have hp := rowMajor_pairwise W H
  rw [e] at hp hq
  rw [List.pairwise_append] at hp
  obtain ⟨-, h2, -⟩ := hp
  rw [List.pairwise_cons] at h2
  rcases List.mem_append.1 hq with h | h
  · exact h
  · exfalso
    rcases List.mem_cons.1 h with h | h
    · subst h
      unfold rowMajorBefore at hb
      omega
    · have := h2.1 q h
      unfold rowMajorBefore at hb this
      omega

/-- The scan over a window with at least one pixel that starts from the colour of window
pixel `(0, 0)` and a start value that no key exceeds ends with the colour of the first
window pixel, in row-major order, of least key. -/
theorem scan_first_least_rowMajor {α : Type} (key : Int × Int → Int)
    (col : Int × Int → RGBVector)
    (f : α → Int × Int → α) (dist : α → Int) (colour : α → RGBVector)
    (hd : ∀ s b, dist (f s b) = if key b < dist s then key b else dist s)
    (hc : ∀ s b, colour (f s b) = if key b < dist s then col b else colour s)
    (W H : Int) (hW : 1 ≤ W) (hH : 1 ≤ H) (s0 : α) (h0 : colour s0 = col (0, 0))
    (hbound : ∀ q ∈ rowMajor W H, key q ≤ dist s0) :
    ∃ xi yi, ((0 ≤ xi ∧ xi < W) ∧ (0 ≤ yi ∧ yi < H)) ∧
      colour ((rowMajor W H).foldl f s0) = col (xi, yi) ∧
      (∀ xj yj, (0 ≤ xj ∧ xj < W) → (0 ≤ yj ∧ yj < H) → key (xi, yi) ≤ key (xj, yj)) ∧
      (∀ xj yj, (0 ≤ xj ∧ xj < W) → (0 ≤ yj ∧ yj < H) → rowMajorBefore xj yj xi yi →
        key (xi, yi) < key (xj, yj)) := by
  rcases scan_first_least key col f dist colour hd hc (rowMajor W H) s0 with
    ⟨-, h2, h3⟩ | ⟨pre1, p, pre2, e, -, h2, h3, h4⟩
  · refine ⟨0, 0, ⟨⟨le_refl _, by omega⟩, ⟨le_refl _, by omega⟩⟩, by rw [h2, h0], ?_, ?_⟩
    · intro xj yj hx hy
      have a := hbound (0, 0) (mem_rowMajor.2 ⟨⟨le_refl _, by omega⟩, ⟨le_refl _, by omega⟩⟩)
      have b := h3 (xj, yj) (mem_rowMajor.2 ⟨hx, hy⟩)
      omega
    · intro xj yj hx hy hb
      unfold rowMajorBefore at hb
      omega
  · have hp : p ∈ rowMajor W H := by
      rw [e]
      simp
    obtain ⟨xi, yi⟩ := p
    refine ⟨xi, yi, mem_rowMajor.1 hp, h2, ?_, ?_⟩
    · intro xj yj hx hy
      have hq : (xj, yj) ∈ rowMajor W H := mem_rowMajor.2 ⟨hx, hy⟩
      rw [e] at hq
      rcases List.mem_append.1 hq with h | h
      · exact le_of_lt (h3 _ h)
      · rcases List.mem_cons.1 h with h | h
        · rw [h]
        · exact h4 _ h
    · intro xj yj hx hy hb
      exact h3 _ (rowMajor_before_mem W H pre1 pre2 (xi, yi) (xj, yj) e
        (mem_rowMajor.2 ⟨hx, hy⟩) hb)

/-- The window of an in-bounds centre and an odd request `w ≥ 3` has between one and `w`
columns and rows. -/
theorem ROI_square_dims (img : Mat) (x y width : Int)
    (hx : 0 ≤ x ∧ x < img.cols) (hy : 0 ≤ y ∧ y < img.rows)
    (hw : 3 ≤ width ∧ width % 2 = 1) :
    ∃ r, ROI.square img x y width = .ok r ∧ r.img_ = img ∧
      (1 ≤ r.Width ∧ r.Width ≤ width) ∧ (1 ≤ r.Height ∧ r.Height ≤ width) := by
  have ht := tdiv_two_eq width (by omega)
  refine ⟨_, ROI_new_ok img x y width width hx hy, rfl, ?_, ?_⟩
  · show 1 ≤ clamp (x + Int.tdiv width 2) 0 (img.cols - 1)
        - clamp (x - Int.tdiv width 2) 0 (img.cols - 1) + 1 ∧
      clamp (x + Int.tdiv width 2) 0 (img.cols - 1)
        - clamp (x - Int.tdiv width 2) 0 (img.cols - 1) + 1 ≤ width
    rw [ht]
    unfold clamp
    split_ifs <;> omega
  · show 1 ≤ clamp (y + Int.tdiv width 2) 0 (img.rows - 1)
        - clamp (y - Int.tdiv width 2) 0 (img.rows - 1) + 1 ∧
      clamp (y + Int.tdiv width 2) 0 (img.rows - 1)
        - clamp (y - Int.tdiv width 2) 0 (img.rows - 1) + 1 ≤ width
    rw [ht]
    unfold clamp
    split_ifs <;> omega

/-- The start value `kMaxDistanceSq * width * width` of `min_distance` does not wrap for
widths up to `103`. -/
theorem VectorRangeFilter_start_value (width : Int) (hw : 3 ≤ width ∧ width ≤ 103) :
    int32 (int32 (kMaxDistanceSq * width) * width) = 195075 * (width * width) := by
  have hk : kMaxDistanceSq = 195075 := by decide
  have h2 : width * width ≤ 103 * 103 := by nlinarith
  have h3 : 0 ≤ width * width := by nlinarith
  have hp : (2 : Int) ^ 31 = 2147483648 := by norm_num
  rw [hk, int32_eq_self (195075 * width) (by omega) (by omega)]
  have e : 195075 * width * width = 195075 * (width * width) := by ring
  rw [e, int32_eq_self _ (by omega) (by omega)]

/-- C15: for every 8-bit 3-channel image, every in-bounds pixel and every odd width `w`
with `3 ≤ w ≤ 103`, the filter is constructed, its call returns, and the output of
`VectorRangeFilter` has three equal channels whose value is `floor(255 * sqrt(d) / 441)`,
where `d` is the squared distance between `cmin` and `cmax`, `cmin` being the colour of
the first window pixel in row-major order with minimal total squared distance to the
window and `cmax` the colour of the first window pixel in row-major order with maximal
total squared distance; in particular the output is `0` when all window pixels have the
same colour. -/
theorem VectorRangeFilter_value (img : Mat) (x y width : Int)
    (htype : img.type = CV_8UC3) (h8 : img.is8U)
    (hx : 0 ≤ x ∧ x < img.cols) (hy : 0 ≤ y ∧ y < img.rows)
    (hw : 3 ≤ width ∧ width ≤ 103 ∧ width % 2 = 1) :
    ∃ f window, VectorRangeFilter.new width = .ok f ∧
      ROI.square img x y width = .ok window ∧
      ∃ xmin ymin xmax ymax,
        IsFirstMinimal window img xmin ymin ∧ IsFirstMaximal window img xmax ymax ∧
        f.call x y img = .ok (RGBVector.rgb
          (scaledMagnitude (exactSquaredDistance (windowColour window img xmin ymin)
            (windowColour window img xmax ymax)))
          (scaledMagnitude (exactSquaredDistance (windowColour window img xmin ymin)
            (windowColour window img xmax ymax)))
          (scaledMagnitude (exactSquaredDistance (windowColour window img xmin ymin)
            (windowColour window img xmax ymax)))) ∧
        scaledMagnitude (exactSquaredDistance (windowColour window img xmin ymin)
            (windowColour window img xmax ymax))
          = ⌊255 * Real.sqrt ((exactSquaredDistance (windowColour window img xmin ymin)
            (windowColour window img xmax ymax) : Int) : ℝ) / 441⌋ ∧
        ((∀ xi yi xj yj, (0 ≤ xi ∧ xi < window.Width) → (0 ≤ yi ∧ yi < window.Height) →
            (0 ≤ xj ∧ xj < window.Width) → (0 ≤ yj ∧ yj < window.Height) →
            windowColour window img xi yi = windowColour window img xj yj) →
          f.call x y img = .ok (RGBVector.rgb 0 0 0)) := by
  obtain ⟨r, hr, himg, hW, hH⟩ := ROI_square_dims img x y width hx hy ⟨hw.1, hw.2.2⟩
  have hnew : VectorRangeFilter.new width = .ok ⟨width⟩ := by
    unfold VectorRangeFilter.new
    have h : ¬ (width < 3 ∨ Int.tmod width 2 = 0) := by
      have := Int.tmod_eq_emod (a := width) (b := 2) (by omega)
      omega
    simp only [h, if_false]
  have hbyte : ∀ xi yi, IsByteColour (windowColour r img xi yi) :=
    windowColour_isByteColour r img htype h8
  have hagg : ∀ xi yi, aggregateDistance r img
      (RGBVector.ofBuffer (img.deref (r.at xi yi)) img.channels)
      = totalSquaredDistance r img (windowColour r img xi yi) := by
    intro xi yi
    exact aggregateDistance_eq_total r img htype h8 ⟨by omega, by omega⟩ ⟨by omega, by omega⟩
      _ (hbyte xi yi)
  have htot : ∀ xi yi, 0 ≤ totalSquaredDistance r img (windowColour r img xi yi) ∧
      totalSquaredDistance r img (windowColour r img xi yi) ≤ 195075 * (width * width) := by
    intro xi yi
    have h := totalSquaredDistance_bounds r img htype h8 (by omega) (by omega) _ (hbyte xi yi)
    refine ⟨h.1, le_trans h.2 ?_⟩
    have h1 : r.Height * r.Width ≤ width * width :=
      Int.mul_le_mul hH.2 hW.2 (by omega) (by omega)
    have e : r.Height * (r.Width * 195075) = 195075 * (r.Height * r.Width) := by ring
    rw [e]
    omega
  have hfirst : RGBVector.ofBuffer (img.deref (r.index 0)) img.channels
      = windowColour r img 0 0 := by
    unfold windowColour ROI.index ROI.at
    simp
  have hscan : VectorRangeFilter.scan ⟨width⟩ r img
      = (rowMajor r.Width r.Height).foldl
          (fun s p => VectorRangeFilter.step r img s p.1 p.2)
          ⟨195075 * (width * width), 0, windowColour r img 0 0, windowColour r img 0 0⟩ := by
    unfold VectorRangeFilter.scan
    simp only
    rw [VectorRangeFilter_start_value width ⟨hw.1, hw.2.1⟩, hfirst]
    exact foldl_rowMajor (fun s x y => VectorRangeFilter.step r img s x y) r.Width r.Height _
  obtain ⟨xmin, ymin, hmin_in, hmin_c, hmin_le, hmin_lt⟩ :=
    scan_first_least_rowMajor
      (fun p => totalSquaredDistance r img (windowColour r img p.1 p.2))
      (fun p => windowColour r img p.1 p.2)
      (fun s p => VectorRangeFilter.step r img s p.1 p.2)
      (fun s => s.min_distance) (fun s => s.min_colour)
      (by
        intro s b
        unfold VectorRangeFilter.step
        simp only [hagg]
        split_ifs <;> rfl)
      (by
        intro s b
        unfold VectorRangeFilter.step
        simp only [hagg]
        split_ifs <;> rfl)
      r.Width r.Height hW.1 hH.1
      ⟨195075 * (width * width), 0, windowColour r img 0 0, windowColour r img 0 0⟩ rfl
      (fun q _ => (htot q.1 q.2).2)
  obtain ⟨xmax, ymax, hmax_in, hmax_c, hmax_le, hmax_lt⟩ :=
    scan_first_least_rowMajor
      (fun p => - totalSquaredDistance r img (windowColour r img p.1 p.2))
      (fun p => windowColour r img p.1 p.2)
      (fun s p => VectorRangeFilter.step r img s p.1 p.2)
      (fun s => - s.max_distance) (fun s => s.max_colour)
      (by
        intro s b
        unfold VectorRangeFilter.step
        simp only [hagg]
        split_ifs <;> (try dsimp only at *) <;> first | rfl | omega)
      (by
        intro s b
        unfold VectorRangeFilter.step
        simp only [hagg]
        split_ifs <;> (try dsimp only at *) <;> first | rfl | omega)
      r.Width r.Height hW.1 hH.1
      ⟨195075 * (width * width), 0, windowColour r img 0 0, windowColour r img 0 0⟩ rfl
      (fun q _ => by
        have := (htot q.1 q.2).1
        show - totalSquaredDistance r img (windowColour r img q.1 q.2) ≤ - (0 : Int)
        omega)
  rw [← hscan] at hmin_c hmax_c
  simp only at hmin_c hmax_c hmin_le hmin_lt hmax_le hmax_lt
  have hcall : VectorRangeFilter.call ⟨width⟩ x y img = .ok (RGBVector.rgb
      (scaledMagnitude (exactSquaredDistance (windowColour r img xmin ymin)
        (windowColour r img xmax ymax)))
      (scaledMagnitude (exactSquaredDistance (windowColour r img xmin ymin)
        (windowColour r img xmax ymax)))
      (scaledMagnitude (exactSquaredDistance (windowColour r img xmin ymin)
        (windowColour r img xmax ymax)))) := by
    unfold VectorRangeFilter.call
    simp only [hr]
    show Except.ok _ = Except.ok _
    rw [hmin_c, hmax_c, SquaredDistance_u8_eq _ _ (hbyte xmin ymin) (hbyte xmax ymax)]
  refine ⟨⟨width⟩, r, hnew, hr, xmin, ymin, xmax, ymax,
    ⟨hmin_in, hmin_le, hmin_lt⟩, ⟨hmax_in, ?_, ?_⟩, hcall, ?_, ?_⟩
  · intro xj yj hxj hyj
    have := hmax_le xj yj hxj hyj
    omega
  · intro xj yj hxj hyj hb
    have := hmax_lt xj yj hxj hyj hb
    omega
  · exact scaledMagnitude_eq_floor _
      (exactSquaredDistance_bounds _ _ (hbyte xmin ymin) (hbyte xmax ymax)).1
  · intro hsame
    rw [hcall, hsame xmin ymin xmax ymax hmin_in.1 hmin_in.2 hmax_in.1 hmax_in.2,
      exactSquaredDistance_self]
    have : scaledMagnitude 0 = 0 := by simp [scaledMagnitude]
    rw [this]

/-- The example image holds 8-bit values. -/
theorem cornerSpeck_is8U : cornerSpeck.is8U := by
  intro y j
  simp only [cornerSpeck]
  split_ifs <;> decide

/-- Witness of C15 on the `3 × 3` example image at its centre with width `3`. -/
theorem VectorRangeFilter_value_witness :
    ∃ f window, VectorRangeFilter.new 3 = .ok f ∧
      ROI.square cornerSpeck 1 1 3 = .ok window ∧
      ∃ xmin ymin xmax ymax,
        IsFirstMinimal window cornerSpeck xmin ymin ∧
        IsFirstMaximal window cornerSpeck xmax ymax ∧
        f.call 1 1 cornerSpeck = .ok (RGBVector.rgb
          (scaledMagnitude (exactSquaredDistance (windowColour window cornerSpeck xmin ymin)
            (windowColour window cornerSpeck xmax ymax)))
          (scaledMagnitude (exactSquaredDistance (windowColour window cornerSpeck xmin ymin)
            (windowColour window cornerSpeck xmax ymax)))
          (scaledMagnitude (exactSquaredDistance (windowColour window cornerSpeck xmin ymin)
            (windowColour window cornerSpeck xmax ymax)))) ∧
        scaledMagnitude (exactSquaredDistance (windowColour window cornerSpeck xmin ymin)
            (windowColour window cornerSpeck xmax ymax))
          = ⌊255 * Real.sqrt ((exactSquaredDistance
            (windowColour window cornerSpeck xmin ymin)
            (windowColour window cornerSpeck xmax ymax) : Int) : ℝ) / 441⌋ ∧
        ((∀ xi yi xj yj, (0 ≤ xi ∧ xi < window.Width) → (0 ≤ yi ∧ yi < window.Height) →
            (0 ≤ xj ∧ xj < window.Width) → (0 ≤ yj ∧ yj < window.Height) →
            windowColour window cornerSpeck xi yi = windowColour window cornerSpeck xj yj) →
          f.call 1 1 cornerSpeck = .ok (RGBVector.rgb 0 0 0)) :=
  VectorRangeFilter_value cornerSpeck 1 1 3 rfl cornerSpeck_is8U (by decide) (by decide)
    (by decide)

/-! ## Minimum vector dispersion filter: the value away from the border defect -/

/-- Reading a vector at a natural index. -/
theorem vecGet_natCast (v : List Int) (n : Nat) : vecGet v (n : Int) = v.getD n 0 := by
  unfold vecGet
  simp

/-- Writing a vector at a natural index. -/
theorem vecSet_natCast (v : List Int) (n : Nat) (a : Int) :
    vecSet v (n : Int) a = v.set n a := by
  unfold vecSet
  simp

/-- A loop that stores one value per visited element at consecutive positions replaces
that stretch of the vector by the values. -/
theorem fill_fold {β : Type} (g : β → Int) (L : List β) (v : List Int) (n : Nat)
    (h : n + L.length ≤ v.length) :
    L.foldl (fun (s : List Int × Int) p => (vecSet s.1 s.2 (g p), s.2 + 1)) (v, (n : Int))
      = (v.take n ++ L.map g ++ v.drop (n + L.length), ((n + L.length : Nat) : Int)) := by
  induction L generalizing v n with
  | nil => simp
  | cons p t ih =>
    simp only [List.length_cons] at h
    simp only [List.foldl_cons, vecSet_natCast]
    have e : ((n : Int) + 1) = ((n + 1 : Nat) : Int) := by push_cast; rfl
    rw [e, ih (v.set n (g p)) (n + 1) (by simp; omega)]
    have h1 : (v.set n (g p)).take (n + 1) = v.take n ++ [g p] := by
      rw [List.set_eq_take_append_cons_drop]
      rw [if_pos (by omega)]
      rw [List.take_append_eq_append_take]
      simp [List.length_take, Nat.min_eq_left (by omega : n ≤ v.length)]
    have h2 : (v.set n (g p)).drop (n + 1 + t.length) = v.drop (n + 1 + t.length) := by
      rw [List.drop_set_of_lt _ _ (by omega)]
    rw [h1, h2]
    simp only [List.map_cons, List.length_cons, List.append_assoc, List.singleton_append,
      Prod.mk.injEq]
    constructor
    · congr 3
      omega
    · congr 1
      omega

/-- The counter values of a loop of `a + b` rounds are those of `a` rounds followed by
those of `b` rounds shifted by `a`. -/
theorem loopRange_add (a b : Nat) :
    loopRange ((a : Int) + (b : Int)) = loopRange a ++ (loopRange b).map (fun x => x + (a : Int)) := by
  unfold loopRange
  have e : ((a : Int) + (b : Int)).toNat = a + b := by omega
  rw [e, List.range_add]
  simp only [Int.toNat_ofNat, List.map_append, List.map_map]
  congr 1
  apply List.map_congr_left
  intro x _
  simp only [Function.comp, Int.ofNat_eq_coe]
  push_cast
  omega

/-- The row-major list of a window with `W ≥ 1` columns lists the coordinates
`(i % W, i / W)` of the linear indices `i < W * H`. -/
theorem rowMajor_eq_map (W : Int) (hW : 1 ≤ W) (h : Nat) :
    rowMajor W (h : Int) = (loopRange (W * (h : Int))).map (fun i => (i % W, i / W)) := by
  obtain ⟨w, rfl⟩ := Int.eq_ofNat_of_zero_le (by omega : 0 ≤ W)
  induction h with
  | zero =>
    simp [rowMajor, loopRange]
  | succ n ih =>
    have e1 : ((n + 1 : Nat) : Int) = (n : Int) + ((1 : Nat) : Int) := by push_cast; rfl
    have e2 : (w : Int) * ((n + 1 : Nat) : Int) = ((w * n : Nat) : Int) + ((w : Nat) : Int) := by
      push_cast; ring
    have hrow : rowMajor (w : Int) ((n + 1 : Nat) : Int)
        = rowMajor (w : Int) (n : Int) ++ (loopRange (w : Int)).map (fun x => (x, (n : Int))) := by
      have h1 : loopRange ((1 : Nat) : Int) = [0] := by decide
      unfold rowMajor
      rw [e1, loopRange_add, h1]
      simp [List.flatMap_append]
    rw [hrow, ih, e2, loopRange_add, List.map_append, List.map_map]
    have e3 : ((w * n : Nat) : Int) = (w : Int) * (n : Int) := by push_cast; rfl
    rw [e3]
    congr 1
    apply List.map_congr_left
    intro x hx
    have hx2 := mem_loopRange.1 hx
    simp only [Function.comp, Prod.mk.injEq]
    constructor
    · rw [Int.add_mul_emod_self_left]
      exact (Int.emod_eq_of_lt hx2.1 hx2.2).symm
    · rw [Int.add_mul_ediv_left _ _ (by omega : (w : Int) ≠ 0)]
      rw [Int.ediv_eq_zero_of_lt hx2.1 hx2.2]
      simp

/-- The window coordinate `(i % W, i / W)` and the linear index `i` address the same
pixel. -/
theorem windowColour_eq_indexColour (window : ROI) (img : Mat) (i : Int)
    (hW : 1 ≤ window.Width) (hi : 0 ≤ i) :
    windowColour window img (i % window.Width) (i / window.Width)
      = indexColour window img i := by
  unfold windowColour indexColour ROI.at ROI.index
  simp only
  rw [Int.tmod_eq_emod hi (by omega), Int.tdiv_eq_ediv hi (by omega)]

/-- The number of entries of the row-major list. -/
theorem rowMajor_length (W H : Int) (hW : 1 ≤ W) (hH : 0 ≤ H) :
    (rowMajor W H).length = (W * H).toNat := by
  obtain ⟨h, rfl⟩ := Int.eq_ofNat_of_zero_le hH
  rw [rowMajor_eq_map W hW h]
  simp [loopRange]

/-- The first pair of loops of `MinVecDispersionFilter::operator()` stores the summed
distance of the window pixel with linear index `i` at position `i`, for every
`i < Width * Height`, and counts the window pixels. -/
theorem MinVecDispersionFilter_fill_eq (window : ROI) (img : Mat) (distances : List Int)
    (hW : 1 ≤ window.Width) (hH : 1 ≤ window.Height)
    (hlen : (window.Width * window.Height).toNat ≤ distances.length) :
    MinVecDispersionFilter.fill window img distances
      = ((loopRange (window.Width * window.Height)).map
            (fun i => aggregateDistance window img (indexColour window img i))
          ++ distances.drop (window.Width * window.Height).toNat,
        window.Width * window.Height) := by
  unfold MinVecDispersionFilter.fill
  rw [foldl_rowMajor (fun (s : List Int × Int) x y =>
    (vecSet s.1 s.2 (aggregateDistance window img
      (RGBVector.ofBuffer (img.deref (window.at x y)) img.channels)), s.2 + 1))]
  have hl := rowMajor_length window.Width window.Height hW (by omega)
  have h := fill_fold (fun p : Int × Int => aggregateDistance window img
      (windowColour window img p.1 p.2)) (rowMajor window.Width window.Height) distances 0
      (by omega)
  simp only [Nat.cast_zero, List.take_zero, List.nil_append, zero_add] at h
  rw [show ((0 : Int)) = ((0 : Nat) : Int) from rfl] at *
  refine Eq.trans h ?_
  rw [hl]
  obtain ⟨hh, hhe⟩ := Int.eq_ofNat_of_zero_le (by omega : 0 ≤ window.Height)
  have hN : 0 ≤ window.Width * window.Height := by
    have := Int.mul_nonneg (by omega : 0 ≤ window.Width) (by omega : 0 ≤ window.Height)
    exact this
  congr 1
  · congr 1
    rw [hhe, rowMajor_eq_map window.Width hW hh, List.map_map]
    apply List.map_congr_left
    intro i hi
    have hi2 := mem_loopRange.1 hi
    simp only [Function.comp]
    rw [windowColour_eq_indexColour window img i hW hi2.1]
  · exact Int.toNat_of_nonneg hN

/-- Reading position `a < N` of a vector whose first `N` entries are the values `h i`. -/
theorem vecGet_map_loopRange (h : Int → Int) (N : Int) (rest : List Int) (a : Int)
    (ha : 0 ≤ a ∧ a < N) : vecGet ((loopRange N).map h ++ rest) a = h a := by
  obtain ⟨n, rfl⟩ := Int.eq_ofNat_of_zero_le ha.1
  rw [vecGet_natCast]
  have hn : n < N.toNat := by omega
  have hlen : n < ((loopRange N).map h).length := by
    simp only [loopRange, List.length_map, List.length_range]
    exact hn
  rw [List.getD_append _ _ _ _ hlen, List.getD_eq_getElem _ _ hlen]
  simp [loopRange]

/-- Reading the first `n` positions of a vector returns its first `n` entries. -/
theorem map_getD_range (σ rest : List Int) (n : Nat) (h : n ≤ σ.length) :
    (List.range n).map (fun i => (σ ++ rest).getD i 0) = σ.take n := by
  apply List.ext_getElem
  · simp [Nat.min_eq_left h]
  · intro i h1 h2
    simp only [List.length_map, List.length_range] at h1
    have hi : i < σ.length := by omega
    simp only [List.getElem_map, List.getElem_range, List.getElem_take]
    rw [List.getD_append _ _ _ _ hi, List.getD_eq_getElem _ _ hi]

/-- The loop `for i < l` that reads `indices[i]` reads the first `l` entries. -/
theorem map_vecGet_loopRange (σ rest : List Int) (l : Int) (h : 0 ≤ l ∧ l ≤ (σ.length : Int)) :
    (loopRange l).map (vecGet (σ ++ rest)) = σ.take l.toNat := by
  unfold loopRange
  rw [List.map_map, ← map_getD_range σ rest l.toNat (by omega)]
  apply List.map_congr_left
  intro i _
  simp only [Function.comp, Int.ofNat_eq_coe]
  exact vecGet_natCast _ _

/-- The loop `for j < k` that reads `indices[N - j - 1]` reads the last `k` of the first
`N` entries, from the end. -/
theorem map_vecGet_loopRange_rev (σ rest : List Int) (k : Int)
    (h : 0 ≤ k ∧ k ≤ (σ.length : Int)) :
    (loopRange k).map (fun j => vecGet (σ ++ rest) ((σ.length : Int) - j - 1))
      = σ.reverse.take k.toNat := by
  unfold loopRange
  rw [List.map_map, ← map_getD_range σ.reverse [] k.toNat (by simp; omega)]
  apply List.map_congr_left
  intro i hi
  have hi2 : i < k.toNat := List.mem_range.1 hi
  have hi3 : i < σ.length := by omega
  simp only [Function.comp, Int.ofNat_eq_coe, List.append_nil]
  have e : (σ.length : Int) - (i : Int) - 1 = ((σ.length - 1 - i : Nat) : Int) := by omega
  rw [e, vecGet_natCast]
  have h1 : σ.length - 1 - i < σ.length := by omega
  rw [List.getD_append _ _ _ _ h1, List.getD_eq_getElem _ _ h1,
    List.getD_eq_getElem _ _ (by simp; omega), List.getElem_reverse]

/-- The loop `min_dist = std::min(sqdist, min_dist)` ends with a value that is at most the
start value and every visited value, and is one of them. -/
theorem foldl_min_spec {β : Type} (g : β → Int) (L : List β) (m0 : Int) :
    L.foldl (fun m b => min (g b) m) m0 ≤ m0 ∧
    (∀ b ∈ L, L.foldl (fun m b => min (g b) m) m0 ≤ g b) ∧
    (L.foldl (fun m b => min (g b) m) m0 = m0 ∨
      ∃ b ∈ L, L.foldl (fun m b => min (g b) m) m0 = g b) := by
  induction L generalizing m0 with
  | nil => simp
  | cons a t ih =>
    obtain ⟨h1, h2, h3⟩ := ih (min (g a) m0)
    simp only [List.foldl_cons, List.mem_cons, forall_eq_or_imp, exists_eq_or_imp]
    refine ⟨le_trans h1 (min_le_right _ _), ⟨le_trans h1 (min_le_left _ _), h2⟩, ?_⟩
    rcases h3 with h3 | ⟨b, hb, h3⟩
    · rcases min_choice (g a) m0 with hm | hm
      · right; left; rw [h3, hm]
      · left; rw [h3, hm]
    · right; right; exact ⟨b, hb, h3⟩

/-- An accumulation of three sums of bytes in `uint32_t` is exact while the sums fit. -/
theorem uint32_sums_fold {β : Type} (r g b : β → Int)
    (hr : ∀ j, 0 ≤ r j ∧ r j ≤ 255) (hg : ∀ j, 0 ≤ g j ∧ g j ≤ 255)
    (hbl : ∀ j, 0 ≤ b j ∧ b j ≤ 255)
    (js : List β) (s : Int × Int × Int)
    (h0 : 0 ≤ s.1 ∧ 0 ≤ s.2.1 ∧ 0 ≤ s.2.2)
    (hb : s.1 + 255 * (js.length : Int) < 2 ^ 32 ∧ s.2.1 + 255 * (js.length : Int) < 2 ^ 32 ∧
      s.2.2 + 255 * (js.length : Int) < 2 ^ 32) :
    js.foldl (fun (s : Int × Int × Int) j =>
        (uint32 (s.1 + r j), uint32 (s.2.1 + g j), uint32 (s.2.2 + b j))) s
      = (s.1 + (js.map r).sum, s.2.1 + (js.map g).sum, s.2.2 + (js.map b).sum) := by
  induction js generalizing s with
  | nil => simp
  | cons j t ih =>
    obtain ⟨sr, sg, sb⟩ := s
    simp only at h0 hb
    simp only [List.length_cons] at hb
    push_cast at hb
    have hp : (2 : Int) ^ 32 = 4294967296 := by norm_num
    have a1 := hr j
    have a2 := hg j
    have a3 := hbl j
    have u0 : uint32 (sr + r j) = sr + r j := by
      unfold uint32
      exact Int.emod_eq_of_lt (by omega) (by omega)
    have u1 : uint32 (sg + g j) = sg + g j := by
      unfold uint32
      exact Int.emod_eq_of_lt (by omega) (by omega)
    have u2 : uint32 (sb + b j) = sb + b j := by
      unfold uint32
      exact Int.emod_eq_of_lt (by omega) (by omega)
    simp only [List.foldl_cons, List.map_cons, List.sum_cons, u0, u1, u2]
    rw [ih (sr + r j, sg + g j, sb + b j) (by simp only; omega) (by simp only; omega)]
    simp only [Prod.mk.injEq]
    refine ⟨by ring, by ring, by ring⟩

/-- The loop of `MinVecDispersionFilter::operator()` that sums the channels of the pixels
`window[indices_[i]]`, `i < l`, returns the exact channel sums of the first `l` entries of
the index vector when they are at most `16843009` in number. -/
theorem MinVecDispersionFilter_sums_eq (window : ROI) (img : Mat)
    (htype : img.type = CV_8UC3) (h8 : img.is8U) (σ rest : List Int) (l : Int)
    (hl : 0 ≤ l ∧ l ≤ (σ.length : Int)) (hl32 : 255 * l < 2 ^ 32) :
    MinVecDispersionFilter.sums l window img (σ ++ rest)
      = ((((σ.take l.toNat).map (indexColour window img)).map (fun c => c.red)).sum,
         (((σ.take l.toNat).map (indexColour window img)).map (fun c => c.green)).sum,
         (((σ.take l.toNat).map (indexColour window img)).map (fun c => c.blue)).sum) := by
  have hc := channels_of_8UC3 img htype
  have hbyte : ∀ j c, 0 ≤ img.deref (window.index j) c ∧ img.deref (window.index j) c ≤ 255 :=
    fun j c => h8 _ _
  have hF : MinVecDispersionFilter.sums l window img (σ ++ rest)
      = ((loopRange l).map (vecGet (σ ++ rest))).foldl (fun (s : Int × Int × Int) j =>
        (uint32 (s.1 + img.deref (window.index j) 0),
          uint32 (s.2.1 + img.deref (window.index j) 1),
          uint32 (s.2.2 + img.deref (window.index j) 2))) (0, 0, 0) := by
    unfold MinVecDispersionFilter.sums
    rw [List.foldl_map]
    simp [hc]
  rw [hF, map_vecGet_loopRange σ rest l hl,
    uint32_sums_fold (fun j => img.deref (window.index j) 0)
      (fun j => img.deref (window.index j) 1) (fun j => img.deref (window.index j) 2)
      (fun j => hbyte j 0) (fun j => hbyte j 1) (fun j => hbyte j 2)
      (σ.take l.toNat) (0, 0, 0) (by simp) (by
        have : ((σ.take l.toNat).length : Int) = l := by
          rw [List.length_take]
          omega
        rw [this]
        simp only [zero_add]
        exact ⟨hl32, hl32, hl32⟩)]
  have hcol : ∀ j, indexColour window img j = RGBVector.rgb (img.deref (window.index j) 0)
      (img.deref (window.index j) 1) (img.deref (window.index j) 2) := by
    intro j
    unfold indexColour
    rw [hc, ofBuffer_three]
  have e1 : ((fun c : RGBVector => c.red) ∘ indexColour window img)
      = fun j => img.deref (window.index j) 0 := by
    funext j
    simp only [Function.comp, hcol, RGBVector.rgb]
  have e2 : ((fun c : RGBVector => c.green) ∘ indexColour window img)
      = fun j => img.deref (window.index j) 1 := by
    funext j
    simp only [Function.comp, hcol, RGBVector.rgb]
  have e3 : ((fun c : RGBVector => c.blue) ∘ indexColour window img)
      = fun j => img.deref (window.index j) 2 := by
    funext j
    simp only [Function.comp, hcol, RGBVector.rgb]
  simp only [zero_add, List.map_map, e1, e2, e3]

/-- The per-channel floor of the mean of `l ≥ 1` byte colours is a byte colour. -/
theorem floorMean_isByteColour (cs : List RGBVector) (l : Int) (hl : 1 ≤ l)
    (hlen : (cs.length : Int) = l) (hcs : ∀ c ∈ cs, IsByteColour c) :
    IsByteColour (floorMean cs l) := by
  have hsum : ∀ (g : RGBVector → Int), (∀ c ∈ cs, 0 ≤ g c ∧ g c ≤ 255) →
      0 ≤ (cs.map g).sum / l ∧ (cs.map g).sum / l ≤ 255 := by
    intro g hg
    have h1 : 0 ≤ (cs.map g).sum := List.sum_nonneg (by
      intro v hv
      obtain ⟨c, hc, rfl⟩ := List.mem_map.1 hv
      exact (hg c hc).1)
    have h2 := sum_map_le g cs 255 (fun c hc => (hg c hc).2)
    rw [hlen] at h2
    refine ⟨Int.ediv_nonneg h1 (by omega), ?_⟩
    have : (cs.map g).sum / l < 256 := Int.ediv_lt_of_lt_mul (by omega) (by omega)
    omega
  have hr := hsum (fun c => c.red) (fun c hc => by
    have := hcs c hc
    unfold IsByteColour at this
    show 0 ≤ c.red ∧ c.red ≤ 255
    omega)
  have hg := hsum (fun c => c.green) (fun c hc => by
    have := hcs c hc
    unfold IsByteColour at this
    show 0 ≤ c.green ∧ c.green ≤ 255
    omega)
  have hb := hsum (fun c => c.blue) (fun c hc => by
    have := hcs c hc
    unfold IsByteColour at this
    show 0 ≤ c.blue ∧ c.blue ≤ 255
    omega)
  unfold IsByteColour floorMean RGBVector.rgb
  simp only
  omega

/-- Every colour read through a linear index from an 8-bit raster is a byte colour. -/
theorem indexColour_isByteColour (window : ROI) (img : Mat) (htype : img.type = CV_8UC3)
    (h8 : img.is8U) (i : Int) : IsByteColour (indexColour window img i) := by
  unfold indexColour
  rw [channels_of_8UC3 img htype, ofBuffer_three]
  unfold IsByteColour RGBVector.rgb Mat.deref
  simp only
  have a := h8 (window.index i).row ((window.index i).offset + 0)
  have b := h8 (window.index i).row ((window.index i).offset + 1)
  have c := h8 (window.index i).row ((window.index i).offset + 2)
  omega

/-- The call of `MinVecDispersionFilter` at a pixel whose window holds `N ≥ k, l` pixels:
for the ordering `σ` of the window indices that the sorting routine returns for the
summed distances of the code, the output is the scaled magnitude of the least squared
distance, over the last `k` entries of `σ`, to the per-channel floor of the mean of the
first `l` entries of `σ`. -/
theorem MinVecDispersionFilter_call_sorted
    (stdSort : (Int → Int → Bool) → List Int → List Int) (hsort : IsSortingRoutine stdSort)
    (img : Mat) (htype : img.type = CV_8UC3) (h8 : img.is8U)
    (f : MinVecDispersionFilter) (x y : Int) (r : ROI)
    (hr : ROI.square img x y f.width_ = .ok r)
    (hW : 1 ≤ r.Width) (hH : 1 ≤ r.Height)
    (hlen : (r.Width * r.Height).toNat ≤ f.distances_.length)
    (hk : 1 ≤ f.k_ ∧ f.k_ ≤ r.Width * r.Height)
    (hl : 1 ≤ f.l_ ∧ f.l_ ≤ r.Width * r.Height) (hl32 : 255 * f.l_ < 2 ^ 32) :
    ∃ σ : List Int, σ.Perm (loopRange (r.Width * r.Height)) ∧
      σ.Pairwise (fun a b =>
        aggregateDistance r img (indexColour r img a)
          ≤ aggregateDistance r img (indexColour r img b)) ∧
      ∃ (m : Int) (f2 : MinVecDispersionFilter),
        (∃ j ∈ σ.reverse.take f.k_.toNat, m = exactSquaredDistance (indexColour r img j)
          (floorMean ((σ.take f.l_.toNat).map (indexColour r img)) f.l_)) ∧
        (∀ j ∈ σ.reverse.take f.k_.toNat, m ≤ exactSquaredDistance (indexColour r img j)
          (floorMean ((σ.take f.l_.toNat).map (indexColour r img)) f.l_)) ∧
        MinVecDispersionFilter.call stdSort f x y img
          = .ok (RGBVector.rgb (scaledMagnitude m) (scaledMagnitude m) (scaledMagnitude m),
              f2) := by
  have hN : 0 ≤ r.Width * r.Height :=
    Int.mul_nonneg (by omega : 0 ≤ r.Width) (by omega : 0 ≤ r.Height)
  have hfill := MinVecDispersionFilter_fill_eq r img f.distances_ hW hH hlen
  obtain ⟨hperm, hsorted⟩ := hsort
    (vecGet ((loopRange (r.Width * r.Height)).map
        (fun i => aggregateDistance r img (indexColour r img i))
      ++ f.distances_.drop (r.Width * r.Height).toNat))
    (loopRange (r.Width * r.Height))
  generalize hσ : stdSort (fun a b => decide
    (vecGet ((loopRange (r.Width * r.Height)).map
        (fun i => aggregateDistance r img (indexColour r img i))
      ++ f.distances_.drop (r.Width * r.Height).toNat) a
    < vecGet ((loopRange (r.Width * r.Height)).map
        (fun i => aggregateDistance r img (indexColour r img i))
      ++ f.distances_.drop (r.Width * r.Height).toNat) b))
    (loopRange (r.Width * r.Height)) = σ at hperm hsorted
  have hσlen : (σ.length : Int) = r.Width * r.Height := by
    rw [hperm.length_eq, loopRange_length _ hN]
  have hmem : ∀ a ∈ σ, 0 ≤ a ∧ a < r.Width * r.Height :=
    fun a ha => mem_loopRange.1 (hperm.mem_iff.1 ha)
  have hsorted2 : σ.Pairwise (fun a b =>
      aggregateDistance r img (indexColour r img a)
        ≤ aggregateDistance r img (indexColour r img b)) := by
    refine hsorted.imp_of_mem ?_
    intro a b ha hb hab
    rw [vecGet_map_loopRange _ _ _ a (hmem a ha), vecGet_map_loopRange _ _ _ b (hmem b hb)] at hab
    exact hab
  have hindices : ArgSort stdSort
      ((loopRange (r.Width * r.Height)).map
          (fun i => aggregateDistance r img (indexColour r img i))
        ++ f.distances_.drop (r.Width * r.Height).toNat)
      f.indices_ (r.Width * r.Height)
      = σ ++ f.indices_.drop (r.Width * r.Height).toNat := by
    unfold ArgSort
    rw [hσ]
  have hlow : ∀ c ∈ (σ.take f.l_.toNat).map (indexColour r img), IsByteColour c := by
    intro c hc
    obtain ⟨j, -, rfl⟩ := List.mem_map.1 hc
    exact indexColour_isByteColour r img htype h8 j
  have hlowlen : ((((σ.take f.l_.toNat).map (indexColour r img)).length : Nat) : Int) = f.l_ := by
    rw [List.length_map, List.length_take]
    omega
  have href := floorMean_isByteColour _ f.l_ hl.1 hlowlen hlow
  have hsums := MinVecDispersionFilter_sums_eq r img htype h8 σ
    (f.indices_.drop (r.Width * r.Height).toNat) f.l_ ⟨by omega, by omega⟩ hl32
  have hmean : RGBVector.rgb
      (clamp ((MinVecDispersionFilter.sums f.l_ r img
        (σ ++ f.indices_.drop (r.Width * r.Height).toNat)).1 / f.l_) 0 255)
      (clamp ((MinVecDispersionFilter.sums f.l_ r img
        (σ ++ f.indices_.drop (r.Width * r.Height).toNat)).2.1 / f.l_) 0 255)
      (clamp ((MinVecDispersionFilter.sums f.l_ r img
        (σ ++ f.indices_.drop (r.Width * r.Height).toNat)).2.2 / f.l_) 0 255)
      = floorMean ((σ.take f.l_.toNat).map (indexColour r img)) f.l_ := by
    rw [hsums]
    unfold IsByteColour floorMean RGBVector.rgb at href
    simp only at href
    unfold floorMean
    simp only
    rw [clamp_inside _ _ href.1 href.2.1, clamp_inside _ _ href.2.2.1 href.2.2.2.1,
      clamp_inside _ _ href.2.2.2.2.1 href.2.2.2.2.2]
  have hmin : MinVecDispersionFilter.minDist f.k_ (r.Width * r.Height) r img
      (σ ++ f.indices_.drop (r.Width * r.Height).toNat)
      (floorMean ((σ.take f.l_.toNat).map (indexColour r img)) f.l_)
      = (σ.reverse.take f.k_.toNat).foldl (fun m j =>
          min (exactSquaredDistance (indexColour r img j)
            (floorMean ((σ.take f.l_.toNat).map (indexColour r img)) f.l_)) m)
          kMaxDistanceSq := by
    unfold MinVecDispersionFilter.minDist
    rw [← map_vecGet_loopRange_rev σ (f.indices_.drop (r.Width * r.Height).toNat) f.k_
      ⟨by omega, by omega⟩, List.foldl_map, hσlen]
    congr 1
    funext m j
    show min (RGBVector.SquaredDistance Elem.u8 (indexColour r img _)
      (floorMean ((σ.take f.l_.toNat).map (indexColour r img)) f.l_)) m = _
    rw [SquaredDistance_u8_eq _ _ (indexColour_isByteColour r img htype h8 _) href]
  obtain ⟨h1, h2, h3⟩ := foldl_min_spec (fun j => exactSquaredDistance (indexColour r img j)
    (floorMean ((σ.take f.l_.toNat).map (indexColour r img)) f.l_))
    (σ.reverse.take f.k_.toNat) kMaxDistanceSq
  have hcall : MinVecDispersionFilter.call stdSort f x y img
      = .ok (RGBVector.rgb
          (scaledMagnitude (MinVecDispersionFilter.minDist f.k_ (r.Width * r.Height) r img
            (σ ++ f.indices_.drop (r.Width * r.Height).toNat)
            (floorMean ((σ.take f.l_.toNat).map (indexColour r img)) f.l_)))
          (scaledMagnitude (MinVecDispersionFilter.minDist f.k_ (r.Width * r.Height) r img
            (σ ++ f.indices_.drop (r.Width * r.Height).toNat)
            (floorMean ((σ.take f.l_.toNat).map (indexColour r img)) f.l_)))
          (scaledMagnitude (MinVecDispersionFilter.minDist f.k_ (r.Width * r.Height) r img
            (σ ++ f.indices_.drop (r.Width * r.Height).toNat)
            (floorMean ((σ.take f.l_.toNat).map (indexColour r img)) f.l_))),
          ⟨f.k_, f.l_, f.width_,
            (loopRange (r.Width * r.Height)).map
                (fun i => aggregateDistance r img (indexColour r img i))
              ++ f.distances_.drop (r.Width * r.Height).toNat,
            σ ++ f.indices_.drop (r.Width * r.Height).toNat⟩) := by
    unfold MinVecDispersionFilter.call
    simp only [hr]
    show Except.ok _ = Except.ok _
    simp only [hfill, hindices, hmean]
  refine ⟨σ, hperm, hsorted2,
    (σ.reverse.take f.k_.toNat).foldl (fun m j =>
      min (exactSquaredDistance (indexColour r img j)
        (floorMean ((σ.take f.l_.toNat).map (indexColour r img)) f.l_)) m) kMaxDistanceSq,
    ⟨f.k_, f.l_, f.width_,
      (loopRange (r.Width * r.Height)).map
          (fun i => aggregateDistance r img (indexColour r img i))
        ++ f.distances_.drop (r.Width * r.Height).toNat,
      σ ++ f.indices_.drop (r.Width * r.Height).toNat⟩, ?_, h2, ?_⟩
  · have hne : σ.reverse.take f.k_.toNat ≠ [] := by
      intro h
      have := congrArg List.length h
      simp only [List.length_take, List.length_reverse, List.length_nil] at this
      omega
    obtain ⟨b0, hb0⟩ := List.exists_mem_of_ne_nil _ hne
    rcases h3 with h3 | h3
    · refine ⟨b0, hb0, ?_⟩
      have hb := (exactSquaredDistance_bounds (indexColour r img b0) _
        (indexColour_isByteColour r img htype h8 b0) href).2
      have hle := h2 b0 hb0
      have hk : kMaxDistanceSq = 195075 := by decide
      rw [h3, hk] at hle
      rw [h3, hk]
      omega
    · exact h3
  · rw [hcall, hmin]

/-- Inserting into a list rearranges the entry and the list. -/
theorem sortedInsert_perm (lt : Int → Int → Bool) (a : Int) (l : List Int) :
    (sortedInsert lt a l).Perm (a :: l) := by
  induction l with
  | nil => exact List.Perm.refl _
  | cons b t ih =>
    unfold sortedInsert
    split_ifs
    · exact (List.Perm.cons b ih).trans (List.Perm.swap a b t)
    · exact List.Perm.refl _

/-- The insertion sort rearranges its input. -/
theorem insertionSort_perm (lt : Int → Int → Bool) (l : List Int) :
    (insertionSort lt l).Perm l := by
  induction l with
  | nil => exact List.Perm.refl _
  | cons a t ih =>
    unfold insertionSort
    exact (sortedInsert_perm lt a _).trans (List.Perm.cons a ih)

/-- Inserting into a list ordered by a key keeps it ordered. -/
theorem sortedInsert_sorted (key : Int → Int) (a : Int) (l : List Int)
    (h : l.Pairwise (fun a b => key a ≤ key b)) :
    (sortedInsert (fun a b => decide (key a < key b)) a l).Pairwise
      (fun a b => key a ≤ key b) := by
  induction l with
  | nil => simp [sortedInsert]
  | cons b t ih =>
    rw [List.pairwise_cons] at h
    unfold sortedInsert
    split_ifs with hlt
    · simp only [decide_eq_true_eq] at hlt
      rw [List.pairwise_cons]
      refine ⟨?_, ih h.2⟩
      intro c hc
      have hc2 := (sortedInsert_perm _ a t).mem_iff.1 hc
      rcases List.mem_cons.1 hc2 with e | e
      · rw [e]; omega
      · exact h.1 c e
    · simp only [decide_eq_true_eq] at hlt
      rw [List.pairwise_cons, List.pairwise_cons]
      refine ⟨?_, h.1, h.2⟩
      intro c hc
      rcases List.mem_cons.1 hc with e | e
      · rw [e]; omega
      · have := h.1 c e
        omega

/-- The insertion sort fulfils the contract of the sorting routine. -/
theorem insertionSort_isSortingRoutine : IsSortingRoutine insertionSort := by
  intro key l
  refine ⟨insertionSort_perm _ l, ?_⟩
  induction l with
  | nil => simp [insertionSort]
  | cons a t ih =>
    unfold insertionSort
    exact sortedInsert_sorted key a _ ih

/-- A sum of equal terms. -/
theorem sum_map_const {β : Type} (g : β → Int) (L : List β) (a : Int)
    (h : ∀ b ∈ L, g b = a) : (L.map g).sum = (L.length : Int) * a := by
  induction L with
  | nil => simp
  | cons b t ih =>
    simp only [List.map_cons, List.sum_cons, List.length_cons]
    rw [h b (List.mem_cons_self _ _), ih (fun c hc => h c (List.mem_cons_of_mem _ hc))]
    push_cast
    ring

/-- The per-channel floor of the mean of `l ≥ 1` copies of a colour has its channels. -/
theorem floorMean_const (cs : List RGBVector) (c : RGBVector) (l : Int) (hl : 1 ≤ l)
    (hlen : (cs.length : Int) = l) (hcs : ∀ d ∈ cs, d = c) :
    floorMean cs l = RGBVector.rgb c.red c.green c.blue := by
  unfold floorMean
  rw [sum_map_const (fun c => c.red) cs c.red (fun d hd => by rw [hcs d hd]),
    sum_map_const (fun c => c.green) cs c.green (fun d hd => by rw [hcs d hd]),
    sum_map_const (fun c => c.blue) cs c.blue (fun d hd => by rw [hcs d hd]), hlen,
    Int.mul_ediv_cancel_left _ (by omega : l ≠ 0),
    Int.mul_ediv_cancel_left _ (by omega : l ≠ 0),
    Int.mul_ediv_cancel_left _ (by omega : l ≠ 0)]

/-- The stored product `width*width` does not wrap for widths up to `103`. -/
theorem int32_width_sq (width : Int) (hw : 3 ≤ width ∧ width ≤ 103) :
    int32 (width * width) = width * width ∧ 9 ≤ width * width ∧ width * width ≤ 10609 := by
  have h2 : width * width ≤ 103 * 103 := by nlinarith
  have h3 : 3 * 3 ≤ width * width := by nlinarith
  have hp : (2 : Int) ^ 31 = 2147483648 := by norm_num
  exact ⟨int32_eq_self _ (by omega) (by omega), by omega, by omega⟩

/-- C17 (amended): for every 8-bit 3-channel image, every sorting routine, every valid
`(width, k, l)` with `width ≤ 103`, every filter object constructed with them and every
in-bounds pixel whose clamped window holds `N` pixels with `k ≤ N` and `l ≤ N`, the call of
`MinVecDispersionFilter` returns three equal channels with a value that the specification
admits: `floor(255 * sqrt(m) / 441)`, where, for an ordering of the window pixels by total
squared distance, the reference colour is the per-channel floor of the mean of the first
`l` pixels and `m` is the minimum, over the last `k` pixels, of the squared distance to the
reference colour; the output is `0` when all window pixels have the same colour. -/
theorem MinVecDispersionFilter_value
    (stdSort : (Int → Int → Bool) → List Int → List Int) (hsort : IsSortingRoutine stdSort)
    (img : Mat) (x y width k l : Int) (f : MinVecDispersionFilter)
    (htype : img.type = CV_8UC3) (h8 : img.is8U)
    (hx : 0 ≤ x ∧ x < img.cols) (hy : 0 ≤ y ∧ y < img.rows)
    (hw : 3 ≤ width ∧ width ≤ 103 ∧ width % 2 = 1)
    (hvalid : failed (MinVecDispersionFilter.new width k l) = false)
    (hf : IsFilterObject width k l f) :
    ∃ window, ROI.square img x y width = .ok window ∧
      (k ≤ window.Width * window.Height → l ≤ window.Width * window.Height →
        ∃ v f2,
          MinVecDispersionFilter.call stdSort f x y img = .ok (RGBVector.rgb v v v, f2) ∧
          IsDispersionValue window img k l v ∧
          ((∀ i j, (0 ≤ i ∧ i < window.Width * window.Height) →
              (0 ≤ j ∧ j < window.Width * window.Height) →
              indexColour window img i = indexColour window img j) → v = 0)) ∧
      (∀ m : Int, 0 ≤ m → scaledMagnitude m = ⌊255 * Real.sqrt (m : ℝ) / 441⌋) := by
  obtain ⟨r, hr, -, hW, hH⟩ := ROI_square_dims img x y width hx hy ⟨hw.1, hw.2.2⟩
  obtain ⟨hfw, hfk, hfl, hfd, -⟩ := hf
  obtain ⟨hsq, hsq9, hsq2⟩ := int32_width_sq width ⟨hw.1, hw.2.1⟩
  have hv : ¬ (int32 (width * width) < 0 ∨ width < 3 ∨ Int.tmod width 2 = 0 ∨
      k ≥ int32 (width * width) ∨ l ≥ int32 (width * width) ∨ k < 1 ∨ l < 1) := by
    intro h
    have := (MinVecDispersionFilter_failed_new width k l).2 h
    rw [hvalid] at this
    exact Bool.false_ne_true this
  rw [hsq] at hv
  have hk1 : 1 ≤ k ∧ k < width * width := by omega
  have hl1 : 1 ≤ l ∧ l < width * width := by omega
  have hN : r.Width * r.Height ≤ width * width :=
    Int.mul_le_mul hW.2 hH.2 (by omega) (by omega)
  have hN1 : 1 ≤ r.Width * r.Height := by
    have := Int.mul_le_mul hW.1 hH.1 (by omega) (by omega : (0 : Int) ≤ r.Width)
    omega
  refine ⟨r, hr, ?_, fun m hm => scaledMagnitude_eq_floor m hm⟩
  intro hkN hlN
  have hp : (2 : Int) ^ 32 = 4294967296 := by norm_num
  obtain ⟨σ, hperm, hsorted, m, f2, hm1, hm2, hcall⟩ :=
    MinVecDispersionFilter_call_sorted stdSort hsort img htype h8 f x y r
      (by rw [hfw]; exact hr) hW.1 hH.1
      (by rw [hfd, hsq]; omega)
      (by rw [hfk]; omega) (by rw [hfl]; omega) (by rw [hfl]; omega)
  rw [hfk] at hm1 hm2
  rw [hfl] at hm1 hm2
  have hmem : ∀ a ∈ σ, 0 ≤ a ∧ a < r.Width * r.Height :=
    fun a ha => mem_loopRange.1 (hperm.mem_iff.1 ha)
  have hσlen : (σ.length : Int) = r.Width * r.Height := by
    rw [hperm.length_eq, loopRange_length _ (by omega)]
  refine ⟨scaledMagnitude m, f2, hcall, ⟨σ, hperm, ?_, m, hm1, hm2, rfl⟩, ?_⟩
  · refine hsorted.imp ?_
    intro a b hab
    rw [aggregateDistance_eq_total r img htype h8 ⟨by omega, by omega⟩ ⟨by omega, by omega⟩
        _ (indexColour_isByteColour r img htype h8 a),
      aggregateDistance_eq_total r img htype h8 ⟨by omega, by omega⟩ ⟨by omega, by omega⟩
        _ (indexColour_isByteColour r img htype h8 b)] at hab
    exact hab
  · intro hsame
    have hall : ∀ a ∈ σ, indexColour r img a = indexColour r img 0 :=
      fun a ha => hsame a 0 (hmem a ha) ⟨le_refl _, by omega⟩
    have href : floorMean ((σ.take l.toNat).map (indexColour r img)) l
        = RGBVector.rgb (indexColour r img 0).red (indexColour r img 0).green
            (indexColour r img 0).blue := by
      apply floorMean_const _ _ l hl1.1
      · rw [List.length_map, List.length_take]
        omega
      · intro d hd
        obtain ⟨a, ha, rfl⟩ := List.mem_map.1 hd
        exact hall a (List.mem_of_mem_take ha)
    obtain ⟨j, hj, hmj⟩ := hm1
    have hj2 : j ∈ σ := List.mem_reverse.1 (List.mem_of_mem_take hj)
    rw [href, hall j hj2] at hmj
    have hz : m = 0 := by
      rw [hmj]
      unfold exactSquaredDistance RGBVector.rgb
      simp
    rw [hz]
    simp [scaledMagnitude]

/-- Witness of the amended C17: the insertion sort, the `3 × 3` example image at its
centre, and a new filter object of width `3` with `k = l = 1`. -/
theorem MinVecDispersionFilter_value_witness :
    ∃ window, ROI.square cornerSpeck 1 1 3 = .ok window ∧
      ((1 : Int) ≤ window.Width * window.Height → (1 : Int) ≤ window.Width * window.Height →
        ∃ v f2,
          MinVecDispersionFilter.call insertionSort
            ⟨1, 1, 3, List.replicate 9 0, List.replicate 9 0⟩ 1 1 cornerSpeck
              = .ok (RGBVector.rgb v v v, f2) ∧
          IsDispersionValue window cornerSpeck 1 1 v ∧
          ((∀ i j, (0 ≤ i ∧ i < window.Width * window.Height) →
              (0 ≤ j ∧ j < window.Width * window.Height) →
              indexColour window cornerSpeck i = indexColour window cornerSpeck j) → v = 0)) ∧
      (∀ m : Int, 0 ≤ m → scaledMagnitude m = ⌊255 * Real.sqrt (m : ℝ) / 441⌋) :=
  MinVecDispersionFilter_value insertionSort insertionSort_isSortingRoutine cornerSpeck 1 1 3 1 1
    ⟨1, 1, 3, List.replicate 9 0, List.replicate 9 0⟩ rfl cornerSpeck_is8U (by decide)
    (by decide) (by decide) (by decide) ⟨rfl, rfl, rfl, by decide, by decide⟩

/-- Storing a sum in `int` after storing a summand in `int` gives the stored sum. -/
theorem int32_add_int32 (a b : Int) : int32 (int32 a + b) = int32 (a + b) := by
  unfold int32 wrapSigned
  norm_num
  omega

/-- An accumulation in `int` is the stored exact sum. -/
theorem foldl_wrap_mod {β : Type} (g : β → Int) (l : List β) (e : Int) :
    l.foldl (fun d b => int32 (d + g b)) (int32 e) = int32 (e + (l.map g).sum) := by
  induction l generalizing e with
  | nil => simp
  | cons b t ih =>
    simp only [List.foldl_cons, List.map_cons, List.sum_cons]
    rw [int32_add_int32, ih]
    congr 1
    ring

/-- The nested accumulation in `int` over rows and columns is the stored double sum. -/
theorem foldl_nested_wrap_mod {β γ : Type} (g : γ → β → Int) (xs : List β) (ys : List γ)
    (e : Int) :
    ys.foldl (fun d y => xs.foldl (fun d x => int32 (d + g y x)) d) (int32 e)
      = int32 (e + (ys.map (fun y => (xs.map (g y)).sum)).sum) := by
  induction ys generalizing e with
  | nil => simp
  | cons y t ih =>
    simp only [List.foldl_cons, List.map_cons, List.sum_cons]
    rw [foldl_wrap_mod (g y) xs e, ih]
    congr 1
    ring

/-- On an 8-bit raster the accumulated distance of the code is the total squared distance
stored in an `int`. -/
theorem aggregateDistance_eq_int32_total (window : ROI) (img : Mat)
    (htype : img.type = CV_8UC3) (h8 : img.is8U) (p : RGBVector) (hp : IsByteColour p) :
    aggregateDistance window img p = int32 (totalSquaredDistance window img p) := by
  have hg : ∀ xj yj, RGBVector.SquaredDistance Elem.u8 p
      (RGBVector.ofBuffer (img.deref (window.at xj yj)) img.channels)
      = exactSquaredDistance p (windowColour window img xj yj) := by
    intro xj yj
    exact SquaredDistance_u8_eq p _ hp (windowColour_isByteColour window img htype h8 xj yj)
  unfold aggregateDistance
  simp only [hg]
  have h0 : (0 : Int) = int32 0 := by decide
  rw [h0, foldl_nested_wrap_mod (fun yj xj => exactSquaredDistance p (windowColour window img xj yj))]
  simp only [zero_add]
  rfl

/-- The sum over the row-major list is the double sum over rows and columns. -/
theorem sum_rowMajor (g : Int × Int → Int) (W H : Int) :
    ((rowMajor W H).map g).sum
      = ((loopRange H).map (fun y => ((loopRange W).map (fun x => g (x, y))).sum)).sum := by
  unfold rowMajor
  generalize loopRange H = ys
  induction ys with
  | nil => rfl
  | cons y t ih =>
    simp only [List.flatMap_cons, List.map_append, List.sum_append, List.map_cons,
      List.sum_cons, List.map_map]
    rw [ih]
    rfl

/-- The total squared distance as a sum over the linear indices of the window. -/
theorem totalSquaredDistance_eq_sum_index (window : ROI) (img : Mat) (p : RGBVector)
    (hW : 1 ≤ window.Width) (hH : 0 ≤ window.Height) :
    totalSquaredDistance window img p
      = ((loopRange (window.Width * window.Height)).map
          (fun i => exactSquaredDistance p (indexColour window img i))).sum := by
  obtain ⟨h, hh⟩ := Int.eq_ofNat_of_zero_le hH
  have e := sum_rowMajor (fun q => exactSquaredDistance p (windowColour window img q.1 q.2))
    window.Width window.Height
  unfold totalSquaredDistance
  refine e.symm.trans ?_
  rw [hh, rowMajor_eq_map window.Width hW h, List.map_map]
  congr 1
  apply List.map_congr_left
  intro i hi
  simp only [Function.comp]
  rw [windowColour_eq_indexColour window img i hW (mem_loopRange.1 hi).1]

/-- A sum over the loop counter whose term at `0` is `u` and whose other terms are `v`. -/
theorem sum_loopRange_first (g : Int → Int) (N : Int) (hN : 1 ≤ N) (u v : Int)
    (h0 : g 0 = u) (hv : ∀ i, (1 ≤ i ∧ i < N) → g i = v) :
    ((loopRange N).map g).sum = u + (N - 1) * v := by
  obtain ⟨n, hn⟩ := Int.eq_ofNat_of_zero_le (by omega : 0 ≤ N - 1)
  have e : N = ((1 : Nat) : Int) + (n : Int) := by omega
  have h1 : loopRange ((1 : Nat) : Int) = [0] := by decide
  rw [e, loopRange_add, h1]
  simp only [List.singleton_append, List.map_cons, List.sum_cons, List.map_map, h0]
  rw [sum_map_const _ _ v (by
    intro b hb
    have := mem_loopRange.1 hb
    simp only [Function.comp]
    exact hv _ (by omega))]
  rw [loopRange_length _ (by omega)]
  have : ((1 : Nat) : Int) + (n : Int) - 1 = (n : Int) := by omega
  rw [this]

/-- A list ordered by a key that holds an entry of strictly least key starts with it. -/
theorem sorted_head_of_unique_min (key : Int → Int) (σ : List Int) (a0 : Int)
    (hs : σ.Pairwise (fun a b => key a ≤ key b)) (ha : a0 ∈ σ)
    (hu : ∀ b ∈ σ, b ≠ a0 → key a0 < key b) : ∃ τ, σ = a0 :: τ := by
  cases σ with
  | nil => simp at ha
  | cons c τ =>
    by_cases hc : c = a0
    · exact ⟨τ, by rw [hc]⟩
    · exfalso
      rw [List.pairwise_cons] at hs
      rcases List.mem_cons.1 ha with h | h
      · exact hc h.symm
      · have h1 := hs.1 a0 h
        have h2 := hu c (List.mem_cons_self _ _) hc
        omega

/-- The loop counter takes no value twice. -/
theorem loopRange_nodup (n : Int) : (loopRange n).Nodup :=
  (loopRange_pairwise n).imp (fun h => ne_of_lt h)

/-- The wide example raster holds 8-bit values. -/
theorem wideSpeck_is8U : wideSpeck.is8U := by
  intro y j
  simp only [wideSpeck]
  split_ifs <;> decide

/-- In the wide example window the pixel with linear index `0` is black and every other
pixel is white. -/
theorem wideSpeck_indexColour (i : Int) (hi : 0 ≤ i ∧ i < 11025) :
    indexColour wideSpeckWindow wideSpeck i
      = if i = 0 then RGBVector.rgb 0 0 0 else RGBVector.rgb 255 255 255 := by
  have hc : wideSpeck.channels = 3 := by decide
  have hW : wideSpeckWindow.Width = 105 := by decide
  unfold indexColour ROI.index
  rw [hc, ofBuffer_three, hW]
  have hc2 : wideSpeckWindow.img_.channels = 3 := by decide
  have hx : wideSpeckWindow.x_start_ = 0 := rfl
  have hy : wideSpeckWindow.y_start_ = 0 := rfl
  simp only [hc2, hx, hy, Mat.deref, wideSpeck, add_zero]
  rw [Int.tmod_eq_emod hi.1 (by decide), Int.tdiv_eq_ediv hi.1 (by decide)]
  by_cases h0 : i = 0
  · subst h0
    simp
  · rw [if_neg h0]
    have h1 : ¬ (i / 105 = 0 ∧ 3 * (i % 105) < 3) := by omega
    have h2 : ¬ (i / 105 = 0 ∧ 3 * (i % 105) + 1 < 3) := by omega
    have h3 : ¬ (i / 105 = 0 ∧ 3 * (i % 105) + 2 < 3) := by omega
    rw [if_neg h1, if_neg h2, if_neg h3]

/-- The total squared distances in the wide example window: `11024 * 195075` for the black
pixel, which does not fit an `int`, and `195075` for a white pixel. -/
theorem wideSpeck_totals :
    totalSquaredDistance wideSpeckWindow wideSpeck (RGBVector.rgb 0 0 0) = 2150506800 ∧
    totalSquaredDistance wideSpeckWindow wideSpeck (RGBVector.rgb 255 255 255) = 195075 := by
  have hW : wideSpeckWindow.Width = 105 := by decide
  have hH : wideSpeckWindow.Height = 105 := by decide
  have hN : wideSpeckWindow.Width * wideSpeckWindow.Height = 11025 := by decide
  constructor
  · rw [totalSquaredDistance_eq_sum_index _ _ _ (by rw [hW]; decide) (by rw [hH]; decide), hN,
      sum_loopRange_first _ 11025 (by decide) 0 195075
        (by rw [wideSpeck_indexColour 0 (by decide)]; decide)
        (by
          intro i hi
          rw [wideSpeck_indexColour i (by omega), if_neg (by omega)]
          decide)]
    decide
  · rw [totalSquaredDistance_eq_sum_index _ _ _ (by rw [hW]; decide) (by rw [hH]; decide), hN,
      sum_loopRange_first _ 11025 (by decide) 195075 0
        (by rw [wideSpeck_indexColour 0 (by decide)]; decide)
        (by
          intro i hi
          rw [wideSpeck_indexColour i (by omega), if_neg (by omega)]
          decide)]
    decide

/-- The summed distances that the code computes in the wide example window: the sum of
the black pixel wraps to a negative value. -/
theorem wideSpeck_aggregate (i : Int) (hi : 0 ≤ i ∧ i < 11025) :
    aggregateDistance wideSpeckWindow wideSpeck (indexColour wideSpeckWindow wideSpeck i)
      = if i = 0 then -2144460496 else 195075 := by
  rw [aggregateDistance_eq_int32_total _ _ rfl wideSpeck_is8U _
    (indexColour_isByteColour _ _ rfl wideSpeck_is8U i), wideSpeck_indexColour i hi]
  by_cases h0 : i = 0
  · rw [if_pos h0, if_pos h0, wideSpeck_totals.1]
    decide
  · rw [if_neg h0, if_neg h0, wideSpeck_totals.2]
    decide

/-- On the wide example raster every sorting routine makes the call at the centre return
`255`: the wrapped sum of the black pixel is the least key, so the black pixel is the
reference colour and each of the two last pixels is white. -/
theorem wideSpeck_call (stdSort : (Int → Int → Bool) → List Int → List Int)
    (hsort : IsSortingRoutine stdSort) :
    ∃ f2, MinVecDispersionFilter.call stdSort
        ⟨2, 1, 105, List.replicate 11025 0, List.replicate 11025 0⟩ 52 52 wideSpeck
      = .ok (RGBVector.rgb 255 255 255, f2) := by
  have hN : wideSpeckWindow.Width * wideSpeckWindow.Height = 11025 := by decide
  obtain ⟨σ, hperm, hsorted, m, f2, hm1, -, hcall⟩ :=
    MinVecDispersionFilter_call_sorted stdSort hsort wideSpeck rfl wideSpeck_is8U
      ⟨2, 1, 105, List.replicate 11025 0, List.replicate 11025 0⟩ 52 52 wideSpeckWindow rfl
      (by decide) (by decide)
      (by
        show (wideSpeckWindow.Width * wideSpeckWindow.Height).toNat
          ≤ (List.replicate 11025 (0 : Int)).length
        rw [List.length_replicate, hN]
        decide)
      (by rw [hN]; decide) (by rw [hN]; decide) (by decide)
  rw [hN] at hperm
  have hk : (2 : Int).toNat = 2 := rfl
  have hl : (1 : Int).toNat = 1 := rfl
  dsimp only at hm1
  rw [hk, hl] at hm1
  have hmem : ∀ a ∈ σ, 0 ≤ a ∧ a < 11025 :=
    fun a ha => mem_loopRange.1 (hperm.mem_iff.1 ha)
  have h0 : (0 : Int) ∈ σ := hperm.mem_iff.2 (mem_loopRange.2 (by decide))
  obtain ⟨τ, hτ⟩ := sorted_head_of_unique_min
    (fun a => aggregateDistance wideSpeckWindow wideSpeck (indexColour wideSpeckWindow wideSpeck a))
    σ 0 hsorted h0 (by
      intro b hb hne
      show aggregateDistance wideSpeckWindow wideSpeck (indexColour wideSpeckWindow wideSpeck 0)
        < aggregateDistance wideSpeckWindow wideSpeck (indexColour wideSpeckWindow wideSpeck b)
      rw [wideSpeck_aggregate 0 (by decide), wideSpeck_aggregate b (hmem b hb), if_neg hne]
      decide)
  have hnodup : σ.Nodup := hperm.nodup_iff.2 (loopRange_nodup 11025)
  have hlen : σ.length = 11025 := by
    have := hperm.length_eq
    rw [this]
    simp [loopRange]
  subst hτ
  have hτ0 : (0 : Int) ∉ τ := (List.nodup_cons.1 hnodup).1
  have hτlen : τ.length = 11024 := by
    simp only [List.length_cons] at hlen
    omega
  have href : floorMean ((List.take 1 (0 :: τ)).map (indexColour wideSpeckWindow wideSpeck)) 1
      = RGBVector.rgb 0 0 0 := by
    simp only [List.take_succ_cons, List.take_zero, List.map_cons, List.map_nil]
    rw [wideSpeck_indexColour 0 (by decide)]
    decide
  rw [href] at hm1
  obtain ⟨j, hj, hmj⟩ := hm1
  have hj2 : j ∈ τ := by
    rw [List.reverse_cons, List.take_append_of_le_length (by simp; omega)] at hj
    exact List.mem_reverse.1 (List.mem_of_mem_take hj)
  have hj0 : j ≠ 0 := fun h => hτ0 (h ▸ hj2)
  rw [wideSpeck_indexColour j (hmem j (List.mem_cons_of_mem _ hj2)), if_neg hj0] at hmj
  have hm : m = 195075 := by
    rw [hmj]
    decide
  have hs : scaledMagnitude 195075 = 255 :=
    scaledMagnitude_eq 195075 112626 255 (by decide) (by decide) (by decide)
  refine ⟨f2, ?_⟩
  rw [hcall, hm, hs]

/-- On the wide example raster the specification admits no other value than `0` for
`k = 2` and `l = 1`: the pixel of lowest total squared distance is white, the black pixel
and a white pixel have the highest totals, and the white one is at distance `0` from the
reference colour. -/
theorem wideSpeck_dispersion_value (v : Int)
    (h : IsDispersionValue wideSpeckWindow wideSpeck 2 1 v) : v = 0 := by
  have hN : wideSpeckWindow.Width * wideSpeckWindow.Height = 11025 := by decide
  obtain ⟨σ, hperm, hsorted, m, ⟨j, hj, hmj⟩, hmle, hv⟩ := h
  rw [hN] at hperm
  have hk : (2 : Int).toNat = 2 := rfl
  have hl : (1 : Int).toNat = 1 := rfl
  rw [hk] at hj
  rw [hk, hl] at hmle
  rw [hl] at hmj
  have hmem : ∀ a ∈ σ, 0 ≤ a ∧ a < 11025 :=
    fun a ha => mem_loopRange.1 (hperm.mem_iff.1 ha)
  have h0 : (0 : Int) ∈ σ := hperm.mem_iff.2 (mem_loopRange.2 (by decide))
  have htot : ∀ a, (0 ≤ a ∧ a < 11025) →
      totalSquaredDistance wideSpeckWindow wideSpeck (indexColour wideSpeckWindow wideSpeck a)
        = if a = 0 then 2150506800 else 195075 := by
    intro a ha
    rw [wideSpeck_indexColour a ha]
    by_cases ha0 : a = 0
    · rw [if_pos ha0, if_pos ha0, wideSpeck_totals.1]
    · rw [if_neg ha0, if_neg ha0, wideSpeck_totals.2]
  have hrev : σ.reverse.Pairwise (fun a b =>
      - totalSquaredDistance wideSpeckWindow wideSpeck (indexColour wideSpeckWindow wideSpeck a)
        ≤ - totalSquaredDistance wideSpeckWindow wideSpeck
            (indexColour wideSpeckWindow wideSpeck b)) := by
    rw [List.pairwise_reverse]
    refine hsorted.imp ?_
    intro a b hab
    omega
  obtain ⟨τ, hτ⟩ := sorted_head_of_unique_min
    (fun a => - totalSquaredDistance wideSpeckWindow wideSpeck
      (indexColour wideSpeckWindow wideSpeck a))
    σ.reverse 0 hrev (List.mem_reverse.2 h0) (by
      intro b hb hne
      show - totalSquaredDistance wideSpeckWindow wideSpeck
          (indexColour wideSpeckWindow wideSpeck 0)
        < - totalSquaredDistance wideSpeckWindow wideSpeck
          (indexColour wideSpeckWindow wideSpeck b)
      rw [htot 0 (by decide), htot b (hmem b (List.mem_reverse.1 hb)), if_neg hne]
      decide)
  have hnodup : σ.reverse.Nodup :=
    List.nodup_reverse.2 (hperm.nodup_iff.2 (loopRange_nodup 11025))
  have hlen : σ.reverse.length = 11025 := by
    rw [List.length_reverse, hperm.length_eq]
    simp [loopRange]
  have hσ : σ = τ.reverse ++ [0] := by
    have := congrArg List.reverse hτ
    rw [List.reverse_reverse] at this
    rw [this, List.reverse_cons]
  rw [hτ] at hnodup hlen hmle hj
  have hτ0 : (0 : Int) ∉ τ := (List.nodup_cons.1 hnodup).1
  have hτlen : τ.length = 11024 := by
    simp only [List.length_cons] at hlen
    omega
  have hτmem : ∀ a ∈ τ, 0 ≤ a ∧ a < 11025 := by
    intro a ha
    apply hmem
    rw [hσ]
    exact List.mem_append_left _ (List.mem_reverse.2 ha)
  have href : floorMean ((σ.take 1).map (indexColour wideSpeckWindow wideSpeck)) 1
      = RGBVector.rgb 255 255 255 := by
    have e := floorMean_const ((σ.take 1).map (indexColour wideSpeckWindow wideSpeck))
      (RGBVector.rgb 255 255 255) 1 (by decide)
      (by
        rw [List.length_map, List.length_take, hσ]
        simp only [List.length_append, List.length_reverse, List.length_singleton, hτlen]
        decide)
      (by
        intro d hd
        obtain ⟨a, ha, rfl⟩ := List.mem_map.1 hd
        rw [hσ, List.take_append_of_le_length (by simp; omega)] at ha
        have ha2 : a ∈ τ := List.mem_reverse.1 (List.mem_of_mem_take ha)
        have ha0 : a ≠ 0 := fun h => hτ0 (h ▸ ha2)
        rw [wideSpeck_indexColour a (hτmem a ha2), if_neg ha0])
    rw [e]
    rfl
  rw [href] at hmle hmj
  cases τ with
  | nil => simp at hτlen
  | cons t0 τ2 =>
    have ht0 : t0 ≠ 0 := fun h => hτ0 (h ▸ List.mem_cons_self _ _)
    have h1 := hmle t0 (by simp)
    rw [wideSpeck_indexColour t0 (hτmem t0 (List.mem_cons_self _ _)), if_neg ht0] at h1
    have h2 : exactSquaredDistance (RGBVector.rgb 255 255 255) (RGBVector.rgb 255 255 255) = 0 := by
      decide
    rw [h2] at h1
    have h3 : 0 ≤ m := by
      rw [hmj]
      unfold exactSquaredDistance
      positivity
    have hm : m = 0 := by omega
    rw [hv, hm]
    simp [scaledMagnitude]

/-- C17 as stated fails for the valid parameters `(width, k, l) = (105, 2, 1)` on the wide
example raster at its centre `(52, 52)`, whose clamped window holds `N = 11025 ≥ k, l`
pixels: the total squared distance `11024 * 195075 = 2150506800` of the black pixel does
not fit the `int` in which the code sums it and is stored as `-2144460496`, so the code
ranks the black pixel lowest, takes it as the reference colour and returns `255`, while
the value of the specification is `0`. -/
theorem MinVecDispersionFilter_wide_window_counterexample :
    failed (MinVecDispersionFilter.new 105 2 1) = false ∧
    IsFilterObject 105 2 1 ⟨2, 1, 105, List.replicate 11025 0, List.replicate 11025 0⟩ ∧
    ROI.square wideSpeck 52 52 105 = .ok wideSpeckWindow ∧
    wideSpeckWindow.Width * wideSpeckWindow.Height = 11025 ∧
    (∃ f2, MinVecDispersionFilter.call insertionSort
        ⟨2, 1, 105, List.replicate 11025 0, List.replicate 11025 0⟩ 52 52 wideSpeck
      = .ok (RGBVector.rgb 255 255 255, f2)) ∧
    ¬ IsDispersionValue wideSpeckWindow wideSpeck 2 1 255 ∧
    totalSquaredDistance wideSpeckWindow wideSpeck (RGBVector.rgb 0 0 0) = 2150506800 ∧
    int32 2150506800 = -2144460496 := by
  refine ⟨by decide, ⟨rfl, rfl, rfl, ?_, ?_⟩, rfl, by decide,
    wideSpeck_call insertionSort insertionSort_isSortingRoutine, ?_, wideSpeck_totals.1,
    by decide⟩
  · show (List.replicate 11025 (0 : Int)).length = _
    rw [List.length_replicate]
    decide
  · show (List.replicate 11025 (0 : Int)).length = _
    rw [List.length_replicate]
    decide
  · intro h
    have := wideSpeck_dispersion_value 255 h
    omega

/-! ## The colour gradient on images that vary along one axis -/

/-- The clamped coordinates of a sample lie in a raster that has a pixel. -/
theorem clamp_in_range (v n : Int) (hn : 1 ≤ n) :
    0 ≤ clamp v 0 (n - 1) ∧ clamp v 0 (n - 1) < n := by
  have := clamp_bounds v 0 (n - 1) (by omega)
  omega

/-- The integer square root of zero. -/
theorem sqrt_toNat_zero : Int.ofNat (Nat.sqrt (0 : Int).toNat) = 0 := by
  show Int.ofNat (Nat.sqrt 0) = 0
  rw [Nat.sqrt_zero]
  rfl

/-- C21: for every 8-bit 3-channel image whose colour depends only on the row index (a
purely vertical colour variation) and every pixel, the 0-degree response computed by
`ColourGradient` is `0` and the 45-degree and 135-degree responses are each less than or
equal to the 90-degree response; they are equal to it. -/
theorem ColourGradient_row_image_responses (img : Mat) (x y : Int)
    (htype : img.type = CV_8UC3) (h8 : img.is8U)
    (hrow : ∀ x1 x2 y2, (0 ≤ x1 ∧ x1 < img.cols) → (0 ≤ x2 ∧ x2 < img.cols) →
      (0 ≤ y2 ∧ y2 < img.rows) → RGBVector.ofMat img x1 y2 = RGBVector.ofMat img x2 y2)
    (hx : 0 ≤ x ∧ x < img.cols) (hy : 0 ≤ y ∧ y < img.rows) :
    ColourGradient.responses img x y =
      [gradientResponse img x y 0, gradientResponse img x y 1, gradientResponse img x y 2,
        gradientResponse img x y 3] ∧
    gradientResponse img x y 0 = 0 ∧
    (gradientResponse img x y 2 ≤ gradientResponse img x y 1 ∧
      gradientResponse img x y 3 ≤ gradientResponse img x y 1) ∧
    (gradientResponse img x y 2 = gradientResponse img x y 1 ∧
      gradientResponse img x y 3 = gradientResponse img x y 1) := by
  have key : ∀ a b, RGBVector.ofMat img (clamp a 0 (img.cols - 1)) (clamp b 0 (img.rows - 1))
      = RGBVector.ofMat img x (clamp b 0 (img.rows - 1)) := by
    intro a b
    exact hrow _ _ _ (clamp_in_range a img.cols (by omega)) hx
      (clamp_in_range b img.rows (by omega))
  have g0 : gradientOffset 0 = (1, 0) := rfl
  have g1 : gradientOffset 1 = (0, 1) := rfl
  have g2 : gradientOffset 2 = (1, 1) := rfl
  have g3 : gradientOffset 3 = (1, -1) := rfl
  have r0 : gradientResponse img x y 0 = 0 := by
    rw [gradientResponse_eq img htype h8]
    unfold orientationResponse orientationSqDist
    rw [g0]
    simp only [key, add_zero, sub_zero]
    rw [exactSquaredDistance_self]
    exact sqrt_toNat_zero
  have r1 : gradientResponse img x y 1 = Int.ofNat (Nat.sqrt (exactSquaredDistance
      (RGBVector.ofMat img x (clamp (y + 1) 0 (img.rows - 1)))
      (RGBVector.ofMat img x (clamp (y - 1) 0 (img.rows - 1)))).toNat) := by
    rw [gradientResponse_eq img htype h8]
    unfold orientationResponse orientationSqDist
    rw [g1]
    simp only [key]
  have r2 : gradientResponse img x y 2 = Int.ofNat (Nat.sqrt (exactSquaredDistance
      (RGBVector.ofMat img x (clamp (y + 1) 0 (img.rows - 1)))
      (RGBVector.ofMat img x (clamp (y - 1) 0 (img.rows - 1)))).toNat) := by
    rw [gradientResponse_eq img htype h8]
    unfold orientationResponse orientationSqDist
    rw [g2]
    simp only [key]
  have r3 : gradientResponse img x y 3 = Int.ofNat (Nat.sqrt (exactSquaredDistance
      (RGBVector.ofMat img x (clamp (y + 1) 0 (img.rows - 1)))
      (RGBVector.ofMat img x (clamp (y - 1) 0 (img.rows - 1)))).toNat) := by
    rw [gradientResponse_eq img htype h8]
    unfold orientationResponse orientationSqDist
    rw [g3]
    simp only [key]
    have e1 : y + -1 = y - 1 := by ring
    have e2 : y - -1 = y + 1 := by ring
    rw [e1, e2, exactSquaredDistance_comm]
  refine ⟨rfl, r0, ⟨?_, ?_⟩, ⟨?_, ?_⟩⟩
  · rw [r1, r2]
  · rw [r1, r3]
  · rw [r1, r2]
  · rw [r1, r3]

/-- Witness of C21: the banded example raster at the pixel `(1, 2)`. -/
theorem ColourGradient_row_image_responses_witness :
    ColourGradient.responses twoBands 1 2 =
      [gradientResponse twoBands 1 2 0, gradientResponse twoBands 1 2 1,
        gradientResponse twoBands 1 2 2, gradientResponse twoBands 1 2 3] ∧
    gradientResponse twoBands 1 2 0 = 0 ∧
    (gradientResponse twoBands 1 2 2 ≤ gradientResponse twoBands 1 2 1 ∧
      gradientResponse twoBands 1 2 3 ≤ gradientResponse twoBands 1 2 1) ∧
    (gradientResponse twoBands 1 2 2 = gradientResponse twoBands 1 2 1 ∧
      gradientResponse twoBands 1 2 3 = gradientResponse twoBands 1 2 1) :=
  ColourGradient_row_image_responses twoBands 1 2 rfl twoBands_is8U
    (fun x1 x2 y2 h1 h2 h3 => by rw [twoBands_rows x1 y2 h1 h3, twoBands_rows x2 y2 h2 h3])
    (by decide) (by decide)
/-! ## Non-maximum suppression and thresholds -/

/-- A raster of type `CV_32SC3` has three channels. -/
theorem channels_of_32SC3 (img : Mat) (htype : img.type = CV_32SC3) : img.channels = 3 := by
  unfold Mat.channels
  rw [htype]
  decide

/-- A raster of type `CV_32SC1` has one channel. -/
theorem channels_of_32SC1 (img : Mat) (htype : img.type = CV_32SC1) : img.channels = 1 := by
  unfold Mat.channels
  rw [htype]
  decide

/-- A raster of type `CV_8UC1` has one channel. -/
theorem channels_of_8UC1 (img : Mat) (htype : img.type = CV_8UC1) : img.channels = 1 := by
  unfold Mat.channels
  rw [htype]
  decide

/-- The colour read at a pixel of a raster with three channels. -/
theorem ofMat_three (img : Mat) (hc : img.channels = 3) (x y : Int) :
    RGBVector.ofMat img x y
      = RGBVector.rgb (img.data y (3 * x)) (img.data y (3 * x + 1)) (img.data y (3 * x + 2)) := by
  unfold RGBVector.ofMat
  rw [hc, ofBuffer_three]
  simp only [Mat.deref, Mat.pixelPtr, hc, add_zero]
  rw [mul_comm x 3]

/-- The colour read at a pixel of a raster with one channel. -/
theorem ofMat_one (img : Mat) (hc : img.channels = 1) (x y : Int) :
    RGBVector.ofMat img x y = RGBVector.rgb (img.data y x) 0 0 := by
  unfold RGBVector.ofMat
  rw [hc]
  simp [RGBVector.ofBuffer, RGBVector.rgb, Mat.deref, Mat.pixelPtr, hc]

/-- The comparison of an `int` with a half-integer constant. -/
theorem int_lt_half (t n : Int) : ((t : ℚ) < (n : ℚ) + 1 / 2) ↔ t ≤ n := by
  constructor
  · intro h
    by_contra hc
    have h1 : n + 1 ≤ t := by omega
    have h2 : ((n : ℚ) + 1) ≤ (t : ℚ) := by exact_mod_cast h1
    linarith
  · intro h
    have h2 : (t : ℚ) ≤ (n : ℚ) := by exact_mod_cast h
    linarith

/-- The sampling direction of `NonMaximumSupression` in terms of the integer angle. -/
theorem NonMaximumSupression_direction_eq (theta : Int) :
    NonMaximumSupression.direction theta =
      if theta ≤ 22 then (1, 0) else if theta ≤ 67 then (1, 1)
      else if theta ≤ 112 then (0, 1) else (1, -1) := by
  have h1 : ((theta : ℚ) < 22.5) ↔ theta ≤ 22 := by
    have := int_lt_half theta 22
    norm_num at this ⊢
    exact this
  have h2 : ((theta : ℚ) < 67.5) ↔ theta ≤ 67 := by
    have := int_lt_half theta 67
    norm_num at this ⊢
    exact this
  have h3 : ((theta : ℚ) < 112.5) ↔ theta ≤ 112 := by
    have := int_lt_half theta 112
    norm_num at this ⊢
    exact this
  unfold NonMaximumSupression.direction
  simp only [ge_iff_le, ← not_lt, h1, h2, h3]
  split_ifs <;> first | rfl | omega

/-- C22: for every gradient image (type `CV_32SC3`) and pixel `(x, y)` with angle `t` and
magnitude `m`, `NonMaximumSupression` outputs `m` if `m` is at least both magnitudes at
the border-clamped positions `(x+dx, y+dy)` and `(x-dx, y-dy)`, and `0` otherwise, where
`(dx, dy) = (1, 0)` if `t < 22.5`, `(1, 1)` if `22.5 ≤ t < 67.5`, `(0, 1)` if
`67.5 ≤ t < 112.5` and `(1, -1)` if `t ≥ 112.5`; hence the output is always either `0` or
the input magnitude. -/
theorem NonMaximumSupression_output (img : Mat) (x y : Int) (htype : img.type = CV_32SC3) :
    ∃ dx dy r,
      ((((img.data y (3 * x) : Int) : ℚ) < 22.5 ∧ dx = 1 ∧ dy = 0) ∨
        ((22.5 ≤ ((img.data y (3 * x) : Int) : ℚ) ∧ ((img.data y (3 * x) : Int) : ℚ) < 67.5) ∧
          dx = 1 ∧ dy = 1) ∨
        ((67.5 ≤ ((img.data y (3 * x) : Int) : ℚ) ∧ ((img.data y (3 * x) : Int) : ℚ) < 112.5) ∧
          dx = 0 ∧ dy = 1) ∨
        (112.5 ≤ ((img.data y (3 * x) : Int) : ℚ) ∧ dx = 1 ∧ dy = -1)) ∧
      (r = if img.data (clamp (y + dy) 0 (img.rows - 1))
                (3 * clamp (x + dx) 0 (img.cols - 1) + 1) ≤ img.data y (3 * x + 1) ∧
              img.data (clamp (y - dy) 0 (img.rows - 1))
                (3 * clamp (x - dx) 0 (img.cols - 1) + 1) ≤ img.data y (3 * x + 1)
            then img.data y (3 * x + 1) else 0) ∧
      NonMaximumSupression.call x y img = RGBVector.rgb r r r ∧
      (r = 0 ∨ r = img.data y (3 * x + 1)) := by
  have hc := channels_of_32SC3 img htype
  have hcall : NonMaximumSupression.call x y img =
      RGBVector.rgb
        (if img.data (clamp (y + (NonMaximumSupression.direction (img.data y (3 * x))).2) 0
                (img.rows - 1))
              (3 * clamp (x + (NonMaximumSupression.direction (img.data y (3 * x))).1) 0
                (img.cols - 1) + 1) ≤ img.data y (3 * x + 1) ∧
            img.data (clamp (y - (NonMaximumSupression.direction (img.data y (3 * x))).2) 0
                (img.rows - 1))
              (3 * clamp (x - (NonMaximumSupression.direction (img.data y (3 * x))).1) 0
                (img.cols - 1) + 1) ≤ img.data y (3 * x + 1)
          then img.data y (3 * x + 1) else 0)
        (if img.data (clamp (y + (NonMaximumSupression.direction (img.data y (3 * x))).2) 0
                (img.rows - 1))
              (3 * clamp (x + (NonMaximumSupression.direction (img.data y (3 * x))).1) 0
                (img.cols - 1) + 1) ≤ img.data y (3 * x + 1) ∧
            img.data (clamp (y - (NonMaximumSupression.direction (img.data y (3 * x))).2) 0
                (img.rows - 1))
              (3 * clamp (x - (NonMaximumSupression.direction (img.data y (3 * x))).1) 0
                (img.cols - 1) + 1) ≤ img.data y (3 * x + 1)
          then img.data y (3 * x + 1) else 0)
        (if img.data (clamp (y + (NonMaximumSupression.direction (img.data y (3 * x))).2) 0
                (img.rows - 1))
              (3 * clamp (x + (NonMaximumSupression.direction (img.data y (3 * x))).1) 0
                (img.cols - 1) + 1) ≤ img.data y (3 * x + 1) ∧
            img.data (clamp (y - (NonMaximumSupression.direction (img.data y (3 * x))).2) 0
                (img.rows - 1))
              (3 * clamp (x - (NonMaximumSupression.direction (img.data y (3 * x))).1) 0
                (img.cols - 1) + 1) ≤ img.data y (3 * x + 1)
          then img.data y (3 * x + 1) else 0) := by
    unfold NonMaximumSupression.call NonMaximumSupression.get_magnitude ClampCoordinate
    simp only [ofMat_three img hc, RGBVector.rgb, decide_eq_true_eq]
  have h1 : ((img.data y (3 * x) : ℚ) < 22.5) ↔ img.data y (3 * x) ≤ 22 := by
    have := int_lt_half (img.data y (3 * x)) 22
    norm_num at this ⊢
    exact this
  have h2 : ((img.data y (3 * x) : ℚ) < 67.5) ↔ img.data y (3 * x) ≤ 67 := by
    have := int_lt_half (img.data y (3 * x)) 67
    norm_num at this ⊢
    exact this
  have h3 : ((img.data y (3 * x) : ℚ) < 112.5) ↔ img.data y (3 * x) ≤ 112 := by
    have := int_lt_half (img.data y (3 * x)) 112
    norm_num at this ⊢
    exact this
  refine ⟨(NonMaximumSupression.direction (img.data y (3 * x))).1,
    (NonMaximumSupression.direction (img.data y (3 * x))).2, _, ?_, rfl, hcall, ?_⟩
  · rw [NonMaximumSupression_direction_eq]
    simp only [← not_lt, h1, h2, h3]
    split_ifs <;> simp <;> omega
  · split_ifs
    · right; rfl
    · left; rfl

/-- The allocating overload for an operator with one output channel whose calls return the
colour given by a function of the pixel: element `x` of row `y` of the result holds the
red channel of the colour of pixel `(x, y)`, every element outside the image is zero. -/
theorem Filter_one_channel {α σ : Type} (op : Operator α σ) (tiles : List Block) (img : Mat)
    (args : α) (shared : σ) (colour : Int → Int → RGBVector) (I : op.Inst → Prop)
    (inst0 : op.Inst) (htype : img.type = op.input_type)
    (hcons : op.construct args = .ok inst0) (hI0 : I inst0)
    (hcall : ∀ x y, (0 ≤ x ∧ x < img.cols) → (0 ≤ y ∧ y < img.rows) → ∀ inst s, I inst →
      ∃ inst2 s2, op.call inst x y img s = .ok (colour x y, inst2, s2) ∧ I inst2)
    (htiling : IsTiling ⟨0, img.rows, 0, img.cols⟩ tiles)
    (hch : OpenCVTypeInfo.channels op.output_type = 1) :
    ∃ out, internal.Filter op tiles img args shared = .ok out ∧
      (out.rows = img.rows ∧ out.cols = img.cols ∧ out.type = op.output_type) ∧
      (∀ x y, (0 ≤ x ∧ x < img.cols) → (0 ≤ y ∧ y < img.rows) →
        out.data y x = (colour x y).red) ∧
      (∀ y j, ¬ ((0 ≤ j ∧ j < img.cols) ∧ (0 ≤ y ∧ y < img.rows)) → out.data y j = 0) := by
  obtain ⟨out, hout, hdims, hin, hout0⟩ := Filter_of_colour op tiles img args shared colour I
    inst0 htype hcons hI0 hcall htiling
  rw [hch] at hin hout0
  refine ⟨out, hout, hdims, ?_, ?_⟩
  · intro x y hx hy
    have h := hin y x ⟨x, ⟨hx, hy⟩, by unfold pixelSlot; omega⟩
    rw [h, Int.emod_one, Int.ediv_one]
    rfl
  · intro y j hj
    apply hout0
    rintro ⟨x, ⟨hx, hy⟩, hs⟩
    unfold pixelSlot at hs
    apply hj
    have : j = x := by omega
    rw [this]
    exact ⟨hx, hy⟩

/-- The allocating overload for an operator with three output channels whose calls return
the colour given by a function of the pixel: the elements `3x, 3x+1, 3x+2` of row `y` of
the result hold the red, green and blue channel of the colour of pixel `(x, y)`. -/
theorem Filter_three_channels {α σ : Type} (op : Operator α σ) (tiles : List Block)
    (img : Mat) (args : α) (shared : σ) (colour : Int → Int → RGBVector) (I : op.Inst → Prop)
    (inst0 : op.Inst) (htype : img.type = op.input_type)
    (hcons : op.construct args = .ok inst0) (hI0 : I inst0)
    (hcall : ∀ x y, (0 ≤ x ∧ x < img.cols) → (0 ≤ y ∧ y < img.rows) → ∀ inst s, I inst →
      ∃ inst2 s2, op.call inst x y img s = .ok (colour x y, inst2, s2) ∧ I inst2)
    (htiling : IsTiling ⟨0, img.rows, 0, img.cols⟩ tiles)
    (hch : OpenCVTypeInfo.channels op.output_type = 3) :
    ∃ out, internal.Filter op tiles img args shared = .ok out ∧
      (out.rows = img.rows ∧ out.cols = img.cols ∧ out.type = op.output_type) ∧
      (∀ x y, (0 ≤ x ∧ x < img.cols) → (0 ≤ y ∧ y < img.rows) →
        out.data y (3 * x) = (colour x y).red ∧ out.data y (3 * x + 1) = (colour x y).green ∧
        out.data y (3 * x + 2) = (colour x y).blue) := by
  obtain ⟨out, hout, hdims, hin, -⟩ := Filter_of_colour op tiles img args shared colour I
    inst0 htype hcons hI0 hcall htiling
  rw [hch] at hin
  refine ⟨out, hout, hdims, ?_⟩
  intro x y hx hy
  have s0 := hin y (3 * x) ⟨x, ⟨hx, hy⟩, by unfold pixelSlot; omega⟩
  have s1 := hin y (3 * x + 1) ⟨x, ⟨hx, hy⟩, by unfold pixelSlot; omega⟩
  have s2 := hin y (3 * x + 2) ⟨x, ⟨hx, hy⟩, by unfold pixelSlot; omega⟩
  have e0 : (3 * x) % 3 = 0 ∧ (3 * x) / 3 = x := by omega
  have e1 : (3 * x + 1) % 3 = 1 ∧ (3 * x + 1) / 3 = x := by omega
  have e2 : (3 * x + 2) % 3 = 2 ∧ (3 * x + 2) / 3 = x := by omega
  rw [e0.1, e0.2] at s0
  rw [e1.1, e1.2] at s1
  rw [e2.1, e2.2] at s2
  exact ⟨s0, s1, s2⟩

/-- The value that `Threshold` gives to the magnitude `m`: `255`, `127` or `0`. -/
theorem Threshold_call_eq (f : Threshold) (img : Mat) (htype : img.type = CV_32SC1)
    (x y : Int) :
    f.call x y img =
      if ((img.data y x : Int) : ℚ) > f.max_th then RGBVector.rgb 255 255 255
      else if ((img.data y x : Int) : ℚ) > f.min_th then RGBVector.rgb 127 127 127
      else RGBVector.rgb 0 0 0 := by
  unfold Threshold.call
  simp only [ofMat_one img (channels_of_32SC1 img htype), RGBVector.rgb]

/-- The image that `Filter<Threshold>` returns: the classification of every pixel, zero
outside the image. -/
theorem Filter_Threshold (tiles : List Block) (img : Mat) (low high : ℚ)
    (htype : img.type = CV_32SC1) (htiling : IsTiling ⟨0, img.rows, 0, img.cols⟩ tiles) :
    ∃ out, internal.Filter Threshold.operator tiles img (low, high) () = .ok out ∧
      (out.rows = img.rows ∧ out.cols = img.cols ∧ out.type = CV_8UC1) ∧
      (∀ x y, (0 ≤ x ∧ x < img.cols) → (0 ≤ y ∧ y < img.rows) →
        out.data y x = if ((img.data y x : Int) : ℚ) > high then 255
          else if ((img.data y x : Int) : ℚ) > low then 127 else 0) ∧
      (∀ y j, ¬ ((0 ≤ j ∧ j < img.cols) ∧ (0 ≤ y ∧ y < img.rows)) → out.data y j = 0) := by
  obtain ⟨out, hout, hdims, hin, hout0⟩ := Filter_one_channel Threshold.operator tiles img
    (low, high) () (fun x y => (Threshold.new low high).call x y img)
    (fun inst => inst = Threshold.new low high) (Threshold.new low high) htype rfl rfl
    (by
      intro x y _ _ inst s hI
      subst hI
      exact ⟨_, _, rfl, rfl⟩)
    htiling (by decide)
  refine ⟨out, hout, hdims, ?_, hout0⟩
  intro x y hx hy
  rw [hin x y hx hy, Threshold_call_eq _ img htype]
  show (if ((img.data y x : Int) : ℚ) > high then RGBVector.rgb 255 255 255
    else if ((img.data y x : Int) : ℚ) > low then RGBVector.rgb 127 127 127
    else RGBVector.rgb 0 0 0).red = _
  split_ifs <;> rfl

/-- Witness of C22: the centre of a `3 × 3` gradient raster that is zero everywhere. -/
theorem NonMaximumSupression_output_witness :
    ∃ dx dy r,
      (((((Mat.zeros 3 3 CV_32SC3).data 1 (3 * 1) : Int) : ℚ) < 22.5 ∧ dx = 1 ∧ dy = 0) ∨
        ((22.5 ≤ (((Mat.zeros 3 3 CV_32SC3).data 1 (3 * 1) : Int) : ℚ) ∧
          (((Mat.zeros 3 3 CV_32SC3).data 1 (3 * 1) : Int) : ℚ) < 67.5) ∧ dx = 1 ∧ dy = 1) ∨
        ((67.5 ≤ (((Mat.zeros 3 3 CV_32SC3).data 1 (3 * 1) : Int) : ℚ) ∧
          (((Mat.zeros 3 3 CV_32SC3).data 1 (3 * 1) : Int) : ℚ) < 112.5) ∧ dx = 0 ∧ dy = 1) ∨
        (112.5 ≤ (((Mat.zeros 3 3 CV_32SC3).data 1 (3 * 1) : Int) : ℚ) ∧ dx = 1 ∧ dy = -1)) ∧
      (r = if (Mat.zeros 3 3 CV_32SC3).data
                (clamp (1 + dy) 0 ((Mat.zeros 3 3 CV_32SC3).rows - 1))
                (3 * clamp (1 + dx) 0 ((Mat.zeros 3 3 CV_32SC3).cols - 1) + 1)
                ≤ (Mat.zeros 3 3 CV_32SC3).data 1 (3 * 1 + 1) ∧
              (Mat.zeros 3 3 CV_32SC3).data
                (clamp (1 - dy) 0 ((Mat.zeros 3 3 CV_32SC3).rows - 1))
                (3 * clamp (1 - dx) 0 ((Mat.zeros 3 3 CV_32SC3).cols - 1) + 1)
                ≤ (Mat.zeros 3 3 CV_32SC3).data 1 (3 * 1 + 1)
            then (Mat.zeros 3 3 CV_32SC3).data 1 (3 * 1 + 1) else 0) ∧
      NonMaximumSupression.call 1 1 (Mat.zeros 3 3 CV_32SC3) = RGBVector.rgb r r r ∧
      (r = 0 ∨ r = (Mat.zeros 3 3 CV_32SC3).data 1 (3 * 1 + 1)) :=
  NonMaximumSupression_output (Mat.zeros 3 3 CV_32SC3) 1 1 rfl

/-! ## The HSV encoding of the gradient -/

/-- The integer part of a nonnegative quantity between two consecutive integers. -/
theorem truncToInt_eq (v : ℚ) (n : Int) (h1 : (n : ℚ) ≤ v) (h2 : v < (n : ℚ) + 1)
    (h0 : 0 ≤ n) : truncToInt v = n := by
  unfold truncToInt
  have hv : 0 ≤ v := le_trans (by exact_mod_cast h0) h1
  rw [if_pos hv]
  exact Int.floor_eq_iff.2 ⟨h1, h2⟩

/-- C28 at its failing input.  For the angle bucket `45` the first constructor argument
of `GradientToHSV::operator()` is `255*(RadiansToDegrees(45)/360.0)`, about `1826.3`: the
angle, which `ColourGradient` stores in degrees, is passed through `RadiansToDegrees`.
Its integer part `1826` is not in `[0, 255]` and is not `floor(255*45/360) = 31`; the low
byte, which the usual compilers store, is `34`.  The buckets `90` and `135` give `3652`
and `5478`, stored as `68` and `102`, where the claim has `63` and `95`. -/
theorem GradientToHSV_hue_not_scaled :
    (1826 < GradientToHSV.hue 45 ∧ GradientToHSV.hue 45 < 1827) ∧
    truncToInt (GradientToHSV.hue 45) = 1826 ∧
    ¬ (truncToInt (GradientToHSV.hue 45) ≤ 255) ∧
    (255 * 45 / 360 : Int) = 31 ∧
    toUInt8 (GradientToHSV.hue 45) = 34 ∧
    (∀ img x y, (RGBVector.ofMat img x y).red = 45 →
      (GradientToHSV.call x y img).red = 34 ∧ (GradientToHSV.call x y img).green = 255) ∧
    toUInt8 (GradientToHSV.hue 0) = 0 ∧
    (truncToInt (GradientToHSV.hue 90) = 3652 ∧ toUInt8 (GradientToHSV.hue 90) = 68 ∧
      (255 * 90 / 360 : Int) = 63) ∧
    (truncToInt (GradientToHSV.hue 135) = 5478 ∧ toUInt8 (GradientToHSV.hue 135) = 102 ∧
      (255 * 135 / 360 : Int) = 95) := by
  have b45 : (1826 : ℚ) < GradientToHSV.hue 45 ∧ GradientToHSV.hue 45 < 1827 := by
    unfold GradientToHSV.hue RadiansToDegrees kPi
    constructor <;> norm_num
  have b90 : (3652 : ℚ) < GradientToHSV.hue 90 ∧ GradientToHSV.hue 90 < 3653 := by
    unfold GradientToHSV.hue RadiansToDegrees kPi
    constructor <;> norm_num
  have b135 : (5478 : ℚ) < GradientToHSV.hue 135 ∧ GradientToHSV.hue 135 < 5479 := by
    unfold GradientToHSV.hue RadiansToDegrees kPi
    constructor <;> norm_num
  have t45 : truncToInt (GradientToHSV.hue 45) = 1826 :=
    truncToInt_eq _ 1826 (by exact_mod_cast le_of_lt b45.1) (by
      have := b45.2
      norm_num at this ⊢
      linarith) (by decide)
  have t90 : truncToInt (GradientToHSV.hue 90) = 3652 :=
    truncToInt_eq _ 3652 (by exact_mod_cast le_of_lt b90.1) (by
      have := b90.2
      norm_num at this ⊢
      linarith) (by decide)
  have t135 : truncToInt (GradientToHSV.hue 135) = 5478 :=
    truncToInt_eq _ 5478 (by exact_mod_cast le_of_lt b135.1) (by
      have := b135.2
      norm_num at this ⊢
      linarith) (by decide)
  have t0 : truncToInt (GradientToHSV.hue 0) = 0 := by
    apply truncToInt_eq _ 0 _ _ (le_refl _)
    · unfold GradientToHSV.hue RadiansToDegrees kPi
      norm_num
    · unfold GradientToHSV.hue RadiansToDegrees kPi
      norm_num
  have u45 : toUInt8 (GradientToHSV.hue 45) = 34 := by
    unfold toUInt8
    rw [t45]
    decide
  refine ⟨b45, t45, by rw [t45]; decide, by decide, u45, ?_, ?_, ⟨t90, ?_, by decide⟩,
    ⟨t135, ?_, by decide⟩⟩
  · intro img x y h
    unfold GradientToHSV.call
    simp only [h, RGBVector.rgb]
    exact ⟨u45, trivial⟩
  · unfold toUInt8
    rw [t0]
    decide
  · unfold toUInt8
    rw [t90]
    decide
  · unfold toUInt8
    rw [t135]
    decide

/-- The value channel that `GradientToHSV` derives from a magnitude `0 ≤ m ≤ 441`: the
quantity `255*(m/441)` has the integer part `255*m/441`, which fits a byte. -/
theorem GradientToHSV_value_eq (m : Int) (h : 0 ≤ m ∧ m ≤ 441) :
    truncToInt (GradientToHSV.value m) = 255 * m / 441 ∧
    toUInt8 (GradientToHSV.value m) = 255 * m / 441 ∧
    (0 ≤ 255 * m / 441 ∧ 255 * m / 441 ≤ 255) ∧
    (255 * m / 441 = 255 ↔ m = 441) := by
  have hq : 0 ≤ 255 * m / 441 ∧ 255 * m / 441 ≤ 255 := by omega
  have hd := Int.ediv_add_emod (255 * m) 441
  have hr1 := Int.emod_nonneg (255 * m) (by decide : (441 : Int) ≠ 0)
  have hr2 := Int.emod_lt_of_pos (255 * m) (by decide : (0 : Int) < 441)
  have hv : GradientToHSV.value m = ((255 * m : Int) : ℚ) / 441 := by
    unfold GradientToHSV.value kMaxDistance
    push_cast
    ring
  have hdq : (441 : ℚ) * ((255 * m / 441 : Int) : ℚ) + (((255 * m) % 441 : Int) : ℚ)
      = ((255 * m : Int) : ℚ) := by exact_mod_cast hd
  have hr1q : (0 : ℚ) ≤ (((255 * m) % 441 : Int) : ℚ) := by exact_mod_cast hr1
  have hr2q : (((255 * m) % 441 : Int) : ℚ) < 441 := by exact_mod_cast hr2
  have ht : truncToInt (GradientToHSV.value m) = 255 * m / 441 := by
    apply truncToInt_eq _ _ _ _ hq.1
    · rw [hv, le_div_iff₀ (by norm_num : (0 : ℚ) < 441)]
      linarith
    · rw [hv, div_lt_iff₀ (by norm_num : (0 : ℚ) < 441)]
      linarith
  refine ⟨ht, ?_, hq, by omega⟩
  unfold toUInt8
  rw [ht]
  omega

/-- C29: for every 8-bit 3-channel image and pixel, the magnitude output by
`ColourGradient` is `floor(sqrt(d))` for a squared colour distance `d ≤ 195075`, the one of
the selected orientation, and therefore lies in `[0, 441]`; and the value channel that
`GradientToHSV` derives from a magnitude `m` in `[0, 441]`, `floor(255 * m / 441)`, lies in
`[0, 255]` and is `255` only for the magnitude `441`. -/
theorem ColourGradient_magnitude_range (img : Mat) (x y : Int)
    (htype : img.type = CV_8UC3) (h8 : img.is8U) :
    (∃ i d, (0 ≤ i ∧ i ≤ 3) ∧ d = orientationSqDist img x y i ∧ (0 ≤ d ∧ d ≤ 195075) ∧
      (ColourGradient.call x y img).green = Int.ofNat (Nat.sqrt d.toNat)) ∧
    (0 ≤ (ColourGradient.call x y img).green ∧ (ColourGradient.call x y img).green ≤ 441) ∧
    (∀ m : Int, (0 ≤ m ∧ m ≤ 441) →
      truncToInt (GradientToHSV.value m) = 255 * m / 441 ∧
      (0 ≤ 255 * m / 441 ∧ 255 * m / 441 ≤ 255) ∧
      (255 * m / 441 = 255 ↔ m = 441)) ∧
    (∀ g gx gy, (RGBVector.ofMat g gx gy).green = (ColourGradient.call x y img).green →
      (GradientToHSV.call gx gy g).blue = 255 * (ColourGradient.call x y img).green / 441 ∧
      (0 ≤ (GradientToHSV.call gx gy g).blue ∧ (GradientToHSV.call gx gy g).blue ≤ 255) ∧
      ((GradientToHSV.call gx gy g).blue = 255 ↔ (ColourGradient.call x y img).green = 441)) := by
  obtain ⟨i, hi, hcall, -, -⟩ := ColourGradient_call_first_max img x y
  have hb := exactSquaredDistance_bounds _ _
    (ofMat_isByteColour img htype h8
      (clamp (x + (gradientOffset i).1) 0 (img.cols - 1))
      (clamp (y + (gradientOffset i).2) 0 (img.rows - 1)))
    (ofMat_isByteColour img htype h8
      (clamp (x - (gradientOffset i).1) 0 (img.cols - 1))
      (clamp (y - (gradientOffset i).2) 0 (img.rows - 1)))
  have hd : 0 ≤ orientationSqDist img x y i ∧ orientationSqDist img x y i ≤ 195075 := hb
  have hgreen : (ColourGradient.call x y img).green
      = Int.ofNat (Nat.sqrt (orientationSqDist img x y i).toNat) := by
    rw [hcall]
    show gradientResponse img x y i = _
    rw [gradientResponse_eq img htype h8]
    rfl
  have hrange : 0 ≤ (ColourGradient.call x y img).green ∧
      (ColourGradient.call x y img).green ≤ 441 := by
    rw [hgreen]
    have h1 : Nat.sqrt (orientationSqDist img x y i).toNat < 442 := by
      rw [Nat.sqrt_lt]
      omega
    constructor
    · exact Int.ofNat_nonneg _
    · show ((Nat.sqrt (orientationSqDist img x y i).toNat : Nat) : Int) ≤ 441
      omega
  refine ⟨⟨i, _, hi, rfl, hd, hgreen⟩, hrange, ?_, ?_⟩
  · intro m hm
    have := GradientToHSV_value_eq m hm
    exact ⟨this.1, this.2.2.1, this.2.2.2⟩
  · intro g gx gy hg
    have hv := GradientToHSV_value_eq _ hrange
    have hblue : (GradientToHSV.call gx gy g).blue
        = 255 * (ColourGradient.call x y img).green / 441 := by
      unfold GradientToHSV.call
      simp only [RGBVector.rgb, hg]
      exact hv.2.1
    rw [hblue]
    exact ⟨rfl, hv.2.2.1, hv.2.2.2⟩

/-- Witness of C29: the centre of the example raster with two nearly tied orientations. -/
theorem ColourGradient_magnitude_range_witness :
    (∃ i d, (0 ≤ i ∧ i ≤ 3) ∧ d = orientationSqDist nearTie 1 1 i ∧ (0 ≤ d ∧ d ≤ 195075) ∧
      (ColourGradient.call 1 1 nearTie).green = Int.ofNat (Nat.sqrt d.toNat)) ∧
    (0 ≤ (ColourGradient.call 1 1 nearTie).green ∧
      (ColourGradient.call 1 1 nearTie).green ≤ 441) ∧
    (∀ m : Int, (0 ≤ m ∧ m ≤ 441) →
      truncToInt (GradientToHSV.value m) = 255 * m / 441 ∧
      (0 ≤ 255 * m / 441 ∧ 255 * m / 441 ≤ 255) ∧
      (255 * m / 441 = 255 ↔ m = 441)) ∧
    (∀ g gx gy, (RGBVector.ofMat g gx gy).green = (ColourGradient.call 1 1 nearTie).green →
      (GradientToHSV.call gx gy g).blue = 255 * (ColourGradient.call 1 1 nearTie).green / 441 ∧
      (0 ≤ (GradientToHSV.call gx gy g).blue ∧ (GradientToHSV.call gx gy g).blue ≤ 255) ∧
      ((GradientToHSV.call gx gy g).blue = 255 ↔
        (ColourGradient.call 1 1 nearTie).green = 441)) :=
  ColourGradient_magnitude_range nearTie 1 1 rfl nearTie_is8U

/-! ## Vector median filter: ties -/

/-- The scan over a window in which some key is below the start value ends with the colour
of the first window pixel, in row-major order, of least key. -/
theorem scan_first_least_rowMajor_of_low {α : Type} (key : Int × Int → Int)
    (col : Int × Int → RGBVector)
    (f : α → Int × Int → α) (dist : α → Int) (colour : α → RGBVector)
    (hd : ∀ s b, dist (f s b) = if key b < dist s then key b else dist s)
    (hc : ∀ s b, colour (f s b) = if key b < dist s then col b else colour s)
    (W H : Int) (s0 : α)
    (hlow : ∃ q ∈ rowMajor W H, key q < dist s0) :
    ∃ xi yi, ((0 ≤ xi ∧ xi < W) ∧ (0 ≤ yi ∧ yi < H)) ∧
      colour ((rowMajor W H).foldl f s0) = col (xi, yi) ∧
      (∀ xj yj, (0 ≤ xj ∧ xj < W) → (0 ≤ yj ∧ yj < H) → key (xi, yi) ≤ key (xj, yj)) ∧
      (∀ xj yj, (0 ≤ xj ∧ xj < W) → (0 ≤ yj ∧ yj < H) → rowMajorBefore xj yj xi yi →
        key (xi, yi) < key (xj, yj)) := by
  rcases scan_first_least key col f dist colour hd hc (rowMajor W H) s0 with
    ⟨-, -, h3⟩ | ⟨pre1, p, pre2, e, -, h2, h3, h4⟩
  · exfalso
    obtain ⟨q, hq, hlt⟩ := hlow
    have := h3 q hq
    omega
  · have hp : p ∈ rowMajor W H := by
      rw [e]
      simp
    obtain ⟨xi, yi⟩ := p
    refine ⟨xi, yi, mem_rowMajor.1 hp, h2, ?_, ?_⟩
    · intro xj yj hx hy
      have hq : (xj, yj) ∈ rowMajor W H := mem_rowMajor.2 ⟨hx, hy⟩
      rw [e] at hq
      rcases List.mem_append.1 hq with h | h
      · exact le_of_lt (h3 _ h)
      · rcases List.mem_cons.1 h with h | h
        · rw [h]
        · exact h4 _ h
    · intro xj yj hx hy hb
      exact h3 _ (rowMajor_before_mem W H pre1 pre2 (xi, yi) (xj, yj) e
        (mem_rowMajor.2 ⟨hx, hy⟩) hb)

/-- Where the defect of the start value does not bite, the tie-break is the stated one: on
an 8-bit 3-channel image, for an odd width `3 ≤ w ≤ 103`, when some window pixel has a
total squared distance below `441 * w * w`, `VMFilter` returns the colour of the first
window pixel in row-major order with minimal total squared distance. -/
theorem VMFilter_first_minimal (img : Mat) (x y width : Int)
    (htype : img.type = CV_8UC3) (h8 : img.is8U)
    (hx : 0 ≤ x ∧ x < img.cols) (hy : 0 ≤ y ∧ y < img.rows)
    (hw : 3 ≤ width ∧ width ≤ 103 ∧ width % 2 = 1) :
    ∃ window, ROI.square img x y width = .ok window ∧
      ((∃ xi yi, ((0 ≤ xi ∧ xi < window.Width) ∧ (0 ≤ yi ∧ yi < window.Height)) ∧
          totalSquaredDistance window img (windowColour window img xi yi)
            < 441 * (width * width)) →
        ∃ xmin ymin, IsFirstMinimal window img xmin ymin ∧
          VMFilter.call ⟨width⟩ x y img = .ok (windowColour window img xmin ymin)) := by
  obtain ⟨r, hr, -, hW, hH⟩ := ROI_square_dims img x y width hx hy ⟨hw.1, hw.2.2⟩
  refine ⟨r, hr, ?_⟩
  rintro ⟨xl, yl, hin, hlt⟩
  have hagg : ∀ xi yi, aggregateDistance r img
      (RGBVector.ofBuffer (img.deref (r.at xi yi)) img.channels)
      = totalSquaredDistance r img (windowColour r img xi yi) := by
    intro xi yi
    exact aggregateDistance_eq_total r img htype h8 ⟨by omega, by omega⟩ ⟨by omega, by omega⟩
      _ (windowColour_isByteColour r img htype h8 xi yi)
  have hstart : int32 (int32 (kMaxDistance * width) * width) = 441 * (width * width) := by
    have hk : kMaxDistance = 441 := rfl
    have h2 : width * width ≤ 103 * 103 := by nlinarith
    have h3 : 0 ≤ width * width := by nlinarith
    have hp : (2 : Int) ^ 31 = 2147483648 := by norm_num
    rw [hk, int32_eq_self (441 * width) (by omega) (by omega)]
    have e : 441 * width * width = 441 * (width * width) := by ring
    rw [e, int32_eq_self _ (by omega) (by omega)]
  have hscan : VMFilter.scan ⟨width⟩ r img
      = (rowMajor r.Width r.Height).foldl (fun s p => VMFilter.step r img s p.1 p.2)
          ⟨441 * (width * width), windowColour r img 0 0⟩ := by
    unfold VMFilter.scan
    simp only
    rw [hstart]
    exact foldl_rowMajor (fun s x y => VMFilter.step r img s x y) r.Width r.Height _
  obtain ⟨xmin, ymin, hmin_in, hmin_c, hmin_le, hmin_lt⟩ :=
    scan_first_least_rowMajor_of_low
      (fun p => totalSquaredDistance r img (windowColour r img p.1 p.2))
      (fun p => windowColour r img p.1 p.2)
      (fun s p => VMFilter.step r img s p.1 p.2)
      (fun s => s.minimum_distance) (fun s => s.best_vector)
      (by
        intro s b
        unfold VMFilter.step
        simp only [hagg]
        split_ifs <;> rfl)
      (by
        intro s b
        unfold VMFilter.step
        simp only [hagg]
        split_ifs <;> rfl)
      r.Width r.Height ⟨441 * (width * width), windowColour r img 0 0⟩
      ⟨(xl, yl), mem_rowMajor.2 hin, hlt⟩
  rw [← hscan] at hmin_c
  refine ⟨xmin, ymin, ⟨hmin_in, hmin_le, hmin_lt⟩, ?_⟩
  unfold VMFilter.call
  simp only [hr]
  show Except.ok _ = Except.ok _
  rw [hmin_c]

/-- C30 at its failing input.  On the `3 × 3` example image, whose top-left pixel is black
and whose other pixels are white, the window of width `3` at the centre `(1, 1)` is the
whole image; the eight white pixels attain the minimal total squared distance `195075`,
and the first of them in row-major order is window pixel `(1, 0)`.  The call returns
black, the colour of window pixel `(0, 0)`, whose total `1560600` is not minimal: every
total is at least the start value `441 * 3 * 3 = 3969` of `minimum_distance`, so the
strict comparison never accepts a candidate. -/
theorem VMFilter_tie_returns_start_colour :
    VMFilter.new 3 = .ok ⟨3⟩ ∧
    ROI.square cornerSpeck 1 1 3 = .ok cornerSpeckWindow ∧
    IsFirstMinimal cornerSpeckWindow cornerSpeck 1 0 ∧
    windowColour cornerSpeckWindow cornerSpeck 1 0 = RGBVector.rgb 255 255 255 ∧
    totalSquaredDistance cornerSpeckWindow cornerSpeck
      (windowColour cornerSpeckWindow cornerSpeck 1 0) = 195075 ∧
    totalSquaredDistance cornerSpeckWindow cornerSpeck
      (windowColour cornerSpeckWindow cornerSpeck 2 0) = 195075 ∧
    VMFilter.call ⟨3⟩ 1 1 cornerSpeck = .ok (RGBVector.rgb 0 0 0) ∧
    VMFilter.call ⟨3⟩ 1 1 cornerSpeck
      ≠ .ok (windowColour cornerSpeckWindow cornerSpeck 1 0) ∧
    totalSquaredDistance cornerSpeckWindow cornerSpeck (RGBVector.rgb 0 0 0) = 1560600 ∧
    int32 (int32 (kMaxDistance * 3) * 3) = 3969 := by
  have hW : cornerSpeckWindow.Width = 3 := by decide
  have hH : cornerSpeckWindow.Height = 3 := by decide
  have hcol : ∀ xj yj, (0 ≤ xj ∧ xj < 3) → (0 ≤ yj ∧ yj < 3) →
      windowColour cornerSpeckWindow cornerSpeck xj yj
        = if xj = 0 ∧ yj = 0 then RGBVector.rgb 0 0 0 else RGBVector.rgb 255 255 255 := by
    intro xj yj hxj hyj
    have e1 : xj = 0 ∨ xj = 1 ∨ xj = 2 := by omega
    have e2 : yj = 0 ∨ yj = 1 ∨ yj = 2 := by omega
    rcases e1 with e1 | e1 | e1 <;> rcases e2 with e2 | e2 | e2 <;> subst e1 <;> subst e2 <;>
      decide
  have hwhite : totalSquaredDistance cornerSpeckWindow cornerSpeck (RGBVector.rgb 255 255 255)
      = 195075 := by
    set_option maxRecDepth 100000 in decide
  have hblack : totalSquaredDistance cornerSpeckWindow cornerSpeck (RGBVector.rgb 0 0 0)
      = 1560600 := by
    set_option maxRecDepth 100000 in decide
  have hcall : VMFilter.call ⟨3⟩ 1 1 cornerSpeck = .ok (RGBVector.rgb 0 0 0) := by
    set_option maxRecDepth 100000 in rfl
  have h10 : windowColour cornerSpeckWindow cornerSpeck 1 0 = RGBVector.rgb 255 255 255 := by
    rw [hcol 1 0 (by decide) (by decide)]
    rfl
  have h20 : windowColour cornerSpeckWindow cornerSpeck 2 0 = RGBVector.rgb 255 255 255 := by
    rw [hcol 2 0 (by decide) (by decide)]
    rfl
  refine ⟨rfl, rfl, ⟨?_, ?_, ?_⟩, h10, by rw [h10, hwhite], by rw [h20, hwhite], hcall, ?_,
    hblack, by decide⟩
  · rw [hW, hH]
    decide
  · intro xj yj hxj hyj
    rw [hW] at hxj
    rw [hH] at hyj
    rw [h10, hcol xj yj hxj hyj]
    split_ifs
    · rw [hwhite, hblack]
      decide
    · exact le_refl _
  · intro xj yj hxj hyj hb
    rw [hW] at hxj
    rw [hH] at hyj
    have h0 : xj = 0 ∧ yj = 0 := by
      unfold rowMajorBefore at hb
      omega
    rw [h10, hcol xj yj hxj hyj, if_pos h0, hwhite, hblack]
    decide
  · rw [hcall, h10]
    intro h
    have := Except.ok.inj h
    revert this
    decide

/-! ## Edge linking: one visit, one pass -/

/-- The two loops over `dy` and `dx` of `ConnectedComponents::operator()` find a neighbour
that reads `255` exactly when one exists. -/
theorem ConnectedComponents_scan_iff (img : Mat) (hc : img.channels = 1) (x y : Int) :
    ([-1, 0, 1].any (fun dy => [-1, 0, 1].any (fun dx =>
      decide ((RGBVector.ofMat img (ClampCoordinate img (x + dx) (y + dy)).1
        (ClampCoordinate img (x + dx) (y + dy)).2).red = 255)))) = true
      ↔ readsStrong img x y := by
  simp only [List.any_cons, List.any_nil, Bool.or_false, Bool.or_eq_true, decide_eq_true_eq,
    ClampCoordinate, ofMat_one img hc, RGBVector.rgb]
  unfold readsStrong neighbourOffsets
  simp only [List.mem_cons, List.mem_singleton, exists_eq_or_imp, exists_eq_left,
    List.not_mem_nil, false_and, exists_false, or_false]
  tauto

/-- Storing the value that an element already holds leaves the raster unchanged. -/
theorem Mat_store_self (m : Mat) (y j : Int) : m.store y j (m.data y j) = m := by
  refine Mat_eq_of_fields (m.store y j (m.data y j)) m rfl rfl rfl ?_
  intro y2 j2
  show (if y2 = y ∧ j2 = j then m.data y j else m.data y2 j2) = m.data y2 j2
  split_ifs with h
  · rw [h.1, h.2]
  · rfl

/-- The `switch` of the body for one output channel stores the red channel at element `x`. -/
theorem storePixel_one (m : Mat) (x y : Int) (out : RGBVector) :
    storePixel m 1 x y out = m.store y x out.red := by
  unfold storePixel
  simp

/-- The call of `ConnectedComponents` on a classified one-channel raster, followed by the
store of the engine, is the visit of the specification. -/
theorem ConnectedComponents_call_eq (cur : Mat) (htype : cur.type = CV_8UC1)
    (hcls : IsClassified cur) (x y : Int) (flag : Bool) :
    (ConnectedComponents.call x y cur flag).2 = (linkStep (cur, flag) (x, y)).2 ∧
    (ConnectedComponents.call x y cur flag).1.red = (linkStep (cur, flag) (x, y)).1.data y x ∧
    storePixel cur 1 x y (ConnectedComponents.call x y cur flag).1
      = (linkStep (cur, flag) (x, y)).1 := by
  have hc := channels_of_8UC1 cur htype
  have hscan : ([-1, 0, 1].any (fun dy => [-1, 0, 1].any (fun dx =>
      decide ((RGBVector.ofMat cur (ClampCoordinate cur (x + dx) (y + dy)).1
        (ClampCoordinate cur (x + dx) (y + dy)).2).red = 255))))
      = decide (readsStrong cur x y) := by
    rw [Bool.eq_iff_iff, decide_eq_true_eq]
    exact ConnectedComponents_scan_iff cur hc x y
  have hv := hcls y x
  have hcall : ConnectedComponents.call x y cur flag =
      if cur.data y x < 127 then (RGBVector.rgb (cur.data y x) 0 0, flag)
      else if cur.data y x = 255 then (RGBVector.rgb (cur.data y x) 0 0, flag)
      else if readsStrong cur x y then (RGBVector.rgb 255 255 255, true)
      else (RGBVector.rgb (cur.data y x) 0 0, flag) := by
    unfold ConnectedComponents.call
    simp only [hscan]
    simp only [ofMat_one cur hc, decide_eq_true_eq]
    rfl
  rw [hcall]
  unfold linkStep
  have hred : (RGBVector.rgb (cur.data y x) 0 0).red = cur.data y x := rfl
  by_cases h127 : cur.data y x = 127
  · have h1 : ¬ cur.data y x < 127 := by omega
    have h2 : ¬ cur.data y x = 255 := by omega
    rw [if_neg h1, if_neg h2]
    by_cases hs : readsStrong cur x y
    · rw [if_pos hs, if_pos ⟨h127, hs⟩]
      refine ⟨rfl, ?_, ?_⟩
      · show (255 : Int) = if y = y ∧ x = x then 255 else cur.data y x
        simp
      · rw [storePixel_one]
        rfl
    · rw [if_neg hs, if_neg (fun h => hs h.2)]
      refine ⟨rfl, rfl, ?_⟩
      rw [storePixel_one, hred, Mat_store_self]
  · have hkeep : (if cur.data y x < 127 then (RGBVector.rgb (cur.data y x) 0 0, flag)
        else if cur.data y x = 255 then (RGBVector.rgb (cur.data y x) 0 0, flag)
        else if readsStrong cur x y then (RGBVector.rgb 255 255 255, true)
        else (RGBVector.rgb (cur.data y x) 0 0, flag))
        = (RGBVector.rgb (cur.data y x) 0 0, flag) := by
      rcases hv with h | h | h
      · rw [if_pos (by omega)]
      · exact absurd h h127
      · rw [if_neg (by omega), if_pos h]
    rw [hkeep, if_neg (fun h => h127 h.1)]
    refine ⟨rfl, rfl, ?_⟩
    rw [storePixel_one, hred, Mat_store_self]

/-- The visit of the specification keeps the size and type of the raster and the
classification. -/
theorem linkStep_fields (s : Mat × Bool) (p : Int × Int) :
    (linkStep s p).1.rows = s.1.rows ∧ (linkStep s p).1.cols = s.1.cols ∧
    (linkStep s p).1.type = s.1.type ∧ (IsClassified s.1 → IsClassified (linkStep s p).1) := by
  unfold linkStep
  split_ifs with h
  · refine ⟨rfl, rfl, rfl, ?_⟩
    intro hcls y j
    have hd : (s.1.store p.2 p.1 255).data y j
        = if y = p.2 ∧ j = p.1 then 255 else s.1.data y j := rfl
    show (s.1.store p.2 p.1 255).data y j = 0 ∨ (s.1.store p.2 p.1 255).data y j = 127 ∨
      (s.1.store p.2 p.1 255).data y j = 255
    rw [hd]
    split_ifs
    · right; right; rfl
    · exact hcls y j
  · exact ⟨rfl, rfl, rfl, fun h => h⟩

/-- The pixel loops of the engine with `ConnectedComponents`, filtering a classified
one-channel raster in place, are the visits of the specification one after the other. -/
theorem ConnectedComponents_processPixels (pixels : List (Int × Int)) (cur : Mat)
    (htype : cur.type = CV_8UC1) (hcls : IsClassified cur) (flag : Bool) :
    processPixels ConnectedComponents.operator none pixels () cur flag
      = ⟨none, (pixels.foldl linkStep (cur, flag)).1, (pixels.foldl linkStep (cur, flag)).2⟩ := by
  induction pixels generalizing cur flag with
  | nil => rfl
  | cons p rest ih =>
    obtain ⟨x, y⟩ := p
    obtain ⟨h1, -, h3⟩ := ConnectedComponents_call_eq cur htype hcls x y flag
    have hf := linkStep_fields (cur, flag) (x, y)
    have hstep : processPixels ConnectedComponents.operator none ((x, y) :: rest) () cur flag
        = processPixels ConnectedComponents.operator none rest ()
            (storePixel cur 1 x y (ConnectedComponents.call x y cur flag).1)
            (ConnectedComponents.call x y cur flag).2 := rfl
    rw [hstep, h1, h3, ih _ (by rw [hf.2.2.1]; exact htype) (hf.2.2.2 hcls)]
    rfl

/-- The visits of the specification keep the size and type of the raster and the
classification. -/
theorem foldl_linkStep_fields (pixels : List (Int × Int)) (s : Mat × Bool) :
    (pixels.foldl linkStep s).1.rows = s.1.rows ∧ (pixels.foldl linkStep s).1.cols = s.1.cols ∧
    (pixels.foldl linkStep s).1.type = s.1.type ∧
    (IsClassified s.1 → IsClassified (pixels.foldl linkStep s).1) := by
  induction pixels generalizing s with
  | nil => exact ⟨rfl, rfl, rfl, fun h => h⟩
  | cons p rest ih =>
    have h1 := linkStep_fields s p
    have h2 := ih (linkStep s p)
    simp only [List.foldl_cons]
    exact ⟨h2.1.trans h1.1, h2.2.1.trans h1.2.1, h2.2.2.1.trans h1.2.2.1,
      fun h => h2.2.2.2 (h1.2.2.2 h)⟩

/-- The run of the engine over a list of blocks with `ConnectedComponents`, filtering a
classified one-channel raster in place. -/
theorem ConnectedComponents_blocks (tiles : List Block) (cur : Mat)
    (htype : cur.type = CV_8UC1) (hcls : IsClassified cur) (flag : Bool) :
    tiles.foldl (runBlock ConnectedComponents.operator none ()) ⟨none, cur, flag⟩
      = ⟨none, ((tiles.flatMap Block.pixels).foldl linkStep (cur, flag)).1,
          ((tiles.flatMap Block.pixels).foldl linkStep (cur, flag)).2⟩ := by
  induction tiles generalizing cur flag with
  | nil => rfl
  | cons b rest ih =>
    have hf := foldl_linkStep_fields b.pixels (cur, flag)
    simp only [List.foldl_cons, List.flatMap_cons, List.foldl_append]
    rw [runBlock_ok ConnectedComponents.operator none () () rfl,
      ConnectedComponents_processPixels b.pixels cur htype hcls flag]
    exact ih _ (by rw [hf.2.2.1]; exact htype) (hf.2.2.2 hcls) _

/-- One linking pass `Filter<ConnectedComponents>(filtered, filtered, was_modified)` on a
classified raster of type `CV_8UC1` throws nothing and is the sequence of the visits of
the specification over the pixels of the pass. -/
theorem ConnectedComponents_pass (tiles : List Block) (cur : Mat)
    (htype : cur.type = CV_8UC1) (hcls : IsClassified cur) (flag : Bool) :
    FilterInto ConnectedComponents.operator tiles cur none () flag
      = ⟨none,
          ((passPixels ⟨0, cur.rows, 0, cur.cols⟩ tiles).foldl linkStep (cur, flag)).1,
          ((passPixels ⟨0, cur.rows, 0, cur.cols⟩ tiles).foldl linkStep (cur, flag)).2⟩ := by
  have h1 : ¬ cur.type ≠ ConnectedComponents.operator.input_type := by
    intro h
    exact h htype
  have h2 : ¬ cur.type ≠ ConnectedComponents.operator.output_type := by
    intro h
    exact h htype
  unfold FilterInto
  simp only [Option.getD_none, if_neg h1, if_neg h2]
  unfold parallelFor passPixels
  by_cases he : Block.empty ⟨0, cur.rows, 0, cur.cols⟩ = true
  · rw [if_pos he, if_pos he]
    rfl
  · rw [if_neg he, if_neg he]
    exact ConnectedComponents_blocks tiles cur htype hcls flag

/-- The example raster of the linking pass is classified. -/
theorem weakRun_classified : IsClassified weakRun := by
  intro y j
  simp only [weakRun]
  split_ifs <;> simp

/-- C24: in one linking pass of `ConnectedComponents` over a classified image, filtered in
place, the visit of pixel `(x, y)` gives it the new value `v`, which is `255` exactly when
its value is `255` or it is weak (`127`) and at least one pixel of its border-clamped
8-neighbourhood reads `255` in the raster as the visit finds it; otherwise the pixel keeps
its value, every other pixel keeps its value, and a promotion sets the shared modified
flag to true while any other visit leaves the flag as it is. -/
theorem ConnectedComponents_visit (cur : Mat) (htype : cur.type = CV_8UC1)
    (hcls : IsClassified cur) (x y : Int) (rest : List (Int × Int)) (flag : Bool) :
    ∃ (v : Int) (flag2 : Bool),
      (v = 255 ↔ (cur.data y x = 255 ∨ (cur.data y x = 127 ∧ readsStrong cur x y))) ∧
      (v ≠ 255 → v = cur.data y x) ∧
      ((cur.data y x = 127 ∧ readsStrong cur x y) → flag2 = true) ∧
      (¬ (cur.data y x = 127 ∧ readsStrong cur x y) → flag2 = flag) ∧
      (ConnectedComponents.call x y cur flag).1.red = v ∧
      (ConnectedComponents.call x y cur flag).2 = flag2 ∧
      processPixels ConnectedComponents.operator none ((x, y) :: rest) () cur flag
        = processPixels ConnectedComponents.operator none rest () (cur.store y x v) flag2 ∧
      (cur.store y x v).data y x = v ∧
      (∀ y2 j2, ¬ (y2 = y ∧ j2 = x) → (cur.store y x v).data y2 j2 = cur.data y2 j2) := by
  obtain ⟨h1, h2, h3⟩ := ConnectedComponents_call_eq cur htype hcls x y flag
  have hstep : processPixels ConnectedComponents.operator none ((x, y) :: rest) () cur flag
      = processPixels ConnectedComponents.operator none rest ()
          (storePixel cur 1 x y (ConnectedComponents.call x y cur flag).1)
          (ConnectedComponents.call x y cur flag).2 := rfl
  have hstore : ∀ v y2 j2, (cur.store y x v).data y2 j2
      = if y2 = y ∧ j2 = x then v else cur.data y2 j2 := fun _ _ _ => rfl
  have hv := hcls y x
  by_cases hp : cur.data y x = 127 ∧ readsStrong cur x y
  · have hl : linkStep (cur, flag) (x, y) = (cur.store y x 255, true) := by
      unfold linkStep
      rw [if_pos hp]
    rw [hl] at h1 h2 h3
    refine ⟨255, true, ?_, ?_, fun _ => rfl, fun h => absurd hp h, ?_, h1, ?_, ?_, ?_⟩
    · exact ⟨fun _ => Or.inr hp, fun _ => rfl⟩
    · intro h
      exact absurd rfl h
    · rw [h2, hstore]
      simp
    · rw [hstep, h3, h1]
    · rw [hstore]
      simp
    · intro y2 j2 hne
      rw [hstore, if_neg hne]
  · have hl : linkStep (cur, flag) (x, y) = (cur, flag) := by
      unfold linkStep
      rw [if_neg hp]
    rw [hl] at h1 h2 h3
    refine ⟨cur.data y x, flag, ?_, fun _ => rfl, fun h => absurd h hp, fun _ => rfl, h2, h1,
      ?_, ?_, ?_⟩
    · constructor
      · intro h
        exact Or.inl h
      · rintro (h | h)
        · exact h
        · exact absurd h hp
    · rw [hstep, h3, h1, Mat_store_self]
    · rw [hstore]
      simp
    · intro y2 j2 hne
      rw [hstore, if_neg hne]

/-- Witness of C24: the visit of the weak pixel `(1, 0)` of the example raster, whose left
neighbour is strong. -/
theorem ConnectedComponents_visit_witness :
    ∃ (v : Int) (flag2 : Bool),
      (v = 255 ↔ (weakRun.data 0 1 = 255 ∨ (weakRun.data 0 1 = 127 ∧ readsStrong weakRun 1 0))) ∧
      (v ≠ 255 → v = weakRun.data 0 1) ∧
      ((weakRun.data 0 1 = 127 ∧ readsStrong weakRun 1 0) → flag2 = true) ∧
      (¬ (weakRun.data 0 1 = 127 ∧ readsStrong weakRun 1 0) → flag2 = false) ∧
      (ConnectedComponents.call 1 0 weakRun false).1.red = v ∧
      (ConnectedComponents.call 1 0 weakRun false).2 = flag2 ∧
      processPixels ConnectedComponents.operator none ((1, 0) :: [(2, 0)]) () weakRun false
        = processPixels ConnectedComponents.operator none [(2, 0)] () (weakRun.store 0 1 v)
            flag2 ∧
      (weakRun.store 0 1 v).data 0 1 = v ∧
      (∀ y2 j2, ¬ (y2 = 0 ∧ j2 = 1) → (weakRun.store 0 1 v).data y2 j2 = weakRun.data y2 j2) :=
  ConnectedComponents_visit weakRun rfl weakRun_classified 1 0 [(2, 0)] false

/-! ## Edge linking: the passes and the loop -/

/-- Counting with a predicate that holds less often, and fails at an entry where the other
holds, gives a smaller number. -/
theorem countP_lt_of_imp {α : Type} (L : List α) (P Q : α → Bool)
    (himp : ∀ a ∈ L, Q a = true → P a = true) (a0 : α) (h0 : a0 ∈ L)
    (hP : P a0 = true) (hQ : Q a0 = false) : L.countP Q < L.countP P := by
  induction L with
  | nil => simp at h0
  | cons b t ih =>
    have hle : t.countP Q ≤ t.countP P :=
      List.countP_mono_left (fun a ha => himp a (List.mem_cons_of_mem _ ha))
    rcases List.mem_cons.1 h0 with e | e
    · subst e
      rw [List.countP_cons_of_pos _ _ hP, List.countP_cons_of_neg _ _ (by rw [hQ]; simp)]
      omega
    · have hlt := ih (fun a ha => himp a (List.mem_cons_of_mem _ ha)) e
      by_cases hb : Q b = true
      · rw [List.countP_cons_of_pos _ _ hb,
          List.countP_cons_of_pos _ _ (himp b (List.mem_cons_self _ _) hb)]
        omega
      · rw [List.countP_cons_of_neg _ _ hb]
        by_cases hb2 : P b = true
        · rw [List.countP_cons_of_pos _ _ hb2]
          omega
        · rw [List.countP_cons_of_neg _ _ hb2]
          exact hlt

/-- Promoting a weak pixel of the image lowers the number of weak pixels. -/
theorem weakCount_store_lt (m : Mat) (x y : Int) (hin : inImage m x y)
    (hw : m.data y x = 127) : weakCount (m.store y x 255) < weakCount m := by
  unfold weakCount
  show (rowMajor m.cols m.rows).countP (fun p => decide ((m.store y x 255).data p.2 p.1 = 127))
    < (rowMajor m.cols m.rows).countP (fun p => decide (m.data p.2 p.1 = 127))
  have hstore : ∀ y2 j2, (m.store y x 255).data y2 j2
      = if y2 = y ∧ j2 = x then 255 else m.data y2 j2 := fun _ _ => rfl
  apply countP_lt_of_imp _ _ _ _ (x, y) (mem_rowMajor.2 hin)
  · simp only [decide_eq_true_eq]
    exact hw
  · simp only [decide_eq_false_iff_not, hstore]
    simp
  · intro a _ ha
    simp only [decide_eq_true_eq, hstore] at ha ⊢
    split_ifs at ha with h
    · omega
    · exact ha

/-- A loop invariant that may mention the elements already visited and uses that the
visited element belongs to the list. -/
theorem foldl_prefix_invariant_mem {α β : Type} (P : List β → α → Prop) (f : α → β → α)
    (l : List β) (hstep : ∀ pre s b, b ∈ l → P pre s → P (pre ++ [b]) (f s b))
    (a : α) (h0 : P [] a) : P l (l.foldl f a) := by
  have key : ∀ (t pre : List β) (s : α), (∀ b ∈ t, b ∈ l) → P pre s →
      P (pre ++ t) (t.foldl f s) := by
    intro t
    induction t with
    | nil =>
      intro pre s _ h
      simpa using h
    | cons b t ih =>
      intro pre s hsub h
      have h2 := ih (pre ++ [b]) (f s b) (fun c hc => hsub c (List.mem_cons_of_mem _ hc))
        (hstep pre s b (hsub b (List.mem_cons_self _ _)) h)
      simpa using h2
  simpa using key l [] a (fun b hb => hb) h0

/-- The visits of a pass over pixels of the image, started with the flag reset: the number
of weak pixels never grows; if the flag is set at the end it has dropped; if the flag is
still reset the raster is unchanged and no visited pixel was promotable. -/
theorem foldl_linkStep_count (pixels : List (Int × Int)) (m : Mat)
    (hin : ∀ p ∈ pixels, inImage m p.1 p.2) :
    weakCount (pixels.foldl linkStep (m, false)).1 ≤ weakCount m ∧
    ((pixels.foldl linkStep (m, false)).2 = true →
      weakCount (pixels.foldl linkStep (m, false)).1 < weakCount m) ∧
    ((pixels.foldl linkStep (m, false)).2 = false →
      (pixels.foldl linkStep (m, false)).1 = m ∧
      ∀ p ∈ pixels, ¬ (m.data p.2 p.1 = 127 ∧ readsStrong m p.1 p.2)) := by
  have h := foldl_prefix_invariant_mem
    (fun (pre : List (Int × Int)) (s : Mat × Bool) =>
      (s.1.rows = m.rows ∧ s.1.cols = m.cols) ∧
      weakCount s.1 ≤ weakCount m ∧
      (s.2 = true → weakCount s.1 < weakCount m) ∧
      (s.2 = false → s.1 = m ∧ ∀ p ∈ pre, ¬ (m.data p.2 p.1 = 127 ∧ readsStrong m p.1 p.2)))
    linkStep pixels (by
      rintro pre s p hp ⟨hdims, hle, ht, hf⟩
      have hpin : inImage s.1 p.1 p.2 := by
        have := hin p hp
        unfold inImage at this ⊢
        rw [hdims.1, hdims.2]
        exact this
      unfold linkStep
      by_cases hprom : s.1.data p.2 p.1 = 127 ∧ readsStrong s.1 p.1 p.2
      · rw [if_pos hprom]
        have hlt := weakCount_store_lt s.1 p.1 p.2 hpin hprom.1
        show ((s.1.store p.2 p.1 255).rows = m.rows ∧ (s.1.store p.2 p.1 255).cols = m.cols) ∧
          weakCount (s.1.store p.2 p.1 255) ≤ weakCount m ∧
          (true = true → weakCount (s.1.store p.2 p.1 255) < weakCount m) ∧
          (true = false → (s.1.store p.2 p.1 255) = m ∧
            ∀ q ∈ pre ++ [p], ¬ (m.data q.2 q.1 = 127 ∧ readsStrong m q.1 q.2))
        refine ⟨hdims, le_of_lt (lt_of_lt_of_le hlt hle), fun _ => lt_of_lt_of_le hlt hle,
          fun h => ?_⟩
        exact absurd h (by simp)
      · rw [if_neg hprom]
        refine ⟨hdims, hle, ht, fun h => ?_⟩
        obtain ⟨e, hpre⟩ := hf h
        refine ⟨e, ?_⟩
        intro q hq
        rcases List.mem_append.1 hq with hq | hq
        · exact hpre q hq
        · simp only [List.mem_singleton] at hq
          subst hq
          rw [e] at hprom
          exact hprom)
    (m, false) ⟨⟨rfl, rfl⟩, le_refl _, fun h => absurd h (by simp), fun _ => ⟨rfl, by simp⟩⟩
  exact ⟨h.2.1, h.2.2.1, h.2.2.2⟩

/-- The pixels that a pass visits with a tiling are exactly the pixels of the image. -/
theorem mem_passPixels (m : Mat) (tiles : List Block)
    (ht : IsTiling ⟨0, m.rows, 0, m.cols⟩ tiles) (x y : Int) :
    (x, y) ∈ passPixels ⟨0, m.rows, 0, m.cols⟩ tiles ↔ inImage m x y := by
  unfold passPixels
  by_cases he : Block.empty ⟨0, m.rows, 0, m.cols⟩ = true
  · rw [if_pos he]
    simp only [List.not_mem_nil, false_iff]
    unfold inImage
    unfold Block.empty at he
    simp only [Bool.or_eq_true, Bool.not_eq_true', decide_eq_false_iff_not] at he
    omega
  · rw [if_neg he, mem_tiling_pixels ht]
    unfold blockContains inImage
    constructor
    · rintro ⟨h1, h2⟩
      exact ⟨h2, h1⟩
    · rintro ⟨h1, h2⟩
      exact ⟨h2, h1⟩

/-- The pixels of the classification `cls` and of a raster `m` reached from it by
promotions: each element is the one of `cls` or a promoted weak one, and every pixel of
the image that is `255` in `m` is linked in `cls`. -/
theorem linkStep_sound (cls : Mat) (s : Mat × Bool) (p : Int × Int)
    (hdims : s.1.rows = cls.rows ∧ s.1.cols = cls.cols) (hp : inImage cls p.1 p.2)
    (hinv : ∀ x y, (s.1.data y x = cls.data y x ∨ (cls.data y x = 127 ∧ s.1.data y x = 255)) ∧
      (inImage cls x y → s.1.data y x = 255 → Linked cls x y)) :
    ∀ x y, ((linkStep s p).1.data y x = cls.data y x ∨
        (cls.data y x = 127 ∧ (linkStep s p).1.data y x = 255)) ∧
      (inImage cls x y → (linkStep s p).1.data y x = 255 → Linked cls x y) := by
  unfold linkStep
  by_cases hprom : s.1.data p.2 p.1 = 127 ∧ readsStrong s.1 p.1 p.2
  · rw [if_pos hprom]
    have hstore : ∀ y2 j2, (s.1.store p.2 p.1 255).data y2 j2
        = if y2 = p.2 ∧ j2 = p.1 then 255 else s.1.data y2 j2 := fun _ _ => rfl
    have hclsp : cls.data p.2 p.1 = 127 := by
      rcases (hinv p.1 p.2).1 with h | h
      · rw [← h]; exact hprom.1
      · exact h.1
    have hlinked : Linked cls p.1 p.2 := by
      obtain ⟨d, hd, h255⟩ := hprom.2
      rw [hdims.1, hdims.2] at h255
      unfold inImage at hp
      have hcx := clamp_in_range (p.1 + d.1) cls.cols (by omega)
      have hcy := clamp_in_range (p.2 + d.2) cls.rows (by omega)
      have hl := (hinv (clamp (p.1 + d.1) 0 (cls.cols - 1))
        (clamp (p.2 + d.2) 0 (cls.rows - 1))).2 ⟨hcx, hcy⟩ h255
      have hd1 : -1 ≤ d.1 ∧ d.1 ≤ 1 ∧ -1 ≤ d.2 ∧ d.2 ≤ 1 := by
        unfold neighbourOffsets at hd
        simp only [List.mem_cons, List.mem_singleton, List.not_mem_nil, or_false] at hd
        rcases hd with h | h | h | h | h | h | h | h | h <;> rw [h] <;> decide
      refine Linked.weak p.1 p.2 _ _ ⟨hp.1, hp.2⟩ hclsp ?_ ?_ hl
      · unfold clamp
        split_ifs <;> omega
      · unfold clamp
        split_ifs <;> omega
    intro x y
    show ((s.1.store p.2 p.1 255).data y x = cls.data y x ∨
        (cls.data y x = 127 ∧ (s.1.store p.2 p.1 255).data y x = 255)) ∧
      (inImage cls x y → (s.1.store p.2 p.1 255).data y x = 255 → Linked cls x y)
    rw [hstore]
    by_cases hxy : y = p.2 ∧ x = p.1
    · rw [if_pos hxy, hxy.1, hxy.2]
      exact ⟨Or.inr ⟨hclsp, rfl⟩, fun _ _ => hlinked⟩
    · rw [if_neg hxy]
      exact hinv x y
  · rw [if_neg hprom]
    exact hinv

/-- The visits of a pass over pixels of the image keep the relation of `linkStep_sound`. -/
theorem foldl_linkStep_sound (cls : Mat) (pixels : List (Int × Int)) (s : Mat × Bool)
    (hdims : s.1.rows = cls.rows ∧ s.1.cols = cls.cols)
    (hin : ∀ p ∈ pixels, inImage cls p.1 p.2)
    (hinv : ∀ x y, (s.1.data y x = cls.data y x ∨ (cls.data y x = 127 ∧ s.1.data y x = 255)) ∧
      (inImage cls x y → s.1.data y x = 255 → Linked cls x y)) :
    ∀ x y, ((pixels.foldl linkStep s).1.data y x = cls.data y x ∨
        (cls.data y x = 127 ∧ (pixels.foldl linkStep s).1.data y x = 255)) ∧
      (inImage cls x y → (pixels.foldl linkStep s).1.data y x = 255 → Linked cls x y) := by
  have h := foldl_invariant
    (fun (s : Mat × Bool) => (s.1.rows = cls.rows ∧ s.1.cols = cls.cols) ∧
      ∀ x y, (s.1.data y x = cls.data y x ∨ (cls.data y x = 127 ∧ s.1.data y x = 255)) ∧
        (inImage cls x y → s.1.data y x = 255 → Linked cls x y))
    linkStep pixels s ⟨hdims, hinv⟩ (by
      rintro t p hp ⟨hd, hi⟩
      have hf := linkStep_fields t p
      exact ⟨⟨hf.1.trans hd.1, hf.2.1.trans hd.2⟩, linkStep_sound cls t p hd (hin p hp) hi⟩)
  exact h.2

/-- The loop entered with the flag reset ends at once. -/
theorem linking_false (schedule : Nat → List Block) (fuel i : Nat) (m : Mat) :
    ColourCannyEdgeDetect.linking schedule fuel i m false = .ok (some (m, i)) := by
  cases fuel <;> rfl

/-- One turn of the loop on a classified raster: the pass throws nothing and the loop goes
on with the raster and the flag that the visits of the pass leave. -/
theorem linking_step (schedule : Nat → List Block) (fuel i : Nat) (m : Mat)
    (htype : m.type = CV_8UC1) (hcls : IsClassified m) :
    ColourCannyEdgeDetect.linking schedule (fuel + 1) i m true
      = ColourCannyEdgeDetect.linking schedule fuel (i + 1)
          ((passPixels ⟨0, m.rows, 0, m.cols⟩ (schedule i)).foldl linkStep (m, false)).1
          ((passPixels ⟨0, m.rows, 0, m.cols⟩ (schedule i)).foldl linkStep (m, false)).2 := by
  have h := ConnectedComponents_pass (schedule i) m htype hcls false
  rw [ColourCannyEdgeDetect.linking]
  simp only [if_true, h]

/-- When a predicate is counted less often than another one, some entry satisfies the
second and not the first. -/
theorem exists_of_countP_lt {α : Type} (L : List α) (P Q : α → Bool)
    (h : L.countP Q < L.countP P) : ∃ a ∈ L, P a = true ∧ Q a = false := by
  by_contra hne
  have hle : L.countP P ≤ L.countP Q := by
    apply List.countP_mono_left
    intro a ha hP
    by_contra hQ
    exact hne ⟨a, ha, hP, by simpa using hQ⟩
  omega

/-- The linking loop on a raster `m` reached from the classification `cls` by promotions,
with fewer than `k` weak pixels: with at least `k` turns allowed the loop ends, after
at most one pass more than there are weak pixels, at a raster reached from `cls` by
promotions in which no weak pixel of the image reads a strong pixel, and its last pass
has promoted nothing. -/
theorem linking_spec (schedule : Nat → List Block) (cls : Mat)
    (hsched : ∀ i, IsTiling ⟨0, cls.rows, 0, cls.cols⟩ (schedule i)) :
    ∀ (k i : Nat) (m : Mat), m.type = CV_8UC1 → IsClassified m →
      (m.rows = cls.rows ∧ m.cols = cls.cols) →
      (∀ x y, (m.data y x = cls.data y x ∨ (cls.data y x = 127 ∧ m.data y x = 255)) ∧
        (inImage cls x y → m.data y x = 255 → Linked cls x y)) →
      weakCount m < k →
      ∃ out n,
        (∀ fuel, k ≤ fuel →
          ColourCannyEdgeDetect.linking schedule fuel i m true = .ok (some (out, n))) ∧
        (i + 1 ≤ n ∧ n ≤ i + weakCount m + 1) ∧
        (out.type = CV_8UC1 ∧ IsClassified out ∧ out.rows = cls.rows ∧ out.cols = cls.cols) ∧
        (∀ x y, (out.data y x = cls.data y x ∨ (cls.data y x = 127 ∧ out.data y x = 255)) ∧
          (inImage cls x y → out.data y x = 255 → Linked cls x y)) ∧
        (∀ x y, inImage cls x y → ¬ (out.data y x = 127 ∧ readsStrong out x y)) ∧
        FilterInto ConnectedComponents.operator (schedule (n - 1)) out none () false
          = ⟨none, out, false⟩ := by
  intro k
  induction k with
  | zero =>
    intro i m _ _ _ _ hk
    omega
  | succ k ih =>
    intro i m htype hcls hd hinv hk
    have ht : IsTiling ⟨0, m.rows, 0, m.cols⟩ (schedule i) := by
      rw [hd.1, hd.2]
      exact hsched i
    have hin : ∀ p ∈ passPixels ⟨0, m.rows, 0, m.cols⟩ (schedule i), inImage m p.1 p.2 :=
      fun p hp => (mem_passPixels m (schedule i) ht p.1 p.2).1 hp
    have hincls : ∀ p ∈ passPixels ⟨0, m.rows, 0, m.cols⟩ (schedule i),
        inImage cls p.1 p.2 := by
      intro p hp
      have := hin p hp
      unfold inImage at this ⊢
      rw [← hd.1, ← hd.2]
      exact this
    obtain ⟨hle, hlt, hfix⟩ :=
      foldl_linkStep_count (passPixels ⟨0, m.rows, 0, m.cols⟩ (schedule i)) m hin
    have hf := foldl_linkStep_fields (passPixels ⟨0, m.rows, 0, m.cols⟩ (schedule i)) (m, false)
    have hs := foldl_linkStep_sound cls (passPixels ⟨0, m.rows, 0, m.cols⟩ (schedule i))
      (m, false) hd hincls hinv
    have hstep := fun fuel => linking_step schedule fuel i m htype hcls
    have hpass := ConnectedComponents_pass (schedule i) m htype hcls false
    generalize (passPixels ⟨0, m.rows, 0, m.cols⟩ (schedule i)).foldl linkStep (m, false) = r
      at hle hlt hfix hf hs hstep hpass
    obtain ⟨m2, f2⟩ := r
    dsimp only at hle hlt hfix hf hs hstep hpass
    cases f2 with
    | false =>
      obtain ⟨e, hno⟩ := hfix rfl
      subst e
      refine ⟨m2, i + 1, ?_, ⟨le_refl _, by omega⟩, ⟨htype, hcls, hd.1, hd.2⟩, hinv, ?_, ?_⟩
      · intro fuel hfuel
        obtain ⟨f, rfl⟩ : ∃ f, fuel = f + 1 := ⟨fuel - 1, by omega⟩
        rw [hstep f, linking_false]
      · intro x y hxy
        have hxy2 : inImage m2 x y := by
          unfold inImage at hxy ⊢
          rw [hd.1, hd.2]
          exact hxy
        exact hno (x, y) ((mem_passPixels m2 (schedule i) ht x y).2 hxy2)
      · rw [Nat.add_sub_cancel]
        exact hpass
    | true =>
      have hlt2 := hlt rfl
      obtain ⟨out, n, hrun, hn, hout, hoinv, hofix, holast⟩ := ih (i + 1) m2
        (hf.2.2.1.trans htype) (hf.2.2.2 hcls) ⟨hf.1.trans hd.1, hf.2.1.trans hd.2⟩ hs
        (by omega)
      refine ⟨out, n, ?_, ⟨by omega, by omega⟩, hout, hoinv, hofix, holast⟩
      intro fuel hfuel
      obtain ⟨f, rfl⟩ : ∃ f, fuel = f + 1 := ⟨fuel - 1, by omega⟩
      rw [hstep f]
      exact hrun f (by omega)

/-- A linked pixel is a pixel of the image. -/
theorem Linked_inImage (cls : Mat) (x y : Int) (h : Linked cls x y) : inImage cls x y := by
  cases h with
  | strong _ _ hin _ => exact hin
  | weak _ _ _ _ hin _ _ _ _ => exact hin

/-- An offset of at most one in each direction is one of the nine offsets of the scan. -/
theorem mem_neighbourOffsets (dx dy : Int) (hx : -1 ≤ dx ∧ dx ≤ 1) (hy : -1 ≤ dy ∧ dy ≤ 1) :
    (dx, dy) ∈ neighbourOffsets := by
  have h1 : dx = -1 ∨ dx = 0 ∨ dx = 1 := by omega
  have h2 : dy = -1 ∨ dy = 0 ∨ dy = 1 := by omega
  rcases h1 with h1 | h1 | h1 <;> rcases h2 with h2 | h2 | h2 <;> subst h1 <;> subst h2 <;>
    decide

/-- In a raster reached from the classification by promotions in which no weak pixel of
the image reads a strong pixel, every linked pixel is strong. -/
theorem Linked_complete (cls out : Mat) (hd : out.rows = cls.rows ∧ out.cols = cls.cols)
    (hinv : ∀ x y, out.data y x = cls.data y x ∨ (cls.data y x = 127 ∧ out.data y x = 255))
    (hfix : ∀ x y, inImage cls x y → ¬ (out.data y x = 127 ∧ readsStrong out x y))
    (x y : Int) (h : Linked cls x y) : out.data y x = 255 := by
  induction h with
  | strong x y _ h255 =>
    rcases hinv x y with h | h
    · rw [h, h255]
    · exact h.2
  | weak x y x2 y2 hin h127 hx hy hl ih =>
    rcases hinv x y with h | h
    · exfalso
      apply hfix x y hin
      refine ⟨by rw [h, h127], (x2 - x, y2 - y), mem_neighbourOffsets _ _ (by omega) (by omega), ?_⟩
      have hin2 := Linked_inImage cls x2 y2 hl
      unfold inImage at hin2
      have e1 : clamp (y + (y2 - y)) 0 (out.rows - 1) = y2 := by
        unfold clamp
        rw [hd.1]
        split_ifs <;> omega
      have e2 : clamp (x + (x2 - x)) 0 (out.cols - 1) = x2 := by
        unfold clamp
        rw [hd.2]
        split_ifs <;> omega
      show out.data (clamp (y + (y2 - y)) 0 (out.rows - 1))
        (clamp (x + (x2 - x)) 0 (out.cols - 1)) = 255
      rw [e1, e2]
      exact ih
    · exact h.2

/-- The comparison `m > 127` on a classified raster: `255` where the raster holds `255`,
`0` elsewhere. -/
theorem greaterThan_classified (m : Mat) (hcls : IsClassified m) (y j : Int) :
    ((m.greaterThan 127).data y j = 0 ∨ (m.greaterThan 127).data y j = 255) ∧
    ((m.greaterThan 127).data y j = 255 ↔ m.data y j = 255) := by
  have hd : (m.greaterThan 127).data y j = if m.data y j > 127 then 255 else 0 := rfl
  rw [hd]
  rcases hcls y j with h | h | h <;> rw [h] <;> simp

/-- The linking loop started on a classification: with enough turns allowed it ends, at a
raster that holds `255` exactly at the linked pixels of the image and agrees with the
classification outside the image. -/
theorem linking_result (schedule : Nat → List Block) (cls : Mat) (htype : cls.type = CV_8UC1)
    (hcls : IsClassified cls)
    (hsched : ∀ i, IsTiling ⟨0, cls.rows, 0, cls.cols⟩ (schedule i)) :
    ∃ out n,
      (∀ fuel, weakCount cls + 1 ≤ fuel →
        ColourCannyEdgeDetect.linking schedule fuel 0 cls true = .ok (some (out, n))) ∧
      (1 ≤ n ∧ n ≤ weakCount cls + 1) ∧
      (out.type = CV_8UC1 ∧ IsClassified out ∧ out.rows = cls.rows ∧ out.cols = cls.cols) ∧
      (∀ x y, inImage cls x y → (out.data y x = 255 ↔ Linked cls x y)) ∧
      (∀ x y, out.data y x = cls.data y x ∨ (cls.data y x = 127 ∧ out.data y x = 255)) ∧
      FilterInto ConnectedComponents.operator (schedule (n - 1)) out none () false
        = ⟨none, out, false⟩ := by
  obtain ⟨out, n, hrun, hn, hout, hinv, hfix, hlast⟩ := linking_spec schedule cls hsched
    (weakCount cls + 1) 0 cls htype hcls ⟨rfl, rfl⟩
    (fun x y => ⟨Or.inl rfl, fun hin h => Linked.strong x y hin h⟩) (by omega)
  refine ⟨out, n, hrun, ⟨by omega, by omega⟩, hout, ?_, fun x y => (hinv x y).1, hlast⟩
  intro x y hin
  constructor
  · exact (hinv x y).2 hin
  · exact Linked_complete cls out ⟨hout.2.2.1, hout.2.2.2⟩ (fun x y => (hinv x y).1) hfix x y

/-- A linking pass on a classified raster, entered with the flag reset: no exception; if
it leaves the flag set, some weak pixel of the image has become strong and the number of
weak pixels has dropped; if it leaves the flag reset, the raster is unchanged. -/
theorem ConnectedComponents_pass_progress (tiles : List Block) (cur : Mat)
    (htype : cur.type = CV_8UC1) (hcls : IsClassified cur)
    (ht : IsTiling ⟨0, cur.rows, 0, cur.cols⟩ tiles) :
    (FilterInto ConnectedComponents.operator tiles cur none () false).error = none ∧
    ((FilterInto ConnectedComponents.operator tiles cur none () false).shared = true →
      (∃ x y, inImage cur x y ∧ cur.data y x = 127 ∧
        (FilterInto ConnectedComponents.operator tiles cur none () false).filtered.data y x
          = 255) ∧
      weakCount (FilterInto ConnectedComponents.operator tiles cur none () false).filtered
        < weakCount cur) ∧
    ((FilterInto ConnectedComponents.operator tiles cur none () false).shared = false →
      (FilterInto ConnectedComponents.operator tiles cur none () false).filtered = cur) := by
  rw [ConnectedComponents_pass tiles cur htype hcls false]
  have hin : ∀ p ∈ passPixels ⟨0, cur.rows, 0, cur.cols⟩ tiles, inImage cur p.1 p.2 :=
    fun p hp => (mem_passPixels cur tiles ht p.1 p.2).1 hp
  obtain ⟨-, hlt, hfix⟩ := foldl_linkStep_count (passPixels ⟨0, cur.rows, 0, cur.cols⟩ tiles)
    cur hin
  have hf := foldl_linkStep_fields (passPixels ⟨0, cur.rows, 0, cur.cols⟩ tiles) (cur, false)
  have hs := foldl_linkStep_sound cur (passPixels ⟨0, cur.rows, 0, cur.cols⟩ tiles)
    (cur, false) ⟨rfl, rfl⟩ hin
    (fun x y => ⟨Or.inl rfl, fun hin h => Linked.strong x y hin h⟩)
  generalize (passPixels ⟨0, cur.rows, 0, cur.cols⟩ tiles).foldl linkStep (cur, false) = r
    at hlt hfix hf hs
  obtain ⟨m2, f2⟩ := r
  dsimp only at hlt hfix hf hs ⊢
  refine ⟨rfl, fun h => ⟨?_, hlt h⟩, fun h => (hfix h).1⟩
  have hlt2 := hlt h
  unfold weakCount at hlt2
  rw [hf.1, hf.2.1] at hlt2
  obtain ⟨p, hp, h1, h2⟩ := exists_of_countP_lt _ _ _ hlt2
  obtain ⟨x, y⟩ := p
  simp only [decide_eq_true_eq, decide_eq_false_iff_not] at h1 h2
  refine ⟨x, y, mem_rowMajor.1 hp, h1, ?_⟩
  rcases (hs x y).1 with e | e
  · exact absurd (e.trans h1) h2
  · exact e.2

/-- C25: for every classified image (values in `{0, 127, 255}`, type `CV_8UC1`) and every
schedule of the passes, the edge-linking loop of `ColourCannyEdgeDetect` terminates.
Every pass throws nothing; a pass that leaves the modified flag true has promoted at
least one weak pixel and the number of weak pixels has strictly decreased; a pass that
leaves it false has changed nothing.  Hence, whenever at least `weakCount m + 1` turns
are allowed, the loop ends after `n` passes with `1 ≤ n ≤ weakCount m + 1`, where
`weakCount m` is the number of weak pixels after thresholding, and its last pass, run on
the final raster, promotes nothing. -/
theorem linking_terminates (schedule : Nat → List Block) (m : Mat)
    (htype : m.type = CV_8UC1) (hcls : IsClassified m)
    (hsched : ∀ i, IsTiling ⟨0, m.rows, 0, m.cols⟩ (schedule i)) :
    (∀ (tiles : List Block) (cur : Mat), cur.type = CV_8UC1 → IsClassified cur →
      IsTiling ⟨0, cur.rows, 0, cur.cols⟩ tiles →
      (FilterInto ConnectedComponents.operator tiles cur none () false).error = none ∧
      ((FilterInto ConnectedComponents.operator tiles cur none () false).shared = true →
        (∃ x y, inImage cur x y ∧ cur.data y x = 127 ∧
          (FilterInto ConnectedComponents.operator tiles cur none () false).filtered.data y x
            = 255) ∧
        weakCount (FilterInto ConnectedComponents.operator tiles cur none () false).filtered
          < weakCount cur) ∧
      ((FilterInto ConnectedComponents.operator tiles cur none () false).shared = false →
        (FilterInto ConnectedComponents.operator tiles cur none () false).filtered = cur)) ∧
    ∃ out n,
      (∀ fuel, weakCount m + 1 ≤ fuel →
        ColourCannyEdgeDetect.linking schedule fuel 0 m true = .ok (some (out, n))) ∧
      (1 ≤ n ∧ n ≤ weakCount m + 1) ∧
      FilterInto ConnectedComponents.operator (schedule (n - 1)) out none () false
        = ⟨none, out, false⟩ := by
  refine ⟨fun tiles cur h1 h2 h3 => ConnectedComponents_pass_progress tiles cur h1 h2 h3, ?_⟩
  obtain ⟨out, n, hrun, hn, -, -, -, hlast⟩ := linking_result schedule m htype hcls hsched
  exact ⟨out, n, hrun, hn, hlast⟩

/-- Witness of C25: the row with a strong pixel followed by two weak ones, every pass run
as a single block. -/
theorem linking_terminates_witness :
    (∀ (tiles : List Block) (cur : Mat), cur.type = CV_8UC1 → IsClassified cur →
      IsTiling ⟨0, cur.rows, 0, cur.cols⟩ tiles →
      (FilterInto ConnectedComponents.operator tiles cur none () false).error = none ∧
      ((FilterInto ConnectedComponents.operator tiles cur none () false).shared = true →
        (∃ x y, inImage cur x y ∧ cur.data y x = 127 ∧
          (FilterInto ConnectedComponents.operator tiles cur none () false).filtered.data y x
            = 255) ∧
        weakCount (FilterInto ConnectedComponents.operator tiles cur none () false).filtered
          < weakCount cur) ∧
      ((FilterInto ConnectedComponents.operator tiles cur none () false).shared = false →
        (FilterInto ConnectedComponents.operator tiles cur none () false).filtered = cur)) ∧
    ∃ out n,
      (∀ fuel, weakCount weakRun + 1 ≤ fuel →
        ColourCannyEdgeDetect.linking (fun _ => [⟨0, 1, 0, 3⟩]) fuel 0 weakRun true
          = .ok (some (out, n))) ∧
      (1 ≤ n ∧ n ≤ weakCount weakRun + 1) ∧
      FilterInto ConnectedComponents.operator ((fun _ => [⟨0, 1, 0, 3⟩]) (n - 1)) out none ()
        false = ⟨none, out, false⟩ :=
  linking_terminates (fun _ => [⟨0, 1, 0, 3⟩]) weakRun rfl weakRun_classified
    (fun _ => IsTiling_single _ (by decide))

/-- The three filters of the classification one after the other, on the pre-filtered image
`F`: each throws nothing, and the rasters they return hold the colours of the calls. -/
theorem classify_chain (tilesG tilesN tilesT : List Block) (F : Mat) (t1 t2 : ℚ)
    (htype : F.type = CV_8UC3)
    (hG : IsTiling ⟨0, F.rows, 0, F.cols⟩ tilesG)
    (hN : IsTiling ⟨0, F.rows, 0, F.cols⟩ tilesN)
    (hT : IsTiling ⟨0, F.rows, 0, F.cols⟩ tilesT) :
    ∃ grad sup cls,
      internal.Filter ColourGradient.operator tilesG F () () = .ok grad ∧
      internal.Filter NonMaximumSupression.operator tilesN grad () () = .ok sup ∧
      internal.Filter Threshold.operator tilesT sup (t1, t2) () = .ok cls ∧
      (grad.rows = F.rows ∧ grad.cols = F.cols ∧ grad.type = CV_32SC3) ∧
      (∀ x y, inImage F x y →
        grad.data y (3 * x) = (ColourGradient.call x y F).red ∧
        grad.data y (3 * x + 1) = (ColourGradient.call x y F).green) ∧
      (sup.rows = F.rows ∧ sup.cols = F.cols ∧ sup.type = CV_32SC1) ∧
      (∀ x y, inImage F x y → sup.data y x = (NonMaximumSupression.call x y grad).red) ∧
      (cls.rows = F.rows ∧ cls.cols = F.cols ∧ cls.type = CV_8UC1) ∧
      (∀ x y, inImage F x y →
        cls.data y x = if ((sup.data y x : Int) : ℚ) > t2 then 255
          else if ((sup.data y x : Int) : ℚ) > t1 then 127 else 0) ∧
      (∀ y j, ¬ inImage F j y → cls.data y j = 0) := by
  obtain ⟨grad, hgrad, hgd, hgin⟩ := Filter_three_channels ColourGradient.operator tilesG F
    () () (fun x y => ColourGradient.call x y F) (fun _ => True) () htype rfl trivial
    (fun x y _ _ inst s _ => ⟨(), s, rfl, trivial⟩) hG (by decide)
  have hgt : grad.type = CV_32SC3 := hgd.2.2
  obtain ⟨sup, hsup, hsd, hsin, -⟩ := Filter_one_channel NonMaximumSupression.operator tilesN
    grad () () (fun x y => NonMaximumSupression.call x y grad) (fun _ => True) () hgt rfl
    trivial (fun x y _ _ inst s _ => ⟨(), s, rfl, trivial⟩)
    (by rw [hgd.1, hgd.2.1]; exact hN) (by decide)
  have hst : sup.type = CV_32SC1 := hsd.2.2
  obtain ⟨cls, hcls, hcd, hcin, hc0⟩ := Filter_Threshold tilesT sup t1 t2 hst
    (by rw [hsd.1, hsd.2.1, hgd.1, hgd.2.1]; exact hT)
  rw [hgd.1, hgd.2.1] at hsd hsin
  rw [hsd.1, hsd.2.1] at hcd hcin hc0
  refine ⟨grad, sup, cls, hgrad, hsup, hcls, ⟨hgd.1, hgd.2.1, hgt⟩, ?_, ⟨hsd.1, hsd.2.1, hst⟩,
    ?_, hcd, ?_, ?_⟩
  · intro x y hin
    have := hgin x y hin.1 hin.2
    exact ⟨this.1, this.2.1⟩
  · intro x y hin
    exact hsin x y hin.1 hin.2
  · intro x y hin
    exact hcin x y hin.1 hin.2
  · intro y j hin
    exact hc0 y j hin

/-- The function `ColourCannyEdgeDetect` when its classification is `cls`: for every
schedule of the linking passes and enough turns allowed, the result is the same mask,
which holds `255` exactly at the linked pixels of the image and `0` elsewhere. -/
theorem ColourCannyEdgeDetect_of_classify (GaussianBlur : Mat → ℚ → Mat)
    (tilesG tilesN tilesT : List Block) (img : Mat) (t1 t2 sigma : ℚ) (cls : Mat)
    (hclass : ColourCannyEdgeDetect.classify GaussianBlur tilesG tilesN tilesT img t1 t2 sigma
      = .ok cls)
    (htype : cls.type = CV_8UC1) (hcls : IsClassified cls)
    (hzero : ∀ y j, ¬ inImage cls j y → cls.data y j = 0)
    (hT : IsTiling ⟨0, cls.rows, 0, cls.cols⟩ tilesT) :
    ∃ res,
      (∀ schedule : Nat → List Block,
        (∀ i, IsTiling ⟨0, cls.rows, 0, cls.cols⟩ (schedule i)) →
        ∀ fuel, weakCount cls + 1 ≤ fuel →
          ColourCannyEdgeDetect GaussianBlur tilesG tilesN tilesT schedule fuel img t1 t2 sigma
            = .ok (some res)) ∧
      (res.rows = cls.rows ∧ res.cols = cls.cols ∧ res.type = CV_8UC1) ∧
      (∀ y j, res.data y j = 0 ∨ res.data y j = 255) ∧
      (∀ x y, inImage cls x y → (res.data y x = 255 ↔ Linked cls x y)) ∧
      (∀ y j, ¬ inImage cls j y → res.data y j = 0) := by
  have key : ∀ schedule : Nat → List Block,
      (∀ i, IsTiling ⟨0, cls.rows, 0, cls.cols⟩ (schedule i)) →
      ∃ out : Mat,
        (∀ fuel, weakCount cls + 1 ≤ fuel →
          ColourCannyEdgeDetect GaussianBlur tilesG tilesN tilesT schedule fuel img t1 t2 sigma
            = .ok (some (out.greaterThan 127))) ∧
        (out.type = CV_8UC1 ∧ IsClassified out ∧ out.rows = cls.rows ∧ out.cols = cls.cols) ∧
        (∀ x y, inImage cls x y → (out.data y x = 255 ↔ Linked cls x y)) ∧
        (∀ y j, ¬ inImage cls j y → out.data y j = 0) := by
    intro schedule hsched
    obtain ⟨out, n, hrun, -, hout, hlinked, hinv, -⟩ :=
      linking_result schedule cls htype hcls hsched
    refine ⟨out, ?_, hout, hlinked, ?_⟩
    · intro fuel hfuel
      unfold ColourCannyEdgeDetect
      rw [hclass]
      show (do
        let linked ← ColourCannyEdgeDetect.linking schedule fuel 0 cls true
        pure (linked.map (fun (r : Mat × Nat) => internal.Mat.greaterThan r.1 127))) = _
      rw [hrun fuel hfuel]
      rfl
    · intro y j hn
      rcases hinv j y with h | h
      · rw [h]
        exact hzero y j hn
      · rw [hzero y j hn] at h
        exact absurd h.1 (by decide)
  obtain ⟨out0, -, hout0, hlinked0, hz0⟩ := key (fun _ => tilesT) (fun _ => hT)
  have hres : ∀ out : Mat,
      (out.type = CV_8UC1 ∧ IsClassified out ∧ out.rows = cls.rows ∧ out.cols = cls.cols) →
      (∀ x y, inImage cls x y → (out.data y x = 255 ↔ Linked cls x y)) →
      (∀ y j, ¬ inImage cls j y → out.data y j = 0) →
      out.greaterThan 127 = out0.greaterThan 127 := by
    intro out ho hl hz
    refine Mat_eq_of_fields (out.greaterThan 127) (out0.greaterThan 127)
      (ho.2.2.1.trans hout0.2.2.1.symm) (ho.2.2.2.trans hout0.2.2.2.symm) ?_ ?_
    · show (out.channels - 1) * 8 = (out0.channels - 1) * 8
      rw [channels_of_8UC1 out ho.1, channels_of_8UC1 out0 hout0.1]
    · intro y j
      have h1 := greaterThan_classified out ho.2.1 y j
      have h2 := greaterThan_classified out0 hout0.2.1 y j
      by_cases hin : inImage cls j y
      · have e : (out.greaterThan 127).data y j = 255 ↔ (out0.greaterThan 127).data y j = 255 := by
          rw [h1.2, h2.2, hl j y hin, hlinked0 j y hin]
        rcases h1.1 with a | a <;> rcases h2.1 with b | b
        · rw [a, b]
        · exact absurd (e.2 b) (by rw [a]; decide)
        · exact absurd (e.1 a) (by rw [b]; decide)
        · rw [a, b]
      · have a : (out.greaterThan 127).data y j = 0 := by
          rcases h1.1 with a | a
          · exact a
          · exact absurd ((h1.2.1 a).symm.trans (hz y j hin)) (by decide)
        have b : (out0.greaterThan 127).data y j = 0 := by
          rcases h2.1 with b | b
          · exact b
          · exact absurd ((h2.2.1 b).symm.trans (hz0 y j hin)) (by decide)
        rw [a, b]
  refine ⟨out0.greaterThan 127, ?_, ⟨hout0.2.2.1, hout0.2.2.2, ?_⟩, ?_, ?_, ?_⟩
  · intro schedule hsched fuel hfuel
    obtain ⟨out, hrun, ho, hl, hz⟩ := key schedule hsched
    rw [hrun fuel hfuel, hres out ho hl hz]
  · show (out0.channels - 1) * 8 = CV_8UC1
    rw [channels_of_8UC1 out0 hout0.1]
    rfl
  · intro y j
    exact (greaterThan_classified out0 hout0.2.1 y j).1
  · intro x y hin
    rw [(greaterThan_classified out0 hout0.2.1 y x).2]
    exact hlinked0 x y hin
  · intro y j hin
    rcases (greaterThan_classified out0 hout0.2.1 y j).1 with a | a
    · exact a
    · exact absurd (((greaterThan_classified out0 hout0.2.1 y j).2.1 a).symm.trans
        (hz0 y j hin)) (by decide)

/-- The red channel of the colour that `NonMaximumSupression` returns, in the elements of
the gradient raster. -/
theorem NonMaximumSupression_call_red (img : Mat) (htype : img.type = CV_32SC3) (x y : Int) :
    (NonMaximumSupression.call x y img).red =
      if img.data (clamp (y + (NonMaximumSupression.direction (img.data y (3 * x))).2) 0
              (img.rows - 1))
            (3 * clamp (x + (NonMaximumSupression.direction (img.data y (3 * x))).1) 0
              (img.cols - 1) + 1) ≤ img.data y (3 * x + 1) ∧
          img.data (clamp (y - (NonMaximumSupression.direction (img.data y (3 * x))).2) 0
              (img.rows - 1))
            (3 * clamp (x - (NonMaximumSupression.direction (img.data y (3 * x))).1) 0
              (img.cols - 1) + 1) ≤ img.data y (3 * x + 1)
        then img.data y (3 * x + 1) else 0 := by
  have hc := channels_of_32SC3 img htype
  unfold NonMaximumSupression.call NonMaximumSupression.get_magnitude ClampCoordinate
  simp only [ofMat_three img hc, RGBVector.rgb, decide_eq_true_eq]

/-- The gradient of an 8-bit image split by a vertical boundary after column `c` into the
colours `A` and `B`: the angle is `0` everywhere, the magnitude is the integer part of
the distance of the two colours in the columns `c` and `c + 1` and `0` elsewhere. -/
theorem vertical_boundary_gradient (img : Mat) (A B : RGBVector) (c : Int)
    (htype : img.type = CV_8UC3) (h8 : img.is8U) (hc : 0 ≤ c ∧ c + 1 < img.cols)
    (hcols : ∀ x y, inImage img x y → RGBVector.ofMat img x y = if x ≤ c then A else B)
    (hpos : 1 ≤ sqrtToInt (exactSquaredDistance A B))
    (x y : Int) (hin : inImage img x y) :
    ColourGradient.call x y img =
      RGBVector.rgb 0
        (if x = c ∨ x = c + 1 then sqrtToInt (exactSquaredDistance A B) else 0) 0 := by
  obtain ⟨hx, hy⟩ := hin
  have hsq : ∀ i, orientationSqDist img x y i =
      exactSquaredDistance
        (if clamp (x + (gradientOffset i).1) 0 (img.cols - 1) ≤ c then A else B)
        (if clamp (x - (gradientOffset i).1) 0 (img.cols - 1) ≤ c then A else B) := by
    intro i
    unfold orientationSqDist
    rw [hcols _ _ ⟨clamp_in_range _ _ (by omega), clamp_in_range _ _ (by omega)⟩,
      hcols _ _ ⟨clamp_in_range _ _ (by omega), clamp_in_range _ _ (by omega)⟩]
  have hresp : ∀ i, gradientResponse img x y i =
      sqrtToInt (exactSquaredDistance
        (if clamp (x + (gradientOffset i).1) 0 (img.cols - 1) ≤ c then A else B)
        (if clamp (x - (gradientOffset i).1) 0 (img.cols - 1) ≤ c then A else B)) := by
    intro i
    rw [gradientResponse_eq img htype h8, ← hsq i]
    rfl
  have hplus : clamp (x + 1) 0 (img.cols - 1) ≤ c ↔ x + 1 ≤ c := by
    unfold clamp
    split_ifs <;> omega
  have hminus : clamp (x - 1) 0 (img.cols - 1) ≤ c ↔ x - 1 ≤ c := by
    unfold clamp
    split_ifs <;> omega
  have hself : clamp x 0 (img.cols - 1) = x := clamp_inside x _ (by omega) (by omega)
  have s0 : sqrtToInt 0 = 0 := sqrtToInt_eq 0 0 (by decide) (by decide)
  have hone : ∀ i, (gradientOffset i).1 = 1 → gradientResponse img x y i =
      if x = c ∨ x = c + 1 then sqrtToInt (exactSquaredDistance A B) else 0 := by
    intro i hi
    rw [hresp i, hi]
    by_cases h1 : x + 1 ≤ c
    · rw [if_pos (hplus.2 h1), if_pos (hminus.2 (by omega)), exactSquaredDistance_self, s0,
        if_neg (by omega)]
    · by_cases h2 : x - 1 ≤ c
      · rw [if_neg (fun h => h1 (hplus.1 h)), if_pos (hminus.2 h2), exactSquaredDistance_comm,
          if_pos (by omega)]
      · rw [if_neg (fun h => h1 (hplus.1 h)), if_neg (fun h => h2 (hminus.1 h)),
          exactSquaredDistance_self, s0, if_neg (by omega)]
  have r0 := hone 0 rfl
  have r2 := hone 2 rfl
  have r3 := hone 3 rfl
  have r1 : gradientResponse img x y 1 = 0 := by
    rw [hresp 1]
    have g1 : (gradientOffset 1).1 = 0 := rfl
    rw [g1, add_zero, sub_zero, exactSquaredDistance_self, s0]
  obtain ⟨i, hi, hcall, hmax, hfirst⟩ := ColourGradient_call_first_max img x y
  have hi0 : i = 0 := by
    by_contra hne
    have f := hfirst 0 (by omega)
    have e : i = 1 ∨ i = 2 ∨ i = 3 := by omega
    rcases e with e | e | e <;> subst e
    · rw [r0, r1] at f
      split_ifs at f <;> omega
    · rw [r0, r2] at f
      omega
    · rw [r0, r3] at f
      omega
  subst hi0
  rw [hcall, r0]
  rfl

/-- Keeping a magnitude that is at least two others, all of them `0` or `m`, and zeroing
it otherwise leaves the magnitude as it is. -/
theorem keep_if_max_eq (m a b v : Int) (hm : 0 ≤ m) (ha : a = 0 ∨ a = m) (hb : b = 0 ∨ b = m)
    (hv : v = 0 ∨ v = m) : (if a ≤ v ∧ b ≤ v then v else 0) = v := by
  split_ifs with h
  · rfl
  · rcases hv with hv | hv
    · exact hv.symm
    · exfalso
      apply h
      constructor <;> omega

/-- In a classification without weak pixels the linked pixels are the strong pixels of the
image. -/
theorem Linked_of_no_weak (cls : Mat) (hno : ∀ x y, inImage cls x y → cls.data y x ≠ 127)
    (x y : Int) : Linked cls x y ↔ inImage cls x y ∧ cls.data y x = 255 := by
  constructor
  · intro h
    cases h with
    | strong _ _ hin h255 => exact ⟨hin, h255⟩
    | weak _ _ _ _ hin h127 _ _ _ => exact absurd h127 (hno x y hin)
  · rintro ⟨hin, h255⟩
    exact Linked.strong x y hin h255

/-- A classification without weak pixels in the image counts no weak pixel. -/
theorem weakCount_of_no_weak (cls : Mat) (hno : ∀ x y, inImage cls x y → cls.data y x ≠ 127) :
    weakCount cls = 0 := by
  unfold weakCount
  rw [List.countP_eq_zero]
  rintro ⟨x, y⟩ hp
  simp only [decide_eq_true_eq]
  exact hno x y (mem_rowMajor.1 hp)

/-- The image of the edge test holds 8-bit values. -/
theorem edgeImage_is8U : edgeImage.is8U := by
  intro y j
  simp only [edgeImage]
  split_ifs <;> decide

/-- The columns `0..256` of the image of the edge test have the colour `(0, 0, 254)`, the
other columns have the colour `(0, 129, 0)`. -/
theorem edgeImage_columns (x y : Int) (_h : inImage edgeImage x y) :
    RGBVector.ofMat edgeImage x y =
      if x ≤ 256 then RGBVector.rgb 0 0 254 else RGBVector.rgb 0 129 0 := by
  have hc : edgeImage.channels = 3 := by decide
  have e0 : (3 * x) / 3 = x ∧ (3 * x) % 3 = 0 := by omega
  have e1 : (3 * x + 1) / 3 = x ∧ (3 * x + 1) % 3 = 1 := by omega
  have e2 : (3 * x + 2) / 3 = x ∧ (3 * x + 2) % 3 = 2 := by omega
  rw [ofMat_three edgeImage hc]
  simp only [edgeImage, e0.1, e0.2, e1.1, e1.2, e2.1, e2.2]
  by_cases h : x ≤ 256
  · simp [h]
  · simp [h]

/-- The integer part of the distance of the two colours of the edge test is `284`. -/
theorem edgeImage_distance :
    sqrtToInt (exactSquaredDistance (RGBVector.rgb 0 0 254) (RGBVector.rgb 0 129 0)) = 284 := by
  have e : exactSquaredDistance (RGBVector.rgb 0 0 254) (RGBVector.rgb 0 129 0) = 81157 := by
    decide
  rw [e]
  exact sqrtToInt_eq 81157 284 (by decide) (by decide)

/-! ## The clamped size of a window -/

/-- The clamped extent of a window along one axis: for a centre `x` inside `[0, n)` and an
odd request `W ≥ 1`, the extent between the two clamped ends. -/
theorem clamped_extent (x n W : Int) (hx : 0 ≤ x ∧ x < n) (hW : 1 ≤ W ∧ W % 2 = 1) :
    (clamp (x + W / 2) 0 (n - 1) - clamp (x - W / 2) 0 (n - 1) + 1
        = min (x + W / 2) (n - 1) - max (x - W / 2) 0 + 1) ∧
    (1 ≤ clamp (x + W / 2) 0 (n - 1) - clamp (x - W / 2) 0 (n - 1) + 1 ∧
      clamp (x + W / 2) 0 (n - 1) - clamp (x - W / 2) 0 (n - 1) + 1 ≤ min W n) ∧
    (clamp (x + W / 2) 0 (n - 1) - clamp (x - W / 2) 0 (n - 1) + 1 = W ↔
      (W / 2 ≤ x ∧ x ≤ n - 1 - W / 2)) ∧
    (clamp (x - W / 2) 0 (n - 1) ≤ x ∧ x ≤ clamp (x + W / 2) 0 (n - 1)) := by
  have e1 : clamp (x + W / 2) 0 (n - 1) = min (x + W / 2) (n - 1) := by
    unfold clamp
    simp only [min_def]
    split_ifs <;> omega
  have e2 : clamp (x - W / 2) 0 (n - 1) = max (x - W / 2) 0 := by
    unfold clamp
    simp only [max_def]
    split_ifs <;> omega
  refine ⟨by rw [e1, e2], ?_, ?_, ?_⟩ <;> rw [e1, e2] <;> simp only [min_def, max_def]
  · constructor <;> split_ifs <;> omega
  · constructor
    · intro h
      split_ifs at h <;> omega
    · intro h
      split_ifs <;> omega
  · constructor <;> split_ifs <;> omega

/-- C31: for every image, every in-bounds centre `(x, y)` (so the image is not empty) and
every odd requested width `W ≥ 1` and height `H ≥ 1`, the window is constructed and
`ROI::Width()` equals `min(x + floor(W/2), cols-1) - max(x - floor(W/2), 0) + 1`, which
satisfies `1 ≤ Width() ≤ min(W, cols)` and equals `W` exactly when
`floor(W/2) ≤ x ≤ cols-1-floor(W/2)`, and the window contains the centre column; the same
holds for `Height()` with `y`, `H` and `rows`.  The one-width constructor is the case
`H = W`.  The coordinates `x ± W/2` are taken over the integers. -/
theorem ROI_clamped_dims (img : Mat) (x y W H : Int)
    (hx : 0 ≤ x ∧ x < img.cols) (hy : 0 ≤ y ∧ y < img.rows)
    (hW : 1 ≤ W ∧ W % 2 = 1) (hH : 1 ≤ H ∧ H % 2 = 1) :
    ∃ r, ROI.new img x y W H = .ok r ∧
      (r.Width = min (x + W / 2) (img.cols - 1) - max (x - W / 2) 0 + 1 ∧
        (1 ≤ r.Width ∧ r.Width ≤ min W img.cols) ∧
        (r.Width = W ↔ (W / 2 ≤ x ∧ x ≤ img.cols - 1 - W / 2)) ∧
        (r.x_start_ ≤ x ∧ x ≤ r.x_end_)) ∧
      (r.Height = min (y + H / 2) (img.rows - 1) - max (y - H / 2) 0 + 1 ∧
        (1 ≤ r.Height ∧ r.Height ≤ min H img.rows) ∧
        (r.Height = H ↔ (H / 2 ≤ y ∧ y ≤ img.rows - 1 - H / 2)) ∧
        (r.y_start_ ≤ y ∧ y ≤ r.y_end_)) ∧
      (H = W → ROI.square img x y W = .ok r) := by
  refine ⟨_, ROI_new_ok img x y W H hx hy, ?_, ?_, ?_⟩
  · simp only [ROI.Width, tdiv_two_eq W (by omega)]
    exact clamped_extent x img.cols W hx hW
  · simp only [ROI.Height, tdiv_two_eq H (by omega)]
    exact clamped_extent y img.rows H hy hH
  · intro e
    subst e
    exact ROI_new_ok img x y H H hx hy

/-- Witness of C31: the window of width `5` and height `3` centred at the corner `(2, 2)`
of the `3 × 3` example image. -/
theorem ROI_clamped_dims_witness :
    ∃ r, ROI.new cornerSpeck 2 2 5 3 = .ok r ∧
      (r.Width = min (2 + 5 / 2) (cornerSpeck.cols - 1) - max (2 - 5 / 2) 0 + 1 ∧
        (1 ≤ r.Width ∧ r.Width ≤ min 5 cornerSpeck.cols) ∧
        (r.Width = 5 ↔ ((5 : Int) / 2 ≤ 2 ∧ 2 ≤ cornerSpeck.cols - 1 - 5 / 2)) ∧
        (r.x_start_ ≤ 2 ∧ 2 ≤ r.x_end_)) ∧
      (r.Height = min (2 + 3 / 2) (cornerSpeck.rows - 1) - max (2 - 3 / 2) 0 + 1 ∧
        (1 ≤ r.Height ∧ r.Height ≤ min 3 cornerSpeck.rows) ∧
        (r.Height = 3 ↔ ((3 : Int) / 2 ≤ 2 ∧ 2 ≤ cornerSpeck.rows - 1 - 3 / 2)) ∧
        (r.y_start_ ≤ 2 ∧ 2 ≤ r.y_end_)) ∧
      ((3 : Int) = 5 → ROI.square cornerSpeck 2 2 5 = .ok r) :=
  ROI_clamped_dims cornerSpeck 2 2 5 3 (by decide) (by decide) (by decide) (by decide)

/-! ## Constant images -/

/-- The colour that a window filter reads at a window coordinate is the colour of the
pixel of the image at that coordinate shifted by the corner of the window. -/
theorem windowColour_eq_ofMat (window : ROI) (img : Mat) (himg : window.img_ = img)
    (xi yi : Int) :
    windowColour window img xi yi
      = RGBVector.ofMat img (xi + window.x_start_) (yi + window.y_start_) := by
  unfold windowColour RGBVector.ofMat ROI.at Mat.pixelPtr
  rw [himg, mul_comm]

/-- On an image whose pixels all have the colour `c` the call of `VMFilter` at a pixel of
the image returns `c`. -/
theorem VMFilter_call_constant (img : Mat) (c : RGBVector) (width x y : Int)
    (hconst : ∀ x y, inImage img x y → RGBVector.ofMat img x y = c)
    (hin : inImage img x y) (hw : 0 ≤ width) :
    VMFilter.call ⟨width⟩ x y img = .ok c := by
  obtain ⟨r, hr, himg, hW, hH, hx0, hx1, hy0, hy1⟩ :=
    ROI_new_dims_pos img x y width width hin.1 hin.2 hw hw
  obtain ⟨xi, yi, hxi, hyi, hbest⟩ := VMFilter_scan_best_in_window ⟨width⟩ r img hW hH
  have hcol : RGBVector.ofBuffer (img.deref (r.at xi yi)) img.channels = c := by
    have h := windowColour_eq_ofMat r img himg xi yi
    unfold windowColour at h
    rw [h]
    apply hconst
    unfold ROI.Width at hxi
    unfold ROI.Height at hyi
    exact ⟨⟨by omega, by omega⟩, ⟨by omega, by omega⟩⟩
  unfold VMFilter.call
  unfold ROI.square
  simp only [hr]
  show Except.ok _ = Except.ok _
  rw [hbest, hcol]

/-- The raster with constant colour is of type `CV_8UC3` and its pixels have that colour,
when the colour has been read from a raster. -/
theorem constantRaster_colour (rows cols : Int) (c : RGBVector) (hc : c.unused = 0)
    (x y : Int) (hin : inImage (constantRaster rows cols c) x y) :
    RGBVector.ofMat (constantRaster rows cols c) x y = c := by
  have hch : (constantRaster rows cols c).channels = 3 :=
    channels_of_8UC3 _ rfl
  obtain ⟨hx, hy⟩ := hin
  have hx2 : 0 ≤ x ∧ x < cols := hx
  have hy2 : 0 ≤ y ∧ y < rows := hy
  have e0 : (3 * x) % 3 = 0 := by omega
  have e1 : (3 * x + 1) % 3 = 1 := by omega
  have e2 : (3 * x + 2) % 3 = 2 := by omega
  rw [ofMat_three _ hch]
  simp only [constantRaster, e0, e1, e2]
  rw [if_pos ⟨hy2, by omega⟩, if_pos ⟨hy2, by omega⟩, if_pos ⟨hy2, by omega⟩]
  cases c
  simp only at hc
  subst hc
  rfl

/-- On an image of type `CV_8UC3` whose pixels all have the colour `c`,
`VectorMedianFilter` with an odd width of at least three returns the raster with constant
colour `c`. -/
theorem VectorMedianFilter_constant (tiles : List Block) (img : Mat) (c : RGBVector)
    (width : Int) (htype : img.type = CV_8UC3)
    (hconst : ∀ x y, inImage img x y → RGBVector.ofMat img x y = c)
    (hw : 3 ≤ width ∧ width % 2 = 1)
    (htiling : IsTiling ⟨0, img.rows, 0, img.cols⟩ tiles) :
    VectorMedianFilter tiles img width = .ok (constantRaster img.rows img.cols c) := by
  obtain ⟨out, hout, hdims, hin, hzero⟩ := Filter_of_colour VMFilter.operator tiles img width ()
    (fun _ _ => c) (fun inst => inst = ⟨width⟩) ⟨width⟩ htype (VMFilter_new_ok width hw) rfl
    (by
      intro x y hx hy inst s hI
      subst hI
      refine ⟨⟨width⟩, s, ?_, rfl⟩
      show (VMFilter.call ⟨width⟩ x y img).map _ = _
      rw [VMFilter_call_constant img c width x y hconst ⟨hx, hy⟩ (by omega)]
      rfl)
    htiling
  unfold VectorMedianFilter
  rw [hout]
  congr 1
  have hch : OpenCVTypeInfo.channels VMFilter.operator.output_type = 3 := by decide
  rw [hch] at hin hzero
  refine Mat_eq_of_fields out (constantRaster img.rows img.cols c) hdims.1 hdims.2.1
    hdims.2.2 ?_
  intro y j
  have hd : (constantRaster img.rows img.cols c).data y j
      = if (0 ≤ y ∧ y < img.rows) ∧ (0 ≤ j ∧ j < 3 * img.cols) then channelValue (j % 3) c
        else 0 := rfl
  rw [hd]
  by_cases h : (0 ≤ y ∧ y < img.rows) ∧ (0 ≤ j ∧ j < 3 * img.cols)
  · rw [if_pos h]
    exact hin y j ⟨j / 3, ⟨⟨by omega, by omega⟩, h.1⟩, by unfold pixelSlot; omega⟩
  · rw [if_neg h]
    apply hzero
    rintro ⟨x, ⟨hx, hy⟩, hs⟩
    unfold pixelSlot at hs
    apply h
    exact ⟨hy, by omega⟩

/-- C32: for every image of type `CV_8UC3` in which all pixels have the same colour `c` and
every odd width `≥ 3`, `VMFilter` is constructed and returns `c` at every pixel, so
`VectorMedianFilter` is the identity on constant images: the image it returns has the
size and type of the source and holds the elements of the source at every pixel; and
applying it to its own result returns that result again. -/
theorem VectorMedianFilter_constant_image (tiles : List Block) (img : Mat) (c : RGBVector)
    (width : Int) (htype : img.type = CV_8UC3)
    (hconst : ∀ x y, inImage img x y → RGBVector.ofMat img x y = c)
    (hw : 3 ≤ width ∧ width % 2 = 1)
    (htiling : IsTiling ⟨0, img.rows, 0, img.cols⟩ tiles) :
    (∃ f, VMFilter.new width = .ok f ∧
      ∀ x y, inImage img x y → f.call x y img = .ok c) ∧
    ∃ out, VectorMedianFilter tiles img width = .ok out ∧
      (out.rows = img.rows ∧ out.cols = img.cols ∧ out.type = img.type) ∧
      (∀ x y, inImage img x y → RGBVector.ofMat out x y = RGBVector.ofMat img x y) ∧
      (∀ y j, (0 ≤ y ∧ y < img.rows) → (0 ≤ j ∧ j < 3 * img.cols) →
        out.data y j = img.data y j) ∧
      VectorMedianFilter tiles out width = .ok out := by
  have hch := channels_of_8UC3 img htype
  have hdata : ∀ y j, (0 ≤ y ∧ y < img.rows) → (0 ≤ j ∧ j < 3 * img.cols) →
      (constantRaster img.rows img.cols c).data y j = img.data y j := by
    intro y j hy hj
    have hd : (constantRaster img.rows img.cols c).data y j
        = if (0 ≤ y ∧ y < img.rows) ∧ (0 ≤ j ∧ j < 3 * img.cols) then channelValue (j % 3) c
          else 0 := rfl
    rw [hd, if_pos ⟨hy, hj⟩]
    have hc := hconst (j / 3) y ⟨⟨by omega, by omega⟩, hy⟩
    rw [ofMat_three img hch] at hc
    rw [← hc]
    have hm : j % 3 = 0 ∨ j % 3 = 1 ∨ j % 3 = 2 := by omega
    unfold channelValue RGBVector.rgb
    rcases hm with h | h | h
    · rw [h, if_pos rfl]
      show img.data y (3 * (j / 3)) = _
      congr 1
      omega
    · rw [h, if_neg (by decide), if_pos rfl]
      show img.data y (3 * (j / 3) + 1) = _
      congr 1
      omega
    · rw [h, if_neg (by decide), if_neg (by decide)]
      show img.data y (3 * (j / 3) + 2) = _
      congr 1
      omega
  refine ⟨⟨⟨width⟩, VMFilter_new_ok width hw, fun x y hin =>
    VMFilter_call_constant img c width x y hconst hin (by omega)⟩,
    constantRaster img.rows img.cols c,
    VectorMedianFilter_constant tiles img c width htype hconst hw htiling,
    ⟨rfl, rfl, htype.symm⟩, ?_, hdata, ?_⟩
  · intro x y hin
    have h3 : (constantRaster img.rows img.cols c).channels = 3 :=
      channels_of_8UC3 _ rfl
    rw [ofMat_three _ h3, ofMat_three img hch,
      hdata y (3 * x) hin.2 ⟨by have := hin.1; omega, by have := hin.1; omega⟩,
      hdata y (3 * x + 1) hin.2 ⟨by have := hin.1; omega, by have := hin.1; omega⟩,
      hdata y (3 * x + 2) hin.2 ⟨by have := hin.1; omega, by have := hin.1; omega⟩]
  · by_cases hne : ∃ x y, inImage img x y
    · obtain ⟨x0, y0, h0⟩ := hne
      have hu : c.unused = 0 := by
        rw [← hconst x0 y0 h0]
        rfl
      exact VectorMedianFilter_constant tiles (constantRaster img.rows img.cols c) c width rfl
        (fun x y hin => constantRaster_colour img.rows img.cols c hu x y hin) hw htiling
    · exact VectorMedianFilter_constant tiles (constantRaster img.rows img.cols c) c width rfl
        (fun x y hin => absurd ⟨x, y, hin⟩ hne) hw htiling

/-- Witness of C32: the `2 × 2` raster with constant colour `(7, 8, 9)`, filtered with
width `3` as a single block. -/
theorem VectorMedianFilter_constant_image_witness :
    (∃ f, VMFilter.new 3 = .ok f ∧
      ∀ x y, inImage (constantRaster 2 2 (RGBVector.rgb 7 8 9)) x y →
        f.call x y (constantRaster 2 2 (RGBVector.rgb 7 8 9)) = .ok (RGBVector.rgb 7 8 9)) ∧
    ∃ out, VectorMedianFilter [⟨0, 2, 0, 2⟩] (constantRaster 2 2 (RGBVector.rgb 7 8 9)) 3
        = .ok out ∧
      (out.rows = (constantRaster 2 2 (RGBVector.rgb 7 8 9)).rows ∧
        out.cols = (constantRaster 2 2 (RGBVector.rgb 7 8 9)).cols ∧
        out.type = (constantRaster 2 2 (RGBVector.rgb 7 8 9)).type) ∧
      (∀ x y, inImage (constantRaster 2 2 (RGBVector.rgb 7 8 9)) x y →
        RGBVector.ofMat out x y
          = RGBVector.ofMat (constantRaster 2 2 (RGBVector.rgb 7 8 9)) x y) ∧
      (∀ y j, (0 ≤ y ∧ y < (constantRaster 2 2 (RGBVector.rgb 7 8 9)).rows) →
        (0 ≤ j ∧ j < 3 * (constantRaster 2 2 (RGBVector.rgb 7 8 9)).cols) →
        out.data y j = (constantRaster 2 2 (RGBVector.rgb 7 8 9)).data y j) ∧
      VectorMedianFilter [⟨0, 2, 0, 2⟩] out 3 = .ok out :=
  VectorMedianFilter_constant_image [⟨0, 2, 0, 2⟩] (constantRaster 2 2 (RGBVector.rgb 7 8 9))
    (RGBVector.rgb 7 8 9) 3 rfl
    (fun x y hin => constantRaster_colour 2 2 (RGBVector.rgb 7 8 9) rfl x y hin)
    (by decide) (IsTiling_single _ (by decide))

/-! ## The accumulated distances fit in `int` -/

/-- A sum of terms between `0` and `B`, one of which is `0`, is at most `B` times the
number of the other terms. -/
theorem sum_map_le_of_zero {β : Type} (g : β → Int) (l : List β) (B : Int) (hB : 0 ≤ B)
    (hg : ∀ b ∈ l, g b ≤ B) (b0 : β) (h0 : b0 ∈ l) (hz : g b0 = 0) :
    (l.map g).sum ≤ ((l.length : Int) - 1) * B := by
  induction l with
  | nil => simp at h0
  | cons b t ih =>
    simp only [List.map_cons, List.sum_cons, List.length_cons]
    push_cast
    have ht := sum_map_le g t B (fun c hc => hg c (List.mem_cons_of_mem _ hc))
    rcases List.mem_cons.1 h0 with e | e
    · rw [← e, hz]
      linarith
    · have h1 := ih (fun c hc => hg c (List.mem_cons_of_mem _ hc)) e
      have h2 := hg b (List.mem_cons_self _ _)
      linarith

/-- A sum of terms that are not negative is not negative. -/
theorem sum_map_nonneg {β : Type} (g : β → Int) (l : List β) (hg : ∀ b ∈ l, 0 ≤ g b) :
    0 ≤ (l.map g).sum := by
  apply List.sum_nonneg
  intro v hv
  obtain ⟨c, hc, rfl⟩ := List.mem_map.1 hv
  exact hg c hc

/-- C33: for every odd width `w` with `3 ≤ w ≤ 103`, every window of `N = Width * Height`
pixels with `Width, Height ≤ w` (so `N ≤ w*w`) of an 8-bit image and every candidate
pixel of the window, the total squared distance that `VMFilter`, `VectorRangeFilter` and
`MinVecDispersionFilter` accumulate in an `int` never overflows: every addition of the
accumulation, taken in row-major order, gives a value between `0` and `(N-1)*195075`, so
the accumulated value is the exact total, it is at most `(N-1)*195075`, which is strictly
less than `195075*w*w ≤ 2^31 - 1`, and it is strictly below the start value
`kMaxDistanceSq*w*w = 195075*w*w` of `min_distance` in `VectorRangeFilter`, which does not
wrap either. -/
theorem aggregateDistance_fits (window : ROI) (img : Mat) (w : Int)
    (htype : img.type = CV_8UC3) (h8 : img.is8U)
    (hw : (3 ≤ w ∧ w ≤ 103) ∧ w % 2 = 1)
    (hW : 1 ≤ window.Width ∧ window.Width ≤ w) (hH : 1 ≤ window.Height ∧ window.Height ≤ w)
    (xi yi : Int) (hxi : 0 ≤ xi ∧ xi < window.Width) (hyi : 0 ≤ yi ∧ yi < window.Height) :
    window.Width * window.Height ≤ w * w ∧
    aggregateDistance window img (windowColour window img xi yi)
      = (rowMajor window.Width window.Height).foldl
          (fun d q => int32 (d + RGBVector.SquaredDistance Elem.u8
            (windowColour window img xi yi) (windowColour window img q.1 q.2))) 0 ∧
    (∀ pre q rest, rowMajor window.Width window.Height = pre ++ q :: rest →
      0 ≤ pre.foldl (fun d q => int32 (d + RGBVector.SquaredDistance Elem.u8
            (windowColour window img xi yi) (windowColour window img q.1 q.2))) 0
          + RGBVector.SquaredDistance Elem.u8
            (windowColour window img xi yi) (windowColour window img q.1 q.2) ∧
      pre.foldl (fun d q => int32 (d + RGBVector.SquaredDistance Elem.u8
            (windowColour window img xi yi) (windowColour window img q.1 q.2))) 0
          + RGBVector.SquaredDistance Elem.u8
            (windowColour window img xi yi) (windowColour window img q.1 q.2)
        ≤ (window.Width * window.Height - 1) * 195075) ∧
    aggregateDistance window img (windowColour window img xi yi)
      = totalSquaredDistance window img (windowColour window img xi yi) ∧
    (0 ≤ aggregateDistance window img (windowColour window img xi yi) ∧
      aggregateDistance window img (windowColour window img xi yi)
        ≤ (window.Width * window.Height - 1) * 195075) ∧
    ((window.Width * window.Height - 1) * 195075 < 195075 * (w * w) ∧
      195075 * (w * w) ≤ 2 ^ 31 - 1) ∧
    int32 (int32 (kMaxDistanceSq * w) * w) = 195075 * (w * w) ∧
    aggregateDistance window img (windowColour window img xi yi)
      < int32 (int32 (kMaxDistanceSq * w) * w) ∧
    (∀ s, VMFilter.step window img s xi yi =
      if aggregateDistance window img (windowColour window img xi yi) < s.minimum_distance
      then ⟨aggregateDistance window img (windowColour window img xi yi),
        windowColour window img xi yi⟩ else s) ∧
    (∀ distances : List Int, (window.Width * window.Height).toNat ≤ distances.length →
      MinVecDispersionFilter.fill window img distances
        = ((loopRange (window.Width * window.Height)).map
              (fun i => aggregateDistance window img (indexColour window img i))
            ++ distances.drop (window.Width * window.Height).toNat,
          window.Width * window.Height)) := by
  have hp := windowColour_isByteColour window img htype h8 xi yi
  have hN1 : window.Width * window.Height ≤ w * w := by nlinarith
  have hN0 : 1 ≤ window.Width * window.Height := by nlinarith
  have hww : w * w ≤ 10609 := by nlinarith
  have hpow : (2 : Int) ^ 31 = 2147483648 := by norm_num
  have hgb : ∀ q : Int × Int, 0 ≤ exactSquaredDistance (windowColour window img xi yi)
        (windowColour window img q.1 q.2) ∧
      exactSquaredDistance (windowColour window img xi yi)
        (windowColour window img q.1 q.2) ≤ 195075 :=
    fun q => exactSquaredDistance_bounds _ _ hp
      (windowColour_isByteColour window img htype h8 q.1 q.2)
  have hfun : (fun (d : Int) (q : Int × Int) => int32 (d + RGBVector.SquaredDistance Elem.u8
        (windowColour window img xi yi) (windowColour window img q.1 q.2)))
      = (fun (d : Int) (q : Int × Int) => int32 (d + exactSquaredDistance
        (windowColour window img xi yi) (windowColour window img q.1 q.2))) := by
    funext d q
    rw [SquaredDistance_u8_eq _ _ hp (windowColour_isByteColour window img htype h8 q.1 q.2)]
  have hlen : ((rowMajor window.Width window.Height).length : Int)
      = window.Width * window.Height := by
    rw [rowMajor_length window.Width window.Height hW.1 (by omega)]
    exact Int.toNat_of_nonneg (by omega)
  have htot : ((rowMajor window.Width window.Height).map (fun q : Int × Int =>
        exactSquaredDistance (windowColour window img xi yi)
          (windowColour window img q.1 q.2))).sum
      ≤ (window.Width * window.Height - 1) * 195075 := by
    have h := sum_map_le_of_zero (fun q : Int × Int =>
        exactSquaredDistance (windowColour window img xi yi)
          (windowColour window img q.1 q.2))
      (rowMajor window.Width window.Height) 195075 (by decide) (fun q _ => (hgb q).2)
      (xi, yi) (mem_rowMajor.2 ⟨hxi, hyi⟩) (exactSquaredDistance_self _)
    rw [hlen] at h
    exact h
  have hT : (window.Width * window.Height - 1) * 195075 < 195075 * (w * w) := by omega
  have hT2 : 195075 * (w * w) ≤ 2 ^ 31 - 1 := by omega
  have hagg := aggregateDistance_eq_total window img htype h8 ⟨by omega, by omega⟩
    ⟨by omega, by omega⟩ (windowColour window img xi yi) hp
  have htotal : totalSquaredDistance window img (windowColour window img xi yi)
      = ((rowMajor window.Width window.Height).map (fun q : Int × Int =>
        exactSquaredDistance (windowColour window img xi yi)
          (windowColour window img q.1 q.2))).sum :=
    (sum_rowMajor (fun q : Int × Int => exactSquaredDistance (windowColour window img xi yi)
      (windowColour window img q.1 q.2)) window.Width window.Height).symm
  have hnn := (totalSquaredDistance_bounds window img htype h8 (by omega) (by omega)
    (windowColour window img xi yi) hp).1
  have hstart := VectorRangeFilter_start_value w hw.1
  refine ⟨hN1, ?_, ?_, hagg, ⟨?_, ?_⟩, ⟨hT, hT2⟩, hstart, ?_, fun s => rfl, ?_⟩
  · unfold aggregateDistance
    exact foldl_rowMajor (fun d x y => int32 (d + RGBVector.SquaredDistance Elem.u8
      (windowColour window img xi yi) (windowColour window img x y)))
      window.Width window.Height 0
  · intro pre q rest hsplit
    rw [hfun]
    have hsum : ((rowMajor window.Width window.Height).map (fun q : Int × Int =>
          exactSquaredDistance (windowColour window img xi yi)
            (windowColour window img q.1 q.2))).sum
        = (pre.map (fun q : Int × Int => exactSquaredDistance (windowColour window img xi yi)
            (windowColour window img q.1 q.2))).sum
          + (exactSquaredDistance (windowColour window img xi yi)
              (windowColour window img q.1 q.2)
            + (rest.map (fun q : Int × Int =>
                exactSquaredDistance (windowColour window img xi yi)
                  (windowColour window img q.1 q.2))).sum) := by
      rw [hsplit]
      simp only [List.map_append, List.sum_append, List.map_cons, List.sum_cons]
    have hpre := sum_map_nonneg (fun q : Int × Int => exactSquaredDistance
      (windowColour window img xi yi) (windowColour window img q.1 q.2)) pre
      (fun q _ => (hgb q).1)
    have hrest := sum_map_nonneg (fun q : Int × Int => exactSquaredDistance
      (windowColour window img xi yi) (windowColour window img q.1 q.2)) rest
      (fun q _ => (hgb q).1)
    have hq := hgb q
    rw [foldl_wrap_sum (fun q : Int × Int => exactSquaredDistance
      (windowColour window img xi yi) (windowColour window img q.1 q.2)) pre 0 (le_refl _)
      (fun q _ => (hgb q).1) (by omega),
      SquaredDistance_u8_eq _ _ hp (windowColour_isByteColour window img htype h8 q.1 q.2)]
    constructor <;> omega
  · rw [hagg]
    exact hnn
  · rw [hagg, htotal]
    exact htot
  · rw [hagg, htotal, hstart]
    omega
  · intro distances hlen2
    exact MinVecDispersionFilter_fill_eq window img distances hW.1 hH.1 hlen2

/-- Witness of C33: the window of width `3` at the centre of the `3 × 3` example image and
its candidate `(1, 0)`. -/
theorem aggregateDistance_fits_witness :
    cornerSpeckWindow.Width * cornerSpeckWindow.Height ≤ 3 * 3 ∧
    aggregateDistance cornerSpeckWindow cornerSpeck (windowColour cornerSpeckWindow cornerSpeck 1 0)
      = (rowMajor cornerSpeckWindow.Width cornerSpeckWindow.Height).foldl
          (fun d q => int32 (d + RGBVector.SquaredDistance Elem.u8
            (windowColour cornerSpeckWindow cornerSpeck 1 0)
            (windowColour cornerSpeckWindow cornerSpeck q.1 q.2))) 0 ∧
    (∀ pre q rest, rowMajor cornerSpeckWindow.Width cornerSpeckWindow.Height
        = pre ++ q :: rest →
      0 ≤ pre.foldl (fun d q => int32 (d + RGBVector.SquaredDistance Elem.u8
            (windowColour cornerSpeckWindow cornerSpeck 1 0)
            (windowColour cornerSpeckWindow cornerSpeck q.1 q.2))) 0
          + RGBVector.SquaredDistance Elem.u8
            (windowColour cornerSpeckWindow cornerSpeck 1 0)
            (windowColour cornerSpeckWindow cornerSpeck q.1 q.2) ∧
      pre.foldl (fun d q => int32 (d + RGBVector.SquaredDistance Elem.u8
            (windowColour cornerSpeckWindow cornerSpeck 1 0)
            (windowColour cornerSpeckWindow cornerSpeck q.1 q.2))) 0
          + RGBVector.SquaredDistance Elem.u8
            (windowColour cornerSpeckWindow cornerSpeck 1 0)
            (windowColour cornerSpeckWindow cornerSpeck q.1 q.2)
        ≤ (cornerSpeckWindow.Width * cornerSpeckWindow.Height - 1) * 195075) ∧
    aggregateDistance cornerSpeckWindow cornerSpeck (windowColour cornerSpeckWindow cornerSpeck 1 0)
      = totalSquaredDistance cornerSpeckWindow cornerSpeck
          (windowColour cornerSpeckWindow cornerSpeck 1 0) ∧
    (0 ≤ aggregateDistance cornerSpeckWindow cornerSpeck
          (windowColour cornerSpeckWindow cornerSpeck 1 0) ∧
      aggregateDistance cornerSpeckWindow cornerSpeck
          (windowColour cornerSpeckWindow cornerSpeck 1 0)
        ≤ (cornerSpeckWindow.Width * cornerSpeckWindow.Height - 1) * 195075) ∧
    ((cornerSpeckWindow.Width * cornerSpeckWindow.Height - 1) * 195075 < 195075 * (3 * 3) ∧
      (195075 : Int) * (3 * 3) ≤ 2 ^ 31 - 1) ∧
    int32 (int32 (kMaxDistanceSq * 3) * 3) = 195075 * (3 * 3) ∧
    aggregateDistance cornerSpeckWindow cornerSpeck (windowColour cornerSpeckWindow cornerSpeck 1 0)
      < int32 (int32 (kMaxDistanceSq * 3) * 3) ∧
    (∀ s, VMFilter.step cornerSpeckWindow cornerSpeck s 1 0 =
      if aggregateDistance cornerSpeckWindow cornerSpeck
          (windowColour cornerSpeckWindow cornerSpeck 1 0) < s.minimum_distance
      then ⟨aggregateDistance cornerSpeckWindow cornerSpeck
          (windowColour cornerSpeckWindow cornerSpeck 1 0),
        windowColour cornerSpeckWindow cornerSpeck 1 0⟩ else s) ∧
    (∀ distances : List Int,
      (cornerSpeckWindow.Width * cornerSpeckWindow.Height).toNat ≤ distances.length →
      MinVecDispersionFilter.fill cornerSpeckWindow cornerSpeck distances
        = ((loopRange (cornerSpeckWindow.Width * cornerSpeckWindow.Height)).map
              (fun i => aggregateDistance cornerSpeckWindow cornerSpeck
                (indexColour cornerSpeckWindow cornerSpeck i))
            ++ distances.drop (cornerSpeckWindow.Width * cornerSpeckWindow.Height).toNat,
          cornerSpeckWindow.Width * cornerSpeckWindow.Height)) :=
  aggregateDistance_fits cornerSpeckWindow cornerSpeck 3 rfl cornerSpeck_is8U (by decide)
    (by decide) (by decide) 1 0 (by decide) (by decide)

/-! ## Edge linking: the passes are monotone -/

/-- One visit leaves every element as it is or turns a `127` into `255`. -/
theorem linkStep_monotone (s : Mat × Bool) (p : Int × Int) (y j : Int) :
    (linkStep s p).1.data y j = s.1.data y j ∨
      (s.1.data y j = 127 ∧ (linkStep s p).1.data y j = 255) := by
  unfold linkStep
  by_cases hprom : s.1.data p.2 p.1 = 127 ∧ readsStrong s.1 p.1 p.2
  · rw [if_pos hprom]
    have hd : (s.1.store p.2 p.1 255).data y j
        = if y = p.2 ∧ j = p.1 then 255 else s.1.data y j := rfl
    show (s.1.store p.2 p.1 255).data y j = s.1.data y j ∨
      (s.1.data y j = 127 ∧ (s.1.store p.2 p.1 255).data y j = 255)
    rw [hd]
    by_cases h : y = p.2 ∧ j = p.1
    · rw [if_pos h, h.1, h.2]
      exact Or.inr ⟨hprom.1, rfl⟩
    · rw [if_neg h]
      exact Or.inl rfl
  · rw [if_neg hprom]
    exact Or.inl rfl

/-- The visits of a pass leave every element as it is or turn a `127` into `255`. -/
theorem foldl_linkStep_monotone (pixels : List (Int × Int)) (s : Mat × Bool) (y j : Int) :
    (pixels.foldl linkStep s).1.data y j = s.1.data y j ∨
      (s.1.data y j = 127 ∧ (pixels.foldl linkStep s).1.data y j = 255) := by
  induction pixels generalizing s with
  | nil => exact Or.inl rfl
  | cons p rest ih =>
    simp only [List.foldl_cons]
    rcases ih (linkStep s p) with h2 | h2 <;> rcases linkStep_monotone s p y j with h1 | h1
    · exact Or.inl (h2.trans h1)
    · exact Or.inr ⟨h1.1, h2.trans h1.2⟩
    · exact Or.inr ⟨h1 ▸ h2.1, h2.2⟩
    · exact absurd (h1.2.symm.trans h2.1) (by decide)

/-- The loop, however many turns it is allowed, ends at a classified raster in which every
element is the one it started with or a `127` turned into `255`. -/
theorem linking_monotone (schedule : Nat → List Block) :
    ∀ (fuel i : Nat) (m : Mat) (flag : Bool) (out : Mat) (n : Nat),
      m.type = CV_8UC1 → IsClassified m →
      ColourCannyEdgeDetect.linking schedule fuel i m flag = .ok (some (out, n)) →
      IsClassified out ∧
      ∀ y j, out.data y j = m.data y j ∨ (m.data y j = 127 ∧ out.data y j = 255) := by
  intro fuel
  induction fuel with
  | zero =>
    intro i m flag out n _ hcls h
    cases flag with
    | false =>
      rw [linking_false] at h
      simp only [Except.ok.injEq, Option.some.injEq, Prod.mk.injEq] at h
      rw [← h.1]
      exact ⟨hcls, fun y j => Or.inl rfl⟩
    | true =>
      have e : ColourCannyEdgeDetect.linking schedule 0 i m true = .ok none := rfl
      rw [e] at h
      simp at h
  | succ fuel ih =>
    intro i m flag out n htype hcls h
    cases flag with
    | false =>
      rw [linking_false] at h
      simp only [Except.ok.injEq, Option.some.injEq, Prod.mk.injEq] at h
      rw [← h.1]
      exact ⟨hcls, fun y j => Or.inl rfl⟩
    | true =>
      rw [linking_step schedule fuel i m htype hcls] at h
      have hf := foldl_linkStep_fields (passPixels ⟨0, m.rows, 0, m.cols⟩ (schedule i))
        (m, false)
      obtain ⟨hc2, hm2⟩ := ih (i + 1) _ _ out n (hf.2.2.1.trans htype) (hf.2.2.2 hcls) h
      refine ⟨hc2, fun y j => ?_⟩
      rcases hm2 y j with h2 | h2 <;>
        rcases foldl_linkStep_monotone (passPixels ⟨0, m.rows, 0, m.cols⟩ (schedule i))
          (m, false) y j with h1 | h1
      · exact Or.inl (h2.trans h1)
      · exact Or.inr ⟨h1.1, h2.trans h1.2⟩
      · exact Or.inr ⟨h1 ▸ h2.1, h2.2⟩
      · exact absurd (h1.2.symm.trans h2.1) (by decide)

/-- An element that is left as it is or turned from `127` into `255`: `0` stays `0`, `255`
stays `255`, and a change is a change from `127` to `255`. -/
theorem monotone_cases (a b : Int) (h : b = a ∨ (a = 127 ∧ b = 255)) :
    (a = 0 → b = 0) ∧ (a = 255 → b = 255) ∧ (b ≠ a → a = 127 ∧ b = 255) := by
  rcases h with h | h
  · exact ⟨fun e => h.trans e, fun e => h.trans e, fun e => absurd h e⟩
  · refine ⟨fun e => ?_, fun e => ?_, fun _ => h⟩
    · rw [h.1] at e
      exact absurd e (by decide)
    · rw [h.1] at e
      exact absurd e (by decide)

/-- C34: every linking pass of `ConnectedComponents` on a classified raster (type
`CV_8UC1`, values in `{0, 127, 255}`), for every list of blocks and either value of the
flag, throws nothing, leaves all values in `{0, 127, 255}` and is monotone: an element
that is `0` stays `0`, an element that is `255` stays `255`, and the only change is
`127 → 255`.  Consequently, whenever the linking loop of `ColourCannyEdgeDetect` ends,
after however many passes, its raster is classified and is related to the starting raster
in the same way: the set of strong pixels has not shrunk. -/
theorem ConnectedComponents_pass_monotone (tiles : List Block) (cur : Mat)
    (htype : cur.type = CV_8UC1) (hcls : IsClassified cur) (flag : Bool) :
    (FilterInto ConnectedComponents.operator tiles cur none () flag).error = none ∧
    IsClassified (FilterInto ConnectedComponents.operator tiles cur none () flag).filtered ∧
    (∀ y j,
      (cur.data y j = 0 →
        (FilterInto ConnectedComponents.operator tiles cur none () flag).filtered.data y j
          = 0) ∧
      (cur.data y j = 255 →
        (FilterInto ConnectedComponents.operator tiles cur none () flag).filtered.data y j
          = 255) ∧
      ((FilterInto ConnectedComponents.operator tiles cur none () flag).filtered.data y j
          ≠ cur.data y j →
        cur.data y j = 127 ∧
        (FilterInto ConnectedComponents.operator tiles cur none () flag).filtered.data y j
          = 255)) ∧
    (∀ (schedule : Nat → List Block) (fuel i : Nat) (out : Mat) (n : Nat),
      ColourCannyEdgeDetect.linking schedule fuel i cur true = .ok (some (out, n)) →
      IsClassified out ∧
      ∀ y j, (cur.data y j = 0 → out.data y j = 0) ∧
        (cur.data y j = 255 → out.data y j = 255) ∧
        (out.data y j ≠ cur.data y j → cur.data y j = 127 ∧ out.data y j = 255)) := by
  rw [ConnectedComponents_pass tiles cur htype hcls flag]
  have hf := foldl_linkStep_fields (passPixels ⟨0, cur.rows, 0, cur.cols⟩ tiles) (cur, flag)
  refine ⟨rfl, hf.2.2.2 hcls, fun y j => ?_, ?_⟩
  · exact monotone_cases _ _
      (foldl_linkStep_monotone (passPixels ⟨0, cur.rows, 0, cur.cols⟩ tiles) (cur, flag) y j)
  · intro schedule fuel i out n h
    obtain ⟨hc, hm⟩ := linking_monotone schedule fuel i cur true out n htype hcls h
    exact ⟨hc, fun y j => monotone_cases _ _ (hm y j)⟩

/-- Witness of C34: the row with a strong pixel followed by two weak ones, run as a single
block with the flag reset. -/
theorem ConnectedComponents_pass_monotone_witness :
    (FilterInto ConnectedComponents.operator [⟨0, 1, 0, 3⟩] weakRun none () false).error
      = none ∧
    IsClassified
      (FilterInto ConnectedComponents.operator [⟨0, 1, 0, 3⟩] weakRun none () false).filtered ∧
    (∀ y j,
      (weakRun.data y j = 0 →
        (FilterInto ConnectedComponents.operator [⟨0, 1, 0, 3⟩] weakRun none ()
          false).filtered.data y j = 0) ∧
      (weakRun.data y j = 255 →
        (FilterInto ConnectedComponents.operator [⟨0, 1, 0, 3⟩] weakRun none ()
          false).filtered.data y j = 255) ∧
      ((FilterInto ConnectedComponents.operator [⟨0, 1, 0, 3⟩] weakRun none ()
          false).filtered.data y j ≠ weakRun.data y j →
        weakRun.data y j = 127 ∧
        (FilterInto ConnectedComponents.operator [⟨0, 1, 0, 3⟩] weakRun none ()
          false).filtered.data y j = 255)) ∧
    (∀ (schedule : Nat → List Block) (fuel i : Nat) (out : Mat) (n : Nat),
      ColourCannyEdgeDetect.linking schedule fuel i weakRun true = .ok (some (out, n)) →
      IsClassified out ∧
      ∀ y j, (weakRun.data y j = 0 → out.data y j = 0) ∧
        (weakRun.data y j = 255 → out.data y j = 255) ∧
        (out.data y j ≠ weakRun.data y j → weakRun.data y j = 127 ∧ out.data y j = 255)) :=
  ConnectedComponents_pass_monotone [⟨0, 1, 0, 3⟩] weakRun rfl weakRun_classified false

/-! ## Thresholds that leave no weak pixel -/

/-- The sampling direction of `NonMaximumSupression` for the angle of the orientation with
index `i` is the offset of that orientation. -/
theorem direction_kAngles (i : Int) (hi : 0 ≤ i ∧ i ≤ 3) :
    NonMaximumSupression.direction (kAngles i) = gradientOffset i := by
  have e : i = 0 ∨ i = 1 ∨ i = 2 ∨ i = 3 := by omega
  rw [NonMaximumSupression_direction_eq]
  rcases e with e | e | e | e <;> subst e <;> rfl

/-- C36: for each angle bucket `t` in `{0, 45, 90, 135}` that `ColourGradient` can output,
the sampling offset `(dx, dy)` that `NonMaximumSupression` selects for `t` equals the
offset pair with which `ColourGradient` measured the response reported for `t` (`(1,0)`
for `0`, `(1,1)` for `45`, `(0,1)` for `90`, `(1,-1)` for `135`).  So for every image and
pixel, with `i` the orientation that `ColourGradient` selects, the magnitude is the
response measured between the clamped positions `c1 = (x+dx, y+dy)` and
`c2 = (x-dx, y-dy)`, and on a gradient raster of the size of the image that holds this
angle at the pixel, `NonMaximumSupression` compares the magnitude of the pixel with the
magnitudes at the same two positions `c1` and `c2`. -/
theorem NonMaximumSupression_samples_measured_offset (img : Mat) (x y : Int) :
    (NonMaximumSupression.direction 0 = (1, 0) ∧ NonMaximumSupression.direction 45 = (1, 1) ∧
      NonMaximumSupression.direction 90 = (0, 1) ∧
      NonMaximumSupression.direction 135 = (1, -1)) ∧
    (kAngles 0 = 0 ∧ kAngles 1 = 90 ∧ kAngles 2 = 45 ∧ kAngles 3 = 135) ∧
    ColourGradient.responses img x y =
      [CalcRGBDelta Elem.u8 1 0 img x y, CalcRGBDelta Elem.u8 0 1 img x y,
        CalcRGBDelta Elem.u8 1 1 img x y, CalcRGBDelta Elem.u8 1 (-1) img x y] ∧
    ∃ i, (0 ≤ i ∧ i ≤ 3) ∧
      (ColourGradient.call x y img).red = kAngles i ∧
      ((ColourGradient.call x y img).red = 0 ∨ (ColourGradient.call x y img).red = 45 ∨
        (ColourGradient.call x y img).red = 90 ∨ (ColourGradient.call x y img).red = 135) ∧
      NonMaximumSupression.direction (ColourGradient.call x y img).red = gradientOffset i ∧
      (ColourGradient.call x y img).green =
        CalcRGBDelta Elem.u8 (NonMaximumSupression.direction (ColourGradient.call x y img).red).1
          (NonMaximumSupression.direction (ColourGradient.call x y img).red).2 img x y ∧
      (ColourGradient.call x y img).green =
        sqrtToInt (RGBVector.SquaredDistance Elem.u8
          (RGBVector.ofMat img
            (ClampCoordinate img (x + (gradientOffset i).1) (y + (gradientOffset i).2)).1
            (ClampCoordinate img (x + (gradientOffset i).1) (y + (gradientOffset i).2)).2)
          (RGBVector.ofMat img
            (ClampCoordinate img (x - (gradientOffset i).1) (y - (gradientOffset i).2)).1
            (ClampCoordinate img (x - (gradientOffset i).1) (y - (gradientOffset i).2)).2)) ∧
      (∀ grad : Mat, grad.rows = img.rows → grad.cols = img.cols →
        (RGBVector.ofMat grad x y).red = (ColourGradient.call x y img).red →
        NonMaximumSupression.call x y grad =
          RGBVector.rgb
            (if (RGBVector.ofMat grad
                  (ClampCoordinate img (x + (gradientOffset i).1) (y + (gradientOffset i).2)).1
                  (ClampCoordinate img (x + (gradientOffset i).1)
                    (y + (gradientOffset i).2)).2).green ≤ (RGBVector.ofMat grad x y).green ∧
                (RGBVector.ofMat grad
                  (ClampCoordinate img (x - (gradientOffset i).1) (y - (gradientOffset i).2)).1
                  (ClampCoordinate img (x - (gradientOffset i).1)
                    (y - (gradientOffset i).2)).2).green ≤ (RGBVector.ofMat grad x y).green
              then (RGBVector.ofMat grad x y).green else 0)
            (if (RGBVector.ofMat grad
                  (ClampCoordinate img (x + (gradientOffset i).1) (y + (gradientOffset i).2)).1
                  (ClampCoordinate img (x + (gradientOffset i).1)
                    (y + (gradientOffset i).2)).2).green ≤ (RGBVector.ofMat grad x y).green ∧
                (RGBVector.ofMat grad
                  (ClampCoordinate img (x - (gradientOffset i).1) (y - (gradientOffset i).2)).1
                  (ClampCoordinate img (x - (gradientOffset i).1)
                    (y - (gradientOffset i).2)).2).green ≤ (RGBVector.ofMat grad x y).green
              then (RGBVector.ofMat grad x y).green else 0)
            (if (RGBVector.ofMat grad
                  (ClampCoordinate img (x + (gradientOffset i).1) (y + (gradientOffset i).2)).1
                  (ClampCoordinate img (x + (gradientOffset i).1)
                    (y + (gradientOffset i).2)).2).green ≤ (RGBVector.ofMat grad x y).green ∧
                (RGBVector.ofMat grad
                  (ClampCoordinate img (x - (gradientOffset i).1) (y - (gradientOffset i).2)).1
                  (ClampCoordinate img (x - (gradientOffset i).1)
                    (y - (gradientOffset i).2)).2).green ≤ (RGBVector.ofMat grad x y).green
              then (RGBVector.ofMat grad x y).green else 0)) := by
  have d0 : NonMaximumSupression.direction 0 = (1, 0) := direction_kAngles 0 (by decide)
  have d90 : NonMaximumSupression.direction 90 = (0, 1) := direction_kAngles 1 (by decide)
  have d45 : NonMaximumSupression.direction 45 = (1, 1) := direction_kAngles 2 (by decide)
  have d135 : NonMaximumSupression.direction 135 = (1, -1) := direction_kAngles 3 (by decide)
  obtain ⟨i, hi, hcall, -, -⟩ := ColourGradient_call_first_max img x y
  have hred : (ColourGradient.call x y img).red = kAngles i := by
    rw [hcall]
    rfl
  have hgreen : (ColourGradient.call x y img).green = gradientResponse img x y i := by
    rw [hcall]
    rfl
  have hdir : NonMaximumSupression.direction (ColourGradient.call x y img).red
      = gradientOffset i := by
    rw [hred]
    exact direction_kAngles i hi
  refine ⟨⟨d0, d45, d90, d135⟩, ⟨rfl, rfl, rfl, rfl⟩, rfl, i, hi, hred, ?_, hdir, ?_, ?_, ?_⟩
  · have e : i = 0 ∨ i = 1 ∨ i = 2 ∨ i = 3 := by omega
    rw [hred]
    rcases e with e | e | e | e <;> subst e <;> decide
  · rw [hdir, hgreen]
    rfl
  · rw [hgreen]
    rfl
  · intro grad hr hc hθ
    have hd : NonMaximumSupression.direction (RGBVector.ofMat grad x y).red
        = gradientOffset i := by
      rw [hθ]
      exact hdir
    unfold NonMaximumSupression.call NonMaximumSupression.get_magnitude ClampCoordinate
    simp only [hd, hr, hc, decide_eq_true_eq]

/-! ## The conversion of `double` to `float` -/

/-- Rounding to the nearest integer is monotone. -/
theorem roundHalfEven_mono (a b : ℚ) (h : a ≤ b) : roundHalfEven a ≤ roundHalfEven b := by
  have ha1 := Int.floor_le a
  have ha2 := Int.lt_floor_add_one a
  have hb1 := Int.floor_le b
  have hb2 := Int.lt_floor_add_one b
  have hfl : ⌊a⌋ ≤ ⌊b⌋ := Int.floor_mono h
  have hra : ⌊a⌋ ≤ roundHalfEven a ∧ roundHalfEven a ≤ ⌊a⌋ + 1 := by
    unfold roundHalfEven
    split_ifs <;> omega
  have hrb : ⌊b⌋ ≤ roundHalfEven b ∧ roundHalfEven b ≤ ⌊b⌋ + 1 := by
    unfold roundHalfEven
    split_ifs <;> omega
  by_cases e : ⌊a⌋ = ⌊b⌋
  · unfold roundHalfEven
    rw [e]
    rw [e] at ha1 ha2
    split_ifs <;> first | omega | (exfalso; linarith)
  · omega

/-- Rounding leaves an integer as it is. -/
theorem roundHalfEven_intCast (n : Int) : roundHalfEven (n : ℚ) = n := by
  unfold roundHalfEven
  rw [Int.floor_intCast]
  simp

/-- A rational within less than one half of an integer rounds to it. -/
theorem roundHalfEven_eq (q : ℚ) (n : Int) (h1 : (n : ℚ) - 1 / 2 < q)
    (h2 : q < (n : ℚ) + 1 / 2) : roundHalfEven q = n := by
  by_cases h : (n : ℚ) ≤ q
  · have hf : ⌊q⌋ = n := Int.floor_eq_iff.2 ⟨h, by linarith⟩
    unfold roundHalfEven
    rw [hf, if_pos (by linarith)]
  · have hf : ⌊q⌋ = n - 1 := Int.floor_eq_iff.2 ⟨by push_cast; linarith, by push_cast; linarith⟩
    unfold roundHalfEven
    rw [hf, if_neg (by push_cast; linarith), if_pos (by push_cast; linarith)]
    omega

/-- The spacing of the `float` values is positive. -/
theorem floatUlp_pos (v : ℚ) : 0 < floatUlp v := by
  unfold floatUlp
  positivity

/-- The `float` nearest to a rational that is not negative is not negative. -/
theorem roundToFloat_nonneg (v : ℚ) (hv : 0 ≤ v) : 0 ≤ roundToFloat v := by
  unfold roundToFloat
  have hu := floatUlp_pos v
  have h := roundHalfEven_mono 0 (v / floatUlp v) (div_nonneg hv (le_of_lt hu))
  have h0 : roundHalfEven 0 = 0 := by
    have := roundHalfEven_intCast 0
    simpa using this
  rw [h0] at h
  have h2 : (0 : ℚ) ≤ (roundHalfEven (v / floatUlp v) : ℚ) := by exact_mod_cast h
  exact mul_nonneg h2 (le_of_lt hu)

/-- The conversion of a `double` that is not negative is not negative. -/
theorem doubleToFloat_nonneg (v : ℚ) (hv : 0 ≤ v) : 0 ≤ doubleToFloat v := by
  unfold doubleToFloat
  rw [if_pos hv]
  exact roundToFloat_nonneg v hv

/-- The `float` nearest to a positive rational, from its binary exponent `e ≥ -126` and the
integer `n` nearest to its quotient by the spacing `2^(e - 23)`. -/
theorem roundToFloat_eq (v : ℚ) (e n : Int) (he : -126 ≤ e) (h1 : (2 : ℚ) ^ e ≤ v)
    (h2 : v < (2 : ℚ) ^ (e + 1))
    (hn1 : (n : ℚ) - 1 / 2 < v / (2 : ℚ) ^ (e - 23))
    (hn2 : v / (2 : ℚ) ^ (e - 23) < (n : ℚ) + 1 / 2) :
    roundToFloat v = (n : ℚ) * (2 : ℚ) ^ (e - 23) := by
  have two : (1 : ℕ) < 2 := by decide
  have hpos : 0 < v := lt_of_lt_of_le (by positivity) h1
  have hlog : Int.log 2 v = e := by
    apply le_antisymm
    · have := (Int.lt_zpow_iff_log_lt two hpos (x := e + 1)).1 (by push_cast; exact h2)
      omega
    · exact (Int.zpow_le_iff_le_log two hpos).1 (by push_cast; exact h1)
  have hu : floatUlp v = (2 : ℚ) ^ (e - 23) := by
    unfold floatUlp
    rw [hlog, max_eq_left he]
  unfold roundToFloat
  rw [hu, roundHalfEven_eq _ n hn1 hn2]

/-! ## The edge detector and the `float` thresholds -/

/-- The `double` values `10`, `20` and `30` are `float` values; the `double` value
`284 - 2^-20` is converted to the `float` `284`. -/
theorem doubleToFloat_examples :
    doubleToFloat 10 = 10 ∧ doubleToFloat 20 = 20 ∧ doubleToFloat 30 = 30 ∧
    doubleToFloat (284 - 1 / 1048576) = 284 := by
  refine ⟨?_, ?_, ?_, ?_⟩
  · unfold doubleToFloat
    rw [if_pos (by norm_num), roundToFloat_eq 10 3 10485760 (by decide) (by norm_num)
      (by norm_num) (by norm_num) (by norm_num)]
    norm_num
  · unfold doubleToFloat
    rw [if_pos (by norm_num), roundToFloat_eq 20 4 10485760 (by decide) (by norm_num)
      (by norm_num) (by norm_num) (by norm_num)]
    norm_num
  · unfold doubleToFloat
    rw [if_pos (by norm_num), roundToFloat_eq 30 4 15728640 (by decide) (by norm_num)
      (by norm_num) (by norm_num) (by norm_num)]
    norm_num
  · unfold doubleToFloat
    rw [if_pos (by norm_num), roundToFloat_eq (284 - 1 / 1048576) 8 9306112 (by decide)
      (by norm_num) (by norm_num) (by norm_num) (by norm_num)]
    norm_num

/-- The visits of a pass on a raster without strong elements change nothing. -/
theorem foldl_linkStep_no_strong (pixels : List (Int × Int)) (s : Mat × Bool)
    (hno : ∀ y j, s.1.data y j ≠ 255) : pixels.foldl linkStep s = s := by
  induction pixels with
  | nil => rfl
  | cons p rest ih =>
    have h : linkStep s p = s := by
      unfold linkStep
      rw [if_neg]
      rintro ⟨-, d, -, hd⟩
      exact hno _ _ hd
    simp only [List.foldl_cons, h]
    exact ih

/-- The function `ColourCannyEdgeDetect` when its classification `cls` has no strong
element: as soon as one turn of the linking loop is allowed, for every schedule, the
result is the comparison of `cls` with `127`, which is zero everywhere. -/
theorem ColourCannyEdgeDetect_no_strong (GaussianBlur : Mat → ℚ → Mat)
    (tilesG tilesN tilesT : List Block) (img : Mat) (t1 t2 sigma : ℚ) (cls : Mat)
    (hclass : ColourCannyEdgeDetect.classify GaussianBlur tilesG tilesN tilesT img t1 t2 sigma
      = .ok cls)
    (htype : cls.type = CV_8UC1) (hcls : IsClassified cls)
    (hno : ∀ y j, cls.data y j ≠ 255) :
    (∀ (schedule : Nat → List Block) (fuel : Nat), 1 ≤ fuel →
      ColourCannyEdgeDetect GaussianBlur tilesG tilesN tilesT schedule fuel img t1 t2 sigma
        = .ok (some (cls.greaterThan 127))) ∧
    ∀ y j, (cls.greaterThan 127).data y j = 0 := by
  constructor
  · intro schedule fuel hfuel
    obtain ⟨f, rfl⟩ : ∃ f, fuel = f + 1 := ⟨fuel - 1, by omega⟩
    have hlink : ColourCannyEdgeDetect.linking schedule (f + 1) 0 cls true
        = .ok (some (cls, 1)) := by
      rw [linking_step schedule f 0 cls htype hcls, foldl_linkStep_no_strong _ (cls, false) hno,
        linking_false]
    unfold ColourCannyEdgeDetect
    rw [hclass]
    show (do
      let linked ← ColourCannyEdgeDetect.linking schedule (f + 1) 0 cls true
      pure (linked.map (fun (r : Mat × Nat) => internal.Mat.greaterThan r.1 127))) = _
    rw [hlink]
    rfl
  · intro y j
    have h := greaterThan_classified cls hcls y j
    rcases h.1 with a | a
    · exact a
    · exact absurd (h.2.1 a) (hno y j)

/-- The stages of the classification, without pre-filter, on an 8-bit image split by a
vertical boundary after column `c` into the colours `A` and `B`: the raster after
suppression holds the integer part of the distance of the two colours in the columns `c`
and `c + 1` and `0` elsewhere, and the classification compares it with the thresholds
converted to `float`. -/
theorem vertical_boundary_stages (GaussianBlur : Mat → ℚ → Mat)
    (tilesG tilesN tilesT : List Block) (img : Mat) (A B : RGBVector) (c : Int) (low high : ℚ)
    (htype : img.type = CV_8UC3) (h8 : img.is8U)
    (hG : IsTiling ⟨0, img.rows, 0, img.cols⟩ tilesG)
    (hN : IsTiling ⟨0, img.rows, 0, img.cols⟩ tilesN)
    (hT : IsTiling ⟨0, img.rows, 0, img.cols⟩ tilesT)
    (hc : 0 ≤ c ∧ c + 1 < img.cols)
    (hcols : ∀ x y, inImage img x y → RGBVector.ofMat img x y = if x ≤ c then A else B)
    (hpos : 1 ≤ sqrtToInt (exactSquaredDistance A B)) :
    ∃ grad sup cls,
      internal.Filter ColourGradient.operator tilesG img () () = .ok grad ∧
      internal.Filter NonMaximumSupression.operator tilesN grad () () = .ok sup ∧
      internal.Filter Threshold.operator tilesT sup (doubleToFloat low, doubleToFloat high) ()
        = .ok cls ∧
      ColourCannyEdgeDetect.classify GaussianBlur tilesG tilesN tilesT img low high 0
        = .ok cls ∧
      (cls.rows = img.rows ∧ cls.cols = img.cols ∧ cls.type = CV_8UC1) ∧
      (∀ x y, inImage img x y →
        sup.data y x = if x = c ∨ x = c + 1 then sqrtToInt (exactSquaredDistance A B) else 0) ∧
      (∀ x y, inImage img x y →
        cls.data y x = if ((sup.data y x : Int) : ℚ) > doubleToFloat high then 255
          else if ((sup.data y x : Int) : ℚ) > doubleToFloat low then 127 else 0) ∧
      (∀ y j, ¬ inImage img j y → cls.data y j = 0) := by
  obtain ⟨grad, sup, cls, h1, h2, h3, hgd, hgin, hsd, hsin, hcd, hcin, hc0⟩ :=
    classify_chain tilesG tilesN tilesT img (doubleToFloat low) (doubleToFloat high) htype
      hG hN hT
  have hs : (0 : ℚ) < 0.01 := by norm_num
  have hclass : ColourCannyEdgeDetect.classify GaussianBlur tilesG tilesN tilesT img low high 0
      = .ok cls := by
    unfold ColourCannyEdgeDetect.classify
    simp only [if_pos hs, h1, h2, h3, bind, Except.bind]
  have hgrad : ∀ x y, inImage img x y → grad.data y (3 * x) = 0 ∧
      grad.data y (3 * x + 1)
        = if x = c ∨ x = c + 1 then sqrtToInt (exactSquaredDistance A B) else 0 := by
    intro x y hin
    have h := hgin x y hin
    rw [vertical_boundary_gradient img A B c htype h8 hc hcols hpos x y hin] at h
    exact h
  have hsup : ∀ x y, inImage img x y →
      sup.data y x = if x = c ∨ x = c + 1 then sqrtToInt (exactSquaredDistance A B) else 0 := by
    intro x y hin
    have hd : NonMaximumSupression.direction 0 = (1, 0) := by
      rw [NonMaximumSupression_direction_eq]
      rfl
    have hxr := clamp_in_range (x + 1) img.cols (by unfold inImage at hin; omega)
    have hxl := clamp_in_range (x - 1) img.cols (by unfold inImage at hin; omega)
    rw [hsin x y hin, NonMaximumSupression_call_red grad hgd.2.2, (hgrad x y hin).1, hd]
    simp only [add_zero, sub_zero]
    rw [hgd.1, hgd.2.1, clamp_inside y _ (by unfold inImage at hin; omega)
      (by unfold inImage at hin; omega),
      (hgrad _ y ⟨hxr, hin.2⟩).2, (hgrad _ y ⟨hxl, hin.2⟩).2, (hgrad x y hin).2]
    apply keep_if_max_eq (sqrtToInt (exactSquaredDistance A B)) _ _ _ (by omega)
    · split_ifs
      · right; rfl
      · left; rfl
    · split_ifs
      · right; rfl
      · left; rfl
    · split_ifs
      · right; rfl
      · left; rfl
  exact ⟨grad, sup, cls, h1, h2, h3, hclass, hcd, hsup, hcin, hc0⟩

/-- C27 (amended): for every 8-bit image of type `CV_8UC3` split by one straight vertical
boundary into two uniform regions (the columns `0..c` have the colour `A`, the columns
`c+1..` have the colour `B`, both regions with at least one column) with
`floor(|A - B|) > float(high)` and `high ≥ low ≥ 0`, where `float(high)` is the threshold
converted to `float` as `Threshold` receives it, `ColourCannyEdgeDetect` with `sigma = 0`
throws nothing and returns, for every schedule of its passes and as soon as one turn of
the linking loop is allowed, the mask that holds `255` exactly at the pixels of the two
columns `c` and `c + 1` adjacent to the boundary and `0` at every other pixel; the mask
is `0` outside the image too. -/
theorem ColourCannyEdgeDetect_vertical_boundary (GaussianBlur : Mat → ℚ → Mat)
    (tilesG tilesN tilesT : List Block) (img : Mat) (A B : RGBVector) (c : Int) (low high : ℚ)
    (htype : img.type = CV_8UC3) (h8 : img.is8U)
    (hG : IsTiling ⟨0, img.rows, 0, img.cols⟩ tilesG)
    (hN : IsTiling ⟨0, img.rows, 0, img.cols⟩ tilesN)
    (hT : IsTiling ⟨0, img.rows, 0, img.cols⟩ tilesT)
    (hc : 0 ≤ c ∧ c + 1 < img.cols)
    (hcols : ∀ x y, inImage img x y → RGBVector.ofMat img x y = if x ≤ c then A else B)
    (hm : ((sqrtToInt (exactSquaredDistance A B) : Int) : ℚ) > doubleToFloat high)
    (hhl : high ≥ low) (hl : low ≥ 0) :
    ∃ res,
      (∀ schedule : Nat → List Block,
        (∀ i, IsTiling ⟨0, img.rows, 0, img.cols⟩ (schedule i)) →
        ∀ fuel, 1 ≤ fuel →
          ColourCannyEdgeDetect GaussianBlur tilesG tilesN tilesT schedule fuel img low high 0
            = .ok (some res)) ∧
      (res.rows = img.rows ∧ res.cols = img.cols) ∧
      (∀ x y, inImage img x y → res.data y x = if x = c ∨ x = c + 1 then 255 else 0) ∧
      (∀ y j, ¬ inImage img j y → res.data y j = 0) := by
  have hfh : 0 ≤ doubleToFloat high := doubleToFloat_nonneg high (le_trans hl hhl)
  have hfl : 0 ≤ doubleToFloat low := doubleToFloat_nonneg low hl
  have hpos : 1 ≤ sqrtToInt (exactSquaredDistance A B) := by
    have h0 : (0 : ℚ) < ((sqrtToInt (exactSquaredDistance A B) : Int) : ℚ) := by linarith
    have h1 : 0 < sqrtToInt (exactSquaredDistance A B) := by exact_mod_cast h0
    omega
  obtain ⟨grad, sup, cls, -, -, -, hclass, hcd, hsup, hcin, hc0⟩ :=
    vertical_boundary_stages GaussianBlur tilesG tilesN tilesT img A B c low high htype h8
      hG hN hT hc hcols hpos
  have hclsd : ∀ x y, inImage img x y →
      cls.data y x = if x = c ∨ x = c + 1 then 255 else 0 := by
    intro x y hin
    rw [hcin x y hin, hsup x y hin]
    by_cases hx : x = c ∨ x = c + 1
    · rw [if_pos hx, if_pos hx, if_pos hm]
    · rw [if_neg hx, if_neg hx]
      have e : (((0 : Int) : ℚ)) = 0 := by norm_num
      rw [e, if_neg (by linarith), if_neg (by linarith)]
  have hin2 : ∀ x y, inImage cls x y ↔ inImage img x y := by
    intro x y
    unfold inImage
    rw [hcd.1, hcd.2.1]
  have hcls : IsClassified cls := by
    intro y j
    by_cases h : inImage img j y
    · rw [hclsd j y h]
      split_ifs <;> simp
    · left
      exact hc0 y j h
  have hno : ∀ x y, inImage cls x y → cls.data y x ≠ 127 := by
    intro x y hin
    rw [hclsd x y ((hin2 x y).1 hin)]
    split_ifs <;> decide
  obtain ⟨res, hrun, hrd, hbin, hlinked, hz⟩ := ColourCannyEdgeDetect_of_classify GaussianBlur
    tilesG tilesN tilesT img low high 0 cls hclass hcd.2.2 hcls
    (fun y j h => hc0 y j (fun h2 => h ((hin2 j y).2 h2)))
    (by rw [hcd.1, hcd.2.1]; exact hT)
  refine ⟨res, ?_, ⟨hrd.1.trans hcd.1, hrd.2.1.trans hcd.2.1⟩, ?_, ?_⟩
  · intro schedule hsched fuel hfuel
    apply hrun schedule (fun i => by rw [hcd.1, hcd.2.1]; exact hsched i) fuel
    rw [weakCount_of_no_weak cls hno]
    exact hfuel
  · intro x y hin
    have hl := hlinked x y ((hin2 x y).2 hin)
    rw [Linked_of_no_weak cls hno, hclsd x y hin] at hl
    by_cases hx : x = c ∨ x = c + 1
    · rw [if_pos hx]
      rw [if_pos hx] at hl
      exact hl.2 ⟨(hin2 x y).2 hin, rfl⟩
    · rw [if_neg hx]
      rw [if_neg hx] at hl
      rcases hbin y x with h | h
      · exact h
      · exact absurd (hl.1 h).2 (by decide)
  · intro y j hin
    exact hz y j (fun h => hin ((hin2 j y).1 h))

/-- Witness of the amended C27: the image of the edge test at angle `0`, with the colours
`(0, 0, 254)` and `(0, 129, 0)` on the two sides of the boundary after column `256`, the
thresholds `(10, 20)`, which are `float` values, every filter run as a single block: the
mask is `255` in the columns `256` and `257` and `0` at every pixel of either uniform
region. -/
theorem ColourCannyEdgeDetect_vertical_boundary_witness :
    ∃ res,
      (∀ schedule : Nat → List Block,
        (∀ i, IsTiling ⟨0, edgeImage.rows, 0, edgeImage.cols⟩ (schedule i)) →
        ∀ fuel, 1 ≤ fuel →
          ColourCannyEdgeDetect (fun m _ => m) [⟨0, 512, 0, 512⟩] [⟨0, 512, 0, 512⟩]
            [⟨0, 512, 0, 512⟩] schedule fuel edgeImage 10 20 0 = .ok (some res)) ∧
      (res.rows = edgeImage.rows ∧ res.cols = edgeImage.cols) ∧
      (∀ x y, inImage edgeImage x y → res.data y x = if x = 256 ∨ x = 256 + 1 then 255 else 0) ∧
      (∀ y j, ¬ inImage edgeImage j y → res.data y j = 0) :=
  ColourCannyEdgeDetect_vertical_boundary (fun m _ => m) [⟨0, 512, 0, 512⟩] [⟨0, 512, 0, 512⟩]
    [⟨0, 512, 0, 512⟩] edgeImage (RGBVector.rgb 0 0 254) (RGBVector.rgb 0 129 0) 256 10 20
    rfl edgeImage_is8U (IsTiling_single _ (by decide)) (IsTiling_single _ (by decide))
    (IsTiling_single _ (by decide)) (by decide) edgeImage_columns
    (by rw [edgeImage_distance, doubleToFloat_examples.2.1]; norm_num) (by norm_num)
    (by norm_num)

/-- C27 as stated fails on the image of the edge test (colours `(0, 0, 254)` and
`(0, 129, 0)`, boundary after column `256`, `floor(|A - B|) = 284`) with the thresholds
`low = 10` and `high = 284 - 2^-20`, a `double` value of about `283.999999`:
`284 > high ≥ low ≥ 0` holds, but `Threshold` receives `high` converted to `float`, which
is `284`, so `284 > 284.0f` fails, the pixels of the columns `256` and `257` are only
weak, no pixel is strong, and the mask is `0` everywhere, in particular at pixel
`(256, 0)`. -/
theorem ColourCannyEdgeDetect_vertical_boundary_counterexample :
    edgeImage.type = CV_8UC3 ∧
    (∀ x y, inImage edgeImage x y → RGBVector.ofMat edgeImage x y =
      if x ≤ 256 then RGBVector.rgb 0 0 254 else RGBVector.rgb 0 129 0) ∧
    ((0 : Int) ≤ 256 ∧ (256 : Int) + 1 < edgeImage.cols) ∧
    sqrtToInt (exactSquaredDistance (RGBVector.rgb 0 0 254) (RGBVector.rgb 0 129 0)) = 284 ∧
    ((((284 : Int) : ℚ) > 284 - 1 / 1048576) ∧ ((284 : ℚ) - 1 / 1048576 ≥ 10) ∧
      ((10 : ℚ) ≥ 0)) ∧
    doubleToFloat (284 - 1 / 1048576) = 284 ∧
    inImage edgeImage 256 0 ∧
    ∃ res,
      (∀ (schedule : Nat → List Block) (fuel : Nat), 1 ≤ fuel →
        ColourCannyEdgeDetect (fun m _ => m) [⟨0, 512, 0, 512⟩] [⟨0, 512, 0, 512⟩]
          [⟨0, 512, 0, 512⟩] schedule fuel edgeImage 10 (284 - 1 / 1048576) 0
          = .ok (some res)) ∧
      (∀ y j, res.data y j = 0) ∧
      res.data 0 256 ≠ 255 := by
  obtain ⟨grad, sup, cls, -, -, -, hclass, hcd, hsup, hcin, hc0⟩ :=
    vertical_boundary_stages (fun m _ => m) [⟨0, 512, 0, 512⟩] [⟨0, 512, 0, 512⟩]
      [⟨0, 512, 0, 512⟩] edgeImage (RGBVector.rgb 0 0 254) (RGBVector.rgb 0 129 0) 256 10
      (284 - 1 / 1048576) rfl edgeImage_is8U (IsTiling_single _ (by decide))
      (IsTiling_single _ (by decide)) (IsTiling_single _ (by decide)) (by decide)
      edgeImage_columns (by rw [edgeImage_distance]; decide)
  rw [doubleToFloat_examples.2.2.2, doubleToFloat_examples.1] at hcin
  rw [edgeImage_distance] at hsup
  have hclsd : ∀ x y, inImage edgeImage x y → cls.data y x = 127 ∨ cls.data y x = 0 := by
    intro x y hin
    rw [hcin x y hin, hsup x y hin]
    by_cases hx : x = 256 ∨ x = 256 + 1
    · rw [if_pos hx, if_neg (by norm_num), if_pos (by norm_num)]
      exact Or.inl rfl
    · rw [if_neg hx, if_neg (by norm_num), if_neg (by norm_num)]
      exact Or.inr rfl
  have hcls : IsClassified cls := by
    intro y j
    by_cases h : inImage edgeImage j y
    · rcases hclsd j y h with e | e
      · exact Or.inr (Or.inl e)
      · exact Or.inl e
    · exact Or.inl (hc0 y j h)
  have hno : ∀ y j, cls.data y j ≠ 255 := by
    intro y j
    by_cases h : inImage edgeImage j y
    · rcases hclsd j y h with e | e <;> rw [e] <;> decide
    · rw [hc0 y j h]
      decide
  obtain ⟨hrun, hzero⟩ := ColourCannyEdgeDetect_no_strong (fun m _ => m) [⟨0, 512, 0, 512⟩]
    [⟨0, 512, 0, 512⟩] [⟨0, 512, 0, 512⟩] edgeImage 10 (284 - 1 / 1048576) 0 cls hclass
    hcd.2.2 hcls hno
  refine ⟨rfl, edgeImage_columns, by decide, edgeImage_distance, ⟨by norm_num, by norm_num,
    by norm_num⟩, doubleToFloat_examples.2.2.2, by unfold inImage; decide,
    cls.greaterThan 127, hrun, hzero, ?_⟩
  rw [hzero]
  decide

/-! ## Thresholds that leave no weak pixel: the result of the detector -/

end chromavec
